import Mathlib

/-!
# Supaplex level kernel: the per-tick transition of `Level`

A shallow embedding of `src/main.cc` (`Field`, `Level::game_step` and its helpers
`next_point`, `data_idx`, `fall`, `explode_9`, `move_npc`), followed by theorems
about one tick of the simulation.

Modelling conventions
* `unsigned int hint` is a natural number; `|`, `&` are the bitwise operations of
  `Nat` and `~h` is the 32-bit complement `4294967295 - h`.
* `int` values (`countdown`, coordinates, indices) are unbounded integers.
* `Field data[LEVEL_WIDTH * LEVEL_HEIGHT]` is a total function on indices.  A C++
  reference `Field &r = data[i]` is the index `i`; binding it is checked by
  `cell_ref`, which fails (`none`) outside `[0, 1440)`: an access outside the array
  is undefined behaviour in the source and has no result in the model.
* Functions that mutate the level return the new level in `Option`.
-/

namespace Supaplex

/-- Cell types, `enum FieldType`. -/
inductive FieldType where
  | FT_EMPTY
  | FT_ZONK
  | FT_BASE
  | FT_MURPHY
  | FT_INFOTRON
  | FT_CHIP
  | FT_BORDER
  | FT_EXIT
  | FT_ORANGE_DISK
  | FT_PORTAL_EAST
  | FT_PORTAL_SOUTH
  | FT_PORTAL_WEST
  | FT_PORTAL_NORTH
  | FT_PORTAL_EAST_2
  | FT_PORTAL_SOUTH_2
  | FT_PORTAL_WEST_2
  | FT_PORTAL_NORTH_2
  | FT_SNIK_SNAK
  | FT_YELLOW_DISK
  | FT_TERMINAL
  | FT_RED_DISK
  | FT_PORTAL_NS
  | FT_PORTAL_WE
  | FT_PORTAL_CROSS
  | FT_STARS
  | FT_ELECTRON
  | FT_CHIP_WE_1
  | FT_CHIP_WE_2
  | FT_SENSOR
  | FT_BULLET_GREEN
  | FT_BULLET_BLUE
  | FT_BULLET_RED
  | FT_HAZARD
  | FT_RESISTOR
  | FT_CONDENSATOR
  | FT_RESISTORS_NS
  | FT_RESISTORS_WE
  | FT_CHIP_NS_1
  | FT_CHIP_NS_2
  deriving DecidableEq, Repr

/-- Movement directions, `enum Direction`. -/
inductive Direction where
  | DIR_NONE
  | DIR_UP
  | DIR_DOWN
  | DIR_LEFT
  | DIR_RIGHT
  deriving DecidableEq, Repr

/-- Input events, `enum GameEvent`. -/
inductive GameEvent where
  | EVENT_END_GAME
  | EVENT_MOVE_UP
  | EVENT_MOVE_DOWN
  | EVENT_MOVE_LEFT
  | EVENT_MOVE_RIGHT
  | EVENT_MOVE_NONE
  | EVENT_BTN_SPECIAL
  deriving DecidableEq, Repr

open FieldType Direction GameEvent

def HINT_NONE : Nat := 0
def HINT_SKIP : Nat := 1
def HINT_EXPLOSION : Nat := 2
def HINT_EXPLOSION_INFOTRON : Nat := 4
def HINT_EXPLOSION_ORIGIN : Nat := 8
def HINT_FALL : Nat := 16
def HINT_FROM_TOP : Nat := 32
def HINT_FROM_BOTTOM : Nat := 64
def HINT_FROM_LEFT : Nat := 128
def HINT_FROM_RIGHT : Nat := 256
def HINT_LEAVING : Nat := 512
def HINT_WAS_BASE : Nat := 1024
def HINT_WAS_INFOTRON : Nat := 2048
def HINT_WAS_RED_DISK : Nat := 4096
def HINT_TURN_LEFT : Nat := 8192
def HINT_TURN_RIGHT : Nat := 16384
def HINT_PUSH : Nat := 32768

def EXPLOSION_STEPS : Int := 3

def LEVEL_WIDTH : Int := 60
def LEVEL_HEIGHT : Int := 24

/-- Grid coordinate, `struct Point`. -/
structure Point where
  x : Int
  y : Int
  deriving DecidableEq, Repr

/-- One cell of the grid, `struct Field`. -/
structure Field where
  coords : Point
  type : FieldType
  hint : Nat
  countdown : Int
  deriving DecidableEq, Repr

/-- `hint |= h`. -/
def Field.set_hint (f : Field) (h : Nat) : Field :=
  { f with hint := f.hint ||| h }

/-- `hint &= ~h` on a 32-bit unsigned value. -/
def Field.del_hint (f : Field) (h : Nat) : Field :=
  { f with hint := f.hint &&& (4294967295 - h) }

/-- `(hint & h) > 0`. -/
def Field.has_hint (f : Field) (h : Nat) : Bool :=
  decide (f.hint &&& h > 0)

def Field.affected_by_explosion (f : Field) : Bool :=
  match f.type with
  | FT_EMPTY | FT_ZONK | FT_BASE | FT_MURPHY | FT_INFOTRON | FT_CHIP | FT_EXIT
  | FT_ORANGE_DISK | FT_SNIK_SNAK | FT_YELLOW_DISK | FT_TERMINAL | FT_RED_DISK
  | FT_STARS | FT_ELECTRON | FT_CHIP_WE_1 | FT_CHIP_WE_2 | FT_CHIP_NS_1
  | FT_CHIP_NS_2 => true
  | _ => false

def Field.explodes (f : Field) : Bool :=
  match f.type with
  | FT_RED_DISK | FT_ORANGE_DISK | FT_YELLOW_DISK | FT_SNIK_SNAK | FT_STARS
  | FT_MURPHY => true
  | _ => false

def Field.explodes_into (f : Field) : FieldType :=
  if f.type = FT_STARS then FT_INFOTRON else FT_EMPTY

def Field.rolls_on_impact (f : Field) : Bool :=
  match f.type with
  | FT_ZONK | FT_INFOTRON | FT_CHIP | FT_CHIP_NS_1 | FT_CHIP_NS_2 | FT_CHIP_WE_1
  | FT_CHIP_WE_2 => !f.has_hint HINT_FALL
  | _ => false

/-- The mutable state of `class Level` (the title bytes play no part in a tick). -/
structure Level where
  data : Int → Field
  gravitation : Bool
  freeze_zonks : Bool
  murphy_alive : Bool
  next_move : Direction
  murphy : Point

/-- Binding `Field &r = data[i]`: defined only for an index inside the array. -/
def cell_ref (i : Int) : Option Int :=
  if 0 ≤ i ∧ i < LEVEL_WIDTH * LEVEL_HEIGHT then some i else none

/-- A write through the reference `i`: the cell becomes `g` of its old value. -/
def Level.upd (s : Level) (i : Int) (g : Field → Field) : Level :=
  { s with data := Function.update s.data i (g (s.data i)) }

def Level.width (_s : Level) : Int := LEVEL_WIDTH

def Level.height (_s : Level) : Int := LEVEL_HEIGHT

def next_point (current : Point) (dir : Direction) : Point :=
  match dir with
  | DIR_UP => if current.y > 0 then ⟨current.x, current.y - 1⟩ else current
  | DIR_DOWN => if current.y < LEVEL_HEIGHT - 1 then ⟨current.x, current.y + 1⟩ else current
  | DIR_LEFT => if current.x > 0 then ⟨current.x - 1, current.y⟩ else current
  | DIR_RIGHT => if current.x < LEVEL_WIDTH - 1 then ⟨current.x + 1, current.y⟩ else current
  | DIR_NONE => current

def data_idx (p : Point) : Int := p.y * LEVEL_WIDTH + p.x

def hint_from_direction (dir : Direction) : Nat :=
  match dir with
  | DIR_NONE => HINT_NONE
  | DIR_LEFT => HINT_FROM_RIGHT
  | DIR_RIGHT => HINT_FROM_LEFT
  | DIR_UP => HINT_FROM_BOTTOM
  | DIR_DOWN => HINT_FROM_TOP

def turn_left (dir : Direction) : Direction :=
  match dir with
  | DIR_NONE => DIR_NONE
  | DIR_LEFT => DIR_DOWN
  | DIR_RIGHT => DIR_UP
  | DIR_UP => DIR_LEFT
  | DIR_DOWN => DIR_RIGHT

def turn_right (dir : Direction) : Direction :=
  match dir with
  | DIR_NONE => DIR_NONE
  | DIR_LEFT => DIR_UP
  | DIR_RIGHT => DIR_DOWN
  | DIR_UP => DIR_RIGHT
  | DIR_DOWN => DIR_LEFT

def turn_back (dir : Direction) : Direction :=
  match dir with
  | DIR_NONE => DIR_NONE
  | DIR_LEFT => DIR_RIGHT
  | DIR_RIGHT => DIR_LEFT
  | DIR_UP => DIR_DOWN
  | DIR_DOWN => DIR_UP

/-- Body of the inner loop of `explode_9` for the cell at `Point(x, y)`. -/
def explode_cell (fill : FieldType) (s : Level) (p : Point) : Option Level := do
  let fld ← cell_ref (data_idx p)
  let s1 :=
    if (s.data fld).affected_by_explosion then
      if fill = FT_EMPTY then
        (s.upd fld (fun f => f.set_hint (HINT_EXPLOSION ||| HINT_SKIP))).upd fld
          (fun f => { f with countdown := EXPLOSION_STEPS })
      else if fill = FT_INFOTRON then
        (s.upd fld (fun f => f.set_hint (HINT_EXPLOSION_INFOTRON ||| HINT_SKIP))).upd fld
          (fun f => { f with countdown := EXPLOSION_STEPS })
      else s
    else s
  pure (if (s1.data fld).type = FT_MURPHY then { s1 with murphy_alive := false } else s1)

/-- `Level::explode_9(Field &origin, FieldType fill)`; `origin` is the index the
reference is bound to. -/
def explode_9 (s : Level) (origin : Int) (fill : FieldType) : Option Level :=
  let s0 := s.upd origin (fun f => f.set_hint HINT_EXPLOSION_ORIGIN)
  let c := (s0.data origin).coords
  [c.y - 1, c.y, c.y + 1].foldlM
    (fun s1 y => [c.x - 1, c.x, c.x + 1].foldlM (fun s2 x => explode_cell fill s2 ⟨x, y⟩) s1) s0

/-- The roll branch of `fall` (`below.rolls_on_impact()` holds). -/
def roll (s : Level) (fld : Int) : Option Level := do
  let left ← cell_ref (data_idx (next_point (s.data fld).coords DIR_LEFT))
  let right ← cell_ref (data_idx (next_point (s.data fld).coords DIR_RIGHT))
  let lbelow ← cell_ref (data_idx (next_point (s.data left).coords DIR_DOWN))
  let rbelow ← cell_ref (data_idx (next_point (s.data right).coords DIR_DOWN))
  if (s.data left).type = FT_EMPTY ∧ (s.data lbelow).type = FT_EMPTY then
    if ¬ (s.data left).has_hint HINT_LEAVING ∧ ¬ (s.data lbelow).has_hint HINT_LEAVING then
      let s1 := s.upd left (fun f => { f with type := (s.data fld).type })
      let s2 := s1.upd fld (fun f => { f with type := FT_EMPTY })
      pure (s2.upd left (fun f => f.set_hint (HINT_FROM_RIGHT ||| HINT_SKIP)))
    else pure s
  else if (s.data right).type = FT_EMPTY ∧ (s.data rbelow).type = FT_EMPTY then
    if ¬ (s.data right).has_hint HINT_LEAVING ∧ ¬ (s.data rbelow).has_hint HINT_LEAVING then
      let s1 := s.upd right (fun f => { f with type := (s.data fld).type })
      let s2 := s1.upd fld (fun f => { f with type := FT_EMPTY })
      pure (s2.upd right (fun f => f.set_hint (HINT_FROM_LEFT ||| HINT_SKIP)))
    else pure s
  else pure s

/-- The `switch (below.type)` of `fall`. -/
def fall_switch (s : Level) (fld below : Int) (destructive : Bool) : Option Level :=
  match (s.data below).type with
  | FT_EMPTY =>
    if ¬ (s.data below).has_hint HINT_LEAVING then
      let s1 := s.upd below (fun f => { f with type := (s.data fld).type })
      let s2 := s1.upd fld (fun f => { f with type := FT_EMPTY })
      pure (s2.upd below (fun f => f.set_hint (HINT_FALL ||| HINT_SKIP)))
    else pure s
  | FT_MURPHY | FT_SNIK_SNAK | FT_ORANGE_DISK =>
    if (s.data fld).has_hint HINT_FALL ∧
        ((s.data below).type ≠ FT_MURPHY ∨ ¬ (s.data below).has_hint HINT_LEAVING) then
      explode_9 s below FT_EMPTY
    else pure s
  | FT_STARS =>
    if (s.data fld).has_hint HINT_FALL then explode_9 s below FT_INFOTRON else pure s
  | _ =>
    if (s.data fld).has_hint HINT_FALL ∧ destructive then explode_9 s fld FT_EMPTY
    else if (s.data below).rolls_on_impact then roll s fld
    else pure s

/-- `Level::fall(Field &fld, bool destructive)`. -/
def fall (s : Level) (fld : Int) (destructive : Bool) : Option Level := do
  let below ← cell_ref (data_idx (next_point (s.data fld).coords DIR_DOWN))
  let s1 ← fall_switch s fld below destructive
  pure (s1.upd fld (fun f => f.del_hint HINT_FALL))

/-- The points `turn_left_pt`, `turn_right_pt` of `move_npc`; both are
default-constructed `Point()` when the heading is none. -/
def turn_points (c : Point) (dir : Direction) : Point × Point :=
  match dir with
  | DIR_UP => (next_point c DIR_LEFT, next_point c DIR_RIGHT)
  | DIR_DOWN => (next_point c DIR_RIGHT, next_point c DIR_LEFT)
  | DIR_LEFT => (next_point c DIR_DOWN, next_point c DIR_UP)
  | DIR_RIGHT => (next_point c DIR_UP, next_point c DIR_DOWN)
  | DIR_NONE => (⟨0, 0⟩, ⟨0, 0⟩)

/-- The computation of `can_turn` in `move_npc`. -/
def can_turn (s : Level) (field : Int) (dir : Direction) : Option Direction :=
  if ¬ (s.data field).has_hint (HINT_TURN_LEFT ||| HINT_TURN_RIGHT) then do
    let tl ← cell_ref (data_idx (turn_points (s.data field).coords dir).1)
    let tr ← cell_ref (data_idx (turn_points (s.data field).coords dir).2)
    if (s.data tl).type = FT_EMPTY ∧ ¬ (s.data tl).has_hint HINT_LEAVING then pure DIR_LEFT
    else if (s.data tr).type = FT_EMPTY ∧ ¬ (s.data tr).has_hint HINT_LEAVING then pure DIR_RIGHT
    else pure DIR_NONE
  else pure DIR_NONE

/-- The forward attempt of `move_npc`; the result carries the flag `moving`. -/
def npc_forward (s : Level) (field next : Int) (dir ct : Direction) : Option (Level × Bool) :=
  if (ct = DIR_NONE ∨ ct = DIR_RIGHT) ∧ ¬ (s.data next).has_hint HINT_LEAVING then
    if (s.data next).type = FT_EMPTY then
      let s1 := s.upd next (fun f => { f with type := (s.data field).type })
      let s2 := s1.upd next (fun f => f.set_hint (hint_from_direction dir ||| HINT_SKIP))
      let s3 := s2.upd field (fun f => { f with type := FT_EMPTY })
      let s4 := s3.upd field (fun f => f.set_hint HINT_LEAVING)
      pure (s4.upd next (fun f => f.set_hint HINT_SKIP), true)
    else if (s.data next).type = FT_MURPHY then do
      let s1 ← explode_9 s next FT_EMPTY
      pure (s1.upd next (fun f => f.set_hint HINT_SKIP), false)
    else pure (s.upd next (fun f => f.set_hint HINT_SKIP), false)
  else pure (s, false)

/-- `Level::move_npc(Field &field, Direction dir)`. -/
def move_npc (s : Level) (field : Int) (dir : Direction) : Option Level := do
  let ct ← can_turn s field dir
  let s1 := s.upd field (fun f => f.del_hint
    (HINT_TURN_LEFT ||| HINT_TURN_RIGHT ||| HINT_FROM_TOP ||| HINT_FROM_BOTTOM |||
      HINT_FROM_LEFT ||| HINT_FROM_RIGHT))
  let next ← cell_ref (data_idx (next_point (s1.data field).coords dir))
  let (s2, moving) ← npc_forward s1 field next dir ct
  if ¬ moving ∧ ct = DIR_LEFT then
    pure (s2.upd field (fun f => f.set_hint (hint_from_direction (turn_left dir) ||| HINT_TURN_LEFT)))
  else if ¬ moving then
    pure (s2.upd field (fun f => f.set_hint (hint_from_direction (turn_right dir) ||| HINT_TURN_RIGHT)))
  else pure s2

/-- The empty/base case of the target switch of `game_step` (after the base
fallthrough); the result carries `allow_move`. -/
def enter_free (s : Level) (fld murphy_fld : Int) : Option (Level × Bool) :=
  if (s.data fld).has_hint HINT_LEAVING ∧
      ¬ (s.data murphy_fld).has_hint (hint_from_direction (turn_back s.next_move)) then do
    let s1 ← explode_9 s fld FT_BASE
    pure (s1, false)
  else pure (s, true)

/-- The rock/disk case of the target switch of `game_step`; `next` is the target
point; the result carries `allow_move`. -/
def push (s : Level) (next : Point) (fld murphy_fld : Int) : Option (Level × Bool) :=
  if (s.data fld).has_hint HINT_FALL then do
    let s1 ← explode_9 s fld FT_BASE
    pure (s1, false)
  else if (s.data fld).type = FT_YELLOW_DISK ∨ s.next_move = DIR_LEFT ∨ s.next_move = DIR_RIGHT then do
    let fld_more ← cell_ref (data_idx (next_point next s.next_move))
    if (s.data fld_more).type = FT_EMPTY ∧ ¬ (s.data fld_more).has_hint HINT_LEAVING then
      let s1 := s.upd murphy_fld (fun f => f.set_hint HINT_PUSH)
      if (s1.data murphy_fld).countdown = 1 then
        let s2 := s1.upd fld_more (fun f => { f with type := (s1.data fld).type })
        let s3 := s2.upd fld_more (fun f => f.set_hint (hint_from_direction s.next_move ||| HINT_SKIP))
        pure (s3.upd murphy_fld (fun f => { f with countdown := 0 }), true)
      else pure (s1.upd murphy_fld (fun f => { f with countdown := 1 }), false)
    else pure (s, false)
  else pure (s, false)

/-- The `switch (fld.type)` of `game_step`; the result carries `allow_move`. -/
def target_switch (s : Level) (next : Point) (fld murphy_fld : Int) : Option (Level × Bool) :=
  match (s.data fld).type with
  | FT_BASE => enter_free (s.upd fld (fun f => f.set_hint HINT_WAS_BASE)) fld murphy_fld
  | FT_EMPTY => enter_free s fld murphy_fld
  | FT_INFOTRON => pure (s.upd fld (fun f => f.set_hint HINT_WAS_INFOTRON), true)
  | FT_RED_DISK => pure (s.upd fld (fun f => f.set_hint HINT_WAS_RED_DISK), true)
  | FT_ZONK | FT_ORANGE_DISK | FT_YELLOW_DISK => push s next fld murphy_fld
  | _ => pure (s, false)

/-- The `if (allow_move)` block of `game_step`. -/
def commit_move (s : Level) (next : Point) (fld : Int) : Option Level := do
  let origin ← cell_ref (data_idx s.murphy)
  let s1 := s.upd origin (fun f => { f with type := FT_EMPTY })
  let s2 := s1.upd origin (fun f => f.set_hint (HINT_LEAVING ||| HINT_SKIP))
  let s3 := s2.upd origin (fun f => f.del_hint
    (HINT_FROM_BOTTOM ||| HINT_FROM_TOP ||| HINT_FROM_RIGHT ||| HINT_FROM_LEFT |||
      HINT_WAS_INFOTRON ||| HINT_WAS_BASE ||| HINT_WAS_RED_DISK))
  let s4 := s3.upd fld (fun f => { f with type := FT_MURPHY })
  let s5 := s4.upd fld (fun f => f.set_hint (hint_from_direction s.next_move ||| HINT_SKIP))
  let s6 :=
    if (s5.data origin).has_hint HINT_PUSH then
      (s5.upd fld (fun f => f.set_hint HINT_PUSH)).upd origin (fun f => f.del_hint HINT_PUSH)
    else s5
  pure { s6 with murphy := next }

/-- Movement resolution: the body of `if (next_move != DIR_NONE && murphy_alive)`
in `game_step`. -/
def resolve_move (s : Level) : Option Level := do
  let next := next_point s.murphy s.next_move
  let fld ← cell_ref (data_idx next)
  let murphy_fld ← cell_ref (data_idx s.murphy)
  let s1 := s.upd murphy_fld (fun f => f.del_hint HINT_PUSH)
  let (s2, allow_move) ← target_switch s1 next fld murphy_fld
  let s3 :=
    if ¬ (s2.data murphy_fld).has_hint HINT_PUSH then
      s2.upd murphy_fld (fun f => { f with countdown := 0 })
    else s2
  if allow_move then commit_move s3 next fld else pure s3

/-- The indices `0 .. width() * height() - 1` visited by the loops of `game_step`. -/
def cells : List Int := (List.range 1440).map Int.ofNat

/-- Body of the first loop of `game_step`: leaving is cleared on unskipped cells. -/
def clear_leaving_cell (s : Level) (i : Int) : Level :=
  if (s.data i).has_hint HINT_SKIP then s
  else if (s.data i).has_hint HINT_LEAVING then s.upd i (fun f => f.del_hint HINT_LEAVING)
  else s

/-- The heading of a hazard decoded from the arrival flags of its cell. -/
def npc_direction (f : Field) : Direction :=
  if f.has_hint HINT_FROM_BOTTOM then DIR_UP
  else if f.has_hint HINT_FROM_TOP then DIR_DOWN
  else if f.has_hint HINT_FROM_LEFT then DIR_RIGHT
  else if f.has_hint HINT_FROM_RIGHT then DIR_LEFT
  else DIR_UP

/-- The explosion block of the scan, for a cell carrying an exploding flag. -/
def explosion_tick (s : Level) (i : Int) : Option Level :=
  if (s.data i).countdown > 0 then do
    let s1 ←
      if (s.data i).countdown = EXPLOSION_STEPS ∧ ¬ (s.data i).has_hint HINT_EXPLOSION_ORIGIN then
        if (s.data i).explodes then explode_9 s i (s.data i).explodes_into else pure s
      else pure s
    let s2 := s1.upd i (fun f => { f with countdown := f.countdown - 1 })
    pure (s2.upd i (fun f => f.set_hint HINT_SKIP))
  else
    let s1 :=
      if (s.data i).has_hint HINT_EXPLOSION then
        (s.upd i (fun f => { f with type := FT_EMPTY })).upd i (fun f => f.del_hint HINT_EXPLOSION)
      else if (s.data i).has_hint HINT_EXPLOSION_INFOTRON then
        (s.upd i (fun f => { f with type := FT_INFOTRON })).upd i
          (fun f => f.del_hint HINT_EXPLOSION_INFOTRON)
      else s
    pure (s1.upd i (fun f => f.del_hint HINT_EXPLOSION_ORIGIN))

/-- The final `switch (field.type)` of the scan. -/
def dispatch (s : Level) (i : Int) (dir : Direction) : Option Level :=
  if ¬ (s.data i).has_hint HINT_SKIP then
    match (s.data i).type with
    | FT_ZONK | FT_INFOTRON => fall s i false
    | FT_ORANGE_DISK => fall s i true
    | FT_SNIK_SNAK | FT_STARS => move_npc s i dir
    | _ => pure s
  else pure s

/-- Body of the scan loop of `game_step` ("Do NPC actions") for the cell `i`. -/
def scan_cell (s : Level) (i : Int) : Option Level :=
  if (s.data i).has_hint HINT_SKIP then pure s
  else do
    let dir := npc_direction (s.data i)
    let s1 :=
      if (s.data i).type ≠ FT_SNIK_SNAK ∧ (s.data i).type ≠ FT_STARS then
        s.upd i (fun f => f.del_hint
          (HINT_FROM_BOTTOM ||| HINT_FROM_TOP ||| HINT_FROM_RIGHT ||| HINT_FROM_LEFT))
      else s
    let s2 := s1.upd i (fun f => f.del_hint
      (HINT_WAS_BASE ||| HINT_WAS_INFOTRON ||| HINT_WAS_RED_DISK))
    let s3 ←
      if (s2.data i).has_hint HINT_EXPLOSION ∨ (s2.data i).has_hint HINT_EXPLOSION_INFOTRON then
        explosion_tick s2 i
      else pure s2
    dispatch s3 i dir

/-- Body of the last loop of `game_step`: skip is cleared on every cell. -/
def clear_skip_cell (s : Level) (i : Int) : Level :=
  s.upd i (fun f => f.del_hint HINT_SKIP)

/-- `Level::game_step()`: the level after the tick and the returned value. -/
def game_step (s : Level) : Option (Level × Bool) := do
  let s1 ← if s.next_move ≠ DIR_NONE ∧ s.murphy_alive then resolve_move s else pure s
  let s2 := { s1 with next_move := DIR_NONE }
  let s3 := cells.foldl clear_leaving_cell s2
  let s4 ← cells.foldlM scan_cell s3
  let s5 := cells.foldl clear_skip_cell s4
  pure (s5, s5.murphy_alive)

/-- `Level::dispatch_event(GameEvent event)`. -/
def dispatch_event (s : Level) (event : GameEvent) : Level :=
  match event with
  | EVENT_MOVE_UP => { s with next_move := DIR_UP }
  | EVENT_MOVE_DOWN => { s with next_move := DIR_DOWN }
  | EVENT_MOVE_LEFT => { s with next_move := DIR_LEFT }
  | EVENT_MOVE_RIGHT => { s with next_move := DIR_RIGHT }
  | EVENT_MOVE_NONE => { s with next_move := DIR_NONE }
  | EVENT_END_GAME => s
  | EVENT_BTN_SPECIAL => s

/-! ## Auxiliary definitions used by the statements and proofs -/

/-- The index lies inside the array `data`. -/
def in_grid (i : Int) : Prop := 0 ≤ i ∧ i < LEVEL_WIDTH * LEVEL_HEIGHT

instance (i : Int) : Decidable (in_grid i) := by
  unfold in_grid
  infer_instance

/-- Net effect of the first loop of `game_step` on one cell. -/
def leaving_cleared (f : Field) : Field :=
  if f.has_hint HINT_SKIP then f
  else if f.has_hint HINT_LEAVING then f.del_hint HINT_LEAVING
  else f

/-- Applying `g` to every cell of the array (the closed form of a loop whose body
writes only the cell it visits). -/
def Level.map_cells (s : Level) (g : Field → Field) : Level :=
  { s with data := fun j => if in_grid j then g (s.data j) else s.data j }

/-! ## The writes of the scan, cell by cell -/

/-- The types `fall` is invoked on. -/
def loose (t : FieldType) : Prop := t = FT_ZONK ∨ t = FT_INFOTRON ∨ t = FT_ORANGE_DISK

/-- The types `move_npc` is invoked on. -/
def hazard (t : FieldType) : Prop := t = FT_SNIK_SNAK ∨ t = FT_STARS

instance (t : FieldType) : Decidable (loose t) := by
  unfold loose
  infer_instance

instance (t : FieldType) : Decidable (hazard t) := by
  unfold hazard
  infer_instance

/-- A write that the processing of a scanned cell (or an explosion) makes to a
cell, which may be another cell than the scanned one: `Touch f g` says the cell
goes from `f` to `g`. -/
inductive Touch : Field → Field → Prop
  | origin (f : Field) : f.affected_by_explosion = true →
      Touch f (f.set_hint HINT_EXPLOSION_ORIGIN)
  | explode (f : Field) : f.affected_by_explosion = true →
      Touch f (Field.set_hint { f with countdown := EXPLOSION_STEPS }
        (HINT_EXPLOSION ||| HINT_SKIP))
  | explode_infotron (f : Field) : f.affected_by_explosion = true →
      Touch f (Field.set_hint { f with countdown := EXPLOSION_STEPS }
        (HINT_EXPLOSION_INFOTRON ||| HINT_SKIP))
  | fall_into (f : Field) (t : FieldType) : f.type = FT_EMPTY →
      f.has_hint HINT_LEAVING = false → loose t →
      Touch f (Field.set_hint { f with type := t } (HINT_FALL ||| HINT_SKIP))
  | roll_into_left (f : Field) (t : FieldType) : f.type = FT_EMPTY →
      f.has_hint HINT_LEAVING = false → loose t →
      Touch f (Field.set_hint { f with type := t } (HINT_FROM_RIGHT ||| HINT_SKIP))
  | roll_into_right (f : Field) (t : FieldType) : f.type = FT_EMPTY →
      f.has_hint HINT_LEAVING = false → loose t →
      Touch f (Field.set_hint { f with type := t } (HINT_FROM_LEFT ||| HINT_SKIP))
  | npc_into (f : Field) (t : FieldType) (d : Direction) : f.type = FT_EMPTY →
      f.has_hint HINT_LEAVING = false → hazard t →
      Touch f ((Field.set_hint { f with type := t }
        (hint_from_direction d ||| HINT_SKIP)).set_hint HINT_SKIP)
  | npc_skip (f : Field) : Touch f (f.set_hint HINT_SKIP)

/-- A write that `fall` or `move_npc` makes to the cell it is invoked on: one of the
writes of `Touch`, or a write only that cell receives. -/
inductive Act : Field → Field → Prop
  | touch (f g : Field) : Touch f g → Act f g
  | fall_away (f : Field) : loose f.type →
      Act f (Field.del_hint { f with type := FT_EMPTY } HINT_FALL)
  | fall_stay (f : Field) : loose f.type → Act f (f.del_hint HINT_FALL)
  | npc_clear (f : Field) : hazard f.type →
      Act f (f.del_hint (HINT_TURN_LEFT ||| HINT_TURN_RIGHT ||| HINT_FROM_TOP |||
        HINT_FROM_BOTTOM ||| HINT_FROM_LEFT ||| HINT_FROM_RIGHT))
  | npc_leave (f : Field) : hazard f.type →
      Act f (Field.set_hint { f with type := FT_EMPTY } HINT_LEAVING)
  | npc_turn_left (f : Field) (d : Direction) : hazard f.type →
      Act f (f.set_hint (hint_from_direction d ||| HINT_TURN_LEFT))
  | npc_turn_right (f : Field) (d : Direction) : hazard f.type →
      Act f (f.set_hint (hint_from_direction d ||| HINT_TURN_RIGHT))

/-- A write that the scan makes to the cell it is processing: one of the writes of
`Act`, or a write of the scan loop itself. -/
inductive Own : Field → Field → Prop
  | act (f g : Field) : Act f g → Own f g
  | clear_from (f : Field) : f.type ≠ FT_SNIK_SNAK → f.type ≠ FT_STARS →
      Own f (f.del_hint (HINT_FROM_BOTTOM ||| HINT_FROM_TOP ||| HINT_FROM_RIGHT ||| HINT_FROM_LEFT))
  | clear_was (f : Field) :
      Own f (f.del_hint (HINT_WAS_BASE ||| HINT_WAS_INFOTRON ||| HINT_WAS_RED_DISK))
  | countdown (f : Field) :
      (f.has_hint HINT_EXPLOSION = true ∨ f.has_hint HINT_EXPLOSION_INFOTRON = true) →
      f.countdown > 0 →
      Own f (Field.set_hint { f with countdown := f.countdown - 1 } HINT_SKIP)
  | resolve_empty (f : Field) : f.has_hint HINT_EXPLOSION = true → f.countdown ≤ 0 →
      Own f ((Field.del_hint { f with type := FT_EMPTY } HINT_EXPLOSION).del_hint
        HINT_EXPLOSION_ORIGIN)
  | resolve_infotron (f : Field) : f.has_hint HINT_EXPLOSION = false →
      f.has_hint HINT_EXPLOSION_INFOTRON = true → f.countdown ≤ 0 →
      Own f ((Field.del_hint { f with type := FT_INFOTRON } HINT_EXPLOSION_INFOTRON).del_hint
        HINT_EXPLOSION_ORIGIN)

/-- A sequence of `Touch` writes to one cell. -/
def TouchPath : Field → Field → Prop := Relation.ReflTransGen Touch

/-- A sequence of `Act` writes to one cell. -/
def ActPath : Field → Field → Prop := Relation.ReflTransGen Act

/-- A sequence of `Own` writes to one cell. -/
def OwnPath : Field → Field → Prop := Relation.ReflTransGen Own

/-- The level `t` arises from `s` by `Touch` writes to cells; the player may have
been killed, nothing else changed. -/
structure TouchRel (s t : Level) : Prop where
  murphy : t.murphy = s.murphy
  next_move : t.next_move = s.next_move
  gravitation : t.gravitation = s.gravitation
  freeze_zonks : t.freeze_zonks = s.freeze_zonks
  alive : t.murphy_alive = true → s.murphy_alive = true
  cells : ∀ j, TouchPath (s.data j) (t.data j)

/-- The level `t` arises from `s` by processing the scanned cell `i`: `Own` writes
to `i`, `Touch` writes to other cells. -/
structure ScanRel (i : Int) (s t : Level) : Prop where
  murphy : t.murphy = s.murphy
  next_move : t.next_move = s.next_move
  gravitation : t.gravitation = s.gravitation
  freeze_zonks : t.freeze_zonks = s.freeze_zonks
  alive : t.murphy_alive = true → s.murphy_alive = true
  cells : ∀ j, j ≠ i → TouchPath (s.data j) (t.data j)
  own : OwnPath (s.data i) (t.data i)

/-- The level `t` arises from `s` by `fall` or `move_npc` invoked on the cell `i`:
`Act` writes to `i`, `Touch` writes to other cells. -/
structure ActRel (i : Int) (s t : Level) : Prop where
  murphy : t.murphy = s.murphy
  next_move : t.next_move = s.next_move
  gravitation : t.gravitation = s.gravitation
  freeze_zonks : t.freeze_zonks = s.freeze_zonks
  alive : t.murphy_alive = true → s.murphy_alive = true
  cells : ∀ j, j ≠ i → TouchPath (s.data j) (t.data j)
  own : ActPath (s.data i) (t.data i)

/-! ## The phases of a tick -/

/-- The level at the start of the scan: the intent is consumed and leaving is
cleared on the unskipped cells. -/
def before_scan (s : Level) : Level :=
  Level.map_cells { s with next_move := DIR_NONE } leaving_cleared

/-- The level returned by the tick: skip is cleared on every cell. -/
def after_scan (s : Level) : Level :=
  s.map_cells (fun f => f.del_hint HINT_SKIP)

/-- The movement phase of `game_step`. -/
def move_phase (s : Level) : Option Level :=
  if s.next_move ≠ DIR_NONE ∧ s.murphy_alive then resolve_move s else pure s

/-! ## Inert cells and sparse levels -/

/-- A cell of type border that carries no flag except possibly skip: no operation of
a tick changes such a cell (apart from setting and clearing skip). -/
def wall (f : Field) : Prop := f.type = FT_BORDER ∧ (f.hint = 0 ∨ f.hint = 1)

instance (f : Field) : Decidable (wall f) := by
  unfold wall
  infer_instance

/-- The cells `lo, lo + 1, ..., lo + n - 1`. -/
def seg (lo : Int) : Nat → List Int
  | 0 => []
  | n + 1 => lo :: seg (lo + 1) n

/-- The tick with the scan restricted to the cells of `act`. -/
def sparse_step (act : List Int) (s : Level) : Option (Level × Bool) :=
  (move_phase s).bind (fun s1 =>
    (act.foldlM scan_cell (before_scan s1)).bind (fun s4 =>
      some (after_scan s4, (after_scan s4).murphy_alive)))

/-! ## The writes of movement resolution, cell by cell -/

/-- The types of a pushed object. -/
def pushable (t : FieldType) : Prop := t = FT_ZONK ∨ t = FT_ORANGE_DISK ∨ t = FT_YELLOW_DISK

/-- The types of a cell the player can step into (directly or after a push). -/
def enterable (t : FieldType) : Prop :=
  t = FT_EMPTY ∨ t = FT_BASE ∨ t = FT_INFOTRON ∨ t = FT_RED_DISK ∨ pushable t

instance (t : FieldType) : Decidable (pushable t) := by
  unfold pushable
  infer_instance

instance (t : FieldType) : Decidable (enterable t) := by
  unfold enterable
  infer_instance

/-- A write that movement resolution makes, before the move is committed, to a
cell other than the player's: `Moved f g` says the cell goes from `f` to `g`. -/
inductive Moved : Field → Field → Prop
  | origin (f : Field) : enterable f.type → Moved f (f.set_hint HINT_EXPLOSION_ORIGIN)
  | was_base (f : Field) : f.type = FT_BASE → Moved f (f.set_hint HINT_WAS_BASE)
  | was_infotron (f : Field) : f.type = FT_INFOTRON → Moved f (f.set_hint HINT_WAS_INFOTRON)
  | was_red_disk (f : Field) : f.type = FT_RED_DISK → Moved f (f.set_hint HINT_WAS_RED_DISK)
  | pushed_into (f : Field) (t : FieldType) (d : Direction) : f.type = FT_EMPTY →
      f.has_hint HINT_LEAVING = false → pushable t →
      Moved f (Field.set_hint { f with type := t } (hint_from_direction d ||| HINT_SKIP))

/-- A write that the target switch of movement resolution makes to the cell at the
cached player position: a write of `Moved`, or the arming or the execution of a
push. -/
inductive Pushed : Field → Field → Prop
  | moved (f g : Field) : Moved f g → Pushed f g
  | push_arm (f : Field) : f.has_hint HINT_PUSH = false → f.countdown ≠ 1 →
      Pushed f (Field.set_hint { f with countdown := 1 } HINT_PUSH)
  | push_go (f : Field) : f.has_hint HINT_PUSH = false → f.countdown = 1 →
      Pushed f (Field.set_hint { f with countdown := 0 } HINT_PUSH)

/-- A write that movement resolution makes, before the move is committed, to the
cell at the cached player position. -/
inductive MovedOwn : Field → Field → Prop
  | pushed (f g : Field) : Pushed f g → MovedOwn f g
  | del_push (f : Field) : MovedOwn f (f.del_hint HINT_PUSH)
  | reset (f : Field) : f.has_hint HINT_PUSH = false → MovedOwn f { f with countdown := 0 }

/-- A sequence of `Moved` writes to one cell. -/
def MovedPath : Field → Field → Prop := Relation.ReflTransGen Moved

/-- A sequence of `Pushed` writes to one cell. -/
def PushedPath : Field → Field → Prop := Relation.ReflTransGen Pushed

/-- A sequence of `MovedOwn` writes to one cell. -/
def MovedOwnPath : Field → Field → Prop := Relation.ReflTransGen MovedOwn

/-- The level `t` arises from `s` by the writes movement resolution makes before
the move is committed, `m` being the index of the cached player position. -/
structure MoveRel (m : Int) (s t : Level) : Prop where
  murphy : t.murphy = s.murphy
  next_move : t.next_move = s.next_move
  gravitation : t.gravitation = s.gravitation
  freeze_zonks : t.freeze_zonks = s.freeze_zonks
  alive : t.murphy_alive = true → s.murphy_alive = true
  cells : ∀ j, j ≠ m → MovedPath (s.data j) (t.data j)
  own : MovedOwnPath (s.data m) (t.data m)

/-- The levels are equal except that the player may have been killed. -/
def KillRel (s t : Level) : Prop :=
  ∃ a : Bool, t = { s with murphy_alive := a } ∧ (a = true → s.murphy_alive = true)


/-- The level `t` arises from `s` by the writes of the target switch of movement
resolution, `m` being the index of the cached player position. -/
structure TargetRel (m : Int) (s t : Level) : Prop where
  murphy : t.murphy = s.murphy
  next_move : t.next_move = s.next_move
  gravitation : t.gravitation = s.gravitation
  freeze_zonks : t.freeze_zonks = s.freeze_zonks
  alive : t.murphy_alive = true → s.murphy_alive = true
  cells : ∀ j, j ≠ m → MovedPath (s.data j) (t.data j)
  own : PushedPath (s.data m) (t.data m)

/-- The level after the `if (allow_move)` block of `game_step`, `origin` being the
cell at the cached player position. -/
def committed (s : Level) (next : Point) (fld : Int) : Level :=
  let origin := data_idx s.murphy
  let s1 := s.upd origin (fun f => { f with type := FT_EMPTY })
  let s2 := s1.upd origin (fun f => f.set_hint (HINT_LEAVING ||| HINT_SKIP))
  let s3 := s2.upd origin (fun f => f.del_hint
    (HINT_FROM_BOTTOM ||| HINT_FROM_TOP ||| HINT_FROM_RIGHT ||| HINT_FROM_LEFT |||
      HINT_WAS_INFOTRON ||| HINT_WAS_BASE ||| HINT_WAS_RED_DISK))
  let s4 := s3.upd fld (fun f => { f with type := FT_MURPHY })
  let s5 := s4.upd fld (fun f => f.set_hint (hint_from_direction s.next_move ||| HINT_SKIP))
  let s6 :=
    if (s5.data origin).has_hint HINT_PUSH then
      (s5.upd fld (fun f => f.set_hint HINT_PUSH)).upd origin (fun f => f.del_hint HINT_PUSH)
    else s5
  { s6 with murphy := next }

/-! ## Concrete sparse levels -/

/-- The cell with index `i` placed at its row-major coordinates. -/
def cell_at (i : Int) (t : FieldType) (hint : Nat) (countdown : Int) : Field :=
  ⟨⟨i % 60, i / 60⟩, t, hint, countdown⟩

/-- A border cell without flags at its row-major coordinates. -/
def border_cell (i : Int) : Field := cell_at i FT_BORDER 0 0

/-- The level whose cells are those listed in `cs` (index and content) and border
walls everywhere else; gravitation and the zonk freeze are off. -/
def sparse_level (cs : List (Int × Field)) (alive : Bool) (move : Direction) (murphy : Point) :
    Level :=
  { data := fun i => (cs.lookup i).getD (border_cell i)
    gravitation := false
    freeze_zonks := false
    murphy_alive := alive
    next_move := move
    murphy := murphy }

/-- The indices of the listed cells. -/
def keys (cs : List (Int × Field)) : List Int := cs.map Prod.fst

/-- A live player at (5, 5) about to step right into an empty cell. -/
def level_step_right : Level :=
  sparse_level [(305, cell_at 305 FT_MURPHY 0 0), (306, cell_at 306 FT_EMPTY 0 0)]
    true DIR_RIGHT ⟨5, 5⟩

/-- A dead player: the cell at (5, 5) is exploding, the pending intent is left. -/
def level_dead : Level :=
  sparse_level [(305, cell_at 305 FT_MURPHY (HINT_EXPLOSION ||| HINT_EXPLOSION_ORIGIN) 2)]
    false DIR_LEFT ⟨5, 5⟩

/-- A level as loaded from a file (no flags, countdown 0): the player in the top row
at (5, 0), a patrol hazard right below it at (5, 1), border everywhere else, no
pending intent. -/
def level_top_row : Level :=
  sparse_level [(5, cell_at 5 FT_MURPHY 0 0), (65, cell_at 65 FT_SNIK_SNAK 0 0)]
    true DIR_NONE ⟨5, 0⟩

/-- A live player at (5, 5) with countdown `c` and hint `h`, a resting loose rock to
its right at (6, 5), an empty cell beyond it at (7, 5); the pending intent is
`move`. -/
def level_push (h : Nat) (c : Int) (move : Direction) : Level :=
  sparse_level [(305, cell_at 305 FT_MURPHY h c), (306, cell_at 306 FT_ZONK 0 0),
    (307, cell_at 307 FT_EMPTY 0 0)] true move ⟨5, 5⟩

/-- The level `level_push` with the player armed for a push to the right, and to the
left of the player, at (4, 5), a yellow disk that was caught by an explosion in the
previous tick (exploding, countdown 3, not the origin). -/
def level_push_blast : Level :=
  sparse_level [(304, cell_at 304 FT_YELLOW_DISK HINT_EXPLOSION 3),
    (305, cell_at 305 FT_MURPHY HINT_PUSH 1), (306, cell_at 306 FT_ZONK 0 0),
    (307, cell_at 307 FT_EMPTY 0 0)] true DIR_RIGHT ⟨5, 5⟩

/-! ## Cells set aside for the rest of the tick -/

/-- A cell that carries the skip flag and is not an empty cell open to arrivals keeps
its type through the scan; its countdown changes only if an explosion flags it. -/
def held (t : FieldType) (c : Int) (f : Field) : Prop :=
  f.has_hint HINT_SKIP = true ∧ f.type = t ∧
    (t = FT_EMPTY → f.has_hint HINT_LEAVING = true) ∧
    (f.countdown = c ∨ (f.countdown = EXPLOSION_STEPS ∧
      (f.has_hint HINT_EXPLOSION = true ∨ f.has_hint HINT_EXPLOSION_INFOTRON = true)))


/-- The countdown of a cell is 0, or the cell was flagged by an explosion during the
current tick (countdown 3, an exploding flag, skipped for the rest of the tick). -/
def settled (f : Field) : Prop :=
  f.countdown = 0 ∨ (f.countdown = EXPLOSION_STEPS ∧
    (f.has_hint HINT_EXPLOSION = true ∨ f.has_hint HINT_EXPLOSION_INFOTRON = true) ∧
    f.has_hint HINT_SKIP = true)

/-! ## Several ticks -/

/-- One round of the main loop: the input layer dispatches an event, then the level
advances by one tick. The value `game_step` returns, on which the main loop decides
whether to go on, is dropped. -/
def tick (s : Level) (ev : GameEvent) : Option Level :=
  (game_step (dispatch_event s ev)).map Prod.fst

/-- The level after the rounds of the main loop for the events `evs`. -/
def run (s : Level) (evs : List GameEvent) : Option Level := evs.foldlM tick s

/-- One round with the scan restricted to the cells of `act`. -/
def sparse_tick (act : List Int) (s : Level) (ev : GameEvent) : Option Level :=
  (sparse_step act (dispatch_event s ev)).map Prod.fst

/-- Rounds with the scan restricted to the cells of `act`. -/
def sparse_run (act : List Int) (s : Level) (evs : List GameEvent) : Option Level :=
  evs.foldlM (sparse_tick act) s

/-! ## The stages of the scan of one cell -/

/-- Net effect on the scanned cell of the two flag-clearing statements at the head of
the scan loop body ("Remove hints from Murphy's movement" and the was-flags). -/
def own_cleared (f : Field) : Field :=
  Field.del_hint
    (if f.type ≠ FT_SNIK_SNAK ∧ f.type ≠ FT_STARS then
      f.del_hint (HINT_FROM_BOTTOM ||| HINT_FROM_TOP ||| HINT_FROM_RIGHT ||| HINT_FROM_LEFT)
    else f)
    (HINT_WAS_BASE ||| HINT_WAS_INFOTRON ||| HINT_WAS_RED_DISK)

/-- Net effect on the scanned cell of the countdown branch of the explosion block. -/
def counted_down (f : Field) : Field :=
  Field.set_hint { f with countdown := f.countdown - 1 } HINT_SKIP

/-- Net effect on the scanned cell of the resolution branch of the explosion block. -/
def resolved (f : Field) : Field :=
  Field.del_hint
    (if f.has_hint HINT_EXPLOSION then
      Field.del_hint { f with type := FT_EMPTY } HINT_EXPLOSION
    else if f.has_hint HINT_EXPLOSION_INFOTRON then
      Field.del_hint { f with type := FT_INFOTRON } HINT_EXPLOSION_INFOTRON
    else f)
    HINT_EXPLOSION_ORIGIN

/-- The cell carries an exploding flag. -/
def exploding (f : Field) : Prop :=
  f.has_hint HINT_EXPLOSION = true ∨ f.has_hint HINT_EXPLOSION_INFOTRON = true

instance (f : Field) : Decidable (exploding f) := by
  unfold exploding
  infer_instance

/-! ## Cells that do nothing when scanned -/

/-- The scan of such a cell runs neither `fall` nor `move_npc` nor the explosion
block. -/
def passive (f : Field) : Prop := ¬ loose f.type ∧ ¬ hazard f.type ∧ ¬ exploding f

instance (f : Field) : Decidable (passive f) := by
  unfold passive
  infer_instance

/-- The cell `g` differs from `f` at most in flags: position, type and countdown are
the same, so are the exploding flags, and `g` carries skip, falling or leaving only
if `f` does. -/
def kept (f g : Field) : Prop :=
  g.coords = f.coords ∧ g.type = f.type ∧ g.countdown = f.countdown ∧
    g.has_hint HINT_EXPLOSION = f.has_hint HINT_EXPLOSION ∧
    g.has_hint HINT_EXPLOSION_INFOTRON = f.has_hint HINT_EXPLOSION_INFOTRON ∧
    (g.has_hint HINT_SKIP = true → f.has_hint HINT_SKIP = true) ∧
    (g.has_hint HINT_FALL = true → f.has_hint HINT_FALL = true) ∧
    (g.has_hint HINT_LEAVING = true → f.has_hint HINT_LEAVING = true)

/-- A loose rock at (6, 5) resting on a loose rock at (6, 6), with empty cells to its
left, to its right and below them; a live player at (10, 5); no pending intent. -/
def level_roll : Level :=
  sparse_level [(305, cell_at 305 FT_EMPTY 0 0), (306, cell_at 306 FT_ZONK 0 0),
    (307, cell_at 307 FT_EMPTY 0 0), (310, cell_at 310 FT_MURPHY 0 0),
    (365, cell_at 365 FT_EMPTY 0 0), (366, cell_at 366 FT_ZONK 0 0),
    (367, cell_at 367 FT_EMPTY 0 0)] true DIR_NONE ⟨10, 5⟩

/-- The level `level_roll` with one more loose rock at (5, 4), above the empty cell to
the left of the rock at (6, 5). -/
def level_roll_blocked : Level :=
  sparse_level [(245, cell_at 245 FT_ZONK 0 0), (305, cell_at 305 FT_EMPTY 0 0),
    (306, cell_at 306 FT_ZONK 0 0), (307, cell_at 307 FT_EMPTY 0 0),
    (310, cell_at 310 FT_MURPHY 0 0), (365, cell_at 365 FT_EMPTY 0 0),
    (366, cell_at 366 FT_ZONK 0 0), (367, cell_at 367 FT_EMPTY 0 0)] true DIR_NONE ⟨10, 5⟩

/-- A level as loaded from a file (no flags, countdown 0): a loose rock at (5, 3), an
empty cell below it at (5, 4), an orange disk below that at (5, 5), a base cell next
to the disk at (6, 5), the player at (10, 5); border everywhere else, no pending
intent. -/
def level_blast : Level :=
  sparse_level [(185, cell_at 185 FT_ZONK 0 0), (245, cell_at 245 FT_EMPTY 0 0),
    (305, cell_at 305 FT_ORANGE_DISK 0 0), (306, cell_at 306 FT_BASE 0 0),
    (310, cell_at 310 FT_MURPHY 0 0)] true DIR_NONE ⟨10, 5⟩

/-- A base cell at (5, 4) that an explosion flagged in the tick before (exploding to
empty, countdown 3), above a live player at (5, 5); border everywhere else. -/
def level_flagged : Level :=
  sparse_level [(245, cell_at 245 FT_BASE HINT_EXPLOSION 3), (305, cell_at 305 FT_MURPHY 0 0)]
    true DIR_NONE ⟨5, 5⟩

/-! ## Levels at rest -/

/-- The cell `g` has the position, type, countdown and exploding flags of `f`, and
carries the falling flag only if `f` does. -/
def steady (f g : Field) : Prop :=
  g.coords = f.coords ∧ g.type = f.type ∧ g.countdown = f.countdown ∧
    g.has_hint HINT_EXPLOSION = f.has_hint HINT_EXPLOSION ∧
    g.has_hint HINT_EXPLOSION_INFOTRON = f.has_hint HINT_EXPLOSION_INFOTRON ∧
    (g.has_hint HINT_FALL = true → f.has_hint HINT_FALL = true)

/-- The types `rolls_on_impact` answers for. -/
def roll_capable (t : FieldType) : Prop :=
  t = FT_ZONK ∨ t = FT_INFOTRON ∨ t = FT_CHIP ∨ t = FT_CHIP_NS_1 ∨ t = FT_CHIP_NS_2 ∨
    t = FT_CHIP_WE_1 ∨ t = FT_CHIP_WE_2

instance (t : FieldType) : Decidable (roll_capable t) := by
  unfold roll_capable
  infer_instance

/-- The cell next to the cell `j` in the direction `d`, as `fall` and `move_npc` look
it up: through the coordinates stored in the cell. -/
def neighbour (s : Level) (j : Int) (d : Direction) : Int :=
  data_idx (next_point (s.data j).coords d)

/-- The object in the cell `j` has nowhere to go in `fall`: the cell below is not
empty; if the object carries the falling flag, it is not an orange disk and the cell
below holds neither the player nor a hazard nor an orange disk; and if the cell below
holds a roll-capable object, neither the left side nor the right side (the cell beside
and the cell below that one) is empty. -/
def rests (s : Level) (j : Int) : Prop :=
  (s.data (neighbour s j DIR_DOWN)).type ≠ FT_EMPTY ∧
  ((s.data j).has_hint HINT_FALL = true →
    (s.data j).type ≠ FT_ORANGE_DISK ∧
    (s.data (neighbour s j DIR_DOWN)).type ≠ FT_MURPHY ∧
    (s.data (neighbour s j DIR_DOWN)).type ≠ FT_SNIK_SNAK ∧
    (s.data (neighbour s j DIR_DOWN)).type ≠ FT_ORANGE_DISK ∧
    (s.data (neighbour s j DIR_DOWN)).type ≠ FT_STARS) ∧
  (roll_capable (s.data (neighbour s j DIR_DOWN)).type →
    ¬ ((s.data (neighbour s j DIR_LEFT)).type = FT_EMPTY ∧
      (s.data (neighbour s (neighbour s j DIR_LEFT) DIR_DOWN)).type = FT_EMPTY) ∧
    ¬ ((s.data (neighbour s j DIR_RIGHT)).type = FT_EMPTY ∧
      (s.data (neighbour s (neighbour s j DIR_RIGHT) DIR_DOWN)).type = FT_EMPTY))

instance (s : Level) (j : Int) : Decidable (rests s j) := by
  unfold rests
  infer_instance

/-- The hazard in the cell `j` has neither an empty cell nor the player next to it,
in any of the four directions. -/
def hemmed_in (s : Level) (j : Int) : Prop :=
  ∀ d ∈ [DIR_UP, DIR_DOWN, DIR_LEFT, DIR_RIGHT],
    (s.data (neighbour s j d)).type ≠ FT_EMPTY ∧ (s.data (neighbour s j d)).type ≠ FT_MURPHY

instance (s : Level) (j : Int) : Decidable (hemmed_in s j) := by
  unfold hemmed_in
  infer_instance

/-- A level at rest: a live player at (5, 5), a loose rock at (6, 5) that lies on a
base cell at (6, 6), a patrol hazard at (10, 5) walled in by border cells; no pending
intent. -/
def level_rest : Level :=
  sparse_level [(305, cell_at 305 FT_MURPHY 0 0), (306, cell_at 306 FT_ZONK 0 0),
    (310, cell_at 310 FT_SNIK_SNAK 0 0), (366, cell_at 366 FT_BASE 0 0)]
    true DIR_NONE ⟨5, 5⟩

/-- A patrol hazard at (5, 5) below an empty cell at (5, 4), a live player at (10, 5);
border everywhere else, no flags, no pending intent. -/
def level_patrol : Level :=
  sparse_level [(245, cell_at 245 FT_EMPTY 0 0), (305, cell_at 305 FT_SNIK_SNAK 0 0),
    (310, cell_at 310 FT_MURPHY 0 0)] true DIR_NONE ⟨10, 5⟩

/-! ## The stages of movement resolution -/

/-- The statement "Reset countdown used for push" of `game_step`, `m` being the cell
at the cached player position. -/
def push_reset (s : Level) (m : Int) : Level :=
  if ¬ (s.data m).has_hint HINT_PUSH then s.upd m (fun f => { f with countdown := 0 }) else s

/-- The point lies inside the grid. -/
def inside (p : Point) : Prop :=
  0 ≤ p.x ∧ p.x < LEVEL_WIDTH ∧ 0 ≤ p.y ∧ p.y < LEVEL_HEIGHT

instance (p : Point) : Decidable (inside p) := by
  unfold inside
  infer_instance

/-- The countdown of the cell is accounted for: it is positive only if the cell
carries an exploding flag or the being-pushed flag. -/
def accounted (f : Field) : Prop :=
  f.countdown > 0 → exploding f ∨ f.has_hint HINT_PUSH = true

/-- A live player at (5, 5) that has armed a push (countdown 1 with the being-pushed
flag) against the resting rock at (6, 5), and a base cell at (4, 5) that is exploding
with countdown 2; the pending intent is `move`. -/
def level_counting (move : Direction) : Level :=
  sparse_level [(304, cell_at 304 FT_BASE HINT_EXPLOSION 2),
    (305, cell_at 305 FT_MURPHY HINT_PUSH 1), (306, cell_at 306 FT_ZONK 0 0),
    (307, cell_at 307 FT_EMPTY 0 0)] true move ⟨5, 5⟩

/-- The falling flag is in order on the cell: a cell that carries it holds a loose
object, and if it is exploding as well, it is skipped for the rest of the tick. -/
def falling_ok (f : Field) : Prop :=
  f.has_hint HINT_FALL = true → loose f.type ∧ (exploding f → f.has_hint HINT_SKIP = true)

/-- A live player at (5, 5) about to step right into a collectible at (6, 5) that
carries the falling flag (it came to rest on the border below in the tick before). -/
def level_fall_enter : Level :=
  sparse_level [(305, cell_at 305 FT_MURPHY 0 0), (306, cell_at 306 FT_INFOTRON HINT_FALL 0)]
    true DIR_RIGHT ⟨5, 5⟩

/-- A loose rock at (6, 5) that carries the falling flag and is at the end of an
explosion (exploding to empty, countdown 0); a live player at (10, 5); no pending
intent. -/
def level_fall_blast : Level :=
  sparse_level [(306, cell_at 306 FT_ZONK (HINT_FALL ||| HINT_EXPLOSION) 0),
    (310, cell_at 310 FT_MURPHY 0 0)] true DIR_NONE ⟨10, 5⟩

/-- A live player at (5, 5) about to step right into an empty cell at (6, 5); a rock
at (8, 5) that carries the falling flag and lies on the border. -/
def level_fall_rest : Level :=
  sparse_level [(305, cell_at 305 FT_MURPHY 0 0), (306, cell_at 306 FT_EMPTY 0 0),
    (308, cell_at 308 FT_ZONK HINT_FALL 0)] true DIR_RIGHT ⟨5, 5⟩

/-- Following the claim's words: the point next to `p` in the direction `d`, on the
unbounded plane (no clamping); `p` itself for the direction none. -/
def adjacent_point (p : Point) (d : Direction) : Point :=
  match d with
  | DIR_UP => ⟨p.x, p.y - 1⟩
  | DIR_DOWN => ⟨p.x, p.y + 1⟩
  | DIR_LEFT => ⟨p.x - 1, p.y⟩
  | DIR_RIGHT => ⟨p.x + 1, p.y⟩
  | DIR_NONE => p

/-- A live player on the left edge of the grid, at (0, 5), pressing left; border
everywhere else. -/
def level_edge : Level :=
  sparse_level [(300, cell_at 300 FT_MURPHY 0 0)] true DIR_LEFT ⟨0, 5⟩

/-- A live player at (5, 5) about to step right into a base cell at (6, 5). -/
def level_step_base : Level :=
  sparse_level [(305, cell_at 305 FT_MURPHY 0 0), (306, cell_at 306 FT_BASE 0 0)]
    true DIR_RIGHT ⟨5, 5⟩

/-- A live player at (5, 5) pressing right towards the empty cell at (6, 5), which
carries the leaving flag; the player's cell carries the flags `h`. -/
def level_trail (h : Nat) : Level :=
  sparse_level [(305, cell_at 305 FT_MURPHY h 0),
    (306, cell_at 306 FT_EMPTY HINT_LEAVING 0)] true DIR_RIGHT ⟨5, 5⟩

/-- A flag-free level: a rock at (6, 4) above an empty cell at (6, 5), a live player at
(5, 5) to the left of that cell, a base cell at (6, 6); border everywhere else. -/
def level_rock_above : Level :=
  sparse_level [(246, cell_at 246 FT_ZONK 0 0), (305, cell_at 305 FT_MURPHY 0 0),
    (306, cell_at 306 FT_EMPTY 0 0), (366, cell_at 366 FT_BASE 0 0)]
    true DIR_NONE ⟨5, 5⟩

/-- The level `level_rock_above` one tick later, with the intent right: the rock has
fallen into (6, 5) and carries the falling flag, and the live player at (5, 5) presses
right against it. -/
def level_touch_falling : Level :=
  sparse_level [(246, cell_at 246 FT_EMPTY 0 0), (305, cell_at 305 FT_MURPHY 0 0),
    (306, cell_at 306 FT_ZONK HINT_FALL 0), (366, cell_at 366 FT_BASE 0 0)]
    true DIR_RIGHT ⟨5, 5⟩

/-- Every cell of the array carries the coordinates the constructor of `Level` gives
it, `Point(i % LEVEL_WIDTH, i / LEVEL_WIDTH)`. -/
def own_coords (s : Level) : Prop :=
  ∀ j, in_grid j → (s.data j).coords = ⟨j % LEVEL_WIDTH, j / LEVEL_WIDTH⟩

/-- A rock at (6, 4) above an empty cell at (6, 5) that is currently-leaving, a base
cell at (6, 6); the player, away at (5, 5), is alive. -/
def level_rock_held : Level :=
  sparse_level [(246, cell_at 246 FT_ZONK HINT_FALL 0), (305, cell_at 305 FT_MURPHY 0 0),
    (306, cell_at 306 FT_EMPTY HINT_LEAVING 0), (366, cell_at 366 FT_BASE 0 0)]
    true DIR_NONE ⟨5, 5⟩

/-- A rock at (5, 4) with the hint `h` directly above the live player at (5, 5), base
cells left and right of the player; border everywhere else. -/
def level_rock_on_player (h : Nat) : Level :=
  sparse_level [(245, cell_at 245 FT_ZONK h 0), (304, cell_at 304 FT_BASE 0 0),
    (305, cell_at 305 FT_MURPHY 0 0), (306, cell_at 306 FT_BASE 0 0)]
    true DIR_NONE ⟨5, 5⟩

/-- The cell carries the flag `e` and the countdown of a fresh explosion. -/
def marked (e : Nat) (f : Field) : Prop := f.has_hint e = true ∧ f.countdown = EXPLOSION_STEPS

/-- The flag an explosion with the given fill puts on the cells it affects. -/
def fill_match (fill : FieldType) (e : Nat) : Prop :=
  (fill = FT_EMPTY ∧ e = HINT_EXPLOSION) ∨ (fill = FT_INFOTRON ∧ e = HINT_EXPLOSION_INFOTRON)

/-- The cells of the level `s` that an explosion over the points `ps` has marked in
`t`: no type changes, marked cells and set flags stay, and every affected cell at a
point of `ps` is marked. -/
def Marks (e : Nat) (ps : Point → Prop) (s t : Level) : Prop :=
  (∀ j, (t.data j).type = (s.data j).type) ∧
  (∀ j, marked e (s.data j) → marked e (t.data j)) ∧
  (∀ j b, (s.data j).has_hint b = true → (t.data j).has_hint b = true) ∧
  (∀ p, ps p → (s.data (data_idx p)).affected_by_explosion = true →
    marked e (t.data (data_idx p)))

/-! ## Definitions for the claims on rolling, explosions and hazards -/

/-- The cell with index `i` is not on the border of the grid. -/
def interior (i : Int) : Prop :=
  1 ≤ i % LEVEL_WIDTH ∧ i % LEVEL_WIDTH ≤ LEVEL_WIDTH - 2 ∧
    1 ≤ i / LEVEL_WIDTH ∧ i / LEVEL_WIDTH ≤ LEVEL_HEIGHT - 2

instance (i : Int) : Decidable (interior i) := by
  unfold interior
  infer_instance

/-- A rock at (6, 5) lying on a rock at (6, 6); the cells left and below-left are
empty, the left one with the hint `h`; the cells right and below-right are empty. -/
def level_roll_choice (h : Nat) : Level :=
  sparse_level [(305, cell_at 305 FT_EMPTY h 0), (306, cell_at 306 FT_ZONK 0 0),
    (307, cell_at 307 FT_EMPTY 0 0), (365, cell_at 365 FT_EMPTY 0 0),
    (366, cell_at 366 FT_ZONK 0 0), (367, cell_at 367 FT_EMPTY 0 0)]
    true DIR_NONE ⟨0, 0⟩

/-- A rock at (6, 5) lying on a rock at (6, 6) with a base cell to its left; the cells
right and below-right are empty. -/
def level_roll_right : Level :=
  sparse_level [(305, cell_at 305 FT_BASE 0 0), (306, cell_at 306 FT_ZONK 0 0),
    (307, cell_at 307 FT_EMPTY 0 0), (365, cell_at 365 FT_EMPTY 0 0),
    (366, cell_at 366 FT_ZONK 0 0), (367, cell_at 367 FT_EMPTY 0 0)]
    true DIR_NONE ⟨0, 0⟩

/-- The cell after an explosion has flagged it with the exploding flag `e`. -/
def blasted (e : Nat) (f : Field) : Field :=
  { f.set_hint (e ||| HINT_SKIP) with countdown := EXPLOSION_STEPS }

/-- The point `p` lies in the square of three by three points around `c`, the range of
the two loops of `explode_9`. -/
def box (c p : Point) : Prop :=
  (c.x - 1 ≤ p.x ∧ p.x ≤ c.x + 1) ∧ (c.y - 1 ≤ p.y ∧ p.y ≤ c.y + 1)

instance (c p : Point) : Decidable (box c p) := by
  unfold box
  infer_instance

/-- The cell with index `j` lies in the 3x3 neighbourhood of the cell with index `o`:
its row and its column differ by at most one from those of `o`. -/
def in_square (o j : Int) : Prop :=
  (o % LEVEL_WIDTH - 1 ≤ j % LEVEL_WIDTH ∧ j % LEVEL_WIDTH ≤ o % LEVEL_WIDTH + 1) ∧
    (o / LEVEL_WIDTH - 1 ≤ j / LEVEL_WIDTH ∧ j / LEVEL_WIDTH ≤ o / LEVEL_WIDTH + 1)

instance (o j : Int) : Decidable (in_square o j) := by
  unfold in_square
  infer_instance

/-- The level `t` is the level `s` after the cells at the points of `ps` have been
through the inner loop body of `explode_9` with the exploding flag `e`: the affected
ones are flagged, the others are as before, and the player is dead if it was or if
one of the cells has type player. -/
def Blast (e : Nat) (ps : Point → Prop) (s t : Level) : Prop :=
  (∀ j, (s.data j).affected_by_explosion = true → (∃ p, ps p ∧ data_idx p = j) →
    t.data j = blasted e (s.data j)) ∧
  (∀ j, ¬ ((s.data j).affected_by_explosion = true ∧ ∃ p, ps p ∧ data_idx p = j) →
    t.data j = s.data j) ∧
  (t.murphy_alive = false ↔
    s.murphy_alive = false ∨ ∃ p, ps p ∧ (s.data (data_idx p)).type = FT_MURPHY) ∧
  t.murphy = s.murphy ∧ t.next_move = s.next_move

/-- An orange disk at (5, 5) that carries the exploding flag, the hint `h` and the
countdown `c`, with a base cell at (6, 5), a rock at (5, 4) and the live player at
(10, 5). -/
def level_chain (h : Nat) (c : Int) : Level :=
  sparse_level [(245, cell_at 245 FT_ZONK 0 0),
    (305, cell_at 305 FT_ORANGE_DISK (HINT_EXPLOSION ||| h) c),
    (306, cell_at 306 FT_BASE 0 0), (310, cell_at 310 FT_MURPHY 0 0)]
    true DIR_NONE ⟨10, 5⟩

/-- The cell is empty and not currently-leaving. -/
def free (f : Field) : Prop := f.type = FT_EMPTY ∧ f.has_hint HINT_LEAVING = false

instance (f : Field) : Decidable (free f) := by
  unfold free
  infer_instance

/-- The last statement of `move_npc`: the turn in place when the hazard did not move. -/
def npc_turn (s2 : Level) (field : Int) (dir ct : Direction) (moving : Bool) : Level :=
  if ¬ moving ∧ ct = DIR_LEFT then
    s2.upd field (fun f => f.set_hint (hint_from_direction (turn_left dir) ||| HINT_TURN_LEFT))
  else if ¬ moving then
    s2.upd field (fun f => f.set_hint (hint_from_direction (turn_right dir) ||| HINT_TURN_RIGHT))
  else s2

/-- The flags `move_npc` clears on the cell it is invoked on. -/
def npc_cleared (f : Field) : Field :=
  f.del_hint (HINT_TURN_LEFT ||| HINT_TURN_RIGHT ||| HINT_FROM_TOP ||| HINT_FROM_BOTTOM |||
    HINT_FROM_LEFT ||| HINT_FROM_RIGHT)

/-- A patrol hazard at (5, 5) with the hint `h` (heading up when `h` is 0), an empty
cell above it, a cell of type `l` to its left, base cells to its right and below it,
and the live player away at (10, 5). -/
def level_patrol_free (l : FieldType) (h : Nat) : Level :=
  sparse_level [(245, cell_at 245 FT_EMPTY 0 0), (304, cell_at 304 l 0 0),
    (305, cell_at 305 FT_SNIK_SNAK h 0), (306, cell_at 306 FT_BASE 0 0),
    (310, cell_at 310 FT_MURPHY 0 0), (365, cell_at 365 FT_BASE 0 0)]
    true DIR_NONE ⟨10, 5⟩

/-- A patrol hazard at (5, 5) with the hint `h` (heading up when `h` is 0), the live
player above it at (5, 4), a cell of type `l` to its left, base cells to its right and
below it. -/
def level_patrol_hit (l : FieldType) (h : Nat) : Level :=
  sparse_level [(245, cell_at 245 FT_MURPHY 0 0), (304, cell_at 304 l 0 0),
    (305, cell_at 305 FT_SNIK_SNAK h 0), (306, cell_at 306 FT_BASE 0 0),
    (365, cell_at 365 FT_BASE 0 0)]
    true DIR_NONE ⟨5, 4⟩

/-- A flag-free level: a rock at (6, 3) above an empty cell, an orange disk at (6, 5)
on a base cell, an empty cell at (5, 5) next to the disk, and the live player at
(4, 5); border everywhere else. -/
def level_ghost_start : Level :=
  sparse_level [(186, cell_at 186 FT_ZONK 0 0), (246, cell_at 246 FT_EMPTY 0 0),
    (304, cell_at 304 FT_MURPHY 0 0), (305, cell_at 305 FT_EMPTY 0 0),
    (306, cell_at 306 FT_ORANGE_DISK 0 0), (366, cell_at 366 FT_BASE 0 0)]
    true DIR_NONE ⟨4, 5⟩

/-- The input of the rounds that lead from `level_ghost_start` to `level_ghost`: the
player waits three rounds, steps right, and waits two rounds. -/
def ghost_events : List GameEvent :=
  [EVENT_MOVE_NONE, EVENT_MOVE_NONE, EVENT_MOVE_NONE, EVENT_MOVE_RIGHT, EVENT_MOVE_NONE,
    EVENT_MOVE_NONE]

/-- The level `level_ghost_start` after the rounds of `ghost_events`: the live player
stands at (5, 5) on a cell that still carries the exploding flag with countdown 0;
the cells around have resolved to empty. -/
def level_ghost : Level :=
  sparse_level [(186, cell_at 186 FT_EMPTY 0 0), (246, cell_at 246 FT_EMPTY 0 0),
    (304, cell_at 304 FT_EMPTY 0 0), (305, cell_at 305 FT_MURPHY HINT_EXPLOSION 0),
    (306, cell_at 306 FT_EMPTY 0 0), (366, cell_at 366 FT_EMPTY 0 0)]
    true DIR_NONE ⟨5, 5⟩

/-- The number of cells of the grid that hold a loose rock. -/
def rocks (s : Level) : Nat :=
  cells.countP (fun j => decide ((s.data j).type = FT_ZONK))

/-- From `u` to `v` no cell has become a loose rock. -/
def RockKept (u v : Level) : Prop :=
  ∀ j, (v.data j).type = FT_ZONK → (u.data j).type = FT_ZONK

/-- From `u` to `v` the loose rock of the cell `b` has gone to the cell `a`, which is
flagged skip-this-tick, and no other cell has become a loose rock. -/
def RockMoved (a b : Int) (u v : Level) : Prop :=
  a ≠ b ∧ in_grid a ∧ in_grid b ∧ (u.data b).type = FT_ZONK ∧ (v.data b).type ≠ FT_ZONK ∧
    (v.data a).has_hint HINT_SKIP = true ∧
    ∀ j, j ≠ a → (v.data j).type = FT_ZONK → (u.data j).type = FT_ZONK

/-- The cell `a` is the cell below, left of or right of the cell `b`, as `fall` looks
them up from the coordinates of `b`. -/
def near (u : Level) (b a : Int) : Prop :=
  a = data_idx (next_point (u.data b).coords DIR_DOWN) ∨
    a = data_idx (next_point (u.data b).coords DIR_LEFT) ∨
    a = data_idx (next_point (u.data b).coords DIR_RIGHT)

/-- The cell `k` is directly above the cell `j`, or directly left or right of it in
the same row. -/
def beside (j k : Int) : Prop :=
  in_grid j ∧ in_grid k ∧
    (k = j - LEVEL_WIDTH ∨ (k = j - 1 ∧ k / LEVEL_WIDTH = j / LEVEL_WIDTH) ∨
      (k = j + 1 ∧ k / LEVEL_WIDTH = j / LEVEL_WIDTH))

instance (j k : Int) : Decidable (beside j k) := by
  unfold beside
  infer_instance

/-! ## Bit operations on hints -/

theorem lor_eq_zero_iff (x y : Nat) : x ||| y = 0 ↔ x = 0 ∧ y = 0 := by
  constructor
  · intro h
    have hb : ∀ i, x.testBit i = false ∧ y.testBit i = false := by
      intro i
      have := congrArg (fun n => Nat.testBit n i) h
      simpa using this
    exact ⟨Nat.eq_of_testBit_eq (fun i => by simp [(hb i).1]),
      Nat.eq_of_testBit_eq (fun i => by simp [(hb i).2])⟩
  · rintro ⟨rfl, rfl⟩
    rfl

@[simp]
theorem has_hint_set_hint (f : Field) (a b : Nat) :
    (f.set_hint a).has_hint b = (f.has_hint b || decide (a &&& b > 0)) := by
  simp only [Field.has_hint, Field.set_hint, Nat.and_distrib_right]
  rw [Bool.eq_iff_iff]
  simp only [Bool.or_eq_true, decide_eq_true_eq, gt_iff_lt, Nat.pos_iff_ne_zero, ne_eq,
    lor_eq_zero_iff]
  tauto

@[simp]
theorem has_hint_del_hint_of_disjoint (f : Field) (a b : Nat)
    (h : (4294967295 - a) &&& b = b) : (f.del_hint a).has_hint b = f.has_hint b := by
  simp only [Field.has_hint, Field.del_hint, Nat.and_assoc, h]

@[simp]
theorem has_hint_del_hint_of_subset (f : Field) (a b : Nat)
    (h : (4294967295 - a) &&& b = 0) : (f.del_hint a).has_hint b = false := by
  simp only [Field.has_hint, Field.del_hint, Nat.and_assoc, h]
  simp

theorem has_hint_or (f : Field) (a b : Nat) :
    f.has_hint (a ||| b) = (f.has_hint a || f.has_hint b) := by
  simp only [Field.has_hint, Nat.and_or_distrib_left]
  rw [Bool.eq_iff_iff]
  simp only [Bool.or_eq_true, decide_eq_true_eq, gt_iff_lt, Nat.pos_iff_ne_zero, ne_eq,
    lor_eq_zero_iff]
  tauto

@[simp]
theorem has_hint_with_type (f : Field) (t : FieldType) (b : Nat) :
    Field.has_hint { f with type := t } b = f.has_hint b := rfl

@[simp]
theorem has_hint_with_countdown (f : Field) (c : Int) (b : Nat) :
    Field.has_hint { f with countdown := c } b = f.has_hint b := rfl

@[simp]
theorem has_hint_mk_hint (c : Point) (t : FieldType) (k : Int) (g : Field) (b : Nat) :
    Field.has_hint ⟨c, t, g.hint, k⟩ b = g.has_hint b := rfl

@[simp] theorem set_hint_type (f : Field) (a : Nat) : (f.set_hint a).type = f.type := rfl
@[simp] theorem del_hint_type (f : Field) (a : Nat) : (f.del_hint a).type = f.type := rfl
@[simp] theorem set_hint_countdown (f : Field) (a : Nat) :
    (f.set_hint a).countdown = f.countdown := rfl
@[simp] theorem del_hint_countdown (f : Field) (a : Nat) :
    (f.del_hint a).countdown = f.countdown := rfl
@[simp] theorem set_hint_coords (f : Field) (a : Nat) : (f.set_hint a).coords = f.coords := rfl
@[simp] theorem del_hint_coords (f : Field) (a : Nat) : (f.del_hint a).coords = f.coords := rfl

/-! ## Reading the array after a write -/

@[simp] theorem upd_data_same (s : Level) (i : Int) (g : Field → Field) :
    (s.upd i g).data i = g (s.data i) := by
  simp [Level.upd]

@[simp] theorem upd_data_ne (s : Level) (i j : Int) (g : Field → Field) (h : j ≠ i) :
    (s.upd i g).data j = s.data j := by
  simp [Level.upd, h]

theorem upd_data (s : Level) (i j : Int) (g : Field → Field) :
    (s.upd i g).data j = if j = i then g (s.data i) else s.data j := by
  by_cases h : j = i
  · subst h
    simp
  · simp [h]

@[simp] theorem upd_murphy (s : Level) (i : Int) (g : Field → Field) :
    (s.upd i g).murphy = s.murphy := rfl
@[simp] theorem upd_murphy_alive (s : Level) (i : Int) (g : Field → Field) :
    (s.upd i g).murphy_alive = s.murphy_alive := rfl
@[simp] theorem upd_next_move (s : Level) (i : Int) (g : Field → Field) :
    (s.upd i g).next_move = s.next_move := rfl

theorem level_ext {s t : Level} (hd : ∀ j, s.data j = t.data j)
    (hg : s.gravitation = t.gravitation) (hf : s.freeze_zonks = t.freeze_zonks)
    (ha : s.murphy_alive = t.murphy_alive) (hn : s.next_move = t.next_move)
    (hm : s.murphy = t.murphy) : s = t := by
  cases s
  cases t
  simp only [Level.mk.injEq]
  exact ⟨funext hd, hg, hf, ha, hn, hm⟩

theorem upd_self (s : Level) (i : Int) (g : Field → Field) (h : g (s.data i) = s.data i) :
    s.upd i g = s := by
  apply level_ext <;> try rfl
  intro j
  rw [upd_data]
  split
  · next hj => rw [h, hj]
  · rfl

theorem upd_congr (s : Level) (i : Int) (g g' : Field → Field)
    (h : g (s.data i) = g' (s.data i)) : s.upd i g = s.upd i g' := by
  unfold Level.upd
  rw [h]

theorem cell_ref_eq_some {i r : Int} (h : cell_ref i = some r) : r = i ∧ in_grid i := by
  unfold cell_ref at h
  split at h
  · next hi => exact ⟨(Option.some.inj h).symm, hi⟩
  · exact absurd h (by simp)

theorem cell_ref_of_in_grid {i : Int} (h : in_grid i) : cell_ref i = some i := by
  unfold cell_ref
  exact if_pos h

theorem mem_cells (i : Int) : i ∈ cells ↔ in_grid i := by
  unfold cells in_grid LEVEL_WIDTH LEVEL_HEIGHT
  simp only [List.mem_map, List.mem_range, Int.ofNat_eq_coe]
  constructor
  · rintro ⟨n, hn, rfl⟩
    omega
  · rintro ⟨h0, h1⟩
    exact ⟨i.toNat, by omega, by omega⟩

/-! ## The loops that write only the visited cell -/

theorem foldl_upd_data (g : Field → Field) (hg : ∀ f, g (g f) = g f) (l : List Int)
    (s : Level) (j : Int) :
    (l.foldl (fun s i => s.upd i g) s).data j = if j ∈ l then g (s.data j) else s.data j := by
  induction l generalizing s with
  | nil => simp
  | cons a l ih =>
    rw [List.foldl_cons, ih, upd_data]
    by_cases hja : j = a
    · subst hja
      by_cases hjl : j ∈ l <;> simp [hjl, hg]
    · by_cases hjl : j ∈ l <;> simp [hjl, hja]

theorem foldl_upd_eq (g : Field → Field) (hg : ∀ f, g (g f) = g f) (s : Level) :
    cells.foldl (fun s i => s.upd i g) s = s.map_cells g := by
  have hrest : ∀ (l : List Int) (s : Level),
      (l.foldl (fun s i => s.upd i g) s).gravitation = s.gravitation ∧
      (l.foldl (fun s i => s.upd i g) s).freeze_zonks = s.freeze_zonks ∧
      (l.foldl (fun s i => s.upd i g) s).murphy_alive = s.murphy_alive ∧
      (l.foldl (fun s i => s.upd i g) s).next_move = s.next_move ∧
      (l.foldl (fun s i => s.upd i g) s).murphy = s.murphy := by
    intro l
    induction l with
    | nil => intro s; simp
    | cons a l ih => intro s; rw [List.foldl_cons]; exact ih _
  obtain ⟨h1, h2, h3, h4, h5⟩ := hrest cells s
  apply level_ext
  · intro j
    rw [foldl_upd_data g hg]
    simp only [Level.map_cells, mem_cells]
  · exact h1
  · exact h2
  · exact h3
  · exact h4
  · exact h5

theorem del_hint_idem (f : Field) (h : Nat) : (f.del_hint h).del_hint h = f.del_hint h := by
  simp [Field.del_hint, Nat.and_assoc]

theorem clear_skip_eq (s : Level) :
    cells.foldl clear_skip_cell s = s.map_cells (fun f => f.del_hint HINT_SKIP) :=
  foldl_upd_eq (fun f => f.del_hint HINT_SKIP) (fun f => del_hint_idem f HINT_SKIP) s

theorem leaving_cleared_idem (f : Field) : leaving_cleared (leaving_cleared f) = leaving_cleared f := by
  unfold leaving_cleared
  by_cases h1 : f.has_hint HINT_SKIP = true
  · simp [h1]
  · by_cases h2 : f.has_hint HINT_LEAVING = true
    · simp +decide [h1, h2]
    · simp [h1, h2]

theorem clear_leaving_cell_eq (s : Level) (i : Int) :
    clear_leaving_cell s i = s.upd i leaving_cleared := by
  unfold clear_leaving_cell leaving_cleared
  by_cases h1 : (s.data i).has_hint HINT_SKIP = true
  · rw [if_pos h1]
    exact (upd_self s i _ (by simp [h1])).symm
  · rw [if_neg h1]
    by_cases h2 : (s.data i).has_hint HINT_LEAVING = true
    · rw [if_pos h2]
      exact upd_congr s i _ _ (by simp [h1, h2])
    · rw [if_neg h2]
      exact (upd_self s i _ (by simp [h1, h2])).symm


/-! ## The arrival flag of a direction -/

@[simp] theorem hfd_skip_and_skip (d : Direction) :
    0 < (hint_from_direction d ||| HINT_SKIP) &&& HINT_SKIP := by
  cases d <;> decide

@[simp] theorem hfd_skip_and_leaving (d : Direction) :
    (hint_from_direction d ||| HINT_SKIP) &&& HINT_LEAVING = 0 := by
  cases d <;> decide

@[simp] theorem hfd_skip_and_explosion (d : Direction) :
    (hint_from_direction d ||| HINT_SKIP) &&& HINT_EXPLOSION = 0 := by
  cases d <;> decide

@[simp] theorem hfd_skip_and_explosion_infotron (d : Direction) :
    (hint_from_direction d ||| HINT_SKIP) &&& HINT_EXPLOSION_INFOTRON = 0 := by
  cases d <;> decide

@[simp] theorem hfd_skip_and_push (d : Direction) :
    (hint_from_direction d ||| HINT_SKIP) &&& HINT_PUSH = 0 := by
  cases d <;> decide

@[simp] theorem hfd_skip_and_fall (d : Direction) :
    (hint_from_direction d ||| HINT_SKIP) &&& HINT_FALL = 0 := by
  cases d <;> decide

/-! ## Every operation of the scan stays within `Touch` and `Own` -/

theorem touchPath_refl (f : Field) : TouchPath f f := Relation.ReflTransGen.refl

theorem touchPath_single {f g : Field} (h : Touch f g) : TouchPath f g :=
  Relation.ReflTransGen.single h

theorem touchPath_trans {f g h : Field} (a : TouchPath f g) (b : TouchPath g h) :
    TouchPath f h := Relation.ReflTransGen.trans a b

theorem ownPath_refl (f : Field) : OwnPath f f := Relation.ReflTransGen.refl

theorem ownPath_single {f g : Field} (h : Own f g) : OwnPath f g :=
  Relation.ReflTransGen.single h

theorem ownPath_trans {f g h : Field} (a : OwnPath f g) (b : OwnPath g h) :
    OwnPath f h := Relation.ReflTransGen.trans a b

theorem actPath_refl (f : Field) : ActPath f f := Relation.ReflTransGen.refl

theorem actPath_single {f g : Field} (h : Act f g) : ActPath f g :=
  Relation.ReflTransGen.single h

theorem actPath_trans {f g h : Field} (a : ActPath f g) (b : ActPath g h) :
    ActPath f h := Relation.ReflTransGen.trans a b

theorem touchPath_act {f g : Field} (h : TouchPath f g) : ActPath f g :=
  Relation.ReflTransGen.mono (fun a b hab => Act.touch a b hab) h

theorem actPath_own {f g : Field} (h : ActPath f g) : OwnPath f g :=
  Relation.ReflTransGen.mono (fun a b hab => Own.act a b hab) h

theorem touchPath_own {f g : Field} (h : TouchPath f g) : OwnPath f g :=
  actPath_own (touchPath_act h)

theorem touchRel_refl (s : Level) : TouchRel s s :=
  ⟨rfl, rfl, rfl, rfl, id, fun _ => touchPath_refl _⟩

theorem touchRel_trans {s t u : Level} (a : TouchRel s t) (b : TouchRel t u) : TouchRel s u :=
  ⟨b.murphy.trans a.murphy, b.next_move.trans a.next_move, b.gravitation.trans a.gravitation,
    b.freeze_zonks.trans a.freeze_zonks, fun h => a.alive (b.alive h),
    fun j => touchPath_trans (a.cells j) (b.cells j)⟩

theorem touchRel_upd (s : Level) (j : Int) (g : Field → Field)
    (h : Touch (s.data j) (g (s.data j))) : TouchRel s (s.upd j g) := by
  refine ⟨rfl, rfl, rfl, rfl, id, fun k => ?_⟩
  rw [upd_data]
  split
  · next hk => subst hk; exact touchPath_single h
  · exact touchPath_refl _

theorem touchRel_kill (s : Level) : TouchRel s { s with murphy_alive := false } :=
  ⟨rfl, rfl, rfl, rfl, fun h => absurd h (by simp), fun _ => touchPath_refl _⟩

theorem touchRel_scan {s t : Level} (i : Int) (a : TouchRel s t) : ScanRel i s t :=
  ⟨a.murphy, a.next_move, a.gravitation, a.freeze_zonks, a.alive, fun j _ => a.cells j,
    touchPath_own (a.cells i)⟩

theorem scanRel_refl (i : Int) (s : Level) : ScanRel i s s := touchRel_scan i (touchRel_refl s)

theorem scanRel_trans {i : Int} {s t u : Level} (a : ScanRel i s t) (b : ScanRel i t u) :
    ScanRel i s u :=
  ⟨b.murphy.trans a.murphy, b.next_move.trans a.next_move, b.gravitation.trans a.gravitation,
    b.freeze_zonks.trans a.freeze_zonks, fun h => a.alive (b.alive h),
    fun j hj => touchPath_trans (a.cells j hj) (b.cells j hj), ownPath_trans a.own b.own⟩

theorem scanRel_upd (s : Level) (i : Int) (g : Field → Field)
    (h : Own (s.data i) (g (s.data i))) : ScanRel i s (s.upd i g) := by
  refine ⟨rfl, rfl, rfl, rfl, id, fun k hk => ?_, ?_⟩
  · rw [upd_data_ne _ _ _ _ hk]
    exact touchPath_refl _
  · rw [upd_data_same]
    exact ownPath_single h

theorem touchRel_act {s t : Level} (i : Int) (a : TouchRel s t) : ActRel i s t :=
  ⟨a.murphy, a.next_move, a.gravitation, a.freeze_zonks, a.alive, fun j _ => a.cells j,
    touchPath_act (a.cells i)⟩

theorem actRel_scan {i : Int} {s t : Level} (a : ActRel i s t) : ScanRel i s t :=
  ⟨a.murphy, a.next_move, a.gravitation, a.freeze_zonks, a.alive, a.cells, actPath_own a.own⟩

theorem actRel_refl (i : Int) (s : Level) : ActRel i s s := touchRel_act i (touchRel_refl s)

theorem actRel_trans {i : Int} {s t u : Level} (a : ActRel i s t) (b : ActRel i t u) :
    ActRel i s u :=
  ⟨b.murphy.trans a.murphy, b.next_move.trans a.next_move, b.gravitation.trans a.gravitation,
    b.freeze_zonks.trans a.freeze_zonks, fun h => a.alive (b.alive h),
    fun j hj => touchPath_trans (a.cells j hj) (b.cells j hj), actPath_trans a.own b.own⟩

theorem actRel_upd (s : Level) (i : Int) (g : Field → Field)
    (h : Act (s.data i) (g (s.data i))) : ActRel i s (s.upd i g) := by
  refine ⟨rfl, rfl, rfl, rfl, id, fun k hk => ?_, ?_⟩
  · rw [upd_data_ne _ _ _ _ hk]
    exact touchPath_refl _
  · rw [upd_data_same]
    exact actPath_single h

/-- A level that differs from `s` in the cell `i` by an `Act` write and in one other
cell `k` by a `Touch` write. -/
theorem actRel_two (s t : Level) (i k : Int) (f g : Field) (hik : k ≠ i)
    (hm : t.murphy = s.murphy) (hn : t.next_move = s.next_move)
    (hgr : t.gravitation = s.gravitation) (hfz : t.freeze_zonks = s.freeze_zonks)
    (ha : t.murphy_alive = s.murphy_alive)
    (hi : t.data i = f) (hk : t.data k = g)
    (hrest : ∀ j, j ≠ i → j ≠ k → t.data j = s.data j)
    (ho : Act (s.data i) f) (ht : Touch (s.data k) g) : ActRel i s t := by
  refine ⟨hm, hn, hgr, hfz, fun h => by rw [← ha]; exact h, fun j hj => ?_, ?_⟩
  · by_cases hjk : j = k
    · subst hjk
      rw [hk]
      exact touchPath_single ht
    · rw [hrest j hj hjk]
      exact touchPath_refl _
  · rw [hi]
    exact actPath_single ho

theorem explode_cell_rel (fill : FieldType) (s t : Level) (p : Point)
    (h : explode_cell fill s p = some t) : TouchRel s t := by
  unfold explode_cell at h
  cases hr : cell_ref (data_idx p) with
  | none => simp [hr] at h
  | some fld =>
    simp only [hr, Option.bind_eq_bind, Option.some_bind, Option.pure_def, Option.some.injEq] at h
    subst h
    have key : ∀ u : Level, TouchRel s u →
        TouchRel s (if (u.data fld).type = FT_MURPHY then { u with murphy_alive := false } else u) := by
      intro u hu
      split
      · exact touchRel_trans hu (touchRel_kill u)
      · exact hu
    apply key
    by_cases haff : (s.data fld).affected_by_explosion = true
    · rw [if_pos haff]
      by_cases hf1 : fill = FT_EMPTY
      · rw [if_pos hf1]
        refine ⟨rfl, rfl, rfl, rfl, id, fun k => ?_⟩
        by_cases hk : k = fld
        · subst hk
          simp only [upd_data_same]
          exact touchPath_single (Touch.explode _ haff)
        · simp only [upd_data_ne _ _ _ _ hk]
          exact touchPath_refl _
      · rw [if_neg hf1]
        by_cases hf2 : fill = FT_INFOTRON
        · rw [if_pos hf2]
          refine ⟨rfl, rfl, rfl, rfl, id, fun k => ?_⟩
          by_cases hk : k = fld
          · subst hk
            simp only [upd_data_same]
            exact touchPath_single (Touch.explode_infotron _ haff)
          · simp only [upd_data_ne _ _ _ _ hk]
            exact touchPath_refl _
        · rw [if_neg hf2]
          exact touchRel_refl s
    · rw [if_neg haff]
      exact touchRel_refl s

theorem foldlM_rel {α : Type} (R : Level → Level → Prop) (hrefl : ∀ s, R s s)
    (htrans : ∀ s t u, R s t → R t u → R s u) (f : Level → α → Option Level)
    (hf : ∀ s a t, f s a = some t → R s t) (l : List α) (s t : Level)
    (h : l.foldlM f s = some t) : R s t := by
  induction l generalizing s with
  | nil =>
    simp only [List.foldlM_nil, Option.pure_def, Option.some.injEq] at h
    subst h
    exact hrefl s
  | cons a l ih =>
    rw [List.foldlM_cons] at h
    cases ha : f s a with
    | none => simp [ha] at h
    | some u =>
      simp only [ha, Option.bind_eq_bind, Option.some_bind] at h
      exact htrans s u t (hf s a u ha) (ih u h)

theorem explode_9_rel (s t : Level) (origin : Int) (fill : FieldType)
    (ha : (s.data origin).affected_by_explosion = true)
    (h : explode_9 s origin fill = some t) : TouchRel s t := by
  unfold explode_9 at h
  refine touchRel_trans (touchRel_upd s origin (fun f => f.set_hint HINT_EXPLOSION_ORIGIN)
    (Touch.origin _ ha)) ?_
  refine foldlM_rel TouchRel touchRel_refl (fun _ _ _ => touchRel_trans) _ ?_ _ _ _ h
  intro u y v hv
  refine foldlM_rel TouchRel touchRel_refl (fun _ _ _ => touchRel_trans) _ ?_ _ _ _ hv
  intro u2 x v2 hv2
  exact explode_cell_rel fill u2 v2 _ hv2

theorem loose_ne_empty {t : FieldType} (h : loose t) : t ≠ FT_EMPTY := by
  rcases h with h | h | h <;> simp [h]

theorem hazard_ne_empty {t : FieldType} (h : hazard t) : t ≠ FT_EMPTY := by
  rcases h with h | h <;> simp [h]

theorem loose_affected {f : Field} (h : loose f.type) : f.affected_by_explosion = true := by
  rcases h with h | h | h <;> simp [Field.affected_by_explosion, h]

theorem hazard_affected {f : Field} (h : hazard f.type) : f.affected_by_explosion = true := by
  rcases h with h | h <;> simp [Field.affected_by_explosion, h]

theorem roll_rel (s t : Level) (fld : Int) (hl : loose (s.data fld).type)
    (h : roll s fld = some t) :
    ActRel fld s (t.upd fld (fun f => f.del_hint HINT_FALL)) := by
  have stay : ActRel fld s (s.upd fld (fun f => f.del_hint HINT_FALL)) :=
    actRel_upd s fld _ (Act.fall_stay _ hl)
  unfold roll at h
  cases hl1 : cell_ref (data_idx (next_point (s.data fld).coords DIR_LEFT)) with
  | none => simp [hl1] at h
  | some left =>
  cases hr1 : cell_ref (data_idx (next_point (s.data fld).coords DIR_RIGHT)) with
  | none => simp [hl1, hr1] at h
  | some right =>
  cases hl2 : cell_ref (data_idx (next_point (s.data left).coords DIR_DOWN)) with
  | none => simp [hl1, hr1, hl2] at h
  | some lbelow =>
  cases hr2 : cell_ref (data_idx (next_point (s.data right).coords DIR_DOWN)) with
  | none => simp [hl1, hr1, hl2, hr2] at h
  | some rbelow =>
  simp only [hl1, hr1, hl2, hr2, Option.bind_eq_bind, Option.some_bind, Option.pure_def] at h
  split at h
  · next hc =>
    split at h
    · next hc2 =>
      simp only [Option.some.injEq] at h
      subst h
      have hne : left ≠ fld := by
        intro e
        rw [e] at hc
        exact loose_ne_empty hl hc.1
      refine actRel_two s _ fld left
        (Field.del_hint { s.data fld with type := FT_EMPTY } HINT_FALL)
        (Field.set_hint { s.data left with type := (s.data fld).type }
          (HINT_FROM_RIGHT ||| HINT_SKIP)) hne rfl rfl rfl rfl rfl ?_ ?_ ?_
        (Act.fall_away _ hl)
        (Touch.roll_into_left _ (s.data fld).type hc.1 (by simpa using hc2.1) hl)
      · simp [upd_data, hne, hne.symm]
      · simp [upd_data, hne, hne.symm]
      · intro j hj hjk
        simp [upd_data, hj, hjk]
    · simp only [Option.some.injEq] at h
      subst h
      exact stay
  · split at h
    · next hc =>
      split at h
      · next hc2 =>
        simp only [Option.some.injEq] at h
        subst h
        have hne : right ≠ fld := by
          intro e
          rw [e] at hc
          exact loose_ne_empty hl hc.1
        refine actRel_two s _ fld right
          (Field.del_hint { s.data fld with type := FT_EMPTY } HINT_FALL)
          (Field.set_hint { s.data right with type := (s.data fld).type }
            (HINT_FROM_LEFT ||| HINT_SKIP)) hne rfl rfl rfl rfl rfl ?_ ?_ ?_
          (Act.fall_away _ hl)
          (Touch.roll_into_right _ (s.data fld).type hc.1 (by simpa using hc2.1) hl)
        · simp [upd_data, hne, hne.symm]
        · simp [upd_data, hne, hne.symm]
        · intro j hj hjk
          simp [upd_data, hj, hjk]
      · simp only [Option.some.injEq] at h
        subst h
        exact stay
    · simp only [Option.some.injEq] at h
      subst h
      exact stay

theorem touch_type_eq {f g : Field} (h : Touch f g) (hne : f.type ≠ FT_EMPTY) :
    g.type = f.type := by
  cases h <;> first | rfl | contradiction

theorem touchPath_type_eq {f g : Field} (h : TouchPath f g) (hne : f.type ≠ FT_EMPTY) :
    g.type = f.type := by
  induction h with
  | refl => rfl
  | tail _ hs ih => rw [← ih]; exact touch_type_eq hs (by rw [ih]; exact hne)

theorem fall_rel (s t : Level) (fld : Int) (destructive : Bool) (hl : loose (s.data fld).type)
    (h : fall s fld destructive = some t) : ActRel fld s t := by
  have stay : ActRel fld s (s.upd fld (fun f => f.del_hint HINT_FALL)) :=
    actRel_upd s fld _ (Act.fall_stay _ hl)
  have boom : ∀ (o : Int) (fill : FieldType) (u : Level),
      (s.data o).affected_by_explosion = true → explode_9 s o fill = some u →
      ActRel fld s (u.upd fld (fun f => f.del_hint HINT_FALL)) := by
    intro o fill u ha hu
    have hr := explode_9_rel s u o fill ha hu
    refine actRel_trans (touchRel_act fld hr) (actRel_upd u fld _ (Act.fall_stay _ ?_))
    rw [touchPath_type_eq (hr.cells fld) (loose_ne_empty hl)]
    exact hl
  unfold fall at h
  cases hb : cell_ref (data_idx (next_point (s.data fld).coords DIR_DOWN)) with
  | none => simp [hb] at h
  | some below =>
  simp only [hb, Option.bind_eq_bind, Option.some_bind, Option.pure_def] at h
  cases hsw : fall_switch s fld below destructive with
  | none => simp [hsw] at h
  | some u =>
  simp only [hsw, Option.some_bind, Option.some.injEq] at h
  subst h
  unfold fall_switch at hsw
  split at hsw
  · next hty =>
    split at hsw
    · next hlv =>
      simp only [Option.pure_def, Option.some.injEq] at hsw
      subst hsw
      have hne : below ≠ fld := by
        intro e
        rw [e] at hty
        exact loose_ne_empty hl hty
      refine actRel_two s _ fld below
        (Field.del_hint { s.data fld with type := FT_EMPTY } HINT_FALL)
        (Field.set_hint { s.data below with type := (s.data fld).type }
          (HINT_FALL ||| HINT_SKIP)) hne rfl rfl rfl rfl rfl ?_ ?_ ?_
        (Act.fall_away _ hl)
        (Touch.fall_into _ (s.data fld).type hty (by simpa using hlv) hl)
      · simp [upd_data, hne, hne.symm]
      · simp [upd_data, hne, hne.symm]
      · intro j hj hjk
        simp [upd_data, hj, hjk]
    · simp only [Option.pure_def, Option.some.injEq] at hsw
      subst hsw
      exact stay
  all_goals
    repeat' split at hsw
    all_goals
      first
      | exact boom _ _ _ (loose_affected hl) hsw
      | exact boom _ _ _ (by simp [Field.affected_by_explosion, *]) hsw
      | exact roll_rel s u fld hl hsw
      | (simp only [Option.pure_def, Option.some.injEq] at hsw
         subst hsw
         exact stay)

theorem npc_forward_rel (s t : Level) (field next : Int) (dir ct : Direction) (moving : Bool)
    (hz : hazard (s.data field).type)
    (h : npc_forward s field next dir ct = some (t, moving)) :
    ActRel field s t ∧ (moving = false → hazard (t.data field).type) := by
  unfold npc_forward at h
  split at h
  · next hc =>
    split at h
    · next hty =>
      simp only [Option.pure_def, Option.some.injEq, Prod.mk.injEq] at h
      obtain ⟨h, hm⟩ := h
      subst h
      subst hm
      have hne : next ≠ field := by
        intro e
        rw [e] at hty
        exact hazard_ne_empty hz hty
      refine ⟨?_, by simp⟩
      refine actRel_two s _ field next
        (Field.set_hint { s.data field with type := FT_EMPTY } HINT_LEAVING)
        ((Field.set_hint { s.data next with type := (s.data field).type }
          (hint_from_direction dir ||| HINT_SKIP)).set_hint HINT_SKIP)
        hne rfl rfl rfl rfl rfl ?_ ?_ ?_
        (Act.npc_leave _ hz)
        (Touch.npc_into _ (s.data field).type dir hty (by simpa using hc.2) hz)
      · simp [upd_data, hne, hne.symm]
      · simp [upd_data, hne, hne.symm]
      · intro j hj hjk
        simp [upd_data, hj, hjk]
    · split at h
      · next hmu =>
        cases hu : explode_9 s next FT_EMPTY with
        | none => simp [hu] at h
        | some u =>
          simp only [hu, Option.bind_eq_bind, Option.some_bind, Option.pure_def,
            Option.some.injEq, Prod.mk.injEq] at h
          obtain ⟨h, hm⟩ := h
          subst h
          subst hm
          have hr := touchRel_trans (explode_9_rel s u next FT_EMPTY
            (by simp [Field.affected_by_explosion, hmu]) hu)
            (touchRel_upd u next (fun f => f.set_hint HINT_SKIP) (Touch.npc_skip _))
          refine ⟨touchRel_act field hr, fun _ => ?_⟩
          rw [touchPath_type_eq (hr.cells field) (hazard_ne_empty hz)]
          exact hz
      · simp only [Option.pure_def, Option.some.injEq, Prod.mk.injEq] at h
        obtain ⟨h, hm⟩ := h
        subst h
        subst hm
        have hr := touchRel_upd s next (fun f => f.set_hint HINT_SKIP) (Touch.npc_skip _)
        refine ⟨touchRel_act field hr, fun _ => ?_⟩
        rw [touchPath_type_eq (hr.cells field) (hazard_ne_empty hz)]
        exact hz
  · simp only [Option.pure_def, Option.some.injEq, Prod.mk.injEq] at h
    obtain ⟨h, hm⟩ := h
    subst h
    subst hm
    exact ⟨actRel_refl field s, fun _ => hz⟩

theorem move_npc_rel (s t : Level) (field : Int) (dir : Direction)
    (hz : hazard (s.data field).type) (h : move_npc s field dir = some t) :
    ActRel field s t := by
  unfold move_npc at h
  cases hct : can_turn s field dir with
  | none => simp [hct] at h
  | some ct =>
  simp only [hct, Option.bind_eq_bind, Option.some_bind] at h
  have h1 : ActRel field s (s.upd field (fun f => f.del_hint
      (HINT_TURN_LEFT ||| HINT_TURN_RIGHT ||| HINT_FROM_TOP ||| HINT_FROM_BOTTOM |||
        HINT_FROM_LEFT ||| HINT_FROM_RIGHT))) := actRel_upd s field _ (Act.npc_clear _ hz)
  have hz1 : hazard ((s.upd field (fun f => f.del_hint
      (HINT_TURN_LEFT ||| HINT_TURN_RIGHT ||| HINT_FROM_TOP ||| HINT_FROM_BOTTOM |||
        HINT_FROM_LEFT ||| HINT_FROM_RIGHT))).data field).type := by
    simpa using hz
  generalize s.upd field (fun f => f.del_hint
      (HINT_TURN_LEFT ||| HINT_TURN_RIGHT ||| HINT_FROM_TOP ||| HINT_FROM_BOTTOM |||
        HINT_FROM_LEFT ||| HINT_FROM_RIGHT)) = s1 at h h1 hz1
  cases hn : cell_ref (data_idx (next_point (s1.data field).coords dir)) with
  | none => simp [hn] at h
  | some next =>
  simp only [hn, Option.some_bind] at h
  cases hf : npc_forward s1 field next dir ct with
  | none => simp [hf] at h
  | some r =>
  obtain ⟨s2, moving⟩ := r
  simp only [hf, Option.some_bind] at h
  obtain ⟨h2, hz2⟩ := npc_forward_rel s1 s2 field next dir ct moving hz1 hf
  refine actRel_trans h1 (actRel_trans h2 ?_)
  cases moving with
  | true =>
    simp only [Bool.not_eq_true, Bool.true_eq_false, false_and, ↓reduceIte, not_false_eq_true,
      not_true_eq_false, Option.pure_def, Option.some.injEq] at h
    subst h
    exact actRel_refl field s2
  | false =>
    split at h
    · simp only [Option.pure_def, Option.some.injEq] at h
      subst h
      exact actRel_upd s2 field _ (Act.npc_turn_left _ _ (hz2 rfl))
    · simp only [Bool.not_eq_true, not_true_eq_false, not_false_eq_true, ↓reduceIte,
        Option.pure_def, Option.some.injEq] at h
      subst h
      exact actRel_upd s2 field _ (Act.npc_turn_right _ _ (hz2 rfl))

theorem upd_upd (s : Level) (i : Int) (g h : Field → Field) :
    (s.upd i g).upd i h = s.upd i (fun f => h (g f)) := by
  apply level_ext <;> try rfl
  intro j
  by_cases hj : j = i
  · subst hj
    simp
  · simp [hj]

theorem touch_has_hint_mono {f g : Field} (h : Touch f g) (b : Nat)
    (hb : f.has_hint b = true) : g.has_hint b = true := by
  cases h <;> simp [hb]

theorem touchPath_has_hint_mono {f g : Field} (h : TouchPath f g) (b : Nat)
    (hb : f.has_hint b = true) : g.has_hint b = true := by
  induction h with
  | refl => exact hb
  | tail _ hs ih => exact touch_has_hint_mono hs b ih

theorem touch_countdown_eq {f g : Field} (h : Touch f g) :
    g.countdown = f.countdown ∨ g.countdown = EXPLOSION_STEPS := by
  cases h <;> simp

theorem touchPath_countdown_eq {f g : Field} (h : TouchPath f g) :
    g.countdown = f.countdown ∨ g.countdown = EXPLOSION_STEPS := by
  induction h with
  | refl => exact Or.inl rfl
  | tail _ hs ih =>
    rcases touch_countdown_eq hs with h1 | h1
    · rcases ih with h2 | h2
      · exact Or.inl (h1.trans h2)
      · exact Or.inr (h1.trans h2)
    · exact Or.inr h1

theorem explosion_tick_rel (s t : Level) (i : Int)
    (hx : (s.data i).has_hint HINT_EXPLOSION = true ∨
      (s.data i).has_hint HINT_EXPLOSION_INFOTRON = true)
    (h : explosion_tick s i = some t) : ScanRel i s t := by
  unfold explosion_tick at h
  split at h
  · next hcd =>
    have key : ∀ u : Level, TouchRel s u →
        ScanRel i s ((u.upd i (fun f => { f with countdown := f.countdown - 1 })).upd i
          (fun f => f.set_hint HINT_SKIP)) := by
      intro u hu
      rw [upd_upd]
      refine scanRel_trans (touchRel_scan i hu) (scanRel_upd u i _ (Own.countdown _ ?_ ?_))
      · rcases hx with hx | hx
        · exact Or.inl (touchPath_has_hint_mono (hu.cells i) _ hx)
        · exact Or.inr (touchPath_has_hint_mono (hu.cells i) _ hx)
      · rcases touchPath_countdown_eq (hu.cells i) with hc | hc
        · rw [hc]; exact hcd
        · rw [hc]; decide
    split at h
    · split at h
      · next hex =>
        cases hu : explode_9 s i (s.data i).explodes_into with
        | none => simp [hu] at h
        | some u =>
          simp only [hu, Option.bind_eq_bind, Option.some_bind, Option.pure_def,
            Option.some.injEq] at h
          subst h
          refine key u (explode_9_rel s u i _ ?_ hu)
          unfold Field.explodes at hex
          unfold Field.affected_by_explosion
          split at hex <;> simp_all
      · simp only [Option.pure_def, Option.bind_eq_bind, Option.some_bind,
          Option.some.injEq] at h
        subst h
        exact key s (touchRel_refl s)
    · simp only [Option.pure_def, Option.bind_eq_bind, Option.some_bind,
        Option.some.injEq] at h
      subst h
      exact key s (touchRel_refl s)
  · next hcd =>
    simp only [Option.pure_def, Option.some.injEq] at h
    subst h
    split
    · next he =>
      rw [upd_upd, upd_upd]
      exact scanRel_upd s i _ (Own.resolve_empty _ he (by omega))
    · next he =>
      split
      · next he2 =>
        rw [upd_upd, upd_upd]
        exact scanRel_upd s i _ (Own.resolve_infotron _ (by simpa using he) he2 (by omega))
      · next he2 =>
        rcases hx with hx | hx
        · exact absurd hx he
        · exact absurd hx he2

theorem dispatch_rel (s t : Level) (i : Int) (dir : Direction)
    (h : dispatch s i dir = some t) : ActRel i s t := by
  unfold dispatch at h
  split at h
  · split at h
    · next hty => exact fall_rel s t i false (Or.inl hty) h
    · next hty => exact fall_rel s t i false (Or.inr (Or.inl hty)) h
    · next hty => exact fall_rel s t i true (Or.inr (Or.inr hty)) h
    · next hty => exact move_npc_rel s t i dir (Or.inl hty) h
    · next hty => exact move_npc_rel s t i dir (Or.inr hty) h
    · simp only [Option.pure_def, Option.some.injEq] at h
      subst h
      exact actRel_refl i s
  · simp only [Option.pure_def, Option.some.injEq] at h
    subst h
    exact actRel_refl i s

theorem scan_cell_skip (s : Level) (i : Int) (h : (s.data i).has_hint HINT_SKIP = true) :
    scan_cell s i = some s := by
  unfold scan_cell
  rw [if_pos h]
  rfl

theorem scan_cell_rel (s t : Level) (i : Int) (h : scan_cell s i = some t) :
    ScanRel i s t := by
  unfold scan_cell at h
  split at h
  · simp only [Option.pure_def, Option.some.injEq] at h
    subst h
    exact scanRel_refl i s
  · simp only [Option.bind_eq_bind] at h
    have h1 : ScanRel i s (if (s.data i).type ≠ FT_SNIK_SNAK ∧ (s.data i).type ≠ FT_STARS then
        s.upd i (fun f => f.del_hint
          (HINT_FROM_BOTTOM ||| HINT_FROM_TOP ||| HINT_FROM_RIGHT ||| HINT_FROM_LEFT))
        else s) := by
      split
      · next hc => exact scanRel_upd s i _ (Own.clear_from _ hc.1 hc.2)
      · exact scanRel_refl i s
    generalize (if (s.data i).type ≠ FT_SNIK_SNAK ∧ (s.data i).type ≠ FT_STARS then
        s.upd i (fun f => f.del_hint
          (HINT_FROM_BOTTOM ||| HINT_FROM_TOP ||| HINT_FROM_RIGHT ||| HINT_FROM_LEFT))
        else s) = s1 at h h1
    have h2 : ScanRel i s1 (s1.upd i (fun f => f.del_hint
        (HINT_WAS_BASE ||| HINT_WAS_INFOTRON ||| HINT_WAS_RED_DISK))) :=
      scanRel_upd s1 i _ (Own.clear_was _)
    generalize s1.upd i (fun f => f.del_hint
        (HINT_WAS_BASE ||| HINT_WAS_INFOTRON ||| HINT_WAS_RED_DISK)) = s2 at h h2
    split at h
    · next hx =>
      cases h3 : explosion_tick s2 i with
      | none => simp [h3] at h
      | some s3 =>
        simp only [h3, Option.some_bind] at h
        exact scanRel_trans h1 (scanRel_trans h2 (scanRel_trans (explosion_tick_rel s2 s3 i hx h3)
          (actRel_scan (dispatch_rel s3 t i _ h))))
    · simp only [Option.pure_def, Option.some_bind] at h
      exact scanRel_trans h1 (scanRel_trans h2 (actRel_scan (dispatch_rel s2 t i _ h)))

/-! ## The scan loop and the decomposition of `game_step` -/

theorem foldlM_nil_some {α σ : Type} (f : σ → α → Option σ) (s : σ) :
    List.foldlM f s [] = some s := rfl

theorem foldlM_cons_some {α σ : Type} (f : σ → α → Option σ) (s t : σ) (a : α) (l : List α) :
    List.foldlM f s (a :: l) = some t ↔ ∃ u, f s a = some u ∧ List.foldlM f u l = some t := by
  rw [List.foldlM_cons]
  cases h : f s a with
  | none => simp
  | some u => simp

/-- A property of a cell that every write of the scan keeps is kept by the scan of
any list of cells. The writes of `Own` need not keep it if it implies the skip
flag (a skipped cell is not processed). -/
theorem scan_preserves (P : Field → Prop) (hT : ∀ f g, Touch f g → P f → P g)
    (hO : (∀ f g, Own f g → P f → P g) ∨ (∀ f, P f → f.has_hint HINT_SKIP = true))
    (l : List Int) (s t : Level) (h : l.foldlM scan_cell s = some t) (j : Int)
    (hj : P (s.data j)) : P (t.data j) := by
  have hTP : ∀ f g, TouchPath f g → P f → P g := by
    intro f g hp
    induction hp with
    | refl => exact id
    | tail _ hs ih => exact fun hf => hT _ _ hs (ih hf)
  induction l generalizing s with
  | nil =>
    simp only [List.foldlM_nil, Option.pure_def, Option.some.injEq] at h
    subst h
    exact hj
  | cons a l ih =>
    rw [foldlM_cons_some] at h
    obtain ⟨u, hu, hrest⟩ := h
    refine ih u hrest ?_
    by_cases hja : j = a
    · subst hja
      rcases hO with hO | hO
      · have hOP : ∀ f g, OwnPath f g → P f → P g := by
          intro f g hp
          induction hp with
          | refl => exact id
          | tail _ hs ih2 => exact fun hf => hO _ _ hs (ih2 hf)
        exact hOP _ _ (scan_cell_rel s u j hu).own hj
      · rw [scan_cell_skip s j (hO _ hj)] at hu
        simp only [Option.some.injEq] at hu
        subst hu
        exact hj
    · exact hTP _ _ ((scan_cell_rel s u a hu).cells j hja) hj

/-- The scan changes neither the cached player position nor the pending intent, and
never revives the player. -/
theorem scan_globals (l : List Int) (s t : Level) (h : l.foldlM scan_cell s = some t) :
    t.murphy = s.murphy ∧ t.next_move = s.next_move ∧
      (t.murphy_alive = true → s.murphy_alive = true) := by
  induction l generalizing s with
  | nil =>
    simp only [List.foldlM_nil, Option.pure_def, Option.some.injEq] at h
    subst h
    exact ⟨rfl, rfl, id⟩
  | cons a l ih =>
    rw [foldlM_cons_some] at h
    obtain ⟨u, hu, hrest⟩ := h
    obtain ⟨h1, h2, h3⟩ := ih u hrest
    have hr := scan_cell_rel s u a hu
    exact ⟨h1.trans hr.murphy, h2.trans hr.next_move, fun h => hr.alive (h3 h)⟩

theorem clear_leaving_eq (s : Level) :
    cells.foldl clear_leaving_cell s = s.map_cells leaving_cleared := by
  have : clear_leaving_cell = fun s i => s.upd i leaving_cleared := by
    funext s i
    exact clear_leaving_cell_eq s i
  rw [this]
  exact foldl_upd_eq leaving_cleared leaving_cleared_idem s

theorem game_step_eq (s : Level) :
    game_step s = (move_phase s).bind (fun s1 =>
      (cells.foldlM scan_cell (before_scan s1)).bind (fun s4 =>
        some (after_scan s4, (after_scan s4).murphy_alive))) := by
  unfold game_step move_phase before_scan after_scan
  simp only [Option.bind_eq_bind, Option.pure_def, clear_leaving_eq, clear_skip_eq]
  split <;> rfl

theorem game_step_some (s t : Level) (r : Bool) :
    game_step s = some (t, r) ↔ ∃ s1 s4, move_phase s = some s1 ∧
      cells.foldlM scan_cell (before_scan s1) = some s4 ∧ t = after_scan s4 ∧
      r = s4.murphy_alive := by
  rw [game_step_eq]
  constructor
  · intro h
    cases h1 : move_phase s with
    | none => simp [h1] at h
    | some s1 =>
      cases h4 : cells.foldlM scan_cell (before_scan s1) with
      | none => simp [h1, h4] at h
      | some s4 =>
        simp only [h1, h4, Option.some_bind, Option.some.injEq, Prod.mk.injEq] at h
        exact ⟨s1, s4, rfl, h4, h.1.symm, h.2.symm⟩
  · rintro ⟨s1, s4, h1, h4, rfl, rfl⟩
    simp [h1, h4, after_scan, Level.map_cells]

/-! ## Walls are inert: the scan of a sparse level visits only its active cells -/

theorem wall_has_hint_of_ne_skip {f : Field} (h : wall f) (b : Nat) (hb : b &&& 1 = 0) :
    f.has_hint b = false := by
  rcases h.2 with h0 | h1
  · simp [Field.has_hint, h0]
  · simp only [Field.has_hint, h1, Nat.and_comm 1 b, hb]
    simp

theorem wall_set_skip {f : Field} (h : wall f) : wall (f.set_hint HINT_SKIP) := by
  refine ⟨h.1, ?_⟩
  rcases h.2 with h0 | h1
  · right; simp [Field.set_hint, h0, HINT_SKIP]
  · right; simp [Field.set_hint, h1, HINT_SKIP]

theorem wall_del_hint {f : Field} (h : wall f) (a : Nat) (ha : a &&& 1 = 0) (ha2 : a < 4294967296) :
    f.del_hint a = f := by
  have h1 : (1 : Nat) &&& (4294967295 - a) = 1 := by
    apply Nat.eq_of_testBit_eq
    intro i
    have hbit := congrArg (fun n => Nat.testBit n i) ha
    simp only [Nat.testBit_and, Nat.zero_testBit] at hbit
    rw [Nat.testBit_and]
    cases i with
    | zero =>
      simp only [Nat.testBit_zero] at hbit ⊢
      have : a % 2 = 0 := by
        by_contra hc
        have : a % 2 = 1 := by omega
        simp [this] at hbit
      have : (4294967295 - a) % 2 = 1 := by omega
      simp [this]
    | succ k =>
      have : Nat.testBit 1 (k + 1) = false := by
        rw [Nat.testBit_succ]
        simp
      simp [this]
  cases f with
  | mk c t hint k =>
    simp only [wall] at h
    simp only [Field.del_hint, Field.mk.injEq, true_and]
    rcases h.2 with h0 | h0
    · rw [h0]; simp
    · rw [h0]; exact ⟨h1, trivial⟩

theorem touch_wall {f g : Field} (h : Touch f g) (hw : wall f) : wall g := by
  cases h with
  | origin hf => simp [Field.affected_by_explosion, hw.1] at hf
  | explode hf => simp [Field.affected_by_explosion, hw.1] at hf
  | explode_infotron hf => simp [Field.affected_by_explosion, hw.1] at hf
  | fall_into t ht => simp [hw.1] at ht
  | roll_into_left t ht => simp [hw.1] at ht
  | roll_into_right t ht => simp [hw.1] at ht
  | npc_into t d ht => simp [hw.1] at ht
  | npc_skip => exact wall_set_skip hw

theorem act_wall {f g : Field} (h : Act f g) (hw : wall f) : wall g := by
  cases h with
  | touch _ ht => exact touch_wall ht hw
  | fall_away hl => rcases hl with h | h | h <;> simp [hw.1] at h
  | fall_stay hl => rcases hl with h | h | h <;> simp [hw.1] at h
  | npc_clear hz => rcases hz with h | h <;> simp [hw.1] at h
  | npc_leave hz => rcases hz with h | h <;> simp [hw.1] at h
  | npc_turn_left d hz => rcases hz with h | h <;> simp [hw.1] at h
  | npc_turn_right d hz => rcases hz with h | h <;> simp [hw.1] at h

theorem own_wall {f g : Field} (h : Own f g) (hw : wall f) : wall g := by
  cases h with
  | act _ ha => exact act_wall ha hw
  | clear_from => rw [wall_del_hint hw _ (by decide) (by decide)]; exact hw
  | clear_was => rw [wall_del_hint hw _ (by decide) (by decide)]; exact hw
  | countdown hx =>
    rw [wall_has_hint_of_ne_skip hw _ (by decide), wall_has_hint_of_ne_skip hw _ (by decide)] at hx
    simp at hx
  | resolve_empty hx => rw [wall_has_hint_of_ne_skip hw _ (by decide)] at hx; simp at hx
  | resolve_infotron _ hx => rw [wall_has_hint_of_ne_skip hw _ (by decide)] at hx; simp at hx

/-- The scan of a wall cell changes nothing. -/
theorem scan_cell_wall (s : Level) (i : Int) (hw : wall (s.data i)) : scan_cell s i = some s := by
  by_cases hs : (s.data i).has_hint HINT_SKIP = true
  · exact scan_cell_skip s i hs
  · unfold scan_cell
    rw [if_neg hs]
    have h1 : (s.data i).type ≠ FT_SNIK_SNAK ∧ (s.data i).type ≠ FT_STARS := by
      simp [hw.1]
    simp only [Option.bind_eq_bind, if_pos h1]
    rw [upd_self s i _ (wall_del_hint hw _ (by decide) (by decide)),
      upd_self s i _ (wall_del_hint hw _ (by decide) (by decide))]
    have h2 : ¬ ((s.data i).has_hint HINT_EXPLOSION = true ∨
        (s.data i).has_hint HINT_EXPLOSION_INFOTRON = true) := by
      rw [wall_has_hint_of_ne_skip hw _ (by decide), wall_has_hint_of_ne_skip hw _ (by decide)]
      simp
    rw [if_neg h2]
    simp only [Option.pure_def, Option.some_bind]
    unfold dispatch
    rw [if_pos hs]
    simp [hw.1]

/-- The scan of a list of cells visits, in effect, only the cells that are not
walls: cells outside `p` are walls and stay walls. -/
theorem scan_filter (p : Int → Bool) (l : List Int) (s : Level)
    (hw : ∀ j ∈ l, p j = false → wall (s.data j)) :
    l.foldlM scan_cell s = (l.filter p).foldlM scan_cell s := by
  induction l generalizing s with
  | nil => rfl
  | cons a l ih =>
    cases hp : p a with
    | false =>
      rw [List.filter_cons_of_neg (by simp [hp]), List.foldlM_cons,
        scan_cell_wall s a (hw a (List.mem_cons_self a l) hp)]
      exact ih s (fun j hj => hw j (List.mem_cons_of_mem a hj))
    | true =>
      rw [List.filter_cons_of_pos (by simp [hp]), List.foldlM_cons, List.foldlM_cons]
      cases hu : scan_cell s a with
      | none => rfl
      | some u =>
        simp only [Option.bind_eq_bind, Option.some_bind]
        refine ih u (fun j hj hpj => ?_)
        have hwj := hw j (List.mem_cons_of_mem a hj) hpj
        have hr := scan_cell_rel s u a hu
        by_cases hja : j = a
        · rw [hja] at hpj
          rw [hp] at hpj
          exact absurd hpj (by simp)
        · have hTP : ∀ f g, TouchPath f g → wall f → wall g := by
            intro f g hfg
            induction hfg with
            | refl => exact id
            | tail _ hs ih2 => exact fun hf => touch_wall hs (ih2 hf)
          exact hTP _ _ (hr.cells j hja) hwj

theorem mem_seg (lo : Int) (n : Nat) (j : Int) : j ∈ seg lo n ↔ lo ≤ j ∧ j < lo + n := by
  induction n generalizing lo with
  | zero => simp [seg]
  | succ n ih =>
    simp only [seg, List.mem_cons, ih]
    push_cast
    omega

theorem cells_eq_seg : cells = seg 0 1440 := by
  have key : ∀ (n : Nat) (lo : Nat), (List.range' lo n).map Int.ofNat = seg (lo : Int) n := by
    intro n
    induction n with
    | zero => intro lo; rfl
    | succ n ih =>
      intro lo
      simp only [List.range'_succ, List.map_cons, seg, Int.ofNat_eq_coe]
      rw [ih (lo + 1)]
      rfl
  unfold cells
  rw [List.range_eq_range']
  exact key 1440 0

/-- Filtering a segment of cells by membership in an increasing list of cells of
that segment yields the list. -/
theorem filter_seg (n : Nat) (lo : Int) (act : List Int)
    (hs : act.Pairwise (fun a b => a < b)) (hb : ∀ a ∈ act, lo ≤ a ∧ a < lo + n) :
    (seg lo n).filter (fun i => decide (i ∈ act)) = act := by
  induction n generalizing lo act with
  | zero =>
    cases act with
    | nil => rfl
    | cons a r =>
      have := hb a (List.mem_cons_self a r)
      simp at this
      omega
  | succ n ih =>
    cases act with
    | nil => simp
    | cons a r =>
      have ha := hb a (List.mem_cons_self a r)
      rw [List.pairwise_cons] at hs
      simp only [seg]
      by_cases hal : a = lo
      · subst hal
        rw [List.filter_cons_of_pos (by simp)]
        congr 1
        have hfil : (seg (a + 1) n).filter (fun i => decide (i ∈ a :: r)) =
            (seg (a + 1) n).filter (fun i => decide (i ∈ r)) := by
          apply List.filter_congr
          intro j hj
          rw [mem_seg] at hj
          have : j ≠ a := by omega
          simp [this]
        rw [hfil]
        apply ih (a + 1) r hs.2
        intro b hbr
        have h1 := hs.1 b hbr
        have h2 := hb b (List.mem_cons_of_mem a hbr)
        push_cast at h2
        omega
      · have hlo : lo ∉ a :: r := by
          intro hmem
          rcases List.mem_cons.mp hmem with h | h
          · exact hal h.symm
          · have := hs.1 lo h
            omega
        rw [List.filter_cons_of_neg (by simpa using hlo)]
        apply ih (lo + 1) (a :: r) (List.pairwise_cons.mpr hs)
        intro b hbr
        have h2 := hb b hbr
        push_cast at h2
        rcases List.mem_cons.mp hbr with h | h
        · subst h; omega
        · have := hs.1 b h
          omega

/-- In a level whose cells outside the increasing list `act` are walls, the scan of
the whole grid is the scan of `act`. -/
theorem scan_sparse (act : List Int) (hs : act.Pairwise (fun a b => a < b))
    (hg : ∀ a ∈ act, in_grid a) (s : Level)
    (hw : ∀ j, in_grid j → j ∉ act → wall (s.data j)) :
    cells.foldlM scan_cell s = act.foldlM scan_cell s := by
  rw [scan_filter (fun i => decide (i ∈ act)) cells s
    (fun j hj hp => hw j ((mem_cells j).mp hj) (by simpa using hp))]
  rw [cells_eq_seg, filter_seg 1440 0 act hs]
  intro a ha
  have := hg a ha
  unfold in_grid LEVEL_WIDTH LEVEL_HEIGHT at this
  omega

/-! ## Movement resolution stays within `Moved` and `MovedOwn` -/

theorem killRel_refl (s : Level) : KillRel s s := ⟨s.murphy_alive, rfl, id⟩

theorem killRel_trans (s t u : Level) (h1 : KillRel s t) (h2 : KillRel t u) : KillRel s u := by
  obtain ⟨a, rfl, ha⟩ := h1
  obtain ⟨b, rfl, hb⟩ := h2
  exact ⟨b, rfl, fun h => ha (hb h)⟩

theorem explode_cell_base (s t : Level) (p : Point) (h : explode_cell FT_BASE s p = some t) :
    KillRel s t := by
  unfold explode_cell at h
  cases hr : cell_ref (data_idx p) with
  | none => simp [hr] at h
  | some fld =>
    simp only [hr, Option.bind_eq_bind, Option.some_bind, Option.pure_def, Option.some.injEq,
      reduceCtorEq, ↓reduceIte, ite_self] at h
    subst h
    split
    · exact ⟨false, rfl, fun h => absurd h (by simp)⟩
    · exact killRel_refl s

/-- An explosion with fill `FT_BASE` (the fill the movement phase passes) marks the
origin and may kill the player; it flags no cell as exploding. -/
theorem explode_9_base (s t : Level) (origin : Int) (h : explode_9 s origin FT_BASE = some t) :
    KillRel (s.upd origin (fun f => f.set_hint HINT_EXPLOSION_ORIGIN)) t := by
  unfold explode_9 at h
  refine foldlM_rel KillRel killRel_refl killRel_trans _ ?_ _ _ _ h
  intro u y v hv
  refine foldlM_rel KillRel killRel_refl killRel_trans _ ?_ _ _ _ hv
  intro u2 x v2 hv2
  exact explode_cell_base u2 v2 _ hv2

theorem movedPath_refl (f : Field) : MovedPath f f := Relation.ReflTransGen.refl

theorem movedPath_single {f g : Field} (h : Moved f g) : MovedPath f g :=
  Relation.ReflTransGen.single h

theorem movedPath_trans {f g h : Field} (a : MovedPath f g) (b : MovedPath g h) :
    MovedPath f h := Relation.ReflTransGen.trans a b

theorem movedOwnPath_refl (f : Field) : MovedOwnPath f f := Relation.ReflTransGen.refl

theorem movedOwnPath_single {f g : Field} (h : MovedOwn f g) : MovedOwnPath f g :=
  Relation.ReflTransGen.single h

theorem movedOwnPath_trans {f g h : Field} (a : MovedOwnPath f g) (b : MovedOwnPath g h) :
    MovedOwnPath f h := Relation.ReflTransGen.trans a b

theorem pushedPath_refl (f : Field) : PushedPath f f := Relation.ReflTransGen.refl

theorem pushedPath_single {f g : Field} (h : Pushed f g) : PushedPath f g :=
  Relation.ReflTransGen.single h

theorem pushedPath_trans {f g h : Field} (a : PushedPath f g) (b : PushedPath g h) :
    PushedPath f h := Relation.ReflTransGen.trans a b

theorem movedPath_pushed {f g : Field} (h : MovedPath f g) : PushedPath f g :=
  Relation.ReflTransGen.mono (fun a b hab => Pushed.moved a b hab) h

theorem pushedPath_own {f g : Field} (h : PushedPath f g) : MovedOwnPath f g :=
  Relation.ReflTransGen.mono (fun a b hab => MovedOwn.pushed a b hab) h

theorem movedPath_own {f g : Field} (h : MovedPath f g) : MovedOwnPath f g :=
  pushedPath_own (movedPath_pushed h)

theorem targetRel_refl (m : Int) (s : Level) : TargetRel m s s :=
  ⟨rfl, rfl, rfl, rfl, id, fun _ _ => movedPath_refl _, pushedPath_refl _⟩

theorem targetRel_trans {m : Int} {s t u : Level} (a : TargetRel m s t) (b : TargetRel m t u) :
    TargetRel m s u :=
  ⟨b.murphy.trans a.murphy, b.next_move.trans a.next_move, b.gravitation.trans a.gravitation,
    b.freeze_zonks.trans a.freeze_zonks, fun h => a.alive (b.alive h),
    fun j hj => movedPath_trans (a.cells j hj) (b.cells j hj), pushedPath_trans a.own b.own⟩

theorem targetRel_upd (m : Int) (s : Level) (j : Int) (g : Field → Field)
    (h : Moved (s.data j) (g (s.data j))) : TargetRel m s (s.upd j g) := by
  refine ⟨rfl, rfl, rfl, rfl, id, fun k _ => ?_, ?_⟩
  · rw [upd_data]
    split
    · next hk => subst hk; exact movedPath_single h
    · exact movedPath_refl _
  · rw [upd_data]
    split
    · next hk => subst hk; exact pushedPath_single (Pushed.moved _ _ h)
    · exact pushedPath_refl _

theorem targetRel_upd_own (m : Int) (s : Level) (g : Field → Field)
    (h : Pushed (s.data m) (g (s.data m))) : TargetRel m s (s.upd m g) := by
  refine ⟨rfl, rfl, rfl, rfl, id, fun k hk => ?_, ?_⟩
  · rw [upd_data_ne _ _ _ _ hk]
    exact movedPath_refl _
  · rw [upd_data_same]
    exact pushedPath_single h

theorem targetRel_kill {m : Int} {s t : Level} (h : KillRel s t) : TargetRel m s t := by
  obtain ⟨a, rfl, ha⟩ := h
  exact ⟨rfl, rfl, rfl, rfl, ha, fun _ _ => movedPath_refl _, pushedPath_refl _⟩

theorem targetRel_move {m : Int} {s t : Level} (a : TargetRel m s t) : MoveRel m s t :=
  ⟨a.murphy, a.next_move, a.gravitation, a.freeze_zonks, a.alive, a.cells, pushedPath_own a.own⟩

theorem moveRel_refl (m : Int) (s : Level) : MoveRel m s s :=
  ⟨rfl, rfl, rfl, rfl, id, fun _ _ => movedPath_refl _, movedOwnPath_refl _⟩

theorem moveRel_trans {m : Int} {s t u : Level} (a : MoveRel m s t) (b : MoveRel m t u) :
    MoveRel m s u :=
  ⟨b.murphy.trans a.murphy, b.next_move.trans a.next_move, b.gravitation.trans a.gravitation,
    b.freeze_zonks.trans a.freeze_zonks, fun h => a.alive (b.alive h),
    fun j hj => movedPath_trans (a.cells j hj) (b.cells j hj), movedOwnPath_trans a.own b.own⟩

/-- One write to a cell: a `MovedOwn` write if the cell is the player's, a `Moved`
write in any case. -/
theorem moveRel_upd (m : Int) (s : Level) (j : Int) (g : Field → Field)
    (h : Moved (s.data j) (g (s.data j))) : MoveRel m s (s.upd j g) := by
  refine ⟨rfl, rfl, rfl, rfl, id, fun k _ => ?_, ?_⟩
  · rw [upd_data]
    split
    · next hk => subst hk; exact movedPath_single h
    · exact movedPath_refl _
  · rw [upd_data]
    split
    · next hk => subst hk; exact movedOwnPath_single (MovedOwn.pushed _ _ (Pushed.moved _ _ h))
    · exact movedOwnPath_refl _

theorem moveRel_upd_own (m : Int) (s : Level) (g : Field → Field)
    (h : MovedOwn (s.data m) (g (s.data m))) : MoveRel m s (s.upd m g) := by
  refine ⟨rfl, rfl, rfl, rfl, id, fun k hk => ?_, ?_⟩
  · rw [upd_data_ne _ _ _ _ hk]
    exact movedPath_refl _
  · rw [upd_data_same]
    exact movedOwnPath_single h

theorem moveRel_kill {m : Int} {s t : Level} (h : KillRel s t) : MoveRel m s t := by
  obtain ⟨a, rfl, ha⟩ := h
  exact ⟨rfl, rfl, rfl, rfl, ha, fun _ _ => movedPath_refl _, movedOwnPath_refl _⟩

theorem pushable_enterable {t : FieldType} (h : pushable t) : enterable t :=
  Or.inr (Or.inr (Or.inr (Or.inr h)))

theorem enter_free_rel (s t : Level) (fld m : Int) (allow : Bool)
    (he : (s.data fld).type = FT_EMPTY ∨ (s.data fld).type = FT_BASE)
    (h : enter_free s fld m = some (t, allow)) :
    TargetRel m s t ∧ (t.data fld).type = (s.data fld).type := by
  unfold enter_free at h
  split at h
  · cases hu : explode_9 s fld FT_BASE with
    | none => simp [hu] at h
    | some u =>
      simp only [hu, Option.bind_eq_bind, Option.some_bind, Option.pure_def, Option.some.injEq,
        Prod.mk.injEq] at h
      obtain ⟨h, -⟩ := h
      subst h
      have hk := explode_9_base s u fld hu
      refine ⟨targetRel_trans (targetRel_upd m s fld _ (Moved.origin _ ?_)) (targetRel_kill hk), ?_⟩
      · rcases he with he | he
        · exact Or.inl he
        · exact Or.inr (Or.inl he)
      · obtain ⟨a, rfl, -⟩ := hk
        simp
  · simp only [Option.pure_def, Option.some.injEq, Prod.mk.injEq] at h
    obtain ⟨h, -⟩ := h
    subst h
    exact ⟨targetRel_refl m s, rfl⟩

/-- Two steps in one direction never come back to the index of the start, unless a
step was clamped. -/
theorem next_point_twice (p : Point) (d : Direction) :
    next_point (next_point p d) d = next_point p d ∨ next_point p d = p ∨
      data_idx (next_point (next_point p d) d) ≠ data_idx p := by
  cases d <;> simp only [next_point, data_idx, LEVEL_WIDTH, LEVEL_HEIGHT]
  · left; trivial
  all_goals
    split
    · split
      · right; right; simp only; omega
      · left; rfl
    · right; left; rfl

theorem push_rel (s t : Level) (next : Point) (fld m : Int) (allow : Bool)
    (hp : pushable (s.data fld).type) (hnext : next = next_point s.murphy s.next_move)
    (hfld : fld = data_idx next) (hm : m = data_idx s.murphy)
    (hnp : (s.data m).has_hint HINT_PUSH = false)
    (h : push s next fld m = some (t, allow)) :
    TargetRel m s t ∧ (t.data fld).type = (s.data fld).type := by
  unfold push at h
  split at h
  · cases hu : explode_9 s fld FT_BASE with
    | none => simp [hu] at h
    | some u =>
      simp only [hu, Option.bind_eq_bind, Option.some_bind, Option.pure_def, Option.some.injEq,
        Prod.mk.injEq] at h
      obtain ⟨h, -⟩ := h
      subst h
      have hk := explode_9_base s u fld hu
      refine ⟨targetRel_trans (targetRel_upd m s fld _ (Moved.origin _ (pushable_enterable hp)))
        (targetRel_kill hk), ?_⟩
      obtain ⟨a, rfl, -⟩ := hk
      simp
  · split at h
    · cases hmore : cell_ref (data_idx (next_point next s.next_move)) with
      | none => simp [hmore] at h
      | some fld_more =>
        simp only [hmore, Option.bind_eq_bind, Option.some_bind] at h
        split at h
        · next hc =>
          have hmf : fld_more ≠ fld := by
            intro e
            rw [e] at hc
            rcases hp with hp | hp | hp <;> simp [hp] at hc
          have hmm : fld_more ≠ m := by
            intro e
            have h1 := (cell_ref_eq_some hmore).1
            rcases next_point_twice s.murphy s.next_move with h2 | h2 | h2
            · rw [hnext, h2, ← hnext, ← hfld] at h1
              exact hmf h1
            · rw [hnext, h2, h2, ← hm] at h1
              rw [hnext, h2, ← hm] at hfld
              exact hmf (h1.trans hfld.symm)
            · rw [hnext, e, hm] at h1
              exact h2 h1.symm
          split at h
          · next hcd =>
            simp only [Option.pure_def, Option.some.injEq, Prod.mk.injEq] at h
            obtain ⟨h, -⟩ := h
            subst h
            refine ⟨⟨rfl, rfl, rfl, rfl, id, fun j hj => ?_, ?_⟩, ?_⟩
            · by_cases hjm : j = fld_more
              · subst hjm
                simp only [upd_data, hmm, hmm.symm, ↓reduceIte]
                refine movedPath_single (Moved.pushed_into _ _ s.next_move hc.1
                  (by simpa using hc.2) ?_)
                split
                · next e => rw [← e]; exact hp
                · exact hp
              · simp only [upd_data, hj, hjm, ↓reduceIte]
                exact movedPath_refl _
            · simp only [upd_data, hmm, hmm.symm, ↓reduceIte]
              exact pushedPath_single (Pushed.push_go _ hnp (by simpa using hcd))
            · by_cases hfm : fld = m
              · simp [upd_data, hmf, hmf.symm, hfm, hmm.symm]
              · simp [upd_data, hmf, hmf.symm, hfm]
          · next hcd =>
            simp only [Option.pure_def, Option.some.injEq, Prod.mk.injEq] at h
            obtain ⟨h, -⟩ := h
            subst h
            rw [upd_upd]
            refine ⟨targetRel_upd_own m s _ (Pushed.push_arm _ hnp (by simpa using hcd)), ?_⟩
            by_cases hfm : fld = m
            · subst hfm; simp
            · simp [hfm]
        · simp only [Option.pure_def, Option.some.injEq, Prod.mk.injEq] at h
          obtain ⟨h, -⟩ := h
          subst h
          exact ⟨targetRel_refl m s, rfl⟩
    · simp only [Option.pure_def, Option.some.injEq, Prod.mk.injEq] at h
      obtain ⟨h, -⟩ := h
      subst h
      exact ⟨targetRel_refl m s, rfl⟩

theorem target_switch_rel (s t : Level) (next : Point) (fld m : Int) (allow : Bool)
    (hnext : next = next_point s.murphy s.next_move)
    (hfld : fld = data_idx next) (hm : m = data_idx s.murphy)
    (hnp : (s.data m).has_hint HINT_PUSH = false)
    (h : target_switch s next fld m = some (t, allow)) :
    TargetRel m s t ∧ (allow = true → enterable (t.data fld).type) := by
  unfold target_switch at h
  split at h
  · next hty =>
    have h0 : TargetRel m s (s.upd fld (fun f => f.set_hint HINT_WAS_BASE)) :=
      targetRel_upd m s fld _ (Moved.was_base _ hty)
    obtain ⟨h1, h3⟩ := enter_free_rel _ t fld m allow (Or.inr (by simpa using hty)) h
    refine ⟨targetRel_trans h0 h1, fun _ => ?_⟩
    rw [h3]
    simp [enterable, hty]
  · next hty =>
    obtain ⟨h1, h3⟩ := enter_free_rel _ t fld m allow (Or.inl hty) h
    refine ⟨h1, fun _ => ?_⟩
    rw [h3]
    simp [enterable, hty]
  · next hty =>
    simp only [Option.pure_def, Option.some.injEq, Prod.mk.injEq] at h
    obtain ⟨h, -⟩ := h
    subst h
    exact ⟨targetRel_upd m s fld _ (Moved.was_infotron _ hty),
      fun _ => by simp [enterable, hty]⟩
  · next hty =>
    simp only [Option.pure_def, Option.some.injEq, Prod.mk.injEq] at h
    obtain ⟨h, -⟩ := h
    subst h
    exact ⟨targetRel_upd m s fld _ (Moved.was_red_disk _ hty),
      fun _ => by simp [enterable, hty]⟩
  · next hty =>
    have hp : pushable (s.data fld).type := Or.inl hty
    obtain ⟨h1, h3⟩ := push_rel s t next fld m allow hp hnext hfld hm hnp h
    exact ⟨h1, fun _ => by rw [h3]; exact pushable_enterable hp⟩
  · next hty =>
    have hp : pushable (s.data fld).type := Or.inr (Or.inl hty)
    obtain ⟨h1, h3⟩ := push_rel s t next fld m allow hp hnext hfld hm hnp h
    exact ⟨h1, fun _ => by rw [h3]; exact pushable_enterable hp⟩
  · next hty =>
    have hp : pushable (s.data fld).type := Or.inr (Or.inr hty)
    obtain ⟨h1, h3⟩ := push_rel s t next fld m allow hp hnext hfld hm hnp h
    exact ⟨h1, fun _ => by rw [h3]; exact pushable_enterable hp⟩
  · simp only [Option.pure_def, Option.some.injEq, Prod.mk.injEq] at h
    obtain ⟨h, ha⟩ := h
    subst h
    subst ha
    exact ⟨targetRel_refl m s, fun h => absurd h (by simp)⟩

theorem commit_move_eq (s : Level) (next : Point) (fld : Int)
    (hm : in_grid (data_idx s.murphy)) :
    commit_move s next fld = some (committed s next fld) := by
  unfold commit_move committed
  rw [cell_ref_of_in_grid hm]
  rfl

theorem commit_move_some (s t : Level) (next : Point) (fld : Int)
    (h : commit_move s next fld = some t) : t = committed s next fld := by
  cases ho : cell_ref (data_idx s.murphy) with
  | none =>
    unfold commit_move at h
    simp [ho] at h
  | some origin =>
    rw [commit_move_eq s next fld (cell_ref_eq_some ho).2] at h
    exact (Option.some.inj h).symm

/-- Movement resolution, decomposed: the push flag is deleted from the player's cell,
the target switch runs (`s2`), the push countdown is reset unless a push was
attempted (`s3`), and the move is committed when it is allowed. -/
theorem resolve_move_parts (s t : Level) (h : resolve_move s = some t) :
    in_grid (data_idx s.murphy) ∧ in_grid (data_idx (next_point s.murphy s.next_move)) ∧
    ∃ s2 s3 : Level,
      TargetRel (data_idx s.murphy) (s.upd (data_idx s.murphy) (fun f => f.del_hint HINT_PUSH))
        s2 ∧
      s3 = (if ¬ (s2.data (data_idx s.murphy)).has_hint HINT_PUSH = true then
        s2.upd (data_idx s.murphy) (fun f => { f with countdown := 0 }) else s2) ∧
      (t = s3 ∨
        (enterable (s3.data (data_idx (next_point s.murphy s.next_move))).type ∧
          t = committed s3 (next_point s.murphy s.next_move)
            (data_idx (next_point s.murphy s.next_move)))) := by
  unfold resolve_move at h
  cases hf : cell_ref (data_idx (next_point s.murphy s.next_move)) with
  | none => simp [hf] at h
  | some fld =>
  cases hmu : cell_ref (data_idx s.murphy) with
  | none => simp [hf, hmu] at h
  | some m =>
  obtain ⟨hfe, hfg⟩ := cell_ref_eq_some hf
  obtain ⟨hme, hmg⟩ := cell_ref_eq_some hmu
  simp only [hf, hmu, Option.bind_eq_bind, Option.some_bind] at h
  clear hf hmu
  cases hts : target_switch (s.upd m (fun f => f.del_hint HINT_PUSH))
      (next_point s.murphy s.next_move) fld m with
  | none => simp [hts] at h
  | some r =>
  obtain ⟨s2, allow⟩ := r
  simp only [hts, Option.some_bind] at h
  obtain ⟨h2, he2⟩ := target_switch_rel (s.upd m (fun f => f.del_hint HINT_PUSH)) s2 _
    fld m allow rfl hfe hme (by simp +decide) hts
  have he3 : allow = true → enterable ((if ¬ (s2.data m).has_hint HINT_PUSH = true then
      s2.upd m (fun f => { f with countdown := 0 }) else s2).data fld).type := by
    intro ha
    split
    · by_cases hfm : fld = m
      · subst hfm; simpa using he2 ha
      · simpa [upd_data, hfm] using he2 ha
    · exact he2 ha
  subst hme
  subst hfe
  refine ⟨hmg, hfg, s2, _, h2, rfl, ?_⟩
  cases allow with
  | false =>
    simp only [Bool.false_eq_true, ↓reduceIte, Option.pure_def, Option.some.injEq] at h
    exact Or.inl h.symm
  | true =>
    simp only [↓reduceIte] at h
    exact Or.inr ⟨he3 rfl, commit_move_some _ t _ _ h⟩

/-- Movement resolution, decomposed: the writes before the commit, then the commit
when the move is allowed. -/
theorem resolve_move_some (s t : Level) (h : resolve_move s = some t) :
    in_grid (data_idx s.murphy) ∧ in_grid (data_idx (next_point s.murphy s.next_move)) ∧
    ∃ s3 : Level, MoveRel (data_idx s.murphy) s s3 ∧
      (t = s3 ∨
        (enterable (s3.data (data_idx (next_point s.murphy s.next_move))).type ∧
          t = committed s3 (next_point s.murphy s.next_move)
            (data_idx (next_point s.murphy s.next_move)))) := by
  obtain ⟨hmg, hfg, s2, s3, h2, hs3, hfin⟩ := resolve_move_parts s t h
  refine ⟨hmg, hfg, s3, ?_, hfin⟩
  have h1 : MoveRel (data_idx s.murphy) s
      (s.upd (data_idx s.murphy) (fun f => f.del_hint HINT_PUSH)) :=
    moveRel_upd_own _ s _ (MovedOwn.del_push _)
  refine moveRel_trans h1 (moveRel_trans (targetRel_move h2) ?_)
  rw [hs3]
  split
  · next hp => exact moveRel_upd_own _ s2 _ (MovedOwn.reset _ (by simpa using hp))
  · exact moveRel_refl _ s2

/-! ## Properties kept by whole phases -/

theorem move_phase_cases (s s1 : Level) (h : move_phase s = some s1) :
    s1 = s ∨ (s.next_move ≠ DIR_NONE ∧ s.murphy_alive = true ∧ resolve_move s = some s1) := by
  unfold move_phase at h
  split at h
  · next hc => exact Or.inr ⟨hc.1, hc.2, h⟩
  · exact Or.inl (Option.some.inj h).symm

theorem movedPath_induct (P : Field → Prop) (hM : ∀ f g, Moved f g → P f → P g) {f g : Field}
    (h : MovedPath f g) (hf : P f) : P g := by
  induction h with
  | refl => exact hf
  | tail _ hs ih => exact hM _ _ hs ih

theorem movedOwnPath_induct (P : Field → Prop) (hM : ∀ f g, MovedOwn f g → P f → P g)
    {f g : Field} (h : MovedOwnPath f g) (hf : P f) : P g := by
  induction h with
  | refl => exact hf
  | tail _ hs ih => exact hM _ _ hs ih

/-- A property of a cell kept by every write movement resolution makes before the
commit holds of every cell when the commit starts. -/
theorem moveRel_preserves {m : Int} {s t : Level} (h : MoveRel m s t) (P : Field → Prop)
    (hM : ∀ f g, MovedOwn f g → P f → P g) (j : Int) (hj : P (s.data j)) : P (t.data j) := by
  by_cases hjm : j = m
  · subst hjm
    exact movedOwnPath_induct P hM h.own hj
  · exact movedPath_induct P
      (fun f g hfg => hM f g (MovedOwn.pushed f g (Pushed.moved f g hfg))) (h.cells j hjm) hj

theorem moved_type_murphy {f g : Field} (h : Moved f g) (hg : g.type = FT_MURPHY) :
    f.type = FT_MURPHY := by
  cases h with
  | pushed_into t d _ _ hp =>
    simp only [set_hint_type] at hg
    rcases hp with hp | hp | hp <;> simp [hp] at hg
  | _ => simpa using hg

theorem pushed_type_murphy {f g : Field} (h : Pushed f g) (hg : g.type = FT_MURPHY) :
    f.type = FT_MURPHY := by
  cases h with
  | moved _ hm => exact moved_type_murphy hm hg
  | _ => simpa using hg

theorem movedOwn_type_murphy {f g : Field} (h : MovedOwn f g) (hg : g.type = FT_MURPHY) :
    f.type = FT_MURPHY := by
  cases h with
  | pushed _ hm => exact pushed_type_murphy hm hg
  | _ => simpa using hg

theorem touch_type_murphy {f g : Field} (h : Touch f g) (hg : g.type = FT_MURPHY) :
    f.type = FT_MURPHY := by
  cases h with
  | fall_into t _ _ hl =>
    simp only [set_hint_type] at hg
    rcases hl with hl | hl | hl <;> simp [hl] at hg
  | roll_into_left t _ _ hl =>
    simp only [set_hint_type] at hg
    rcases hl with hl | hl | hl <;> simp [hl] at hg
  | roll_into_right t _ _ hl =>
    simp only [set_hint_type] at hg
    rcases hl with hl | hl | hl <;> simp [hl] at hg
  | npc_into t d _ _ hz =>
    simp only [set_hint_type] at hg
    rcases hz with hz | hz <;> simp [hz] at hg
  | _ => simpa using hg

theorem act_type_murphy {f g : Field} (h : Act f g) (hg : g.type = FT_MURPHY) :
    f.type = FT_MURPHY := by
  cases h with
  | touch _ ht => exact touch_type_murphy ht hg
  | fall_away => simp at hg
  | npc_leave => simp at hg
  | _ => simpa using hg

theorem own_type_murphy {f g : Field} (h : Own f g) (hg : g.type = FT_MURPHY) :
    f.type = FT_MURPHY := by
  cases h with
  | act _ ha => exact act_type_murphy ha hg
  | resolve_empty => simp at hg
  | resolve_infotron => simp at hg
  | _ => simpa using hg

/-- The scan never turns a cell into the player. -/
theorem scan_type_murphy (l : List Int) (s t : Level) (h : l.foldlM scan_cell s = some t)
    (j : Int) (hj : (t.data j).type = FT_MURPHY) : (s.data j).type = FT_MURPHY := by
  by_contra hc
  exact scan_preserves (fun f => f.type ≠ FT_MURPHY)
    (fun f g hfg hf hg => hf (touch_type_murphy hfg hg))
    (Or.inl (fun f g hfg hf hg => hf (own_type_murphy hfg hg))) l s t h j hc hj

@[simp] theorem leaving_cleared_type (f : Field) : (leaving_cleared f).type = f.type := by
  unfold leaving_cleared
  split
  · rfl
  · split <;> rfl

@[simp] theorem leaving_cleared_countdown (f : Field) :
    (leaving_cleared f).countdown = f.countdown := by
  unfold leaving_cleared
  split
  · rfl
  · split <;> rfl

@[simp] theorem leaving_cleared_coords (f : Field) : (leaving_cleared f).coords = f.coords := by
  unfold leaving_cleared
  split
  · rfl
  · split <;> rfl

@[simp] theorem before_scan_type (s : Level) (j : Int) :
    ((before_scan s).data j).type = (s.data j).type := by
  unfold before_scan Level.map_cells
  simp only
  split <;> simp

@[simp] theorem before_scan_countdown (s : Level) (j : Int) :
    ((before_scan s).data j).countdown = (s.data j).countdown := by
  unfold before_scan Level.map_cells
  simp only
  split <;> simp

@[simp] theorem before_scan_murphy (s : Level) : (before_scan s).murphy = s.murphy := rfl

@[simp] theorem before_scan_murphy_alive (s : Level) :
    (before_scan s).murphy_alive = s.murphy_alive := rfl

@[simp] theorem before_scan_next_move (s : Level) : (before_scan s).next_move = DIR_NONE := rfl

@[simp] theorem after_scan_type (s : Level) (j : Int) :
    ((after_scan s).data j).type = (s.data j).type := by
  unfold after_scan Level.map_cells
  simp only
  split <;> simp

@[simp] theorem after_scan_countdown (s : Level) (j : Int) :
    ((after_scan s).data j).countdown = (s.data j).countdown := by
  unfold after_scan Level.map_cells
  simp only
  split <;> simp

@[simp] theorem after_scan_murphy (s : Level) : (after_scan s).murphy = s.murphy := rfl

@[simp] theorem after_scan_murphy_alive (s : Level) :
    (after_scan s).murphy_alive = s.murphy_alive := rfl

@[simp] theorem after_scan_next_move (s : Level) : (after_scan s).next_move = s.next_move := rfl

theorem after_scan_data (s : Level) (j : Int) (hj : in_grid j) :
    (after_scan s).data j = (s.data j).del_hint HINT_SKIP := by
  unfold after_scan Level.map_cells
  simp [hj]

theorem before_scan_data (s : Level) (j : Int) (hj : in_grid j) :
    (before_scan s).data j = leaving_cleared (s.data j) := by
  unfold before_scan Level.map_cells
  simp [hj]

/-! ## A tick of a sparse level -/

theorem moved_wall {f g : Field} (h : Moved f g) (hw : wall f) : wall g := by
  cases h with
  | origin he => simp [enterable, pushable, hw.1] at he
  | was_base ht => simp [hw.1] at ht
  | was_infotron ht => simp [hw.1] at ht
  | was_red_disk ht => simp [hw.1] at ht
  | pushed_into t d ht => simp [hw.1] at ht

theorem leaving_cleared_wall {f : Field} (hw : wall f) : leaving_cleared f = f := by
  unfold leaving_cleared
  split
  · rfl
  · rw [wall_has_hint_of_ne_skip hw _ (by decide)]
    simp

theorem move_phase_wall (s s1 : Level) (h : move_phase s = some s1) (j : Int)
    (hj : j ≠ data_idx s.murphy) (hw : wall (s.data j)) : wall (s1.data j) := by
  rcases move_phase_cases s s1 h with rfl | ⟨-, -, hres⟩
  · exact hw
  · obtain ⟨-, -, s3, hrel, hfin⟩ := resolve_move_some s s1 hres
    have h3 : wall (s3.data j) :=
      movedPath_induct wall (fun f g hfg => moved_wall hfg) (hrel.cells j hj) hw
    rcases hfin with rfl | ⟨he, rfl⟩
    · exact h3
    · have hjf : j ≠ data_idx (next_point s.murphy s.next_move) := by
        intro e
        rw [← e, h3.1] at he
        simp [enterable, pushable] at he
      have hjo : j ≠ data_idx s3.murphy := by rw [hrel.murphy]; exact hj
      have : (committed s3 (next_point s.murphy s.next_move)
          (data_idx (next_point s.murphy s.next_move))).data j = s3.data j := by
        unfold committed
        simp only
        split <;> simp [upd_data, hjf, hjo]
      rw [this]
      exact h3

/-- In a level whose cells outside the increasing list `act` are walls, a tick is
the tick with the scan restricted to `act`. -/
theorem game_step_sparse (act : List Int) (hs : act.Pairwise (fun a b => a < b))
    (hg : ∀ a ∈ act, in_grid a) (s : Level)
    (hm : data_idx s.murphy ∈ act ∨ s.next_move = DIR_NONE ∨ s.murphy_alive = false)
    (hw : ∀ j, in_grid j → j ∉ act → wall (s.data j)) :
    game_step s = sparse_step act s := by
  rw [game_step_eq]
  unfold sparse_step
  cases h1 : move_phase s with
  | none => simp only [Option.none_bind]
  | some s1 =>
    simp only [Option.some_bind]
    rw [scan_sparse act hs hg (before_scan s1)]
    intro j hj hja
    rw [before_scan_data s1 j hj]
    have hw1 : wall (s1.data j) := by
      rcases hm with hm | hm | hm
      · exact move_phase_wall s s1 h1 j (fun e => hja (e ▸ hm)) (hw j hj hja)
      · rcases move_phase_cases s s1 h1 with rfl | ⟨hn, -, -⟩
        · exact hw j hj hja
        · exact absurd hm hn
      · rcases move_phase_cases s s1 h1 with rfl | ⟨-, ha, -⟩
        · exact hw j hj hja
        · rw [ha] at hm
          exact absurd hm (by simp)
    rw [leaving_cleared_wall hw1]
    exact hw1

/-! ## Sparse levels: evaluation of a tick -/

theorem lookup_of_not_mem (cs : List (Int × Field)) (j : Int) (h : j ∉ keys cs) :
    cs.lookup j = none := by
  induction cs with
  | nil => rfl
  | cons p cs ih =>
    obtain ⟨k, f⟩ := p
    simp only [keys, List.map_cons, List.mem_cons, not_or] at h
    have hne : (j == k) = false := by simpa using h.1
    rw [List.lookup_cons, hne]
    exact ih h.2

theorem lookup_mem (cs : List (Int × Field)) (j : Int) (f : Field) (h : cs.lookup j = some f) :
    (j, f) ∈ cs := by
  induction cs with
  | nil => simp at h
  | cons p cs ih =>
    obtain ⟨k, g⟩ := p
    rw [List.lookup_cons] at h
    by_cases hjk : j = k
    · subst hjk
      simp only [beq_self_eq_true, Option.some.injEq] at h
      subst h
      exact List.mem_cons_self _ _
    · have hne : (j == k) = false := by simpa using hjk
      rw [hne] at h
      exact List.mem_cons_of_mem _ (ih h)

/-- A property of indexed cells that holds of every border wall and of every
listed cell holds of every cell of the sparse level. -/
theorem sparse_level_forall (cs : List (Int × Field)) (alive : Bool) (move : Direction)
    (murphy : Point) (P : Int → Field → Prop) (hb : ∀ j, j ∉ keys cs → P j (border_cell j))
    (hc : ∀ p ∈ cs, P p.1 p.2) (j : Int) :
    P j ((sparse_level cs alive move murphy).data j) := by
  unfold sparse_level
  simp only
  cases hl : cs.lookup j with
  | none =>
    simp only [Option.getD_none]
    apply hb
    intro hmem
    simp only [keys, List.mem_map] at hmem
    obtain ⟨p, hp, rfl⟩ := hmem
    obtain ⟨k, f⟩ := p
    have : ∀ (l : List (Int × Field)), (k, f) ∈ l → l.lookup k ≠ none := by
      intro l
      induction l with
      | nil => simp
      | cons q l ih =>
        obtain ⟨k2, f2⟩ := q
        intro hmem
        rw [List.lookup_cons]
        by_cases hk : k = k2
        · simp [hk]
        · have hne : (k == k2) = false := by simpa using hk
          rw [hne]
          apply ih
          rcases List.mem_cons.mp hmem with h | h
          · exact absurd (congrArg Prod.fst h) hk
          · exact h
    exact this cs hp hl
  | some f =>
    simp only [Option.getD_some]
    exact hc (j, f) (lookup_mem cs j f hl)

theorem border_cell_wall (j : Int) : wall (border_cell j) := ⟨rfl, Or.inl rfl⟩

/-- A tick of a sparse level is the tick with the scan restricted to the listed
cells. -/
theorem game_step_sparse_level (cs : List (Int × Field)) (alive : Bool) (move : Direction)
    (murphy : Point) (hs : (keys cs).Pairwise (fun a b => a < b))
    (hg : ∀ a ∈ keys cs, in_grid a)
    (hm : data_idx murphy ∈ keys cs ∨ move = DIR_NONE ∨ alive = false) :
    game_step (sparse_level cs alive move murphy) =
      sparse_step (keys cs) (sparse_level cs alive move murphy) := by
  apply game_step_sparse (keys cs) hs hg _ hm
  intro j _ hj
  unfold sparse_level
  simp only
  rw [lookup_of_not_mem cs j hj]
  exact border_cell_wall j

/-! ## Several ticks of a sparse level -/

/-- A property of the own cell that the scan of that cell keeps, and that the writes
of `Touch` keep, is kept by the scan of any list of cells. -/
theorem scan_preserves_own (P : Field → Prop) (hT : ∀ f g, Touch f g → P f → P g)
    (hown : ∀ s t i, scan_cell s i = some t → P (s.data i) → P (t.data i))
    (l : List Int) (s t : Level) (h : l.foldlM scan_cell s = some t) (j : Int)
    (hj : P (s.data j)) : P (t.data j) := by
  have hTP : ∀ f g, TouchPath f g → P f → P g := by
    intro f g hp
    induction hp with
    | refl => exact id
    | tail _ hs ih => exact fun hf => hT _ _ hs (ih hf)
  induction l generalizing s with
  | nil =>
    simp only [List.foldlM_nil, Option.pure_def, Option.some.injEq] at h
    subst h
    exact hj
  | cons a l ih =>
    rw [foldlM_cons_some] at h
    obtain ⟨u, hu, hrest⟩ := h
    refine ih u hrest ?_
    by_cases hja : j = a
    · subst hja
      exact hown s u j hu hj
    · exact hTP _ _ ((scan_cell_rel s u a hu).cells j hja) hj

theorem wall_del_skip {f : Field} (hw : wall f) : wall (f.del_hint HINT_SKIP) := by
  refine ⟨hw.1, Or.inl ?_⟩
  rcases hw.2 with h | h <;> simp [Field.del_hint, h, HINT_SKIP]

/-- Walls stay walls over a tick, if the cached player position is not one of them. -/
theorem game_step_wall (s t : Level) (r : Bool) (h : game_step s = some (t, r)) (j : Int)
    (hj : j ≠ data_idx s.murphy ∨ s.next_move = DIR_NONE ∨ s.murphy_alive = false)
    (hw : wall (s.data j)) : wall (t.data j) := by
  obtain ⟨s1, s4, hmove, hscan, rfl, -⟩ := (game_step_some s t r).mp h
  have h1 : wall (s1.data j) := by
    rcases move_phase_cases s s1 hmove with rfl | ⟨hn, ha, -⟩
    · exact hw
    · rcases hj with hj | hj | hj
      · exact move_phase_wall s s1 hmove j hj hw
      · exact absurd hj hn
      · rw [ha] at hj
        exact absurd hj (by simp)
  have hb : wall ((before_scan s1).data j) := by
    unfold before_scan Level.map_cells
    simp only
    split
    · rw [leaving_cleared_wall h1]; exact h1
    · exact h1
  have h4 : wall (s4.data j) :=
    scan_preserves wall (fun f g hfg => touch_wall hfg)
      (Or.inl (fun f g hfg => own_wall hfg)) cells _ s4 hscan j hb
  unfold after_scan Level.map_cells
  simp only
  split
  · exact wall_del_skip h4
  · exact h4

/-- After a tick the cached player position is the old one or an enterable cell of
the grid. -/
theorem game_step_murphy (s t : Level) (r : Bool) (h : game_step s = some (t, r)) :
    t.murphy = s.murphy ∨ (in_grid (data_idx t.murphy) ∧ ¬ wall (s.data (data_idx t.murphy))) ∨
      data_idx t.murphy = data_idx s.murphy := by
  obtain ⟨s1, s4, hmove, hscan, rfl, -⟩ := (game_step_some s t r).mp h
  rw [after_scan_murphy, (scan_globals cells _ s4 hscan).1, before_scan_murphy]
  rcases move_phase_cases s s1 hmove with rfl | ⟨-, -, hres⟩
  · exact Or.inl rfl
  · obtain ⟨-, hfg, s3, hrel, hfin⟩ := resolve_move_some s s1 hres
    rcases hfin with rfl | ⟨he, rfl⟩
    · exact Or.inl hrel.murphy
    · by_cases hfm : data_idx (next_point s.murphy s.next_move) = data_idx s.murphy
      · exact Or.inr (Or.inr hfm)
      · refine Or.inr (Or.inl ⟨hfg, fun hw => ?_⟩)
        have h3 : wall (s3.data (data_idx (next_point s.murphy s.next_move))) :=
          movedPath_induct wall (fun f g hfg => moved_wall hfg) (hrel.cells _ hfm) hw
        rw [h3.1] at he
        simp [enterable, pushable] at he

theorem dispatch_event_data (s : Level) (ev : GameEvent) : (dispatch_event s ev).data = s.data := by
  cases ev <;> rfl

theorem dispatch_event_murphy (s : Level) (ev : GameEvent) :
    (dispatch_event s ev).murphy = s.murphy := by
  cases ev <;> rfl

/-- In a level whose cells outside the increasing list `act` are walls and whose
cached player position is in `act`, rounds of the main loop are rounds with the scan
restricted to `act`. -/
theorem run_sparse (act : List Int) (hs : act.Pairwise (fun a b => a < b))
    (hg : ∀ a ∈ act, in_grid a) (evs : List GameEvent) (s : Level)
    (hm : data_idx s.murphy ∈ act)
    (hw : ∀ j, in_grid j → j ∉ act → wall (s.data j)) :
    run s evs = sparse_run act s evs := by
  induction evs generalizing s with
  | nil => rfl
  | cons ev evs ih =>
    unfold run sparse_run
    rw [List.foldlM_cons, List.foldlM_cons]
    have hm' : data_idx (dispatch_event s ev).murphy ∈ act := by
      rw [dispatch_event_murphy]; exact hm
    have hw' : ∀ j, in_grid j → j ∉ act → wall ((dispatch_event s ev).data j) := by
      rw [dispatch_event_data]; exact hw
    have hstep : tick s ev = sparse_tick act s ev := by
      unfold tick sparse_tick
      rw [game_step_sparse act hs hg _ (Or.inl hm') hw']
    rw [hstep]
    cases hu : sparse_tick act s ev with
    | none => rfl
    | some u =>
      simp only [Option.bind_eq_bind, Option.some_bind]
      rw [← hstep] at hu
      unfold tick at hu
      cases hgs : game_step (dispatch_event s ev) with
      | none => simp [hgs] at hu
      | some p =>
        obtain ⟨t, r⟩ := p
        simp only [hgs, Option.map_some', Option.some.injEq] at hu
        subst hu
        have hwt : ∀ j, in_grid j → j ∉ act → wall (t.data j) := by
          intro j hj hja
          exact game_step_wall _ t r hgs j (Or.inl (fun e => hja (e ▸ hm'))) (hw' j hj hja)
        have hmt : data_idx t.murphy ∈ act := by
          rcases game_step_murphy _ t r hgs with h1 | ⟨h1, h2⟩ | h1
          · rw [h1]; exact hm'
          · by_contra hc
            exact h2 (hw' _ h1 hc)
          · rw [h1]; exact hm'
        exact ih t hmt hwt

/-- Rounds of the main loop on a sparse level. -/
theorem run_sparse_level (cs : List (Int × Field)) (alive : Bool) (move : Direction)
    (murphy : Point) (evs : List GameEvent) (hs : (keys cs).Pairwise (fun a b => a < b))
    (hg : ∀ a ∈ keys cs, in_grid a) (hm : data_idx murphy ∈ keys cs) :
    run (sparse_level cs alive move murphy) evs =
      sparse_run (keys cs) (sparse_level cs alive move murphy) evs := by
  apply run_sparse (keys cs) hs hg evs _ hm
  intro j _ hj
  unfold sparse_level
  simp only
  rw [lookup_of_not_mem cs j hj]
  exact border_cell_wall j

/-! ## The scan of one cell, stage by stage -/

theorem cells_nodup : cells.Nodup := by
  unfold cells
  refine List.Nodup.map ?_ (List.nodup_range 1440)
  intro a b h
  exact Int.ofNat.inj h

@[simp] theorem own_cleared_type (f : Field) : (own_cleared f).type = f.type := by
  unfold own_cleared
  split <;> rfl

@[simp] theorem own_cleared_countdown (f : Field) :
    (own_cleared f).countdown = f.countdown := by
  unfold own_cleared
  split <;> rfl

@[simp] theorem own_cleared_coords (f : Field) : (own_cleared f).coords = f.coords := by
  unfold own_cleared
  split <;> rfl

theorem own_cleared_has_hint (f : Field) (b : Nat)
    (hb : (4294967295 - (HINT_FROM_BOTTOM ||| HINT_FROM_TOP ||| HINT_FROM_RIGHT |||
      HINT_FROM_LEFT)) &&& b = b)
    (hb2 : (4294967295 - (HINT_WAS_BASE ||| HINT_WAS_INFOTRON ||| HINT_WAS_RED_DISK)) &&& b = b) :
    (own_cleared f).has_hint b = f.has_hint b := by
  unfold own_cleared
  split
  · rw [has_hint_del_hint_of_disjoint _ _ _ hb2, has_hint_del_hint_of_disjoint _ _ _ hb]
  · rw [has_hint_del_hint_of_disjoint _ _ _ hb2]

/-- The scan of a cell that is not skipped: the flags of the player's movement are
cleared; then either the cell carries no exploding flag and the type switch runs, or
its countdown is positive and the cell is counted down and skipped (after a cascade,
if it is due), or the cell is resolved and the type switch runs. -/
theorem scan_cell_stages (s t : Level) (i : Int) (h : scan_cell s i = some t)
    (hs : (s.data i).has_hint HINT_SKIP = false) :
    (¬ exploding (s.data i) ∧
      dispatch (s.upd i own_cleared) i (npc_direction (s.data i)) = some t) ∨
    (exploding (s.data i) ∧ (s.data i).countdown > 0 ∧
      ∃ u, TouchRel (s.upd i own_cleared) u ∧
        (u = s.upd i own_cleared ∨ (s.data i).countdown = EXPLOSION_STEPS) ∧
        t = u.upd i counted_down) ∨
    (exploding (s.data i) ∧ (s.data i).countdown ≤ 0 ∧
      dispatch ((s.upd i own_cleared).upd i resolved) i (npc_direction (s.data i)) = some t) := by
  have hE : (own_cleared (s.data i)).has_hint HINT_EXPLOSION =
      (s.data i).has_hint HINT_EXPLOSION := own_cleared_has_hint _ _ (by decide) (by decide)
  have hEI : (own_cleared (s.data i)).has_hint HINT_EXPLOSION_INFOTRON =
      (s.data i).has_hint HINT_EXPLOSION_INFOTRON :=
    own_cleared_has_hint _ _ (by decide) (by decide)
  have hS : (own_cleared (s.data i)).has_hint HINT_SKIP = false := by
    rw [own_cleared_has_hint _ _ (by decide) (by decide)]; exact hs
  have h2 : (if (s.data i).type ≠ FT_SNIK_SNAK ∧ (s.data i).type ≠ FT_STARS then
        s.upd i (fun f => f.del_hint
          (HINT_FROM_BOTTOM ||| HINT_FROM_TOP ||| HINT_FROM_RIGHT ||| HINT_FROM_LEFT))
        else s).upd i (fun f => f.del_hint
          (HINT_WAS_BASE ||| HINT_WAS_INFOTRON ||| HINT_WAS_RED_DISK)) =
      s.upd i own_cleared := by
    unfold own_cleared
    split
    · next hc => rw [upd_upd]; exact upd_congr _ _ _ _ (by simp [hc])
    · next hc => exact upd_congr _ _ _ _ (by simp [hc])
  unfold scan_cell at h
  rw [if_neg (by simp [hs])] at h
  simp only [Option.bind_eq_bind] at h
  rw [h2] at h
  simp only [upd_data_same, hE, hEI] at h
  by_cases hx : exploding (s.data i)
  · have hx' : (s.data i).has_hint HINT_EXPLOSION = true ∨
        (s.data i).has_hint HINT_EXPLOSION_INFOTRON = true := hx
    rw [if_pos hx'] at h
    cases h3 : explosion_tick (s.upd i own_cleared) i with
    | none => simp [h3] at h
    | some s3 =>
      simp only [h3, Option.some_bind] at h
      unfold explosion_tick at h3
      simp only [upd_data_same, own_cleared_countdown] at h3
      by_cases hcd : (s.data i).countdown > 0
      · refine Or.inr (Or.inl ⟨hx, hcd, ?_⟩)
        rw [if_pos hcd] at h3
        have key : ∀ u : Level, s3 = (u.upd i (fun f => { f with countdown := f.countdown - 1 })).upd i
            (fun f => f.set_hint HINT_SKIP) → t = u.upd i counted_down := by
          intro u hu
          rw [upd_upd] at hu
          have hsk : (s3.data i).has_hint HINT_SKIP = true := by
            rw [hu]; simp +decide
          unfold dispatch at h
          rw [if_neg (by simp [hsk])] at h
          simp only [Option.pure_def, Option.some.injEq] at h
          rw [← h, hu]
          rfl
        split at h3
        · next hc3 =>
          split at h3
          · next hex =>
            cases hu : explode_9 (s.upd i own_cleared) i (own_cleared (s.data i)).explodes_into with
            | none => simp [hu] at h3
            | some u =>
              simp only [hu, Option.bind_eq_bind, Option.some_bind, Option.pure_def,
                Option.some.injEq] at h3
              refine ⟨u, explode_9_rel _ u i _ ?_ hu, Or.inr hc3.1, key u h3.symm⟩
              simp only [upd_data_same]
              unfold Field.explodes at hex
              unfold Field.affected_by_explosion
              simp only [own_cleared_type] at hex ⊢
              split at hex <;> simp_all
          · simp only [Option.pure_def, Option.bind_eq_bind, Option.some_bind,
              Option.some.injEq] at h3
            exact ⟨_, touchRel_refl _, Or.inl rfl, key _ h3.symm⟩
        · simp only [Option.pure_def, Option.bind_eq_bind, Option.some_bind,
            Option.some.injEq] at h3
          exact ⟨_, touchRel_refl _, Or.inl rfl, key _ h3.symm⟩
      · refine Or.inr (Or.inr ⟨hx, by omega, ?_⟩)
        rw [if_neg hcd] at h3
        simp only [Option.pure_def, Option.some.injEq, hE, hEI] at h3
        have e : s3 = (s.upd i own_cleared).upd i resolved := by
          rw [← h3]
          unfold resolved
          split
          · next he =>
            rw [upd_upd, upd_upd]
            exact upd_congr _ _ _ _ (by simp [hE, he])
          · next he =>
            split
            · next he2 =>
              rw [upd_upd, upd_upd]
              exact upd_congr _ _ _ _ (by simp [hE, hEI, he, he2])
            · next he2 =>
              exact upd_congr _ _ _ _ (by simp [hE, hEI, he, he2])
        rw [← e]
        exact h
  · have hx' : ¬ ((s.data i).has_hint HINT_EXPLOSION = true ∨
        (s.data i).has_hint HINT_EXPLOSION_INFOTRON = true) := hx
    rw [if_neg hx'] at h
    simp only [Option.pure_def, Option.some_bind] at h
    exact Or.inl ⟨hx, h⟩

/-- A property of a cell that the writes of `Touch` keep is kept by the scan of a list
of other cells. -/
theorem scan_other (P : Field → Prop) (hT : ∀ f g, Touch f g → P f → P g)
    (l : List Int) (s t : Level) (h : l.foldlM scan_cell s = some t) (j : Int)
    (hjl : j ∉ l) (hj : P (s.data j)) : P (t.data j) := by
  have hTP : ∀ f g, TouchPath f g → P f → P g := by
    intro f g hp
    induction hp with
    | refl => exact id
    | tail _ hs ih => exact fun hf => hT _ _ hs (ih hf)
  induction l generalizing s with
  | nil =>
    simp only [List.foldlM_nil, Option.pure_def, Option.some.injEq] at h
    subst h
    exact hj
  | cons a l ih =>
    rw [foldlM_cons_some] at h
    obtain ⟨u, hu, hrest⟩ := h
    have hja : j ≠ a := fun e => hjl (e ▸ List.mem_cons_self _ _)
    exact ih u hrest (fun hm => hjl (List.mem_cons_of_mem _ hm))
      (hTP _ _ ((scan_cell_rel s u a hu).cells j hja) hj)

/-- A cell is scanned once: if the writes of `Touch` keep `P` and keep `Q`, and the
scan of the cell itself takes `P` to `Q`, then the scan of a list without repetition
that contains the cell takes `P` to `Q`. -/
theorem scan_once (P Q : Field → Prop) (hP : ∀ f g, Touch f g → P f → P g)
    (hQ : ∀ f g, Touch f g → Q f → Q g)
    (hown : ∀ s t i, scan_cell s i = some t → P (s.data i) → Q (t.data i))
    (l : List Int) (hl : l.Nodup) (s t : Level) (h : l.foldlM scan_cell s = some t) (j : Int)
    (hjl : j ∈ l) (hj : P (s.data j)) : Q (t.data j) := by
  induction l generalizing s with
  | nil => exact absurd hjl (List.not_mem_nil _)
  | cons a l ih =>
    rw [foldlM_cons_some] at h
    obtain ⟨u, hu, hrest⟩ := h
    rw [List.nodup_cons] at hl
    by_cases hja : j = a
    · subst hja
      exact scan_other Q hQ l u t hrest j hl.1 (hown s u j hu hj)
    · have hTP : ∀ f g, TouchPath f g → P f → P g := by
        intro f g hp
        induction hp with
        | refl => exact id
        | tail _ hs ih => exact fun hf => hP _ _ hs (ih hf)
      rcases List.mem_cons.mp hjl with e | hm
      · exact absurd e hja
      · exact ih hl.2 u hrest hm (hTP _ _ ((scan_cell_rel s u a hu).cells j hja) hj)

/-! ## The scan of passive cells -/

theorem kept_refl (f : Field) : kept f f :=
  ⟨rfl, rfl, rfl, rfl, rfl, id, id, id⟩

theorem kept_trans {f g h : Field} (h1 : kept f g) (h2 : kept g h) : kept f h := by
  obtain ⟨a1, a2, a3, a4, a5, a6, a7, a8⟩ := h1
  obtain ⟨b1, b2, b3, b4, b5, b6, b7, b8⟩ := h2
  exact ⟨b1.trans a1, b2.trans a2, b3.trans a3, b4.trans a4, b5.trans a5,
    fun x => a6 (b6 x), fun x => a7 (b7 x), fun x => a8 (b8 x)⟩

theorem kept_own_cleared (f : Field) : kept f (own_cleared f) := by
  refine ⟨by simp, by simp, by simp, ?_, ?_, ?_, ?_, ?_⟩
  · exact own_cleared_has_hint _ _ (by decide) (by decide)
  · exact own_cleared_has_hint _ _ (by decide) (by decide)
  · rw [own_cleared_has_hint _ _ (by decide) (by decide)]; exact id
  · rw [own_cleared_has_hint _ _ (by decide) (by decide)]; exact id
  · rw [own_cleared_has_hint _ _ (by decide) (by decide)]; exact id

theorem kept_leaving_cleared (f : Field) : kept f (leaving_cleared f) := by
  unfold leaving_cleared
  split
  · exact kept_refl f
  · split
    · refine ⟨rfl, rfl, rfl, ?_, ?_, ?_, ?_, ?_⟩
      · simp +decide
      · simp +decide
      · simp +decide
      · simp +decide
      · simp +decide
    · exact kept_refl f

theorem kept_passive {f g : Field} (h : kept f g) (hf : passive f) : passive g := by
  obtain ⟨-, a2, -, a4, a5, -, -, -⟩ := h
  unfold passive exploding at hf ⊢
  rw [a2, a4, a5]
  exact hf

/-- The type switch of the scan does nothing on a cell that holds neither a loose
object nor a hazard. -/
theorem dispatch_inert (s : Level) (i : Int) (dir : Direction)
    (hl : ¬ loose (s.data i).type) (hz : ¬ hazard (s.data i).type) :
    dispatch s i dir = some s := by
  unfold dispatch
  split
  · split
    · next hty => exact absurd (Or.inl hty) hl
    · next hty => exact absurd (Or.inr (Or.inl hty)) hl
    · next hty => exact absurd (Or.inr (Or.inr hty)) hl
    · next hty => exact absurd (Or.inl hty) hz
    · next hty => exact absurd (Or.inr hty) hz
    · rfl
  · rfl

/-- The scan of a passive cell changes at most arrival and was-flags of that cell. -/
theorem scan_cell_passive (s t : Level) (i : Int) (h : scan_cell s i = some t)
    (hp : passive (s.data i)) : t = s ∨ t = s.upd i own_cleared := by
  cases hs : (s.data i).has_hint HINT_SKIP with
  | true =>
    rw [scan_cell_skip s i hs] at h
    exact Or.inl (Option.some.inj h).symm
  | false =>
    rcases scan_cell_stages s t i h hs with ⟨-, hd⟩ | ⟨hx, -⟩ | ⟨hx, -⟩
    · rw [dispatch_inert _ i _ (by simpa using hp.1) (by simpa using hp.2.1)] at hd
      exact Or.inr (Option.some.inj hd).symm
    · exact absurd hx hp.2.2
    · exact absurd hx hp.2.2

/-- The scan of a list of passive cells keeps every cell but for flags, and changes
nothing else in the level. -/
theorem scan_passive (l : List Int) (s t : Level) (h : l.foldlM scan_cell s = some t)
    (hp : ∀ i ∈ l, passive (s.data i)) :
    (∀ j, kept (s.data j) (t.data j)) ∧ t.murphy = s.murphy ∧
      t.murphy_alive = s.murphy_alive := by
  induction l generalizing s with
  | nil =>
    simp only [List.foldlM_nil, Option.pure_def, Option.some.injEq] at h
    subst h
    exact ⟨fun j => kept_refl _, rfl, rfl⟩
  | cons a l ih =>
    rw [foldlM_cons_some] at h
    obtain ⟨u, hu, hrest⟩ := h
    have hk : (∀ j, kept (s.data j) (u.data j)) ∧ u.murphy = s.murphy ∧
        u.murphy_alive = s.murphy_alive := by
      rcases scan_cell_passive s u a hu (hp a (List.mem_cons_self _ _)) with e | e
      · rw [e]; exact ⟨fun j => kept_refl _, rfl, rfl⟩
      · rw [e]
        refine ⟨fun j => ?_, rfl, rfl⟩
        by_cases hja : j = a
        · subst hja
          rw [upd_data_same]
          exact kept_own_cleared _
        · rw [upd_data_ne _ _ _ _ hja]
          exact kept_refl _
    obtain ⟨h1, h2, h3⟩ := ih u hrest
      (fun i hi => kept_passive (hk.1 i) (hp i (List.mem_cons_of_mem _ hi)))
    exact ⟨fun j => kept_trans (hk.1 j) (h1 j), h2.trans hk.2.1, h3.trans hk.2.2⟩

theorem seg_append (lo : Int) (m n : Nat) : seg lo (m + n) = seg lo m ++ seg (lo + m) n := by
  induction m generalizing lo with
  | zero => simp [seg]
  | succ m ih =>
    rw [Nat.add_right_comm]
    simp only [seg, List.cons_append]
    rw [ih (lo + 1)]
    have e : lo + 1 + (m : Int) = lo + ((m + 1 : Nat) : Int) := by
      push_cast
      omega
    rw [e]

/-- The scan order splits at a cell of the grid: the cells before it, the cell, the
cells after it. -/
theorem cells_split (C : Int) (hC : in_grid C) :
    cells = seg 0 C.toNat ++ C :: seg (C + 1) (1439 - C.toNat) := by
  obtain ⟨h0, h1⟩ := hC
  have h1' : C < 1440 := h1
  have e : 1440 = C.toNat + ((1439 - C.toNat) + 1) := by omega
  rw [cells_eq_seg]
  conv_lhs => rw [e]
  rw [seg_append]
  simp only [seg]
  have : (0 : Int) + (C.toNat : Int) = C := by
    rw [Int.toNat_of_nonneg h0]; omega
  rw [this]

theorem foldlM_append_some {α σ : Type} (f : σ → α → Option σ) (l1 l2 : List α) (s t : σ) :
    (l1 ++ l2).foldlM f s = some t ↔
      ∃ u, l1.foldlM f s = some u ∧ l2.foldlM f u = some t := by
  rw [List.foldlM_append]
  cases h : l1.foldlM f s with
  | none => simp
  | some u => simp

/-! ## Levels at rest: the scan changes flags only -/

theorem steady_refl (f : Field) : steady f f := ⟨rfl, rfl, rfl, rfl, rfl, id⟩

theorem steady_trans {f g h : Field} (h1 : steady f g) (h2 : steady g h) : steady f h :=
  ⟨h2.1.trans h1.1, h2.2.1.trans h1.2.1, h2.2.2.1.trans h1.2.2.1,
    h2.2.2.2.1.trans h1.2.2.2.1, h2.2.2.2.2.1.trans h1.2.2.2.2.1,
    fun x => h1.2.2.2.2.2 (h2.2.2.2.2.2 x)⟩

theorem kept_steady {f g : Field} (h : kept f g) : steady f g := by
  obtain ⟨a1, a2, a3, a4, a5, -, a7, -⟩ := h
  exact ⟨a1, a2, a3, a4, a5, a7⟩

theorem has_hint_del_hint_le (f : Field) (a b : Nat) (h : (f.del_hint a).has_hint b = true) :
    f.has_hint b = true := by
  simp only [Field.has_hint, Field.del_hint, decide_eq_true_eq] at h ⊢
  have e : f.hint &&& (4294967295 - a) &&& b = f.hint &&& b &&& (4294967295 - a) := by
    rw [Nat.and_assoc, Nat.and_comm (4294967295 - a) b, ← Nat.and_assoc]
  rw [e] at h
  exact Nat.lt_of_lt_of_le h Nat.and_le_left

theorem steady_del_hint (f : Field) (a : Nat)
    (hE : (4294967295 - a) &&& HINT_EXPLOSION = HINT_EXPLOSION)
    (hEI : (4294967295 - a) &&& HINT_EXPLOSION_INFOTRON = HINT_EXPLOSION_INFOTRON) :
    steady f (f.del_hint a) :=
  ⟨rfl, rfl, rfl, has_hint_del_hint_of_disjoint _ _ _ hE,
    has_hint_del_hint_of_disjoint _ _ _ hEI, has_hint_del_hint_le f a _⟩

theorem steady_set_hint (f : Field) (a : Nat) (hE : a &&& HINT_EXPLOSION = 0)
    (hEI : a &&& HINT_EXPLOSION_INFOTRON = 0) (hF : a &&& HINT_FALL = 0) :
    steady f (f.set_hint a) := by
  refine ⟨rfl, rfl, rfl, ?_, ?_, ?_⟩
  · rw [has_hint_set_hint, hE]; simp
  · rw [has_hint_set_hint, hEI]; simp
  · rw [has_hint_set_hint, hF]; simp

theorem steady_upd (u : Level) (i : Int) (g : Field → Field) (hg : ∀ f, steady f (g f))
    (j : Int) : steady (u.data j) ((u.upd i g).data j) := by
  by_cases hj : j = i
  · subst hj
    rw [upd_data_same]
    exact hg _
  · rw [upd_data_ne _ _ _ _ hj]
    exact steady_refl _

theorem rolls_on_impact_capable {f : Field} (h : f.rolls_on_impact = true) :
    roll_capable f.type := by
  unfold Field.rolls_on_impact at h
  unfold roll_capable
  split at h <;> simp_all

/-- The roll branch of `fall` changes nothing when neither side is empty. -/
theorem roll_blocked (u w : Level) (i : Int) (h : roll u i = some w)
    (hl : ¬ ((u.data (neighbour u i DIR_LEFT)).type = FT_EMPTY ∧
      (u.data (neighbour u (neighbour u i DIR_LEFT) DIR_DOWN)).type = FT_EMPTY))
    (hr : ¬ ((u.data (neighbour u i DIR_RIGHT)).type = FT_EMPTY ∧
      (u.data (neighbour u (neighbour u i DIR_RIGHT) DIR_DOWN)).type = FT_EMPTY)) :
    w = u := by
  unfold neighbour at hl hr
  unfold roll at h
  cases hcl : cell_ref (data_idx (next_point (u.data i).coords DIR_LEFT)) with
  | none => simp [hcl] at h
  | some l =>
  cases hcr : cell_ref (data_idx (next_point (u.data i).coords DIR_RIGHT)) with
  | none => simp [hcl, hcr] at h
  | some r =>
  obtain ⟨hle, -⟩ := cell_ref_eq_some hcl
  obtain ⟨hre, -⟩ := cell_ref_eq_some hcr
  subst hle
  subst hre
  simp only [hcl, hcr, Option.bind_eq_bind, Option.some_bind] at h
  cases hclb : cell_ref (data_idx (next_point
      (u.data (data_idx (next_point (u.data i).coords DIR_LEFT))).coords DIR_DOWN)) with
  | none => simp [hclb] at h
  | some lb =>
  cases hcrb : cell_ref (data_idx (next_point
      (u.data (data_idx (next_point (u.data i).coords DIR_RIGHT))).coords DIR_DOWN)) with
  | none => simp [hclb, hcrb] at h
  | some rb =>
  obtain ⟨hlbe, -⟩ := cell_ref_eq_some hclb
  obtain ⟨hrbe, -⟩ := cell_ref_eq_some hcrb
  subst hlbe
  subst hrbe
  simp only [hclb, hcrb, Option.some_bind, if_neg hl, if_neg hr, Option.pure_def,
    Option.some.injEq] at h
  exact h.symm

/-- The object that rests changes nothing but its falling flag in `fall`. -/
theorem fall_rests (s0 u t : Level) (i : Int) (d : Bool)
    (hinv : ∀ j, steady (s0.data j) (u.data j))
    (hd : d = true → (u.data i).type = FT_ORANGE_DISK)
    (hr : rests s0 i) (h : fall u i d = some t) :
    t = u.upd i (fun f => f.del_hint HINT_FALL) := by
  have hn : ∀ j dir, neighbour u j dir = neighbour s0 j dir := by
    intro j dir
    unfold neighbour
    rw [(hinv j).1]
  have hty : ∀ j, (u.data j).type = (s0.data j).type := fun j => (hinv j).2.1
  have hr' : rests u i := by
    unfold rests at hr ⊢
    simp only [hn, hty]
    refine ⟨hr.1, fun hf => hr.2.1 ((hinv i).2.2.2.2.2 hf), hr.2.2⟩
  clear hr hn hty hinv
  obtain ⟨h1, h2, h3⟩ := hr'
  unfold neighbour at h1 h2 h3
  unfold fall at h
  cases hb : cell_ref (data_idx (next_point (u.data i).coords DIR_DOWN)) with
  | none => simp [hb] at h
  | some b =>
  obtain ⟨hbe, -⟩ := cell_ref_eq_some hb
  subst hbe
  simp only [hb, Option.bind_eq_bind, Option.some_bind] at h
  cases hfs : fall_switch u i (data_idx (next_point (u.data i).coords DIR_DOWN)) d with
  | none => simp [hfs] at h
  | some w =>
  simp only [hfs, Option.some_bind, Option.pure_def, Option.some.injEq] at h
  have hw : w = u := by
    unfold fall_switch at hfs
    split at hfs
    · next hty => exact absurd hty h1
    · next hty =>
      rw [if_neg (fun hc => (h2 hc.1).2.1 hty)] at hfs
      exact (Option.some.inj hfs).symm
    · next hty =>
      rw [if_neg (fun hc => (h2 hc.1).2.2.1 hty)] at hfs
      exact (Option.some.inj hfs).symm
    · next hty =>
      rw [if_neg (fun hc => (h2 hc.1).2.2.2.1 hty)] at hfs
      exact (Option.some.inj hfs).symm
    · next hty =>
      rw [if_neg (fun hc => (h2 hc).2.2.2.2 hty)] at hfs
      exact (Option.some.inj hfs).symm
    · rw [if_neg (fun hc => (h2 hc.1).1 (hd hc.2))] at hfs
      split at hfs
      · next hro =>
        have hcap := h3 (rolls_on_impact_capable hro)
        exact roll_blocked u w i hfs hcap.1 hcap.2
      · exact (Option.some.inj hfs).symm
  rw [← h, hw]

theorem hfd_turn_left_and (d : Direction) :
    (hint_from_direction (turn_left d) ||| HINT_TURN_LEFT) &&& HINT_EXPLOSION = 0 ∧
    (hint_from_direction (turn_left d) ||| HINT_TURN_LEFT) &&& HINT_EXPLOSION_INFOTRON = 0 ∧
    (hint_from_direction (turn_left d) ||| HINT_TURN_LEFT) &&& HINT_FALL = 0 := by
  cases d <;> decide

theorem hfd_turn_right_and (d : Direction) :
    (hint_from_direction (turn_right d) ||| HINT_TURN_RIGHT) &&& HINT_EXPLOSION = 0 ∧
    (hint_from_direction (turn_right d) ||| HINT_TURN_RIGHT) &&& HINT_EXPLOSION_INFOTRON = 0 ∧
    (hint_from_direction (turn_right d) ||| HINT_TURN_RIGHT) &&& HINT_FALL = 0 := by
  cases d <;> decide

/-- The hazard that is hemmed in changes nothing but flags in `move_npc`. -/
theorem move_npc_hemmed (s0 u t : Level) (i : Int) (dir : Direction)
    (hinv : ∀ j, steady (s0.data j) (u.data j)) (hdir : dir ≠ DIR_NONE)
    (hz : hemmed_in s0 i) (h : move_npc u i dir = some t) :
    ∀ j, steady (u.data j) (t.data j) := by
  have hnext : (u.data (data_idx (next_point (u.data i).coords dir))).type ≠ FT_EMPTY ∧
      (u.data (data_idx (next_point (u.data i).coords dir))).type ≠ FT_MURPHY := by
    have := hz dir (by cases dir <;> simp at hdir ⊢)
    unfold neighbour at this
    rw [(hinv i).1, (hinv _).2.1]
    exact this
  clear hz hinv
  unfold move_npc at h
  cases hct : can_turn u i dir with
  | none => simp [hct] at h
  | some ct =>
  simp only [hct, Option.bind_eq_bind, Option.some_bind, upd_data_same, del_hint_coords] at h
  cases hn : cell_ref (data_idx (next_point (u.data i).coords dir)) with
  | none => simp [hn] at h
  | some nx =>
  obtain ⟨hne, -⟩ := cell_ref_eq_some hn
  subst hne
  simp only [hn, Option.some_bind] at h
  have hs1 : ∀ j, steady (u.data j) ((u.upd i (fun f => f.del_hint
      (HINT_TURN_LEFT ||| HINT_TURN_RIGHT ||| HINT_FROM_TOP ||| HINT_FROM_BOTTOM |||
        HINT_FROM_LEFT ||| HINT_FROM_RIGHT))).data j) :=
    steady_upd u i _ (fun f => steady_del_hint f _ (by decide) (by decide))
  generalize u.upd i (fun f => f.del_hint
      (HINT_TURN_LEFT ||| HINT_TURN_RIGHT ||| HINT_FROM_TOP ||| HINT_FROM_BOTTOM |||
        HINT_FROM_LEFT ||| HINT_FROM_RIGHT)) = u1 at h hs1
  have hnext1 : (u1.data (data_idx (next_point (u.data i).coords dir))).type ≠ FT_EMPTY ∧
      (u1.data (data_idx (next_point (u.data i).coords dir))).type ≠ FT_MURPHY := by
    rw [(hs1 _).2.1]
    exact hnext
  have hfw : ∃ u2, npc_forward u1 i (data_idx (next_point (u.data i).coords dir)) dir ct =
      some (u2, false) ∧ ∀ j, steady (u1.data j) (u2.data j) := by
    unfold npc_forward
    split
    · rw [if_neg hnext1.1, if_neg hnext1.2]
      exact ⟨_, rfl, steady_upd u1 _ _
        (fun f => steady_set_hint f _ (by decide) (by decide) (by decide))⟩
    · exact ⟨_, rfl, fun j => steady_refl _⟩
  obtain ⟨u2, hu2, hs2⟩ := hfw
  rw [hu2] at h
  simp only [Option.some_bind, Bool.false_eq_true, not_false_eq_true, true_and] at h
  intro j
  refine steady_trans (hs1 j) (steady_trans (hs2 j) ?_)
  split at h
  · rw [← Option.some.inj h]
    exact steady_upd u2 i _ (fun f => steady_set_hint f _ (hfd_turn_left_and dir).1
      (hfd_turn_left_and dir).2.1 (hfd_turn_left_and dir).2.2) j
  · rw [← Option.some.inj h]
    exact steady_upd u2 i _ (fun f => steady_set_hint f _ (hfd_turn_right_and dir).1
      (hfd_turn_right_and dir).2.1 (hfd_turn_right_and dir).2.2) j

theorem npc_direction_ne_none (f : Field) : npc_direction f ≠ DIR_NONE := by
  unfold npc_direction
  split
  · simp
  · split
    · simp
    · split
      · simp
      · split <;> simp

/-- In a level at rest the scan of a cell changes flags only. -/
theorem scan_cell_at_rest (s0 u t : Level) (i : Int) (hi : in_grid i)
    (hinv : ∀ j, steady (s0.data j) (u.data j))
    (hx : ∀ j, in_grid j → ¬ exploding (s0.data j))
    (hl : ∀ j, in_grid j → loose (s0.data j).type → rests s0 j)
    (hz : ∀ j, in_grid j → hazard (s0.data j).type → hemmed_in s0 j)
    (h : scan_cell u i = some t) : ∀ j, steady (s0.data j) (t.data j) := by
  cases hs : (u.data i).has_hint HINT_SKIP with
  | true =>
    rw [scan_cell_skip u i hs] at h
    rw [← Option.some.inj h]
    exact hinv
  | false =>
    have hnx : ¬ exploding (u.data i) := by
      unfold exploding
      rw [(hinv i).2.2.2.1, (hinv i).2.2.2.2.1]
      exact hx i hi
    rcases scan_cell_stages u t i h hs with ⟨-, hd⟩ | ⟨hx2, -⟩ | ⟨hx2, -⟩
    · have hinv1 : ∀ j, steady (s0.data j) ((u.upd i own_cleared).data j) := fun j =>
        steady_trans (hinv j) (steady_upd u i _ (fun f => kept_steady (kept_own_cleared f)) j)
      generalize u.upd i own_cleared = u1 at hd hinv1
      have hty : (u1.data i).type = (s0.data i).type := (hinv1 i).2.1
      unfold dispatch at hd
      split at hd
      · split at hd
        · next hty1 =>
          rw [fall_rests s0 u1 t i false hinv1 (by simp)
            (hl i hi (Or.inl (hty ▸ hty1))) hd]
          exact fun j => steady_trans (hinv1 j)
            (steady_upd u1 i _ (fun f => steady_del_hint f _ (by decide) (by decide)) j)
        · next hty1 =>
          rw [fall_rests s0 u1 t i false hinv1 (by simp)
            (hl i hi (Or.inr (Or.inl (hty ▸ hty1)))) hd]
          exact fun j => steady_trans (hinv1 j)
            (steady_upd u1 i _ (fun f => steady_del_hint f _ (by decide) (by decide)) j)
        · next hty1 =>
          rw [fall_rests s0 u1 t i true hinv1 (fun _ => hty1)
            (hl i hi (Or.inr (Or.inr (hty ▸ hty1)))) hd]
          exact fun j => steady_trans (hinv1 j)
            (steady_upd u1 i _ (fun f => steady_del_hint f _ (by decide) (by decide)) j)
        · next hty1 =>
          exact fun j => steady_trans (hinv1 j)
            (move_npc_hemmed s0 u1 t i _ hinv1 (npc_direction_ne_none _)
              (hz i hi (Or.inl (hty ▸ hty1))) hd j)
        · next hty1 =>
          exact fun j => steady_trans (hinv1 j)
            (move_npc_hemmed s0 u1 t i _ hinv1 (npc_direction_ne_none _)
              (hz i hi (Or.inr (hty ▸ hty1))) hd j)
        · rw [← Option.some.inj hd]
          exact hinv1
      · rw [← Option.some.inj hd]
        exact hinv1
    · exact absurd hx2 hnx
    · exact absurd hx2 hnx

/-- In a level at rest the scan of a list of cells of the grid changes flags only. -/
theorem scan_at_rest (s0 : Level)
    (hx : ∀ j, in_grid j → ¬ exploding (s0.data j))
    (hl : ∀ j, in_grid j → loose (s0.data j).type → rests s0 j)
    (hz : ∀ j, in_grid j → hazard (s0.data j).type → hemmed_in s0 j)
    (l : List Int) (hg : ∀ i ∈ l, in_grid i) (u t : Level)
    (hinv : ∀ j, steady (s0.data j) (u.data j)) (h : l.foldlM scan_cell u = some t) :
    ∀ j, steady (s0.data j) (t.data j) := by
  induction l generalizing u with
  | nil =>
    simp only [List.foldlM_nil, Option.pure_def, Option.some.injEq] at h
    subst h
    exact hinv
  | cons a l ih =>
    rw [foldlM_cons_some] at h
    obtain ⟨v, hv, hrest⟩ := h
    exact ih (fun i hi => hg i (List.mem_cons_of_mem _ hi)) v
      (scan_cell_at_rest s0 u v a (hg a (List.mem_cons_self _ _)) hinv hx hl hz hv) hrest

/-! ## Movement resolution, stage by stage -/

/-- Movement resolution is the target switch on the level whose player cell has lost
the push flag, then the push reset, then the commit when the move is allowed. -/
theorem resolve_move_switch (s t : Level) (h : resolve_move s = some t) :
    in_grid (data_idx s.murphy) ∧ in_grid (data_idx (next_point s.murphy s.next_move)) ∧
    ∃ (s2 : Level) (allow : Bool),
      target_switch (s.upd (data_idx s.murphy) (fun f => f.del_hint HINT_PUSH))
        (next_point s.murphy s.next_move) (data_idx (next_point s.murphy s.next_move))
        (data_idx s.murphy) = some (s2, allow) ∧
      t = (if allow = true then
          committed (push_reset s2 (data_idx s.murphy)) (next_point s.murphy s.next_move)
            (data_idx (next_point s.murphy s.next_move))
        else push_reset s2 (data_idx s.murphy)) := by
  unfold resolve_move at h
  cases hf : cell_ref (data_idx (next_point s.murphy s.next_move)) with
  | none => simp [hf] at h
  | some fld =>
  cases hmu : cell_ref (data_idx s.murphy) with
  | none => simp [hf, hmu] at h
  | some m =>
  obtain ⟨hfe, hfg⟩ := cell_ref_eq_some hf
  obtain ⟨hme, hmg⟩ := cell_ref_eq_some hmu
  subst hfe
  subst hme
  simp only [hf, hmu, Option.bind_eq_bind, Option.some_bind] at h
  cases hts : target_switch (s.upd (data_idx s.murphy) (fun f => f.del_hint HINT_PUSH))
      (next_point s.murphy s.next_move) (data_idx (next_point s.murphy s.next_move))
      (data_idx s.murphy) with
  | none => simp [hts] at h
  | some p =>
  obtain ⟨s2, allow⟩ := p
  simp only [hts, Option.some_bind] at h
  refine ⟨hmg, hfg, s2, allow, rfl, ?_⟩
  cases allow with
  | false =>
    simp only [Bool.false_eq_true, ↓reduceIte, Option.pure_def, Option.some.injEq] at h
    rw [← h]
    rfl
  | true =>
    simp only [↓reduceIte] at h
    rw [if_pos rfl]
    exact commit_move_some _ t _ _ h

/-- The converse of `resolve_move_switch`: the result of movement resolution, given
the result of the target switch. -/
theorem resolve_move_of_switch (s s2 : Level) (allow : Bool)
    (hP : in_grid (data_idx s.murphy))
    (hQ : in_grid (data_idx (next_point s.murphy s.next_move)))
    (hts : target_switch (s.upd (data_idx s.murphy) (fun f => f.del_hint HINT_PUSH))
        (next_point s.murphy s.next_move) (data_idx (next_point s.murphy s.next_move))
        (data_idx s.murphy) = some (s2, allow))
    (hm : s2.murphy = s.murphy) :
    resolve_move s = some (if allow = true then
          committed (push_reset s2 (data_idx s.murphy)) (next_point s.murphy s.next_move)
            (data_idx (next_point s.murphy s.next_move))
        else push_reset s2 (data_idx s.murphy)) := by
  unfold resolve_move
  simp only [cell_ref_of_in_grid hP, cell_ref_of_in_grid hQ, Option.bind_eq_bind,
    Option.some_bind, hts]
  have hm2 : (push_reset s2 (data_idx s.murphy)).murphy = s.murphy := by
    unfold push_reset
    split <;> simpa using hm
  cases allow with
  | false => rfl
  | true =>
    rw [if_pos rfl, if_pos rfl]
    exact commit_move_eq _ _ _ (by
      show in_grid (data_idx (push_reset s2 (data_idx s.murphy)).murphy)
      rw [hm2]; exact hP)

theorem push_reset_data_ne (s : Level) (m j : Int) (h : j ≠ m) :
    (push_reset s m).data j = s.data j := by
  unfold push_reset
  split
  · exact upd_data_ne _ _ _ _ h
  · rfl

theorem push_reset_type (s : Level) (m j : Int) :
    ((push_reset s m).data j).type = (s.data j).type := by
  unfold push_reset
  split
  · by_cases h : j = m
    · subst h; simp
    · simp [h]
  · rfl

theorem push_reset_has_hint (s : Level) (m j : Int) (b : Nat) :
    ((push_reset s m).data j).has_hint b = (s.data j).has_hint b := by
  unfold push_reset
  split
  · by_cases h : j = m
    · subst h; simp
    · simp [h]
  · rfl

theorem push_reset_coords (s : Level) (m j : Int) :
    ((push_reset s m).data j).coords = (s.data j).coords := by
  unfold push_reset
  split
  · by_cases h : j = m
    · subst h; simp
    · simp [h]
  · rfl

theorem push_reset_murphy (s : Level) (m : Int) : (push_reset s m).murphy = s.murphy := by
  unfold push_reset
  split <;> rfl

theorem push_reset_murphy_alive (s : Level) (m : Int) :
    (push_reset s m).murphy_alive = s.murphy_alive := by
  unfold push_reset
  split <;> rfl

theorem push_reset_next_move (s : Level) (m : Int) :
    (push_reset s m).next_move = s.next_move := by
  unfold push_reset
  split <;> rfl

/-- After the push reset the player's cell carries the push flag or has countdown
0. -/
theorem push_reset_own (s : Level) (m : Int) :
    ((push_reset s m).data m).has_hint HINT_PUSH = true ∨
      ((push_reset s m).data m).countdown = 0 := by
  unfold push_reset
  split
  · exact Or.inr (by simp)
  · next h => exact Or.inl (by simpa using h)

/-! ## Explosions kill the player -/

theorem touchRel_dead {s t : Level} (h : TouchRel s t) (hd : s.murphy_alive = false) :
    t.murphy_alive = false := by
  cases ht : t.murphy_alive with
  | false => rfl
  | true => rw [h.alive ht] at hd; exact absurd hd (by simp)

theorem touchRel_type_murphy {s t : Level} (h : TouchRel s t) (j : Int)
    (hj : (s.data j).type = FT_MURPHY) : (t.data j).type = FT_MURPHY :=
  (touchPath_type_eq (h.cells j) (by rw [hj]; simp)).trans hj

theorem explode_cell_kills (fill : FieldType) (s t : Level) (p : Point)
    (h : explode_cell fill s p = some t) (hty : (s.data (data_idx p)).type = FT_MURPHY) :
    t.murphy_alive = false := by
  unfold explode_cell at h
  cases hr : cell_ref (data_idx p) with
  | none => simp [hr] at h
  | some fld =>
    obtain ⟨he, -⟩ := cell_ref_eq_some hr
    subst he
    simp only [hr, Option.bind_eq_bind, Option.some_bind, Option.pure_def, Option.some.injEq] at h
    rw [← h]
    have hty2 : ∀ u : Level, (u.data (data_idx p)).type = FT_MURPHY →
        (if (u.data (data_idx p)).type = FT_MURPHY then { u with murphy_alive := false }
          else u).murphy_alive = false := by
      intro u hu
      rw [if_pos hu]
    apply hty2
    split
    · split
      · simpa using hty
      · split
        · simpa using hty
        · exact hty
    · exact hty

theorem row_kills (fill : FieldType) (y : Int) (xs : List Int) (s t : Level)
    (h : xs.foldlM (fun s2 x => explode_cell fill s2 ⟨x, y⟩) s = some t)
    (hk : (∃ x ∈ xs, (s.data (data_idx ⟨x, y⟩)).type = FT_MURPHY) ∨ s.murphy_alive = false) :
    t.murphy_alive = false := by
  induction xs generalizing s with
  | nil =>
    simp only [List.foldlM_nil, Option.pure_def, Option.some.injEq] at h
    subst h
    rcases hk with ⟨x, hx, -⟩ | hd
    · exact absurd hx (List.not_mem_nil _)
    · exact hd
  | cons a l ih =>
    rw [foldlM_cons_some] at h
    obtain ⟨u, hu, hrest⟩ := h
    have hrel := explode_cell_rel fill s u _ hu
    refine ih u hrest ?_
    rcases hk with ⟨x, hx, hty⟩ | hd
    · rcases List.mem_cons.mp hx with e | hm
      · subst e
        exact Or.inr (explode_cell_kills fill s u _ hu hty)
      · exact Or.inl ⟨x, hm, touchRel_type_murphy hrel _ hty⟩
    · exact Or.inr (touchRel_dead hrel hd)

theorem rows_kill (fill : FieldType) (ys xs : List Int) (s t : Level)
    (h : ys.foldlM (fun s1 y => xs.foldlM (fun s2 x => explode_cell fill s2 ⟨x, y⟩) s1) s =
      some t)
    (hk : (∃ y ∈ ys, ∃ x ∈ xs, (s.data (data_idx ⟨x, y⟩)).type = FT_MURPHY) ∨
      s.murphy_alive = false) :
    t.murphy_alive = false := by
  induction ys generalizing s with
  | nil =>
    simp only [List.foldlM_nil, Option.pure_def, Option.some.injEq] at h
    subst h
    rcases hk with ⟨y, hy, -⟩ | hd
    · exact absurd hy (List.not_mem_nil _)
    · exact hd
  | cons a l ih =>
    rw [foldlM_cons_some] at h
    obtain ⟨u, hu, hrest⟩ := h
    have hrel : TouchRel s u :=
      foldlM_rel TouchRel touchRel_refl (fun _ _ _ => touchRel_trans) _
        (fun s2 x v hv => explode_cell_rel fill s2 v _ hv) _ _ _ hu
    refine ih u hrest ?_
    rcases hk with ⟨y, hy, x, hx, hty⟩ | hd
    · rcases List.mem_cons.mp hy with e | hm
      · subst e
        exact Or.inr (row_kills fill y xs s u hu (Or.inl ⟨x, hx, hty⟩))
      · exact Or.inl ⟨y, hm, x, hx, touchRel_type_murphy hrel _ hty⟩
    · exact Or.inr (touchRel_dead hrel hd)

/-- An explosion kills the player when a cell of type player lies in the square of
three by three points around the coordinates of the origin, whatever the fill. -/
theorem explode_9_kills (s t : Level) (origin : Int) (fill : FieldType) (p : Point)
    (h : explode_9 s origin fill = some t)
    (hx : (s.data origin).coords.x - 1 ≤ p.x ∧ p.x ≤ (s.data origin).coords.x + 1)
    (hy : (s.data origin).coords.y - 1 ≤ p.y ∧ p.y ≤ (s.data origin).coords.y + 1)
    (hty : (s.data (data_idx p)).type = FT_MURPHY) : t.murphy_alive = false := by
  unfold explode_9 at h
  simp only [upd_data_same, set_hint_coords] at h
  refine rows_kill fill _ _ _ t h (Or.inl ⟨p.y, ?_, p.x, ?_, ?_⟩)
  · simp only [List.mem_cons, List.mem_singleton, List.not_mem_nil, or_false]
    omega
  · simp only [List.mem_cons, List.mem_singleton, List.not_mem_nil, or_false]
    omega
  · by_cases hj : data_idx p = origin
    · rw [← hj, upd_data_same]
      simpa using hty
    · rw [upd_data_ne _ _ _ _ hj]
      exact hty

theorem next_point_box (p : Point) (d : Direction) :
    ((next_point p d).x - 1 ≤ p.x ∧ p.x ≤ (next_point p d).x + 1) ∧
    ((next_point p d).y - 1 ≤ p.y ∧ p.y ≤ (next_point p d).y + 1) := by
  cases d <;> unfold next_point <;> simp only <;> (try split) <;>
    refine ⟨⟨?_, ?_⟩, ?_, ?_⟩ <;> (try simp only) <;> omega

/-! ## Cells set aside for the rest of the tick -/

theorem touch_held {t : FieldType} {c : Int} {f g : Field} (h : Touch f g)
    (hf : held t c f) : held t c g := by
  obtain ⟨h1, h2, h3, h4⟩ := hf
  have hlv : f.type = FT_EMPTY → f.has_hint HINT_LEAVING = true := fun e => h3 (h2 ▸ e)
  cases h with
  | origin => exact ⟨by simp [h1], h2, fun e => by simp [h3 e], by simpa +decide using h4⟩
  | explode =>
    exact ⟨by simp [h1], h2, fun e => by simp [h3 e], Or.inr ⟨rfl, Or.inl (by simp +decide)⟩⟩
  | explode_infotron =>
    exact ⟨by simp [h1], h2, fun e => by simp [h3 e], Or.inr ⟨rfl, Or.inr (by simp +decide)⟩⟩
  | fall_into u ht hl => rw [hlv ht] at hl; exact absurd hl (by simp)
  | roll_into_left u ht hl => rw [hlv ht] at hl; exact absurd hl (by simp)
  | roll_into_right u ht hl => rw [hlv ht] at hl; exact absurd hl (by simp)
  | npc_into u d ht hl => rw [hlv ht] at hl; exact absurd hl (by simp)
  | npc_skip => exact ⟨by simp [h1], h2, fun e => by simp [h3 e], by simpa +decide using h4⟩

/-- A held cell is still held when the tick ends. -/
theorem tick_held (t : FieldType) (c : Int) (s1 s4 : Level) (j : Int) (hj : in_grid j)
    (hscan : cells.foldlM scan_cell (before_scan s1) = some s4) (hf : held t c (s1.data j)) :
    ((after_scan s4).data j).type = t ∧
      (t = FT_EMPTY → ((after_scan s4).data j).has_hint HINT_LEAVING = true) ∧
      (((after_scan s4).data j).countdown = c ∨
        (((after_scan s4).data j).countdown = EXPLOSION_STEPS ∧
          (((after_scan s4).data j).has_hint HINT_EXPLOSION = true ∨
            ((after_scan s4).data j).has_hint HINT_EXPLOSION_INFOTRON = true))) := by
  have hb : held t c ((before_scan s1).data j) := by
    rw [before_scan_data s1 j hj]
    unfold leaving_cleared
    rw [if_pos hf.1]
    exact hf
  have h4 := scan_preserves (held t c) (fun f g hfg hf => touch_held hfg hf)
    (Or.inr (fun f hf => hf.1)) cells _ s4 hscan j hb
  obtain ⟨-, h2, h3, h5⟩ := h4
  rw [after_scan_data s4 j hj]
  refine ⟨h2, fun e => ?_, ?_⟩
  · simpa +decide using h3 e
  · simpa +decide using h5

/-! ## Entering a free cell -/

/-- The commit of a move into another cell `Q` that the target switch left alone but
for the flag `w`: the facts about the vacated cell `P` and the new player cell `Q` when
the scan starts. -/
theorem enter_commit (s : Level) (P Q : Int) (w : Nat) (hP : P = data_idx s.murphy)
    (hPQ : Q ≠ P) :
    held FT_EMPTY 0 ((committed (push_reset ((s.upd P (fun f => f.del_hint HINT_PUSH)).upd Q
        (fun f => f.set_hint w)) P) (next_point s.murphy s.next_move) Q).data P) ∧
    ((committed (push_reset ((s.upd P (fun f => f.del_hint HINT_PUSH)).upd Q
        (fun f => f.set_hint w)) P) (next_point s.murphy s.next_move) Q).data P).has_hint
      (HINT_FROM_BOTTOM ||| HINT_FROM_TOP ||| HINT_FROM_RIGHT ||| HINT_FROM_LEFT |||
        HINT_WAS_INFOTRON ||| HINT_WAS_BASE ||| HINT_WAS_RED_DISK) = false ∧
    held FT_MURPHY (s.data Q).countdown
      ((committed (push_reset ((s.upd P (fun f => f.del_hint HINT_PUSH)).upd Q
        (fun f => f.set_hint w)) P) (next_point s.murphy s.next_move) Q).data Q) ∧
    (s.next_move ≠ DIR_NONE →
      ((committed (push_reset ((s.upd P (fun f => f.del_hint HINT_PUSH)).upd Q
        (fun f => f.set_hint w)) P) (next_point s.murphy s.next_move) Q).data Q).has_hint
        (hint_from_direction s.next_move) = true) ∧
    (0 < w →
      ((committed (push_reset ((s.upd P (fun f => f.del_hint HINT_PUSH)).upd Q
        (fun f => f.set_hint w)) P) (next_point s.murphy s.next_move) Q).data Q).has_hint
        w = true) := by
  have hQP : P ≠ Q := fun e => hPQ e.symm
  have hpr : push_reset ((s.upd P (fun f => f.del_hint HINT_PUSH)).upd Q
      (fun f => f.set_hint w)) P =
      ((s.upd P (fun f => f.del_hint HINT_PUSH)).upd Q (fun f => f.set_hint w)).upd P
        (fun f => { f with countdown := 0 }) := by
    unfold push_reset
    rw [if_pos]
    simp +decide [upd_data, hPQ, hQP]
  rw [hpr]
  have hww : w &&& w = w := Nat.and_self w
  have hd : ∀ d : Direction, d ≠ DIR_NONE →
      0 < (hint_from_direction d ||| HINT_SKIP) &&& hint_from_direction d := by
    intro d hd
    cases d
    · exact absurd rfl hd
    all_goals decide
  refine ⟨?_, ?_, ?_, ?_, ?_⟩
  · unfold committed held
    simp +decide [← hP, upd_data, hPQ, hQP]
  · unfold committed
    simp +decide [← hP, upd_data, hPQ, hQP]
  · unfold committed held
    simp +decide [← hP, upd_data, hPQ, hQP]
  · intro hne
    unfold committed
    simp +decide [← hP, upd_data, hPQ, hQP, has_hint_set_hint, hd _ hne]
  · intro hpos
    unfold committed
    simp +decide [← hP, upd_data, hPQ, hQP, has_hint_set_hint, hww, hpos]

theorem del_push_has_from (f : Field) (d : Direction) :
    (f.del_hint HINT_PUSH).has_hint (hint_from_direction d) =
      f.has_hint (hint_from_direction d) :=
  has_hint_del_hint_of_disjoint _ _ _ (by cases d <;> decide)

/-- The target switch on a free target: an empty or base cell that is not leaving or
is the trail of the player (the player's cell carries the arrival flag of the opposite
direction), a collectible or a red disk. The move is allowed, and the target gets its
was-flag. -/
theorem target_switch_enter (s : Level) (P Q : Int) (next : Point) (hPQ : Q ≠ P)
    (htarget : (((s.data Q).type = FT_EMPTY ∨ (s.data Q).type = FT_BASE) ∧
        ((s.data Q).has_hint HINT_LEAVING = false ∨
          (s.data P).has_hint (hint_from_direction (turn_back s.next_move)) = true)) ∨
      (s.data Q).type = FT_INFOTRON ∨ (s.data Q).type = FT_RED_DISK) :
    ∃ w : Nat, target_switch (s.upd P (fun f => f.del_hint HINT_PUSH)) next Q P =
        some ((s.upd P (fun f => f.del_hint HINT_PUSH)).upd Q (fun f => f.set_hint w), true) ∧
      ((s.data Q).type = FT_BASE → w = HINT_WAS_BASE) ∧
      ((s.data Q).type = FT_INFOTRON → w = HINT_WAS_INFOTRON) ∧
      ((s.data Q).type = FT_RED_DISK → w = HINT_WAS_RED_DISK) := by
  have hQP : P ≠ Q := fun e => hPQ e.symm
  have hdq : (s.upd P (fun f => f.del_hint HINT_PUSH)).data Q = s.data Q :=
    upd_data_ne _ _ _ _ hPQ
  rcases htarget with ⟨hty | hty, hl⟩ | hty | hty
  · refine ⟨0, ?_, by simp [hty], by simp [hty], by simp [hty]⟩
    have e : (s.upd P (fun f => f.del_hint HINT_PUSH)).upd Q (fun f => f.set_hint 0) =
        s.upd P (fun f => f.del_hint HINT_PUSH) :=
      upd_self _ _ _ (by simp [Field.set_hint])
    rw [e]
    unfold target_switch
    simp only [hdq, hty]
    unfold enter_free
    rw [if_neg]
    · rfl
    · rintro ⟨h1, h2⟩
      rw [hdq] at h1
      rw [upd_data_same, upd_next_move, del_push_has_from] at h2
      rcases hl with hl | hl
      · rw [hl] at h1; exact absurd h1 (by simp)
      · exact h2 hl
  · refine ⟨HINT_WAS_BASE, ?_, fun _ => rfl, by simp [hty], by simp [hty]⟩
    unfold target_switch
    simp only [hdq, hty]
    unfold enter_free
    rw [if_neg]
    · rfl
    · rintro ⟨h1, h2⟩
      rw [upd_data_same, hdq] at h1
      rw [upd_data_ne _ _ _ _ hQP, upd_data_same, upd_next_move, upd_next_move,
        del_push_has_from] at h2
      rcases hl with hl | hl
      · rw [has_hint_set_hint, hl] at h1; exact absurd h1 (by decide)
      · exact h2 hl
  · refine ⟨HINT_WAS_INFOTRON, ?_, by simp [hty], fun _ => rfl, by simp [hty]⟩
    unfold target_switch
    simp only [hdq, hty]
    rfl
  · refine ⟨HINT_WAS_RED_DISK, ?_, by simp [hty], by simp [hty], fun _ => rfl⟩
    unfold target_switch
    simp only [hdq, hty]
    rfl

theorem touch_vacated {c : Int} {f g : Field} (h : Touch f g)
    (hf : held FT_EMPTY c f ∧ f.has_hint (HINT_FROM_BOTTOM ||| HINT_FROM_TOP |||
      HINT_FROM_RIGHT ||| HINT_FROM_LEFT ||| HINT_WAS_INFOTRON ||| HINT_WAS_BASE |||
      HINT_WAS_RED_DISK) = false) :
    held FT_EMPTY c g ∧ g.has_hint (HINT_FROM_BOTTOM ||| HINT_FROM_TOP |||
      HINT_FROM_RIGHT ||| HINT_FROM_LEFT ||| HINT_WAS_INFOTRON ||| HINT_WAS_BASE |||
      HINT_WAS_RED_DISK) = false := by
  refine ⟨touch_held h hf.1, ?_⟩
  obtain ⟨⟨-, h2, h3, -⟩, h5⟩ := hf
  have hlv : f.has_hint HINT_LEAVING = true := h3 rfl
  cases h with
  | origin => simpa +decide using h5
  | explode => simpa +decide using h5
  | explode_infotron => simpa +decide using h5
  | npc_skip => simpa +decide using h5
  | fall_into u ht hl => rw [hlv] at hl; exact absurd hl (by simp)
  | roll_into_left u ht hl => rw [hlv] at hl; exact absurd hl (by simp)
  | roll_into_right u ht hl => rw [hlv] at hl; exact absurd hl (by simp)
  | npc_into u d ht hl => rw [hlv] at hl; exact absurd hl (by simp)

theorem touch_arrived {c : Int} {a w : Nat} {f g : Field} (h : Touch f g)
    (hf : held FT_MURPHY c f ∧ (f.has_hint a = true ∧ f.has_hint w = true)) :
    held FT_MURPHY c g ∧ (g.has_hint a = true ∧ g.has_hint w = true) :=
  ⟨touch_held h hf.1, touch_has_hint_mono h _ hf.2.1, touch_has_hint_mono h _ hf.2.2⟩

/-- A tick in which the player enters a free target `Q` from its cell `P`: what holds
of the two cells and of the cached player position afterwards. -/
theorem enter_tick (s t : Level) (r : Bool) (P Q : Int)
    (halive : s.murphy_alive = true)
    (hP : P = data_idx s.murphy) (hQ : Q = data_idx (next_point s.murphy s.next_move))
    (hPQ : Q ≠ P)
    (htarget : (((s.data Q).type = FT_EMPTY ∨ (s.data Q).type = FT_BASE) ∧
        ((s.data Q).has_hint HINT_LEAVING = false ∨
          (s.data P).has_hint (hint_from_direction (turn_back s.next_move)) = true)) ∨
      (s.data Q).type = FT_INFOTRON ∨ (s.data Q).type = FT_RED_DISK)
    (h : game_step s = some (t, r)) :
    (t.data P).type = FT_EMPTY ∧ (t.data P).has_hint HINT_LEAVING = true ∧
    (t.data P).has_hint (HINT_FROM_BOTTOM ||| HINT_FROM_TOP ||| HINT_FROM_RIGHT |||
      HINT_FROM_LEFT ||| HINT_WAS_INFOTRON ||| HINT_WAS_BASE ||| HINT_WAS_RED_DISK) = false ∧
    (t.data Q).type = FT_MURPHY ∧
    (t.data Q).has_hint (hint_from_direction s.next_move) = true ∧
    ((s.data Q).type = FT_BASE → (t.data Q).has_hint HINT_WAS_BASE = true) ∧
    ((s.data Q).type = FT_INFOTRON → (t.data Q).has_hint HINT_WAS_INFOTRON = true) ∧
    ((s.data Q).type = FT_RED_DISK → (t.data Q).has_hint HINT_WAS_RED_DISK = true) ∧
    t.murphy = next_point s.murphy s.next_move := by
  obtain ⟨s1, s4, hm, hscan, rfl, -⟩ := (game_step_some s t r).mp h
  have hne : s.next_move ≠ DIR_NONE := by
    intro e
    apply hPQ
    rw [hQ, hP, e]
    rfl
  unfold move_phase at hm
  rw [if_pos ⟨hne, halive⟩] at hm
  obtain ⟨hPg, hQg, -⟩ := resolve_move_switch s s1 hm
  rw [← hP] at hPg
  rw [← hQ] at hQg
  obtain ⟨w, hts, hwb, hwi, hwr⟩ := target_switch_enter s P Q
    (next_point s.murphy s.next_move) hPQ htarget
  have hres := resolve_move_of_switch s
    ((s.upd P (fun f => f.del_hint HINT_PUSH)).upd Q (fun f => f.set_hint w)) true
    (hP ▸ hPg) (hQ ▸ hQg) (by rw [← hP, ← hQ]; exact hts) rfl
  rw [hm, if_pos rfl, ← hP, ← hQ] at hres
  have e1 := Option.some.inj hres
  obtain ⟨c1, c2, c3, c4, c5⟩ := enter_commit s P Q w hP hPQ
  rw [← e1] at c1 c2 c3 c4 c5
  have hbP : (before_scan s1).data P = s1.data P := by
    rw [before_scan_data s1 P hPg]
    unfold leaving_cleared
    rw [if_pos c1.1]
  have hbQ : (before_scan s1).data Q = s1.data Q := by
    rw [before_scan_data s1 Q hQg]
    unfold leaving_cleared
    rw [if_pos c3.1]
  have h4P := scan_preserves
    (fun f => held FT_EMPTY 0 f ∧ f.has_hint (HINT_FROM_BOTTOM ||| HINT_FROM_TOP |||
      HINT_FROM_RIGHT ||| HINT_FROM_LEFT ||| HINT_WAS_INFOTRON ||| HINT_WAS_BASE |||
      HINT_WAS_RED_DISK) = false)
    (fun f g hfg hf => touch_vacated hfg hf) (Or.inr (fun f hf => hf.1.1)) cells _ s4 hscan P
    (by rw [hbP]; exact ⟨c1, c2⟩)
  have h4Q := scan_preserves
    (fun f => held FT_MURPHY (s.data Q).countdown f ∧
      (f.has_hint (hint_from_direction s.next_move) = true ∧
        (0 < w → f.has_hint w = true)))
    (fun f g hfg hf => ⟨touch_held hfg hf.1, touch_has_hint_mono hfg _ hf.2.1,
      fun hp => touch_has_hint_mono hfg _ (hf.2.2 hp)⟩)
    (Or.inr (fun f hf => hf.1.1)) cells _ s4 hscan Q
    (by rw [hbQ]; exact ⟨c3, c4 hne, c5⟩)
  have hmur : (after_scan s4).murphy = next_point s.murphy s.next_move := by
    rw [after_scan_murphy, (scan_globals cells _ s4 hscan).1, before_scan_murphy, e1]
    rfl
  have hdir : (4294967295 - HINT_SKIP) &&& hint_from_direction s.next_move =
      hint_from_direction s.next_move := by
    cases s.next_move <;> decide
  rw [after_scan_data s4 P hPg, after_scan_data s4 Q hQg]
  refine ⟨h4P.1.2.1, ?_, ?_, h4Q.1.2.1, ?_, ?_, ?_, ?_, hmur⟩
  · simpa +decide using h4P.1.2.2.1 rfl
  · simpa +decide using h4P.2
  · rw [has_hint_del_hint_of_disjoint _ _ _ hdir]
    exact h4Q.2.1
  · intro hb
    have := h4Q.2.2 (by rw [hwb hb]; decide)
    rw [hwb hb] at this
    simpa +decide using this
  · intro hb
    have := h4Q.2.2 (by rw [hwi hb]; decide)
    rw [hwi hb] at this
    simpa +decide using this
  · intro hb
    have := h4Q.2.2 (by rw [hwr hb]; decide)
    rw [hwr hb] at this
    simpa +decide using this

/-! ## Invariants of a tick -/

theorem committed_murphy_only (s : Level) (next : Point) (j : Int)
    (hinv : ∀ k, in_grid k → (s.data k).type = FT_MURPHY → k = data_idx s.murphy)
    (hj : in_grid j) (h : ((committed s next (data_idx next)).data j).type = FT_MURPHY) :
    j = data_idx next := by
  by_contra hne
  by_cases hjo : j = data_idx s.murphy
  · subst hjo
    unfold committed at h
    simp only at h
    split at h <;> simp [upd_data, hne] at h
  · have h2 : (s.data j).type = FT_MURPHY := by
      unfold committed at h
      simp only at h
      split at h <;> simpa [upd_data, hne, hjo] using h
    exact hjo (hinv j hj h2)

/-- C1. If every cell of type player is the cell at the cached player position, then
after `game_step` (whatever the pending intent) every cell of type player is the cell
at the cached player position, and so at most one cell has type player. -/
theorem at_most_one_player (s t : Level) (r : Bool)
    (hinv : ∀ j, in_grid j → (s.data j).type = FT_MURPHY → j = data_idx s.murphy)
    (h : game_step s = some (t, r)) :
    (∀ j, in_grid j → (t.data j).type = FT_MURPHY → j = data_idx t.murphy) ∧
    (∀ i j, in_grid i → in_grid j → (t.data i).type = FT_MURPHY →
      (t.data j).type = FT_MURPHY → i = j) := by
  obtain ⟨s1, s4, hmove, hscan, rfl, -⟩ := (game_step_some s t r).mp h
  have h1 : ∀ j, in_grid j → (s1.data j).type = FT_MURPHY → j = data_idx s1.murphy := by
    rcases move_phase_cases s s1 hmove with rfl | ⟨-, -, hres⟩
    · exact hinv
    · obtain ⟨-, -, s3, hrel, hfin⟩ := resolve_move_some s s1 hres
      have h3 : ∀ j, in_grid j → (s3.data j).type = FT_MURPHY → j = data_idx s3.murphy := by
        intro j hj hty
        rw [hrel.murphy]
        apply hinv j hj
        by_contra hc
        exact moveRel_preserves hrel (fun f => f.type ≠ FT_MURPHY)
          (fun f g hfg hf hg => hf (movedOwn_type_murphy hfg hg)) j hc hty
      rcases hfin with rfl | ⟨-, rfl⟩
      · exact h3
      · intro j hj hty
        exact committed_murphy_only s3 _ j h3 hj hty
  have h4 : ∀ j, in_grid j → ((after_scan s4).data j).type = FT_MURPHY →
      j = data_idx (after_scan s4).murphy := by
    intro j hj hty
    rw [after_scan_type] at hty
    have := scan_type_murphy cells _ s4 hscan j hty
    rw [before_scan_type] at this
    rw [after_scan_murphy, (scan_globals cells _ s4 hscan).1, before_scan_murphy]
    exact h1 j hj this
  exact ⟨h4, fun i j hi hj hti htj => (h4 i hi hti).trans (h4 j hj htj).symm⟩

/-- The tick never revives the player. -/
theorem game_step_alive (s t : Level) (r : Bool) (h : game_step s = some (t, r)) :
    r = t.murphy_alive ∧ (t.murphy_alive = true → s.murphy_alive = true) := by
  obtain ⟨s1, s4, hmove, hscan, rfl, rfl⟩ := (game_step_some s t r).mp h
  refine ⟨rfl, fun ha => ?_⟩
  rw [after_scan_murphy_alive] at ha
  have h1 := (scan_globals cells _ s4 hscan).2.2 ha
  rw [before_scan_murphy_alive] at h1
  rcases move_phase_cases s s1 hmove with rfl | ⟨-, hal, -⟩
  · exact h1
  · exact hal

/-- C2. Death is one-way: the value `game_step` returns is `murphy_alive` as it stands
after the tick, and from a state with `murphy_alive = false` (whatever the pending
intent) it returns false and leaves `murphy_alive` false. -/
theorem death_is_one_way (s t : Level) (r : Bool) (h : game_step s = some (t, r)) :
    r = t.murphy_alive ∧ (s.murphy_alive = false → r = false ∧ t.murphy_alive = false) := by
  obtain ⟨h1, h2⟩ := game_step_alive s t r h
  refine ⟨h1, fun hd => ?_⟩
  have : t.murphy_alive = false := by
    cases hta : t.murphy_alive with
    | false => rfl
    | true => rw [h2 hta] at hd; exact absurd hd (by simp)
  exact ⟨h1.trans this, this⟩

/-- C3. After `game_step` returns, whatever flags the level started with and whatever
the pending intent, no cell of the grid carries the skip flag. -/
theorem no_skip_after_game_step (s t : Level) (r : Bool) (h : game_step s = some (t, r))
    (i : Int) (hi : in_grid i) : (t.data i).has_hint HINT_SKIP = false := by
  obtain ⟨s1, s4, -, -, rfl, -⟩ := (game_step_some s t r).mp h
  rw [after_scan_data s4 i hi]
  simp +decide

theorem level_step_right_step :
    game_step level_step_right = sparse_step [305, 306] level_step_right :=
  game_step_sparse_level _ _ _ _ (by decide) (by decide) (by decide)

theorem level_step_right_inv (j : Int) (_hj : in_grid j)
    (h : (level_step_right.data j).type = FT_MURPHY) : j = data_idx level_step_right.murphy :=
  sparse_level_forall _ true DIR_RIGHT ⟨5, 5⟩
    (fun j f => f.type = FT_MURPHY → j = data_idx level_step_right.murphy)
    (fun j _ h => by simp [border_cell, cell_at] at h) (by decide) j h

/-- Witness of C1: the player steps right into an empty cell. -/
theorem at_most_one_player_witness :
    ∃ t r, game_step level_step_right = some (t, r) ∧
      (∀ j, in_grid j → (t.data j).type = FT_MURPHY → j = data_idx t.murphy) ∧
      (∀ i j, in_grid i → in_grid j → (t.data i).type = FT_MURPHY →
        (t.data j).type = FT_MURPHY → i = j) := by
  have h : (game_step level_step_right).isSome = true := by
    rw [level_step_right_step]
    decide
  obtain ⟨⟨t, r⟩, ht⟩ := Option.isSome_iff_exists.mp h
  exact ⟨t, r, ht, at_most_one_player level_step_right t r level_step_right_inv ht⟩

theorem level_dead_step : game_step level_dead = sparse_step [305] level_dead :=
  game_step_sparse_level _ _ _ _ (by decide) (by decide) (by decide)

/-- Witness of C2: a tick of a level whose player is dead. -/
theorem death_is_one_way_witness :
    level_dead.murphy_alive = false ∧
    ∃ t r, game_step level_dead = some (t, r) ∧ r = t.murphy_alive ∧
      (level_dead.murphy_alive = false → r = false ∧ t.murphy_alive = false) := by
  have h : (game_step level_dead).isSome = true := by
    rw [level_dead_step]
    decide
  obtain ⟨⟨t, r⟩, ht⟩ := Option.isSome_iff_exists.mp h
  exact ⟨rfl, t, r, ht, death_is_one_way level_dead t r ht⟩

/-- Witness of C3: after the player stepped right, its new cell (306), which was
flagged skip by the move, carries no skip flag. -/
theorem no_skip_after_game_step_witness :
    ∃ t r, game_step level_step_right = some (t, r) ∧ in_grid 306 ∧
      (t.data 306).has_hint HINT_SKIP = false := by
  have h : (game_step level_step_right).isSome = true := by
    rw [level_step_right_step]
    decide
  obtain ⟨⟨t, r⟩, ht⟩ := Option.isSome_iff_exists.mp h
  exact ⟨t, r, ht, by decide, no_skip_after_game_step level_step_right t r ht 306 (by decide)⟩

theorem level_top_row_step : game_step level_top_row = sparse_step [5, 65] level_top_row :=
  game_step_sparse_level _ _ _ _ (by decide) (by decide) (by decide)

theorem level_top_row_coords (j : Int) :
    (level_top_row.data j).coords = ⟨j % 60, j / 60⟩ :=
  sparse_level_forall _ true DIR_NONE ⟨5, 0⟩ (fun j f => f.coords = ⟨j % 60, j / 60⟩)
    (fun _ _ => rfl) (by decide) j

/-- C4 fails on the code. In a level whose cells store their row-major coordinates
and whose cached player position is inside the grid, the patrol hazard below the
player in the top row makes `move_npc` call `explode_9` centred on the player at
(5, 0); `explode_9` then binds `data[data_idx(Point(4, -1))]`, index -56, outside
the array: the tick has no defined result. -/
theorem explode_9_reads_outside_the_grid :
    (∀ j, in_grid j → (level_top_row.data j).coords = ⟨j % 60, j / 60⟩) ∧
    in_grid (data_idx level_top_row.murphy) ∧
    data_idx ⟨4, -1⟩ = -56 ∧ cell_ref (data_idx ⟨4, -1⟩) = none ∧
    (explode_9 (before_scan level_top_row) 5 FT_EMPTY).isSome = false ∧
    (move_npc (before_scan level_top_row) 65 DIR_UP).isSome = false ∧
    (game_step level_top_row).isSome = false := by
  refine ⟨fun j _ => level_top_row_coords j, by decide, by decide, by decide, by decide,
    by decide, ?_⟩
  rw [level_top_row_step]
  decide

/-! ## Pushing -/

/-- C5. Push arming. The player is alive at cell `P` (type player, countdown 0), the
intent is left or right, the adjacent cell `Q` in that direction holds a loose rock
without the falling flag and the cell `R` beyond it is empty and not leaving. Then
movement resolution moves neither the rock nor the player: `P` keeps type player and
stays the cached position, `Q` keeps the rock, `R` stays empty, and `P` ends with
countdown 1 and the being-pushed flag. -/
theorem push_arms (s : Level) (P Q R : Int)
    (halive : s.murphy_alive = true)
    (hdir : s.next_move = DIR_LEFT ∨ s.next_move = DIR_RIGHT)
    (hP : P = data_idx s.murphy) (hPg : in_grid P)
    (hQ : Q = data_idx (next_point s.murphy s.next_move)) (hQg : in_grid Q)
    (hR : R = data_idx (next_point (next_point s.murphy s.next_move) s.next_move))
    (hRg : in_grid R)
    (hPt : (s.data P).type = FT_MURPHY) (hPc : (s.data P).countdown = 0)
    (hQt : (s.data Q).type = FT_ZONK) (hQf : (s.data Q).has_hint HINT_FALL = false)
    (hRt : (s.data R).type = FT_EMPTY) (hRl : (s.data R).has_hint HINT_LEAVING = false) :
    ∃ t, move_phase s = some t ∧ (t.data P).type = FT_MURPHY ∧ t.murphy = s.murphy ∧
      (t.data Q).type = FT_ZONK ∧ (t.data R).type = FT_EMPTY ∧
      (t.data P).countdown = 1 ∧ (t.data P).has_hint HINT_PUSH = true := by
  have hQP : Q ≠ P := by
    intro e
    rw [e, hPt] at hQt
    exact absurd hQt (by simp)
  have hRP : R ≠ P := by
    intro e
    rw [e, hPt] at hRt
    exact absurd hRt (by simp)
  have hRQ : R ≠ Q := by
    intro e
    rw [e, hQt] at hRt
    exact absurd hRt (by simp)
  have hne : s.next_move ≠ DIR_NONE := by
    rcases hdir with h | h <;> simp [h]
  subst hP hQ hR
  refine ⟨((s.upd (data_idx s.murphy) (fun f => f.del_hint HINT_PUSH)).upd (data_idx s.murphy)
    (fun f => f.set_hint HINT_PUSH)).upd (data_idx s.murphy)
    (fun f => { f with countdown := 1 }), ?_, ?_⟩
  · unfold move_phase
    rw [if_pos ⟨hne, halive⟩]
    unfold resolve_move
    simp only [cell_ref_of_in_grid hPg, cell_ref_of_in_grid hQg, Option.bind_eq_bind,
      Option.some_bind]
    unfold target_switch
    simp only [upd_data_ne _ _ _ _ hQP, hQt]
    unfold push
    simp only [upd_data_ne _ _ _ _ hQP, hQf, Bool.false_eq_true, ↓reduceIte, upd_next_move,
      hdir, or_true, cell_ref_of_in_grid hRg, Option.bind_eq_bind, Option.some_bind,
      upd_data_ne _ _ _ _ hRP, hRt, hRl, not_false_eq_true, and_self, upd_data_same,
      set_hint_countdown, del_hint_countdown, hPc, zero_ne_one,
      Option.pure_def]
    simp +decide
  · simp +decide [upd_data, hQP, hRP, hQP.symm, hRP.symm, hPt, hQt, hRt]

/-- Witness of C5: the player at (5, 5) pushes right against the rock at (6, 5) for
the first time. -/
theorem push_arms_witness :
    ∃ t, move_phase (level_push 0 0 DIR_RIGHT) = some t ∧ (t.data 305).type = FT_MURPHY ∧
      t.murphy = (level_push 0 0 DIR_RIGHT).murphy ∧
      (t.data 306).type = FT_ZONK ∧ (t.data 307).type = FT_EMPTY ∧
      (t.data 305).countdown = 1 ∧ (t.data 305).has_hint HINT_PUSH = true :=
  push_arms (level_push 0 0 DIR_RIGHT) 305 306 307 rfl (Or.inr rfl) (by decide) (by decide)
    (by decide) (by decide) (by decide) (by decide) (by decide) (by decide) (by decide)
    (by decide) (by decide) (by decide)

/-- The state in which the push is executed: the level after the target switch of
`game_step` when the armed player pushes the object at `Q` into `R`. -/
theorem push_go_target (s : Level) (P Q R : Int)
    (hR : R = data_idx (next_point (next_point s.murphy s.next_move) s.next_move))
    (hRg : in_grid R)
    (hPc : (s.data P).countdown = 1)
    (hobj : (((s.data Q).type = FT_ZONK ∨ (s.data Q).type = FT_ORANGE_DISK) ∧
        (s.next_move = DIR_LEFT ∨ s.next_move = DIR_RIGHT)) ∨
      (s.data Q).type = FT_YELLOW_DISK)
    (hQf : (s.data Q).has_hint HINT_FALL = false)
    (hRt : (s.data R).type = FT_EMPTY) (hRl : (s.data R).has_hint HINT_LEAVING = false)
    (hQP : Q ≠ P) (hRP : R ≠ P) :
    target_switch (s.upd P (fun f => f.del_hint HINT_PUSH))
        (next_point s.murphy s.next_move) Q P =
      some (((((s.upd P (fun f => f.del_hint HINT_PUSH)).upd P
        (fun f => f.set_hint HINT_PUSH)).upd R
        (fun f => { f with type := (s.data Q).type })).upd R
        (fun f => f.set_hint (hint_from_direction s.next_move ||| HINT_SKIP))).upd P
        (fun f => { f with countdown := 0 }), true) := by
  have hcond : (s.data Q).type = FT_YELLOW_DISK ∨ s.next_move = DIR_LEFT ∨
      s.next_move = DIR_RIGHT := by
    rcases hobj with ⟨-, h⟩ | h
    · exact Or.inr h
    · exact Or.inl h
  have hpush : push (s.upd P (fun f => f.del_hint HINT_PUSH))
      (next_point s.murphy s.next_move) Q P =
      some (((((s.upd P (fun f => f.del_hint HINT_PUSH)).upd P
        (fun f => f.set_hint HINT_PUSH)).upd R
        (fun f => { f with type := (s.data Q).type })).upd R
        (fun f => f.set_hint (hint_from_direction s.next_move ||| HINT_SKIP))).upd P
        (fun f => { f with countdown := 0 }), true) := by
    unfold push
    simp only [upd_next_move]
    rw [← hR]
    simp only [upd_data_ne _ _ _ _ hQP, hQf, Bool.false_eq_true, ↓reduceIte, upd_next_move,
      hcond, cell_ref_of_in_grid hRg, Option.bind_eq_bind, Option.some_bind,
      upd_data_ne _ _ _ _ hRP, hRt, hRl, not_false_eq_true, and_self, upd_data_same,
      set_hint_countdown, del_hint_countdown, hPc, Option.pure_def]
  unfold target_switch
  rw [upd_data_ne _ _ _ _ hQP]
  rcases hobj with ⟨h | h, -⟩ | h
  · simp only [h]
    rw [← h]
    exact hpush
  · simp only [h]
    rw [← h]
    exact hpush
  · simp only [h]
    rw [← h]
    exact hpush

/-- The movement phase of a push execution: the facts about the three cells when the
scan starts. -/
theorem push_go_move (s : Level) (P Q R : Int)
    (halive : s.murphy_alive = true)
    (hP : P = data_idx s.murphy) (hPg : in_grid P)
    (hQ : Q = data_idx (next_point s.murphy s.next_move)) (hQg : in_grid Q)
    (hR : R = data_idx (next_point (next_point s.murphy s.next_move) s.next_move))
    (hRg : in_grid R)
    (hPt : (s.data P).type = FT_MURPHY) (hPc : (s.data P).countdown = 1)
    (hobj : (((s.data Q).type = FT_ZONK ∨ (s.data Q).type = FT_ORANGE_DISK) ∧
        (s.next_move = DIR_LEFT ∨ s.next_move = DIR_RIGHT)) ∨
      (s.data Q).type = FT_YELLOW_DISK)
    (hQf : (s.data Q).has_hint HINT_FALL = false)
    (hRt : (s.data R).type = FT_EMPTY) (hRl : (s.data R).has_hint HINT_LEAVING = false) :
    ∃ s1, move_phase s = some s1 ∧ s1.murphy = next_point s.murphy s.next_move ∧
      s1.murphy_alive = true ∧
      held FT_EMPTY 0 (s1.data P) ∧ held FT_MURPHY (s.data Q).countdown (s1.data Q) ∧
      held (s.data Q).type (s.data R).countdown (s1.data R) := by
  have hpush : pushable (s.data Q).type := by
    rcases hobj with ⟨h | h, -⟩ | h
    · exact Or.inl h
    · exact Or.inr (Or.inl h)
    · exact Or.inr (Or.inr h)
  have hQP : Q ≠ P := by
    intro e
    rw [e, hPt] at hpush
    simp [pushable] at hpush
  have hRP : R ≠ P := by
    intro e
    rw [e, hPt] at hRt
    exact absurd hRt (by simp)
  have hRQ : R ≠ Q := by
    intro e
    rw [e] at hRt
    rw [hRt] at hpush
    simp [pushable] at hpush
  have hne : s.next_move ≠ DIR_NONE := by
    intro e
    apply hQP
    rw [hQ, hP, e]
    rfl
  have hQne : (s.data Q).type ≠ FT_EMPTY := by
    intro e
    rw [e] at hpush
    simp [pushable] at hpush
  have hts := push_go_target s P Q R hR hRg hPc hobj hQf hRt hRl hQP hRP
  refine ⟨committed (((((s.upd P (fun f => f.del_hint HINT_PUSH)).upd P
        (fun f => f.set_hint HINT_PUSH)).upd R
        (fun f => { f with type := (s.data Q).type })).upd R
        (fun f => f.set_hint (hint_from_direction s.next_move ||| HINT_SKIP))).upd P
        (fun f => { f with countdown := 0 })) (next_point s.murphy s.next_move) Q, ?_, ?_⟩
  · unfold move_phase
    rw [if_pos ⟨hne, halive⟩]
    unfold resolve_move
    simp only [← hQ, ← hP, cell_ref_of_in_grid hPg, cell_ref_of_in_grid hQg,
      Option.bind_eq_bind, Option.some_bind, hts]
    have hhas : ((((((s.upd P (fun f => f.del_hint HINT_PUSH)).upd P
        (fun f => f.set_hint HINT_PUSH)).upd R
        (fun f => { f with type := (s.data Q).type })).upd R
        (fun f => f.set_hint (hint_from_direction s.next_move ||| HINT_SKIP))).upd P
        (fun f => { f with countdown := 0 })).data P).has_hint HINT_PUSH = true := by
      simp +decide [upd_data, hRP, hRP.symm]
    simp only [hhas, not_true_eq_false, ↓reduceIte]
    exact commit_move_eq _ _ _ (by simpa [← hP] using hPg)
  · refine ⟨rfl, ?_, ?_, ?_, ?_⟩
    · unfold committed
      simp only
      split <;> simpa using halive
    · unfold committed held
      simp +decide [← hP, upd_data, hQP, hRP, hRQ, hQP.symm, hRP.symm, hRQ.symm]
    · unfold committed held
      simp +decide [← hP, upd_data, hQP, hRP, hRQ, hQP.symm, hRP.symm, hRQ.symm]
    · unfold committed held
      simp +decide [← hP, upd_data, hQP, hRP, hRQ, hQP.symm, hRP.symm, hRQ.symm, hQne]

/-- C6, as amended. Push execution. The player is alive at cell `P` with countdown 1,
the adjacent cell `Q` in the intent direction holds a non-falling loose rock or orange
disk (intent left or right) or a non-falling yellow disk, and the cell `R` beyond `Q`
is empty and not leaving. After `game_step`, `R` has the object's former type (the
object is not moved again in the tick), `Q` has type player and is the cached player
position, `P` is empty and leaving, and the countdown of `P` is 0 unless an explosion
flagged `P` during the scan, in which case it is 3 and `P` carries an exploding
flag. -/
theorem push_executes (s t : Level) (r : Bool) (P Q R : Int)
    (halive : s.murphy_alive = true)
    (hP : P = data_idx s.murphy) (hPg : in_grid P)
    (hQ : Q = data_idx (next_point s.murphy s.next_move)) (hQg : in_grid Q)
    (hR : R = data_idx (next_point (next_point s.murphy s.next_move) s.next_move))
    (hRg : in_grid R)
    (hPt : (s.data P).type = FT_MURPHY) (hPc : (s.data P).countdown = 1)
    (hobj : (((s.data Q).type = FT_ZONK ∨ (s.data Q).type = FT_ORANGE_DISK) ∧
        (s.next_move = DIR_LEFT ∨ s.next_move = DIR_RIGHT)) ∨
      (s.data Q).type = FT_YELLOW_DISK)
    (hQf : (s.data Q).has_hint HINT_FALL = false)
    (hRt : (s.data R).type = FT_EMPTY) (hRl : (s.data R).has_hint HINT_LEAVING = false)
    (h : game_step s = some (t, r)) :
    (t.data R).type = (s.data Q).type ∧ (t.data Q).type = FT_MURPHY ∧
      data_idx t.murphy = Q ∧ (t.data P).type = FT_EMPTY ∧
      (t.data P).has_hint HINT_LEAVING = true ∧
      ((t.data P).countdown = 0 ∨
        ((t.data P).countdown = EXPLOSION_STEPS ∧
          ((t.data P).has_hint HINT_EXPLOSION = true ∨
            (t.data P).has_hint HINT_EXPLOSION_INFOTRON = true))) := by
  obtain ⟨s1, s4, hmove, hscan, rfl, -⟩ := (game_step_some s t r).mp h
  obtain ⟨s1', hmove', hm, -, hPh, hQh, hRh⟩ := push_go_move s P Q R halive hP hPg hQ hQg hR
    hRg hPt hPc hobj hQf hRt hRl
  rw [hmove] at hmove'
  have e : s1 = s1' := Option.some.inj hmove'
  subst e
  obtain ⟨hR1, -, -⟩ := tick_held _ _ s1 s4 R hRg hscan hRh
  obtain ⟨hQ1, -, -⟩ := tick_held _ _ s1 s4 Q hQg hscan hQh
  obtain ⟨hP1, hP2, hP3⟩ := tick_held _ _ s1 s4 P hPg hscan hPh
  refine ⟨hR1, hQ1, ?_, hP1, hP2 rfl, hP3⟩
  rw [after_scan_murphy, (scan_globals cells _ s4 hscan).1, before_scan_murphy, hm, hQ]

theorem level_push_armed_step :
    game_step (level_push HINT_PUSH 1 DIR_RIGHT) =
      sparse_step [305, 306, 307] (level_push HINT_PUSH 1 DIR_RIGHT) :=
  game_step_sparse_level _ _ _ _ (by decide) (by decide) (by decide)

/-- Witness of C6 as amended: the armed player at (5, 5) pushes the rock at (6, 5)
into (7, 5). -/
theorem push_executes_witness :
    ∃ t r, game_step (level_push HINT_PUSH 1 DIR_RIGHT) = some (t, r) ∧
      (t.data 307).type = ((level_push HINT_PUSH 1 DIR_RIGHT).data 306).type ∧
      (t.data 306).type = FT_MURPHY ∧ data_idx t.murphy = 306 ∧
      (t.data 305).type = FT_EMPTY ∧ (t.data 305).has_hint HINT_LEAVING = true ∧
      ((t.data 305).countdown = 0 ∨
        ((t.data 305).countdown = EXPLOSION_STEPS ∧
          ((t.data 305).has_hint HINT_EXPLOSION = true ∨
            (t.data 305).has_hint HINT_EXPLOSION_INFOTRON = true))) := by
  have h : (game_step (level_push HINT_PUSH 1 DIR_RIGHT)).isSome = true := by
    rw [level_push_armed_step]
    decide
  obtain ⟨⟨t, r⟩, ht⟩ := Option.isSome_iff_exists.mp h
  exact ⟨t, r, ht, push_executes (level_push HINT_PUSH 1 DIR_RIGHT) t r 305 306 307 rfl
    (by decide) (by decide) (by decide) (by decide) (by decide) (by decide) (by decide)
    (by decide) (by decide) (by decide) (by decide) (by decide) ht⟩

theorem level_push_blast_step :
    game_step level_push_blast = sparse_step [304, 305, 306, 307] level_push_blast :=
  game_step_sparse_level _ _ _ _ (by decide) (by decide) (by decide)

/-- C6 fails as stated. In `level_push_blast` every hypothesis of the claim holds
(player alive at 305 with countdown 1, a resting rock at 306 in the direction of the
intent, an empty cell that is not leaving at 307), and the push is executed, but the
yellow disk at 304 cascades during the scan and its explosion flags the vacated cell
305: after the tick the countdown of 305 is 3, not 0. -/
theorem push_executes_counterexample :
    level_push_blast.murphy_alive = true ∧ level_push_blast.next_move = DIR_RIGHT ∧
    data_idx level_push_blast.murphy = 305 ∧
    data_idx (next_point level_push_blast.murphy DIR_RIGHT) = 306 ∧
    data_idx (next_point (next_point level_push_blast.murphy DIR_RIGHT) DIR_RIGHT) = 307 ∧
    (level_push_blast.data 305).type = FT_MURPHY ∧
    (level_push_blast.data 305).countdown = 1 ∧
    (level_push_blast.data 306).type = FT_ZONK ∧
    (level_push_blast.data 306).has_hint HINT_FALL = false ∧
    (level_push_blast.data 307).type = FT_EMPTY ∧
    (level_push_blast.data 307).has_hint HINT_LEAVING = false ∧
    (game_step level_push_blast).map
      (fun p => ((p.1.data 307).type, (p.1.data 306).type, (p.1.data 305).type,
        (p.1.data 305).countdown)) = some (FT_ZONK, FT_MURPHY, FT_EMPTY, 3) := by
  refine ⟨rfl, rfl, by decide, by decide, by decide, ?_⟩
  refine ⟨by decide, by decide, by decide, ?_⟩
  refine ⟨by decide, by decide, by decide, ?_⟩
  rw [level_push_blast_step]
  decide

/-! ## C7: an interrupted push -/

theorem pushed_armed {f g : Field} (h : Pushed f g)
    (hf : (f.has_hint HINT_PUSH = false ∧ f.countdown = 1) ∨
      (f.has_hint HINT_PUSH = true ∧ f.countdown = 0)) :
    (g.has_hint HINT_PUSH = false ∧ g.countdown = 1) ∨
      (g.has_hint HINT_PUSH = true ∧ g.countdown = 0) := by
  cases h with
  | moved _ hm =>
    cases hm <;> simpa +decide using hf
  | push_arm hp hc =>
    rcases hf with ⟨-, h1⟩ | ⟨h1, -⟩
    · exact absurd h1 hc
    · rw [h1] at hp; exact absurd hp (by simp)
  | push_go hp hc =>
    exact Or.inr ⟨by simp +decide, rfl⟩

theorem pushedPath_armed {f g : Field} (h : PushedPath f g)
    (hf : (f.has_hint HINT_PUSH = false ∧ f.countdown = 1) ∨
      (f.has_hint HINT_PUSH = true ∧ f.countdown = 0)) :
    (g.has_hint HINT_PUSH = false ∧ g.countdown = 1) ∨
      (g.has_hint HINT_PUSH = true ∧ g.countdown = 0) := by
  induction h with
  | refl => exact hf
  | tail _ hs ih => exact pushed_armed hs ih

theorem upd_countdown (s : Level) (i : Int) (g : Field → Field) (j : Int)
    (hg : ∀ f, (g f).countdown = f.countdown) :
    ((s.upd i g).data j).countdown = (s.data j).countdown := by
  by_cases h : j = i
  · subst h
    simp [hg]
  · simp [h]

theorem committed_countdown (s : Level) (next : Point) (fld j : Int) :
    ((committed s next fld).data j).countdown = (s.data j).countdown := by
  unfold committed
  simp only
  split <;> simp [upd_countdown]

/-- With a pending direction and a live player, the movement phase leaves the
countdown of an armed player cell at 0. -/
theorem move_phase_disarms (s s1 : Level) (hmove : s.next_move ≠ DIR_NONE)
    (halive : s.murphy_alive = true)
    (harmed : (s.data (data_idx s.murphy)).countdown = 1)
    (h : move_phase s = some s1) : (s1.data (data_idx s.murphy)).countdown = 0 := by
  unfold move_phase at h
  rw [if_pos ⟨hmove, halive⟩] at h
  obtain ⟨-, -, s2, s3, h2, hs3, hfin⟩ := resolve_move_parts s s1 h
  have hd := pushedPath_armed h2.own (Or.inl ⟨by simp +decide, by simpa using harmed⟩)
  have h3 : (s3.data (data_idx s.murphy)).countdown = 0 := by
    rw [hs3]
    split
    · simp
    · next hp =>
      rcases hd with ⟨h1, -⟩ | ⟨-, h1⟩
      · rw [h1] at hp; exact absurd (by simp) hp
      · exact h1
  rcases hfin with e | ⟨-, e⟩
  · rw [e]; exact h3
  · rw [e, committed_countdown]; exact h3

theorem settled_mono (f g : Field) (hc : g.countdown = f.countdown)
    (hE : f.has_hint HINT_EXPLOSION = true → g.has_hint HINT_EXPLOSION = true)
    (hEI : f.has_hint HINT_EXPLOSION_INFOTRON = true →
      g.has_hint HINT_EXPLOSION_INFOTRON = true)
    (hS : f.has_hint HINT_SKIP = true → g.has_hint HINT_SKIP = true)
    (hf : settled f) : settled g := by
  rcases hf with h0 | ⟨h1, h2, h3⟩
  · exact Or.inl (hc.trans h0)
  · exact Or.inr ⟨hc.trans h1, h2.imp hE hEI, hS h3⟩

theorem touch_settled {f g : Field} (h : Touch f g) (hf : settled f) : settled g := by
  cases h with
  | explode => exact Or.inr ⟨rfl, Or.inl (by simp +decide), by simp +decide⟩
  | explode_infotron => exact Or.inr ⟨rfl, Or.inr (by simp +decide), by simp +decide⟩
  | origin =>
    exact settled_mono f _ rfl (fun h => by simp [h]) (fun h => by simp [h]) (fun h => by simp [h]) hf
  | fall_into =>
    exact settled_mono f _ rfl (fun h => by simp [h]) (fun h => by simp [h]) (fun h => by simp [h]) hf
  | roll_into_left =>
    exact settled_mono f _ rfl (fun h => by simp [h]) (fun h => by simp [h]) (fun h => by simp [h]) hf
  | roll_into_right =>
    exact settled_mono f _ rfl (fun h => by simp [h]) (fun h => by simp [h]) (fun h => by simp [h]) hf
  | npc_into =>
    exact settled_mono f _ rfl (fun h => by simp [h]) (fun h => by simp [h]) (fun h => by simp [h]) hf
  | npc_skip =>
    exact settled_mono f _ rfl (fun h => by simp [h]) (fun h => by simp [h]) (fun h => by simp [h]) hf

theorem act_settled {f g : Field} (h : Act f g) (hf : settled f) : settled g := by
  cases h with
  | touch _ ht => exact touch_settled ht hf
  | fall_away =>
    exact settled_mono f _ rfl (fun h => by simpa +decide using h) (fun h => by simpa +decide using h)
      (fun h => by simpa +decide using h) hf
  | fall_stay =>
    exact settled_mono f _ rfl (fun h => by simpa +decide using h) (fun h => by simpa +decide using h)
      (fun h => by simpa +decide using h) hf
  | npc_clear =>
    exact settled_mono f _ rfl (fun h => by simpa +decide using h) (fun h => by simpa +decide using h)
      (fun h => by simpa +decide using h) hf
  | npc_leave =>
    exact settled_mono f _ rfl (fun h => by simp [h]) (fun h => by simp [h]) (fun h => by simp [h]) hf
  | npc_turn_left =>
    exact settled_mono f _ rfl (fun h => by simp [h]) (fun h => by simp [h]) (fun h => by simp [h]) hf
  | npc_turn_right =>
    exact settled_mono f _ rfl (fun h => by simp [h]) (fun h => by simp [h]) (fun h => by simp [h]) hf

theorem actPath_settled {f g : Field} (h : ActPath f g) (hf : settled f) : settled g := by
  induction h with
  | refl => exact hf
  | tail _ hs ih => exact act_settled hs ih

/-- The scan of a cell keeps its countdown settled. -/
theorem scan_cell_settled (s t : Level) (i : Int) (h : scan_cell s i = some t)
    (hf : settled (s.data i)) : settled (t.data i) := by
  cases hs : (s.data i).has_hint HINT_SKIP with
  | true =>
    rw [scan_cell_skip s i hs] at h
    rw [← Option.some.inj h]
    exact hf
  | false =>
    have h0 : (s.data i).countdown = 0 := by
      rcases hf with h0 | ⟨-, -, h1⟩
      · exact h0
      · rw [hs] at h1; exact absurd h1 (by simp)
    rcases scan_cell_stages s t i h hs with ⟨-, hd⟩ | ⟨-, hc, -⟩ | ⟨-, -, hd⟩
    · refine actPath_settled (dispatch_rel _ t i _ hd).own (Or.inl ?_)
      simpa using h0
    · omega
    · refine actPath_settled (dispatch_rel _ t i _ hd).own (Or.inl ?_)
      simp only [upd_data_same]
      unfold resolved
      split
      · simpa using h0
      · split <;> simpa using h0

/-- Push interruption with a pending direction. The player is alive and the cell `P`
at the cached player position is armed for a push (countdown 1). A `game_step` with a
pending direction (any of the four, also the one of the push) leaves the countdown of
`P` at 0, unless an explosion flagged `P` during the scan of the same tick, in which
case it is 3 and `P` carries an exploding flag. The intent none is not covered: the
movement block, and with it the reset of the countdown, is then skipped. -/
theorem push_interrupted (s t : Level) (r : Bool) (P : Int)
    (halive : s.murphy_alive = true) (hmove : s.next_move ≠ DIR_NONE)
    (hP : P = data_idx s.murphy) (hPg : in_grid P)
    (harmed : (s.data P).countdown = 1 ∧ (s.data P).has_hint HINT_PUSH = true)
    (h : game_step s = some (t, r)) :
    (t.data P).countdown = 0 ∨
      ((t.data P).countdown = EXPLOSION_STEPS ∧
        ((t.data P).has_hint HINT_EXPLOSION = true ∨
          (t.data P).has_hint HINT_EXPLOSION_INFOTRON = true)) := by
  obtain ⟨s1, s4, hm, hscan, rfl, -⟩ := (game_step_some s t r).mp h
  have h1 : (s1.data P).countdown = 0 := by
    rw [hP]
    exact move_phase_disarms s s1 hmove halive (hP ▸ harmed.1) hm
  have hb : settled ((before_scan s1).data P) := Or.inl (by simpa using h1)
  have h4 := scan_preserves_own settled (fun f g hfg hf => touch_settled hfg hf)
    (fun s t i hst hf => scan_cell_settled s t i hst hf) cells _ s4 hscan P hb
  rw [after_scan_data s4 P hPg]
  rcases h4 with h0 | ⟨h3, hx, -⟩
  · exact Or.inl (by simpa using h0)
  · exact Or.inr ⟨by simpa using h3, by simpa +decide using hx⟩

theorem level_push_armed_up_step :
    game_step (level_push HINT_PUSH 1 DIR_UP) =
      sparse_step [305, 306, 307] (level_push HINT_PUSH 1 DIR_UP) :=
  game_step_sparse_level _ _ _ _ (by decide) (by decide) (by decide)

/-- An instance of `push_interrupted`: the armed player at (5, 5) presses up, against
the border. -/
theorem push_interrupted_witness :
    ∃ t r, game_step (level_push HINT_PUSH 1 DIR_UP) = some (t, r) ∧
      ((t.data 305).countdown = 0 ∨
        ((t.data 305).countdown = EXPLOSION_STEPS ∧
          ((t.data 305).has_hint HINT_EXPLOSION = true ∨
            (t.data 305).has_hint HINT_EXPLOSION_INFOTRON = true))) := by
  have h : (game_step (level_push HINT_PUSH 1 DIR_UP)).isSome = true := by
    rw [level_push_armed_up_step]
    decide
  obtain ⟨⟨t, r⟩, ht⟩ := Option.isSome_iff_exists.mp h
  exact ⟨t, r, ht, push_interrupted (level_push HINT_PUSH 1 DIR_UP) t r 305 rfl (by decide)
    (by decide) (by decide) (by decide) ht⟩

theorem level_push_armed_idle_step :
    game_step (level_push HINT_PUSH 1 DIR_NONE) =
      sparse_step [305, 306, 307] (level_push HINT_PUSH 1 DIR_NONE) :=
  game_step_sparse_level _ _ _ _ (by decide) (by decide) (by decide)

theorem level_push_armed_idle_run (evs : List GameEvent) :
    run (level_push HINT_PUSH 1 DIR_NONE) evs =
      sparse_run [305, 306, 307] (level_push HINT_PUSH 1 DIR_NONE) evs :=
  run_sparse_level _ _ _ _ _ (by decide) (by decide) (by decide)

theorem level_push_run (evs : List GameEvent) :
    run (level_push 0 0 DIR_NONE) evs =
      sparse_run [305, 306, 307] (level_push 0 0 DIR_NONE) evs :=
  run_sparse_level _ _ _ _ _ (by decide) (by decide) (by decide)

/-- C7, the defect. In `level_push HINT_PUSH 1 DIR_NONE` the player is alive at 305,
armed for a push (countdown 1 with the being-pushed flag), next to the rock at 306 with
the empty cell 307 beyond, and the pending intent is none. After `game_step` the player
cell still has countdown 1 and the being-pushed flag, where the claim requires
countdown 0; and a push to the right dispatched after that tick moves the rock at once:
after the two rounds "none", "right" the rock is at 307 and the player at 306. The
armed level arises from the flag-free `level_push 0 0 DIR_NONE` by one round "right".
An interruption by a direction does reset the counter: after the rounds "right", "up",
"right" from the flag-free level the rock is still at 306, the player at 305 and armed
again. -/
theorem idle_tick_keeps_push_armed :
    (level_push HINT_PUSH 1 DIR_NONE).murphy_alive = true ∧
    (level_push HINT_PUSH 1 DIR_NONE).next_move = DIR_NONE ∧
    data_idx (level_push HINT_PUSH 1 DIR_NONE).murphy = 305 ∧
    ((level_push HINT_PUSH 1 DIR_NONE).data 305).type = FT_MURPHY ∧
    ((level_push HINT_PUSH 1 DIR_NONE).data 305).countdown = 1 ∧
    ((level_push HINT_PUSH 1 DIR_NONE).data 305).has_hint HINT_PUSH = true ∧
    ((level_push HINT_PUSH 1 DIR_NONE).data 306).type = FT_ZONK ∧
    ((level_push HINT_PUSH 1 DIR_NONE).data 307).type = FT_EMPTY ∧
    (game_step (level_push HINT_PUSH 1 DIR_NONE)).map
      (fun p => (p.2, (p.1.data 305).type, (p.1.data 305).countdown,
        (p.1.data 305).has_hint HINT_PUSH)) = some (true, FT_MURPHY, 1, true) ∧
    (run (level_push HINT_PUSH 1 DIR_NONE) [EVENT_MOVE_NONE, EVENT_MOVE_RIGHT]).map
      (fun u => ((u.data 305).type, (u.data 306).type, (u.data 307).type)) =
        some (FT_EMPTY, FT_MURPHY, FT_ZONK) ∧
    (run (level_push 0 0 DIR_NONE) [EVENT_MOVE_RIGHT]).map
      (fun u => ([305, 306, 307].map u.data, u.murphy_alive, u.next_move, u.murphy)) =
        some ([305, 306, 307].map (level_push HINT_PUSH 1 DIR_NONE).data, true, DIR_NONE,
          (level_push HINT_PUSH 1 DIR_NONE).murphy) ∧
    (run (level_push 0 0 DIR_NONE) [EVENT_MOVE_RIGHT, EVENT_MOVE_UP, EVENT_MOVE_RIGHT]).map
      (fun u => ((u.data 305).type, (u.data 306).type, (u.data 307).type,
        (u.data 305).countdown)) = some (FT_MURPHY, FT_ZONK, FT_EMPTY, 1) := by
  refine ⟨rfl, rfl, by decide, by decide, by decide, by decide, by decide, by decide,
    ?_, ?_, ?_, ?_⟩
  · rw [level_push_armed_idle_step]
    decide
  · rw [level_push_armed_idle_run]
    decide
  · rw [level_push_run]
    decide
  · rw [level_push_run]
    decide

/-! ## C8: the rolling tie-break over a tick -/

theorem kept_before_scan (s : Level) (j : Int) : kept (s.data j) ((before_scan s).data j) := by
  unfold before_scan Level.map_cells
  simp only
  split
  · exact kept_leaving_cleared _
  · exact kept_refl _

theorem kept_rolls_on_impact {f g : Field} (h : kept f g) (hf : f.rolls_on_impact = true) :
    g.rolls_on_impact = true := by
  obtain ⟨-, a2, -, -, -, -, a7, -⟩ := h
  have hfall : g.has_hint HINT_FALL = false := by
    cases hg : g.has_hint HINT_FALL with
    | false => rfl
    | true =>
      have := a7 hg
      unfold Field.rolls_on_impact at hf
      split at hf <;> simp_all
  unfold Field.rolls_on_impact at hf ⊢
  rw [a2, hfall]
  split at hf <;> simp_all

/-- The roll branch of `fall` when the left side qualifies: the object goes left. -/
theorem roll_left (s t : Level) (C : Int) (h : roll s C = some t)
    (hL : (s.data (data_idx (next_point (s.data C).coords DIR_LEFT))).type = FT_EMPTY)
    (hLl : (s.data (data_idx (next_point (s.data C).coords DIR_LEFT))).has_hint HINT_LEAVING =
      false)
    (hLB : (s.data (data_idx (next_point
      (s.data (data_idx (next_point (s.data C).coords DIR_LEFT))).coords DIR_DOWN))).type =
        FT_EMPTY)
    (hLBl : (s.data (data_idx (next_point
      (s.data (data_idx (next_point (s.data C).coords DIR_LEFT))).coords DIR_DOWN))).has_hint
        HINT_LEAVING = false) :
    t = ((s.upd (data_idx (next_point (s.data C).coords DIR_LEFT))
        (fun f => { f with type := (s.data C).type })).upd C
        (fun f => { f with type := FT_EMPTY })).upd
        (data_idx (next_point (s.data C).coords DIR_LEFT))
        (fun f => f.set_hint (HINT_FROM_RIGHT ||| HINT_SKIP)) := by
  unfold roll at h
  cases hl : cell_ref (data_idx (next_point (s.data C).coords DIR_LEFT)) with
  | none => simp [hl] at h
  | some l =>
  cases hr : cell_ref (data_idx (next_point (s.data C).coords DIR_RIGHT)) with
  | none => simp [hl, hr] at h
  | some r =>
  obtain ⟨hle, -⟩ := cell_ref_eq_some hl
  subst hle
  simp only [hl, hr, Option.bind_eq_bind, Option.some_bind] at h
  cases hlb : cell_ref (data_idx (next_point
      (s.data (data_idx (next_point (s.data C).coords DIR_LEFT))).coords DIR_DOWN)) with
  | none => simp [hlb] at h
  | some lb =>
  cases hrb : cell_ref (data_idx (next_point (s.data r).coords DIR_DOWN)) with
  | none => simp [hlb, hrb] at h
  | some rb =>
  obtain ⟨hlbe, -⟩ := cell_ref_eq_some hlb
  subst hlbe
  simp only [hlb, hrb, Option.some_bind, hL, hLB, and_self, ↓reduceIte, hLl, hLBl,
    Bool.false_eq_true, not_false_eq_true, Option.pure_def, Option.some.injEq] at h
  exact h.symm

/-- The scan of a loose rock that rests on a non-falling roll-capable object, with the
cell to its left and the cell below that one empty and not leaving: the rock goes
left. -/
theorem scan_cell_rolls_left (u v : Level) (C : Int) (h : scan_cell u C = some v)
    (hty : (u.data C).type = FT_ZONK) (hskip : (u.data C).has_hint HINT_SKIP = false)
    (hx : ¬ exploding (u.data C))
    (hB : (u.data (data_idx (next_point (u.data C).coords DIR_DOWN))).rolls_on_impact = true)
    (hL : (u.data (data_idx (next_point (u.data C).coords DIR_LEFT))).type = FT_EMPTY)
    (hLl : (u.data (data_idx (next_point (u.data C).coords DIR_LEFT))).has_hint HINT_LEAVING =
      false)
    (hLB : (u.data (data_idx (next_point
      (u.data (data_idx (next_point (u.data C).coords DIR_LEFT))).coords DIR_DOWN))).type =
        FT_EMPTY)
    (hLBl : (u.data (data_idx (next_point
      (u.data (data_idx (next_point (u.data C).coords DIR_LEFT))).coords DIR_DOWN))).has_hint
        HINT_LEAVING = false) :
    (v.data (data_idx (next_point (u.data C).coords DIR_LEFT))).type = FT_ZONK ∧
      (v.data (data_idx (next_point (u.data C).coords DIR_LEFT))).has_hint HINT_SKIP = true ∧
      (v.data (data_idx (next_point (u.data C).coords DIR_LEFT))).has_hint HINT_FROM_RIGHT =
        true ∧
      (v.data C).type = FT_EMPTY := by
  have hk : ∀ j, kept (u.data j) ((u.upd C own_cleared).data j) := by
    intro j
    by_cases hj : j = C
    · subst hj
      rw [upd_data_same]
      exact kept_own_cleared _
    · rw [upd_data_ne _ _ _ _ hj]
      exact kept_refl _
  have hLC : data_idx (next_point (u.data C).coords DIR_LEFT) ≠ C := by
    intro e
    rw [e, hty] at hL
    exact absurd hL (by simp)
  rcases scan_cell_stages u v C h hskip with ⟨-, hd⟩ | ⟨hx2, -⟩ | ⟨hx2, -⟩
  · generalize hu1 : u.upd C own_cleared = u1 at hd hk
    have hc : (u1.data C).coords = (u.data C).coords := (hk C).1
    have hcL : (u1.data (data_idx (next_point (u.data C).coords DIR_LEFT))).coords =
        (u.data (data_idx (next_point (u.data C).coords DIR_LEFT))).coords := (hk _).1
    have hty1 : (u1.data C).type = FT_ZONK := (hk C).2.1.trans hty
    have hsk1 : (u1.data C).has_hint HINT_SKIP = false := by
      cases hg : (u1.data C).has_hint HINT_SKIP with
      | false => rfl
      | true => rw [(hk C).2.2.2.2.2.1 hg] at hskip; exact absurd hskip (by simp)
    have hB1 := kept_rolls_on_impact (hk _) hB
    have hL1 : (u1.data (data_idx (next_point (u.data C).coords DIR_LEFT))).type = FT_EMPTY :=
      (hk _).2.1.trans hL
    have hLl1 : (u1.data (data_idx (next_point (u.data C).coords DIR_LEFT))).has_hint
        HINT_LEAVING = false := by
      cases hg : (u1.data (data_idx (next_point (u.data C).coords DIR_LEFT))).has_hint
        HINT_LEAVING with
      | false => rfl
      | true => rw [(hk _).2.2.2.2.2.2.2 hg] at hLl; exact absurd hLl (by simp)
    have hLB1 : (u1.data (data_idx (next_point
        (u.data (data_idx (next_point (u.data C).coords DIR_LEFT))).coords DIR_DOWN))).type =
          FT_EMPTY := (hk _).2.1.trans hLB
    have hLBl1 : (u1.data (data_idx (next_point
        (u.data (data_idx (next_point (u.data C).coords DIR_LEFT))).coords DIR_DOWN))).has_hint
          HINT_LEAVING = false := by
      cases hg : (u1.data (data_idx (next_point
        (u.data (data_idx (next_point (u.data C).coords DIR_LEFT))).coords DIR_DOWN))).has_hint
          HINT_LEAVING with
      | false => rfl
      | true => rw [(hk _).2.2.2.2.2.2.2 hg] at hLBl; exact absurd hLBl (by simp)
    unfold dispatch at hd
    rw [if_pos (by simp [hsk1])] at hd
    simp only [hty1] at hd
    unfold fall at hd
    rw [hc] at hd
    cases hb : cell_ref (data_idx (next_point (u.data C).coords DIR_DOWN)) with
    | none => simp [hb] at hd
    | some b =>
    obtain ⟨hbe, -⟩ := cell_ref_eq_some hb
    subst hbe
    simp only [hb, Option.bind_eq_bind, Option.some_bind] at hd
    have hsw : fall_switch u1 C (data_idx (next_point (u.data C).coords DIR_DOWN)) false =
        roll u1 C := by
      unfold fall_switch
      have hB2 := hB1
      unfold Field.rolls_on_impact at hB2
      split at hB2 <;> simp_all
    rw [hsw] at hd
    cases hro : roll u1 C with
    | none => simp [hro] at hd
    | some w =>
    simp only [hro, Option.some_bind, Option.pure_def, Option.some.injEq] at hd
    have hw := roll_left u1 w C hro (by rw [hc]; exact hL1) (by rw [hc]; exact hLl1)
      (by rw [hc, hcL]; exact hLB1) (by rw [hc, hcL]; exact hLBl1)
    rw [hc] at hw
    rw [← hd, hw]
    refine ⟨?_, ?_, ?_, ?_⟩
    · simp [upd_data, hLC, hty1]
    · simp +decide [upd_data, hLC]
    · simp +decide [upd_data, hLC]
    · simp [upd_data, hLC, hLC.symm]
  · exact absurd hx2 hx
  · exact absurd hx2 hx

theorem touch_rolled {f g : Field} (h : Touch f g)
    (hf : f.type = FT_ZONK ∧ f.has_hint HINT_SKIP = true ∧ f.has_hint HINT_FROM_RIGHT = true) :
    g.type = FT_ZONK ∧ g.has_hint HINT_SKIP = true ∧ g.has_hint HINT_FROM_RIGHT = true :=
  ⟨(touch_type_eq h (by rw [hf.1]; simp)).trans hf.1, touch_has_hint_mono h _ hf.2.1,
    touch_has_hint_mono h _ hf.2.2⟩

theorem level_roll_step :
    game_step level_roll = sparse_step [305, 306, 307, 310, 365, 366, 367] level_roll :=
  game_step_sparse_level _ _ _ _ (by decide) (by decide) (by decide)

theorem level_roll_before (j : Int) (h0 : 0 ≤ j) (h1 : j < 306) :
    passive (level_roll.data j) :=
  sparse_level_forall _ true DIR_NONE ⟨10, 5⟩ (fun j f => 0 ≤ j → j < 306 → passive f)
    (fun j _ _ _ => by
      simp [passive, border_cell, cell_at, loose, hazard, exploding, Field.has_hint])
    (by decide) j h0 h1

theorem level_roll_blocked_step :
    game_step level_roll_blocked =
      sparse_step [245, 305, 306, 307, 310, 365, 366, 367] level_roll_blocked :=
  game_step_sparse_level _ _ _ _ (by decide) (by decide) (by decide)

theorem touch_fuse (τ : FieldType) (c : Int) (hτ : τ ≠ FT_EMPTY) (hc : c ≤ EXPLOSION_STEPS)
    {f g : Field} (h : Touch f g)
    (hf : f.type = τ ∧ exploding f ∧ f.countdown ≥ c) :
    g.type = τ ∧ exploding g ∧ g.countdown ≥ c := by
  obtain ⟨h1, h2, h3⟩ := hf
  refine ⟨(touch_type_eq h (by rw [h1]; exact hτ)).trans h1, ?_, ?_⟩
  · exact h2.imp (touch_has_hint_mono h _) (touch_has_hint_mono h _)
  · rcases touch_countdown_eq h with e | e
    · rw [e]; exact h3
    · rw [e]; exact hc

theorem touchPath_fuse (τ : FieldType) (c : Int) (hτ : τ ≠ FT_EMPTY) (hc : c ≤ EXPLOSION_STEPS)
    {f g : Field} (h : TouchPath f g)
    (hf : f.type = τ ∧ exploding f ∧ f.countdown ≥ c) :
    g.type = τ ∧ exploding g ∧ g.countdown ≥ c := by
  induction h with
  | refl => exact hf
  | tail _ hs ih => exact touch_fuse τ c hτ hc hs ih

theorem kept_fuse (τ : FieldType) (c : Int) {f g : Field} (h : kept f g)
    (hf : f.type = τ ∧ exploding f ∧ f.countdown ≥ c) :
    g.type = τ ∧ exploding g ∧ g.countdown ≥ c := by
  obtain ⟨-, a2, a3, a4, a5, -, -, -⟩ := h
  unfold exploding at hf ⊢
  rw [a2, a3, a4, a5]
  exact hf

/-- The scan of an exploding cell whose countdown is at least `c`, with `1 ≤ c ≤ 3`:
the cell keeps its type and an exploding flag, and its countdown is at least `c - 1`
afterwards. -/
theorem scan_cell_fuse (τ : FieldType) (c : Int) (hτ : τ ≠ FT_EMPTY) (hc1 : 1 ≤ c)
    (hc : c ≤ EXPLOSION_STEPS) (s t : Level) (i : Int) (h : scan_cell s i = some t)
    (hf : (s.data i).type = τ ∧ exploding (s.data i) ∧ (s.data i).countdown ≥ c) :
    (t.data i).type = τ ∧ exploding (t.data i) ∧ (t.data i).countdown ≥ c - 1 := by
  cases hs : (s.data i).has_hint HINT_SKIP with
  | true =>
    rw [scan_cell_skip s i hs] at h
    rw [← Option.some.inj h]
    exact ⟨hf.1, hf.2.1, by have := hf.2.2; omega⟩
  | false =>
    rcases scan_cell_stages s t i h hs with ⟨hx, -⟩ | ⟨-, -, u, hu, -, ht⟩ | ⟨-, h0, -⟩
    · exact absurd hf.2.1 hx
    · have h1 : (u.data i).type = τ ∧ exploding (u.data i) ∧ (u.data i).countdown ≥ c := by
        refine touchPath_fuse τ c hτ hc (hu.cells i) ?_
        rw [upd_data_same]
        exact kept_fuse τ c (kept_own_cleared _) hf
      rw [ht, upd_data_same]
      obtain ⟨a1, a2, a3⟩ := h1
      refine ⟨a1, ?_, ?_⟩
      · unfold exploding at a2 ⊢
        unfold counted_down
        simpa +decide using a2
      · unfold counted_down
        simp only [set_hint_countdown]
        omega
    · have := hf.2.2
      omega

/-- A round without input: an exploding cell that is not empty and whose countdown is
at least `c`, with `1 ≤ c ≤ 3`, keeps its type and an exploding flag, and its countdown
is at least `c - 1` afterwards. -/
theorem tick_fuse (τ : FieldType) (c : Int) (hτ : τ ≠ FT_EMPTY) (hc1 : 1 ≤ c)
    (hc : c ≤ EXPLOSION_STEPS) (s t : Level) (X : Int) (hX : in_grid X)
    (h : tick s EVENT_MOVE_NONE = some t)
    (hf : (s.data X).type = τ ∧ exploding (s.data X) ∧ (s.data X).countdown ≥ c) :
    (t.data X).type = τ ∧ exploding (t.data X) ∧ (t.data X).countdown ≥ c - 1 := by
  unfold tick at h
  cases hg : game_step (dispatch_event s EVENT_MOVE_NONE) with
  | none => simp [hg] at h
  | some p =>
  obtain ⟨t1, r⟩ := p
  simp only [hg, Option.map_some', Option.some.injEq] at h
  subst h
  obtain ⟨s1, s4, hm, hscan, rfl, -⟩ := (game_step_some _ t1 r).mp hg
  have e1 : s1 = dispatch_event s EVENT_MOVE_NONE := by
    rcases move_phase_cases _ s1 hm with e | ⟨hn, -, -⟩
    · exact e
    · exact absurd rfl hn
  subst e1
  have hb := kept_fuse τ c (kept_before_scan (dispatch_event s EVENT_MOVE_NONE) X)
    (by rw [dispatch_event_data]; exact hf)
  have h4 := scan_once (fun f => f.type = τ ∧ exploding f ∧ f.countdown ≥ c)
    (fun f => f.type = τ ∧ exploding f ∧ f.countdown ≥ c - 1)
    (fun f g hfg hf => touch_fuse τ c hτ hc hfg hf)
    (fun f g hfg hf => touch_fuse τ (c - 1) hτ (by omega) hfg hf)
    (fun s t i hst hf => scan_cell_fuse τ c hτ hc1 hc s t i hst hf)
    cells cells_nodup _ s4 hscan X ((mem_cells X).mpr hX) hb
  rw [after_scan_data s4 X hX]
  obtain ⟨a1, a2, a3⟩ := h4
  refine ⟨a1, ?_, a3⟩
  unfold exploding at a2 ⊢
  simpa +decide using a2

/-- Rounds without input: the countdown of an exploding cell drops by at most one a
round, and the cell keeps its type and an exploding flag as long as the bound is
positive at the start of the round. -/
theorem run_fuse (τ : FieldType) (hτ : τ ≠ FT_EMPTY) (X : Int) (hX : in_grid X) (n : Nat)
    (c : Int) (hn : (n : Int) ≤ c) (hc : c ≤ EXPLOSION_STEPS) (s t : Level)
    (h : run s (List.replicate n EVENT_MOVE_NONE) = some t)
    (hf : (s.data X).type = τ ∧ exploding (s.data X) ∧ (s.data X).countdown ≥ c) :
    (t.data X).type = τ ∧ exploding (t.data X) ∧ (t.data X).countdown ≥ c - n := by
  induction n generalizing s c with
  | zero =>
    simp only [List.replicate_zero, run, List.foldlM_nil, Option.pure_def,
      Option.some.injEq] at h
    subst h
    simpa using hf
  | succ n ih =>
    unfold run at h
    rw [List.replicate_succ, foldlM_cons_some] at h
    obtain ⟨u, hu, hrest⟩ := h
    have h1 := tick_fuse τ c hτ (by push_cast at hn; omega) hc s u X hX hu hf
    have h2 := ih (c - 1) (by push_cast at hn; omega) (by omega) u hrest h1
    refine ⟨h2.1, h2.2.1, ?_⟩
    have := h2.2.2
    push_cast
    omega

theorem level_flagged_run (evs : List GameEvent) :
    run level_flagged evs = sparse_run [245, 305] level_flagged evs :=
  run_sparse_level _ _ _ _ _ (by decide) (by decide) (by decide)

theorem level_blast_run (evs : List GameEvent) :
    run level_blast evs = sparse_run [185, 245, 305, 306, 310] level_blast evs :=
  run_sparse_level _ _ _ _ _ (by decide) (by decide) (by decide)

/-- C10, as amended. A quiescent step changes flags only. No intent is pending, no
cell carries an exploding flag, every loose object (loose rock, collectible, orange
disk) rests (`rests`: the cell below is not empty; a falling flag comes with no
orange disk and with neither the player nor a hazard nor an orange disk below; on a
roll-capable object neither side is empty), and no hazard has an empty cell or the
player next to it. Then `game_step` leaves the type and the countdown of every cell
unchanged. -/
theorem quiescent_step (s t : Level) (r : Bool) (hidle : s.next_move = DIR_NONE)
    (hx : ∀ j, in_grid j → ¬ exploding (s.data j))
    (hl : ∀ j, in_grid j → loose (s.data j).type → rests s j)
    (hz : ∀ j, in_grid j → hazard (s.data j).type → hemmed_in s j)
    (h : game_step s = some (t, r)) :
    ∀ j, (t.data j).type = (s.data j).type ∧ (t.data j).countdown = (s.data j).countdown := by
  obtain ⟨s1, s4, hm, hscan, rfl, -⟩ := (game_step_some s t r).mp h
  have e1 : s1 = s := by
    rcases move_phase_cases s s1 hm with e | ⟨hn, -, -⟩
    · exact e
    · exact absurd hidle hn
  subst e1
  have h4 := scan_at_rest s1 hx hl hz cells (fun i hi => (mem_cells i).mp hi) _ s4
    (fun j => kept_steady (kept_before_scan s1 j)) hscan
  intro j
  exact ⟨by rw [after_scan_type]; exact (h4 j).2.1,
    by rw [after_scan_countdown]; exact (h4 j).2.2.1⟩

theorem level_rest_step :
    game_step level_rest = sparse_step [305, 306, 310, 366] level_rest :=
  game_step_sparse_level _ _ _ _ (by decide) (by decide) (by decide)

theorem level_rest_calm (j : Int) (_hj : in_grid j) : ¬ exploding (level_rest.data j) :=
  sparse_level_forall _ true DIR_NONE ⟨5, 5⟩ (fun _ f => ¬ exploding f)
    (fun j _ => by simp [border_cell, cell_at, exploding, Field.has_hint]) (by decide) j

theorem level_rest_rests (j : Int) (_hj : in_grid j) (h : loose (level_rest.data j).type) :
    rests level_rest j :=
  sparse_level_forall _ true DIR_NONE ⟨5, 5⟩ (fun j f => loose f.type → rests level_rest j)
    (fun j _ h => by simp [border_cell, cell_at, loose] at h) (by decide) j h

theorem level_rest_hemmed (j : Int) (_hj : in_grid j) (h : hazard (level_rest.data j).type) :
    hemmed_in level_rest j :=
  sparse_level_forall _ true DIR_NONE ⟨5, 5⟩
    (fun j f => hazard f.type → hemmed_in level_rest j)
    (fun j _ h => by simp [border_cell, cell_at, hazard] at h) (by decide) j h

/-- Witness of C10 as amended: a tick of `level_rest`. -/
theorem quiescent_step_witness :
    ∃ t r, game_step level_rest = some (t, r) ∧
      ∀ j, (t.data j).type = (level_rest.data j).type ∧
        (t.data j).countdown = (level_rest.data j).countdown := by
  have h : (game_step level_rest).isSome = true := by
    rw [level_rest_step]
    decide
  obtain ⟨⟨t, r⟩, ht⟩ := Option.isSome_iff_exists.mp h
  exact ⟨t, r, ht, quiescent_step level_rest t r rfl level_rest_calm level_rest_rests
    level_rest_hemmed ht⟩

theorem level_roll_idle_step :
    game_step level_roll = sparse_step [305, 306, 307, 310, 365, 366, 367] level_roll :=
  game_step_sparse_level _ _ _ _ (by decide) (by decide) (by decide)

theorem level_patrol_step :
    game_step level_patrol = sparse_step [245, 305, 310] level_patrol :=
  game_step_sparse_level _ _ _ _ (by decide) (by decide) (by decide)

/-- C10 fails as stated. In `level_roll` and in `level_patrol` no intent is pending, no
cell carries an exploding flag and no loose object has an empty cell directly below
it. In `level_roll` the rock at 306 lies on the rock at 366 and rolls into the empty
cell 305; in `level_patrol` the hazard at 305 moves into the empty cell 245. Cell
types change in both. -/
theorem quiescent_step_counterexample :
    (level_roll.next_move = DIR_NONE ∧
      (∀ j, in_grid j → ¬ exploding (level_roll.data j)) ∧
      (∀ j, in_grid j → loose (level_roll.data j).type →
        (level_roll.data (neighbour level_roll j DIR_DOWN)).type ≠ FT_EMPTY) ∧
      ((level_roll.data 305).type, (level_roll.data 306).type) = (FT_EMPTY, FT_ZONK) ∧
      (game_step level_roll).map (fun p => ((p.1.data 305).type, (p.1.data 306).type)) =
        some (FT_ZONK, FT_EMPTY)) ∧
    (level_patrol.next_move = DIR_NONE ∧
      (∀ j, in_grid j → ¬ exploding (level_patrol.data j)) ∧
      (∀ j, in_grid j → loose (level_patrol.data j).type →
        (level_patrol.data (neighbour level_patrol j DIR_DOWN)).type ≠ FT_EMPTY) ∧
      ((level_patrol.data 245).type, (level_patrol.data 305).type) =
        (FT_EMPTY, FT_SNIK_SNAK) ∧
      (game_step level_patrol).map (fun p => ((p.1.data 245).type, (p.1.data 305).type)) =
        some (FT_SNIK_SNAK, FT_EMPTY)) := by
  refine ⟨⟨rfl, ?_, ?_, by decide, ?_⟩, ⟨rfl, ?_, ?_, by decide, ?_⟩⟩
  · exact fun j _ => sparse_level_forall _ true DIR_NONE ⟨10, 5⟩ (fun _ f => ¬ exploding f)
      (fun j _ => by simp [border_cell, cell_at, exploding, Field.has_hint]) (by decide) j
  · exact fun j _ => sparse_level_forall _ true DIR_NONE ⟨10, 5⟩
      (fun j f => loose f.type →
        (level_roll.data (neighbour level_roll j DIR_DOWN)).type ≠ FT_EMPTY)
      (fun j _ h => by simp [border_cell, cell_at, loose] at h) (by decide) j
  · rw [level_roll_idle_step]
    decide
  · exact fun j _ => sparse_level_forall _ true DIR_NONE ⟨10, 5⟩ (fun _ f => ¬ exploding f)
      (fun j _ => by simp [border_cell, cell_at, exploding, Field.has_hint]) (by decide) j
  · exact fun j _ => sparse_level_forall _ true DIR_NONE ⟨10, 5⟩
      (fun j f => loose f.type →
        (level_patrol.data (neighbour level_patrol j DIR_DOWN)).type ≠ FT_EMPTY)
      (fun j _ h => by simp [border_cell, cell_at, loose] at h) (by decide) j
  · rw [level_patrol_step]
    decide

/-! ## C11, C12: the pending intent -/

theorem next_point_near (p : Point) (d : Direction) :
    |(next_point p d).x - p.x| + |(next_point p d).y - p.y| ≤ 1 := by
  cases d <;> unfold next_point <;> simp only <;> (try split) <;> simp

theorem game_step_next_move (s t : Level) (r : Bool) (h : game_step s = some (t, r)) :
    t.next_move = DIR_NONE := by
  obtain ⟨s1, s4, -, hscan, rfl, -⟩ := (game_step_some s t r).mp h
  rw [after_scan_next_move, (scan_globals cells _ s4 hscan).2.1, before_scan_next_move]

theorem game_step_murphy_step (s t : Level) (r : Bool) (h : game_step s = some (t, r)) :
    t.murphy = s.murphy ∨ t.murphy = next_point s.murphy s.next_move := by
  obtain ⟨s1, s4, hmove, hscan, rfl, -⟩ := (game_step_some s t r).mp h
  rw [after_scan_murphy, (scan_globals cells _ s4 hscan).1, before_scan_murphy]
  rcases move_phase_cases s s1 hmove with e | ⟨-, -, hres⟩
  · exact Or.inl (by rw [e])
  · obtain ⟨-, -, s3, hrel, hfin⟩ := resolve_move_some s s1 hres
    rcases hfin with e | ⟨-, e⟩
    · exact Or.inl (by rw [e]; exact hrel.murphy)
    · exact Or.inr (by rw [e]; rfl)

/-- C11. The intent is consumed, not queued. After `game_step`, whatever the state and
the pending intent, the pending intent is none and the cached player position is at
most one grid cell away from the previous one. And `dispatch_event` with a move event
(up, down, left, right, none) sets the pending intent to the direction of the event
whatever intent was pending before, so that the state after two dispatches is the
state after the second one alone. -/
theorem intent_consumed (s t : Level) (r : Bool) (h : game_step s = some (t, r)) :
    t.next_move = DIR_NONE ∧
    |t.murphy.x - s.murphy.x| + |t.murphy.y - s.murphy.y| ≤ 1 ∧
    (∀ u : Level,
      (dispatch_event u EVENT_MOVE_UP).next_move = DIR_UP ∧
      (dispatch_event u EVENT_MOVE_DOWN).next_move = DIR_DOWN ∧
      (dispatch_event u EVENT_MOVE_LEFT).next_move = DIR_LEFT ∧
      (dispatch_event u EVENT_MOVE_RIGHT).next_move = DIR_RIGHT ∧
      (dispatch_event u EVENT_MOVE_NONE).next_move = DIR_NONE) ∧
    (∀ (u : Level) (e1 e2 : GameEvent),
      e2 ∈ [EVENT_MOVE_UP, EVENT_MOVE_DOWN, EVENT_MOVE_LEFT, EVENT_MOVE_RIGHT,
        EVENT_MOVE_NONE] →
      dispatch_event (dispatch_event u e1) e2 = dispatch_event u e2) := by
  refine ⟨game_step_next_move s t r h, ?_, fun u => ⟨rfl, rfl, rfl, rfl, rfl⟩, ?_⟩
  · rcases game_step_murphy_step s t r h with e | e
    · rw [e]; simp
    · rw [e]; exact next_point_near _ _
  · intro u e1 e2 he
    simp only [List.mem_cons, List.mem_singleton, List.not_mem_nil, or_false] at he
    rcases he with rfl | rfl | rfl | rfl | rfl <;> cases e1 <;> rfl

/-- Witness of C11: the player of `level_step_right` steps right. -/
theorem intent_consumed_witness :
    ∃ t r, game_step level_step_right = some (t, r) ∧ t.next_move = DIR_NONE ∧
      |t.murphy.x - level_step_right.murphy.x| +
        |t.murphy.y - level_step_right.murphy.y| ≤ 1 := by
  have h : (game_step level_step_right).isSome = true := by
    rw [level_step_right_step]
    decide
  obtain ⟨⟨t, r⟩, ht⟩ := Option.isSome_iff_exists.mp h
  have hc := intent_consumed level_step_right t r ht
  exact ⟨t, r, ht, hc.1, hc.2.1⟩

/-- C12. A dead player ignores intents: with `murphy_alive = false`, `game_step` run
with pending intent `a` and `game_step` run with pending intent `b` give the same
result, that is the same level (cells, cached player position, `murphy_alive`) and the
same returned value. -/
theorem dead_player_ignores_intent (s : Level) (a b : Direction)
    (hdead : s.murphy_alive = false) :
    game_step { s with next_move := a } = game_step { s with next_move := b } := by
  have key : ∀ d : Direction, game_step { s with next_move := d } =
      (cells.foldlM scan_cell (before_scan s)).bind
        (fun s4 => some (after_scan s4, (after_scan s4).murphy_alive)) := by
    intro d
    have hm : move_phase { s with next_move := d } = some { s with next_move := d } := by
      unfold move_phase
      rw [if_neg (by simp [hdead])]
      rfl
    have hb : before_scan { s with next_move := d } = before_scan s := rfl
    rw [game_step_eq, hm, Option.some_bind, hb]
  rw [key a, key b]

/-- Witness of C12: the dead player of `level_dead`, with intents left and up; the
tick has a result. -/
theorem dead_player_ignores_intent_witness :
    level_dead.murphy_alive = false ∧
    (game_step { level_dead with next_move := DIR_LEFT }).isSome = true ∧
    game_step { level_dead with next_move := DIR_LEFT } =
      game_step { level_dead with next_move := DIR_UP } := by
  refine ⟨rfl, ?_, dead_player_ignores_intent level_dead DIR_LEFT DIR_UP rfl⟩
  have e : ({ level_dead with next_move := DIR_LEFT } : Level) = level_dead := rfl
  rw [e, level_dead_step]
  decide

/-! ## C13: the countdown invariant -/

theorem accounted_mono (f g : Field) (hc : g.countdown = f.countdown)
    (hE : f.has_hint HINT_EXPLOSION = true → g.has_hint HINT_EXPLOSION = true)
    (hEI : f.has_hint HINT_EXPLOSION_INFOTRON = true →
      g.has_hint HINT_EXPLOSION_INFOTRON = true)
    (hP : f.has_hint HINT_PUSH = true → g.has_hint HINT_PUSH = true)
    (hf : accounted f) : accounted g := by
  intro hpos
  rw [hc] at hpos
  rcases hf hpos with hx | hp
  · exact Or.inl (hx.imp hE hEI)
  · exact Or.inr (hP hp)

theorem touch_accounted {f g : Field} (h : Touch f g) (hf : accounted f) : accounted g := by
  cases h with
  | explode => exact fun _ => Or.inl (Or.inl (by simp +decide))
  | explode_infotron => exact fun _ => Or.inl (Or.inr (by simp +decide))
  | origin =>
    exact accounted_mono f _ rfl (fun h => by simp [h]) (fun h => by simp [h])
      (fun h => by simp [h]) hf
  | fall_into =>
    exact accounted_mono f _ rfl (fun h => by simp [h]) (fun h => by simp [h])
      (fun h => by simp [h]) hf
  | roll_into_left =>
    exact accounted_mono f _ rfl (fun h => by simp [h]) (fun h => by simp [h])
      (fun h => by simp [h]) hf
  | roll_into_right =>
    exact accounted_mono f _ rfl (fun h => by simp [h]) (fun h => by simp [h])
      (fun h => by simp [h]) hf
  | npc_into =>
    exact accounted_mono f _ rfl (fun h => by simp [h]) (fun h => by simp [h])
      (fun h => by simp [h]) hf
  | npc_skip =>
    exact accounted_mono f _ rfl (fun h => by simp [h]) (fun h => by simp [h])
      (fun h => by simp [h]) hf

theorem act_accounted {f g : Field} (h : Act f g) (hf : accounted f) : accounted g := by
  cases h with
  | touch _ ht => exact touch_accounted ht hf
  | fall_away =>
    exact accounted_mono f _ rfl (fun h => by simpa +decide using h)
      (fun h => by simpa +decide using h) (fun h => by simpa +decide using h) hf
  | fall_stay =>
    exact accounted_mono f _ rfl (fun h => by simpa +decide using h)
      (fun h => by simpa +decide using h) (fun h => by simpa +decide using h) hf
  | npc_clear =>
    exact accounted_mono f _ rfl (fun h => by simpa +decide using h)
      (fun h => by simpa +decide using h) (fun h => by simpa +decide using h) hf
  | npc_leave =>
    exact accounted_mono f _ rfl (fun h => by simp [h]) (fun h => by simp [h])
      (fun h => by simp [h]) hf
  | npc_turn_left =>
    exact accounted_mono f _ rfl (fun h => by simp [h]) (fun h => by simp [h])
      (fun h => by simp [h]) hf
  | npc_turn_right =>
    exact accounted_mono f _ rfl (fun h => by simp [h]) (fun h => by simp [h])
      (fun h => by simp [h]) hf

theorem own_accounted {f g : Field} (h : Own f g) (hf : accounted f) : accounted g := by
  cases h with
  | act _ ha => exact act_accounted ha hf
  | clear_from =>
    exact accounted_mono f _ rfl (fun h => by simpa +decide using h)
      (fun h => by simpa +decide using h) (fun h => by simpa +decide using h) hf
  | clear_was =>
    exact accounted_mono f _ rfl (fun h => by simpa +decide using h)
      (fun h => by simpa +decide using h) (fun h => by simpa +decide using h) hf
  | countdown hx _ =>
    intro _
    refine Or.inl (hx.imp (fun h => ?_) (fun h => ?_))
    · simp [h]
    · simp [h]
  | resolve_empty _ hc =>
    intro hpos
    simp only [del_hint_countdown] at hpos
    omega
  | resolve_infotron _ _ hc =>
    intro hpos
    simp only [del_hint_countdown] at hpos
    omega

theorem moved_accounted {f g : Field} (h : Moved f g) (hf : accounted f) : accounted g := by
  cases h with
  | origin =>
    exact accounted_mono f _ rfl (fun h => by simp [h]) (fun h => by simp [h])
      (fun h => by simp [h]) hf
  | was_base =>
    exact accounted_mono f _ rfl (fun h => by simp [h]) (fun h => by simp [h])
      (fun h => by simp [h]) hf
  | was_infotron =>
    exact accounted_mono f _ rfl (fun h => by simp [h]) (fun h => by simp [h])
      (fun h => by simp [h]) hf
  | was_red_disk =>
    exact accounted_mono f _ rfl (fun h => by simp [h]) (fun h => by simp [h])
      (fun h => by simp [h]) hf
  | pushed_into =>
    exact accounted_mono f _ rfl (fun h => by simp [h]) (fun h => by simp [h])
      (fun h => by simp [h]) hf

/-- When the target switch allows the move, the player's cell is without the push
flag or has countdown 0. -/
theorem target_switch_allow (s s2 : Level) (next : Point) (fld m : Int)
    (hnp : (s.data m).has_hint HINT_PUSH = false)
    (h : target_switch s next fld m = some (s2, true)) :
    (s2.data m).has_hint HINT_PUSH = false ∨ (s2.data m).countdown = 0 := by
  have hset : ∀ a : Nat, a &&& HINT_PUSH = 0 →
      ((s.upd fld (fun f => f.set_hint a)).data m).has_hint HINT_PUSH = false := by
    intro a ha
    by_cases hfm : m = fld
    · subst hfm
      rw [upd_data_same, has_hint_set_hint, hnp, ha]
      rfl
    · rw [upd_data_ne _ _ _ _ hfm]
      exact hnp
  have hfree : ∀ u : Level, (u.data m).has_hint HINT_PUSH = false →
      enter_free u fld m = some (s2, true) → (s2.data m).has_hint HINT_PUSH = false := by
    intro u hu he
    unfold enter_free at he
    split at he
    · cases hx : explode_9 u fld FT_BASE with
      | none => simp [hx] at he
      | some x => simp [hx] at he
    · simp only [Option.pure_def, Option.some.injEq, Prod.mk.injEq, and_true] at he
      rw [← he]
      exact hu
  unfold target_switch at h
  split at h
  · exact Or.inl (hfree _ (hset _ (by decide)) h)
  · exact Or.inl (hfree _ hnp h)
  · simp only [Option.pure_def, Option.some.injEq, Prod.mk.injEq, and_true] at h
    rw [← h]
    exact Or.inl (hset _ (by decide))
  · simp only [Option.pure_def, Option.some.injEq, Prod.mk.injEq, and_true] at h
    rw [← h]
    exact Or.inl (hset _ (by decide))
  all_goals first
    | (simp only [Option.pure_def, Option.some.injEq, Prod.mk.injEq, Bool.false_eq_true,
        and_false] at h)
    | skip
  all_goals
    unfold push at h
    split at h
    · cases hx : explode_9 s fld FT_BASE with
      | none => simp [hx] at h
      | some x => simp [hx] at h
    · split at h
      · cases hmo : cell_ref (data_idx (next_point next s.next_move)) with
        | none => simp [hmo] at h
        | some mo =>
          simp only [hmo, Option.bind_eq_bind, Option.some_bind] at h
          split at h
          · split at h
            · simp only [Option.pure_def, Option.some.injEq, Prod.mk.injEq, and_true] at h
              rw [← h]
              exact Or.inr (by simp)
            · simp at h
          · simp at h
      · simp at h

/-- The commit of a move deletes no flag other than arrival, was- and push flags, and
the push flag only on the vacated cell. -/
theorem committed_has_hint_mono (s : Level) (next : Point) (fld j : Int) (b : Nat)
    (hb : (4294967295 - (HINT_FROM_BOTTOM ||| HINT_FROM_TOP ||| HINT_FROM_RIGHT |||
      HINT_FROM_LEFT ||| HINT_WAS_INFOTRON ||| HINT_WAS_BASE ||| HINT_WAS_RED_DISK)) &&& b = b)
    (hp : j ≠ data_idx s.murphy ∨ (4294967295 - HINT_PUSH) &&& b = b)
    (h : (s.data j).has_hint b = true) :
    ((committed s next fld).data j).has_hint b = true := by
  unfold committed
  simp only
  by_cases h1 : j = data_idx s.murphy
  · have hp' : (4294967295 - HINT_PUSH) &&& b = b := by
      rcases hp with hp | hp
      · exact absurd h1 hp
      · exact hp
    subst h1
    by_cases h2 : data_idx s.murphy = fld
    · subst h2
      split <;> simp [upd_data, hb, hp', h]
    · have h2' : fld ≠ data_idx s.murphy := fun e => h2 e.symm
      split <;> simp [upd_data, hb, hp', h, h2, h2']
  · by_cases h2 : j = fld
    · subst h2
      split <;> simp [upd_data, h, h1]
    · split <;> simp [upd_data, h, h1, h2]

/-- The movement phase keeps every countdown accounted for. -/
theorem move_phase_accounted (s s1 : Level) (h : move_phase s = some s1) (j : Int)
    (hj : accounted (s.data j)) : accounted (s1.data j) := by
  rcases move_phase_cases s s1 h with e | ⟨-, -, hres⟩
  · rw [e]; exact hj
  · obtain ⟨-, -, s2, allow, hts, ht⟩ := resolve_move_switch s s1 hres
    have hnp : ((s.upd (data_idx s.murphy) (fun f => f.del_hint HINT_PUSH)).data
        (data_idx s.murphy)).has_hint HINT_PUSH = false := by simp +decide
    obtain ⟨hrel, -⟩ := target_switch_rel _ s2 _ _ _ allow rfl rfl rfl hnp hts
    have h3 : accounted ((push_reset s2 (data_idx s.murphy)).data j) := by
      by_cases hjm : j = data_idx s.murphy
      · subst hjm
        intro hpos
        rcases push_reset_own s2 (data_idx s.murphy) with hp | hc
        · exact Or.inr hp
        · omega
      · rw [push_reset_data_ne _ _ _ hjm]
        refine movedPath_induct accounted (fun f g hfg hf => moved_accounted hfg hf)
          (hrel.cells j hjm) ?_
        rw [upd_data_ne _ _ _ _ hjm]
        exact hj
    cases allow with
    | false =>
      rw [ht]
      exact h3
    | true =>
      rw [ht, if_pos rfl]
      have hm : (push_reset s2 (data_idx s.murphy)).murphy = s.murphy :=
        (push_reset_murphy _ _).trans hrel.murphy
      by_cases hjm : j = data_idx s.murphy
      · intro hpos
        rw [committed_countdown] at hpos
        subst hjm
        have h0 : ((push_reset s2 (data_idx s.murphy)).data (data_idx s.murphy)).countdown =
            0 := by
          unfold push_reset
          split
          · simp
          · next hp =>
            rcases target_switch_allow _ s2 _ _ _ hnp hts with hq | hq
            · rw [hq] at hp; exact absurd (by simp) hp
            · exact hq
        omega
      · have hjm' : j ≠ data_idx (push_reset s2 (data_idx s.murphy)).murphy := by
          rw [hm]; exact hjm
        intro hpos
        rw [committed_countdown] at hpos
        rcases h3 hpos with hx | hp
        · exact Or.inl (hx.imp
            (committed_has_hint_mono _ _ _ j _ (by decide) (Or.inl hjm'))
            (committed_has_hint_mono _ _ _ j _ (by decide) (Or.inl hjm')))
        · exact Or.inr
            (committed_has_hint_mono _ _ _ j _ (by decide) (Or.inl hjm') hp)

/-- C13. The countdown invariant. If before `game_step` every cell with countdown > 0
carries an exploding flag (exploding to empty or to a collectible) or the being-pushed
flag, then, whatever the pending intent, the same holds of every cell after
`game_step`. -/
theorem countdown_invariant (s t : Level) (r : Bool)
    (hinv : ∀ j, in_grid j → (s.data j).countdown > 0 →
      (s.data j).has_hint HINT_EXPLOSION = true ∨
        (s.data j).has_hint HINT_EXPLOSION_INFOTRON = true ∨
        (s.data j).has_hint HINT_PUSH = true)
    (h : game_step s = some (t, r)) :
    ∀ j, in_grid j → (t.data j).countdown > 0 →
      (t.data j).has_hint HINT_EXPLOSION = true ∨
        (t.data j).has_hint HINT_EXPLOSION_INFOTRON = true ∨
        (t.data j).has_hint HINT_PUSH = true := by
  obtain ⟨s1, s4, hm, hscan, rfl, -⟩ := (game_step_some s t r).mp h
  intro j hj
  have h0 : accounted (s.data j) := fun hpos => by
    rcases hinv j hj hpos with a | a | a
    · exact Or.inl (Or.inl a)
    · exact Or.inl (Or.inr a)
    · exact Or.inr a
  have h1 := move_phase_accounted s s1 hm j h0
  have hb : accounted ((before_scan s1).data j) := by
    rw [before_scan_data s1 j hj]
    unfold leaving_cleared
    split
    · exact h1
    · split
      · exact accounted_mono (s1.data j) _ rfl (fun h => by simpa +decide using h)
          (fun h => by simpa +decide using h) (fun h => by simpa +decide using h) h1
      · exact h1
  have h4 := scan_preserves accounted (fun f g hfg hf => touch_accounted hfg hf)
    (Or.inl (fun f g hfg hf => own_accounted hfg hf)) cells _ s4 hscan j hb
  have h5 : accounted ((after_scan s4).data j) := by
    rw [after_scan_data s4 j hj]
    exact accounted_mono (s4.data j) _ rfl (fun h => by simpa +decide using h)
      (fun h => by simpa +decide using h) (fun h => by simpa +decide using h) h4
  intro hpos
  rcases h5 hpos with (a | a) | a
  · exact Or.inl a
  · exact Or.inr (Or.inl a)
  · exact Or.inr (Or.inr a)

theorem level_counting_step :
    game_step (level_counting DIR_UP) =
      sparse_step [304, 305, 306, 307] (level_counting DIR_UP) :=
  game_step_sparse_level _ _ _ _ (by decide) (by decide) (by decide)

theorem level_counting_inv (j : Int) (_hj : in_grid j)
    (h : ((level_counting DIR_UP).data j).countdown > 0) :
    ((level_counting DIR_UP).data j).has_hint HINT_EXPLOSION = true ∨
      ((level_counting DIR_UP).data j).has_hint HINT_EXPLOSION_INFOTRON = true ∨
      ((level_counting DIR_UP).data j).has_hint HINT_PUSH = true :=
  sparse_level_forall _ true DIR_UP ⟨5, 5⟩
    (fun _ f => f.countdown > 0 → f.has_hint HINT_EXPLOSION = true ∨
      f.has_hint HINT_EXPLOSION_INFOTRON = true ∨ f.has_hint HINT_PUSH = true)
    (fun j _ h => by simp [border_cell, cell_at] at h) (by decide) j h

/-- Witness of C13: in `level_counting` the armed player presses up, which resets its
countdown, while the base cell next to it counts down from 2 to 1. -/
theorem countdown_invariant_witness :
    ∃ t r, game_step (level_counting DIR_UP) = some (t, r) ∧
      ∀ j, in_grid j → (t.data j).countdown > 0 →
        (t.data j).has_hint HINT_EXPLOSION = true ∨
          (t.data j).has_hint HINT_EXPLOSION_INFOTRON = true ∨
          (t.data j).has_hint HINT_PUSH = true := by
  have h : (game_step (level_counting DIR_UP)).isSome = true := by
    rw [level_counting_step]
    decide
  obtain ⟨⟨t, r⟩, ht⟩ := Option.isSome_iff_exists.mp h
  exact ⟨t, r, ht, countdown_invariant (level_counting DIR_UP) t r level_counting_inv ht⟩

/-! ## C14: the falling flag -/

theorem falling_ok_mono (f g : Field) (ht : g.type = f.type)
    (hF : g.has_hint HINT_FALL = true → f.has_hint HINT_FALL = true)
    (hE : g.has_hint HINT_EXPLOSION = true → f.has_hint HINT_EXPLOSION = true)
    (hEI : g.has_hint HINT_EXPLOSION_INFOTRON = true →
      f.has_hint HINT_EXPLOSION_INFOTRON = true)
    (hS : f.has_hint HINT_SKIP = true → g.has_hint HINT_SKIP = true)
    (hf : falling_ok f) : falling_ok g := by
  intro hfall
  obtain ⟨h1, h2⟩ := hf (hF hfall)
  exact ⟨ht ▸ h1, fun hx => hS (h2 (hx.imp hE hEI))⟩

theorem falling_ok_of_not {g : Field} (h : g.has_hint HINT_FALL = false) : falling_ok g := by
  intro hf
  rw [h] at hf
  exact absurd hf (by simp)

theorem not_falling_of_ok {f : Field} (hf : falling_ok f) (hn : ¬ loose f.type) :
    f.has_hint HINT_FALL = false := by
  cases h : f.has_hint HINT_FALL with
  | false => rfl
  | true => exact absurd (hf h).1 hn

theorem touch_falling_ok {f g : Field} (h : Touch f g) (hf : falling_ok f) :
    falling_ok g := by
  cases h with
  | origin =>
    exact falling_ok_mono f _ rfl (fun h => by simpa +decide using h)
      (fun h => by simpa +decide using h) (fun h => by simpa +decide using h)
      (fun h => by simp [h]) hf
  | explode =>
    intro hfall
    exact ⟨(hf (by simpa +decide using hfall)).1, fun _ => by simp +decide⟩
  | explode_infotron =>
    intro hfall
    exact ⟨(hf (by simpa +decide using hfall)).1, fun _ => by simp +decide⟩
  | fall_into t ht hl hlo => exact fun _ => ⟨hlo, fun _ => by simp +decide⟩
  | roll_into_left t ht hl hlo => exact fun _ => ⟨hlo, fun _ => by simp +decide⟩
  | roll_into_right t ht hl hlo => exact fun _ => ⟨hlo, fun _ => by simp +decide⟩
  | npc_into t d ht hl hz =>
    have h0 := not_falling_of_ok hf (by rw [ht]; simp [loose])
    exact falling_ok_of_not (by simp +decide [h0])
  | npc_skip =>
    exact falling_ok_mono f _ rfl (fun h => by simpa +decide using h)
      (fun h => by simpa +decide using h) (fun h => by simpa +decide using h)
      (fun h => by simp [h]) hf

theorem hazard_not_loose {t : FieldType} (h : hazard t) : ¬ loose t := by
  rcases h with h | h <;> simp [h, loose]

theorem act_falling_ok {f g : Field} (h : Act f g) (hf : falling_ok f) : falling_ok g := by
  cases h with
  | touch _ ht => exact touch_falling_ok ht hf
  | fall_away => exact falling_ok_of_not (by simp +decide)
  | fall_stay => exact falling_ok_of_not (by simp +decide)
  | npc_clear hz =>
    exact falling_ok_of_not (by simpa +decide using not_falling_of_ok hf (hazard_not_loose hz))
  | npc_leave hz =>
    exact falling_ok_of_not (by simpa +decide using not_falling_of_ok hf (hazard_not_loose hz))
  | npc_turn_left d hz =>
    have h0 := not_falling_of_ok hf (hazard_not_loose hz)
    exact falling_ok_of_not (by
      rw [has_hint_set_hint, h0]
      cases d <;> decide)
  | npc_turn_right d hz =>
    have h0 := not_falling_of_ok hf (hazard_not_loose hz)
    exact falling_ok_of_not (by
      rw [has_hint_set_hint, h0]
      cases d <;> decide)

theorem actPath_falling_ok {f g : Field} (h : ActPath f g) (hf : falling_ok f) :
    falling_ok g := by
  induction h with
  | refl => exact hf
  | tail _ hs ih => exact act_falling_ok hs ih

theorem touchPath_falling_ok {f g : Field} (h : TouchPath f g) (hf : falling_ok f) :
    falling_ok g := by
  induction h with
  | refl => exact hf
  | tail _ hs ih => exact touch_falling_ok hs ih

theorem own_cleared_falling_ok {f : Field} (hf : falling_ok f) :
    falling_ok (own_cleared f) :=
  falling_ok_mono f _ (own_cleared_type f)
    (fun h => by rwa [own_cleared_has_hint _ _ (by decide) (by decide)] at h)
    (fun h => by rwa [own_cleared_has_hint _ _ (by decide) (by decide)] at h)
    (fun h => by rwa [own_cleared_has_hint _ _ (by decide) (by decide)] at h)
    (fun h => by rwa [own_cleared_has_hint _ _ (by decide) (by decide)]) hf

/-- The scan of a cell keeps the falling flag in order on it. -/
theorem scan_cell_falling_ok (s t : Level) (i : Int) (h : scan_cell s i = some t)
    (hf : falling_ok (s.data i)) : falling_ok (t.data i) := by
  cases hs : (s.data i).has_hint HINT_SKIP with
  | true =>
    rw [scan_cell_skip s i hs] at h
    rw [← Option.some.inj h]
    exact hf
  | false =>
    have hnf : exploding (s.data i) → (s.data i).has_hint HINT_FALL = false := by
      intro hx
      cases hfl : (s.data i).has_hint HINT_FALL with
      | false => rfl
      | true =>
        have := (hf hfl).2 hx
        rw [hs] at this
        exact absurd this (by simp)
    rcases scan_cell_stages s t i h hs with ⟨-, hd⟩ | ⟨hx, -, u, hu, -, ht⟩ | ⟨hx, -, hd⟩
    · refine actPath_falling_ok (dispatch_rel _ t i _ hd).own ?_
      rw [upd_data_same]
      exact own_cleared_falling_ok hf
    · have h1 : falling_ok (u.data i) := by
        refine touchPath_falling_ok (hu.cells i) ?_
        rw [upd_data_same]
        exact own_cleared_falling_ok hf
      rw [ht, upd_data_same]
      intro hfall
      unfold counted_down at hfall ⊢
      exact ⟨(h1 (by simpa +decide using hfall)).1, fun _ => by simp +decide⟩
    · refine actPath_falling_ok (dispatch_rel _ t i _ hd).own ?_
      simp only [upd_data_same]
      apply falling_ok_of_not
      have h0 : (own_cleared (s.data i)).has_hint HINT_FALL = false := by
        rw [own_cleared_has_hint _ _ (by decide) (by decide)]
        exact hnf hx
      unfold resolved
      split
      · simpa +decide using h0
      · split
        · simpa +decide using h0
        · simpa +decide using h0

theorem movedOwn_not_fall {f g : Field} (h : MovedOwn f g)
    (hf : f.has_hint HINT_FALL = false) : g.has_hint HINT_FALL = false := by
  cases h with
  | pushed _ hp =>
    cases hp with
    | moved _ hm => cases hm <;> simpa +decide using hf
    | push_arm => simpa +decide using hf
    | push_go => simpa +decide using hf
  | del_push => simpa +decide using hf
  | reset => simpa using hf

theorem movedOwn_falling_ok {f g : Field} (h : MovedOwn f g) (hf : falling_ok f) :
    falling_ok g := by
  cases h with
  | pushed _ hp =>
    cases hp with
    | moved _ hm =>
      cases hm with
      | origin =>
        exact falling_ok_mono f _ rfl (fun h => by simpa +decide using h)
          (fun h => by simpa +decide using h) (fun h => by simpa +decide using h)
          (fun h => by simp [h]) hf
      | was_base =>
        exact falling_ok_mono f _ rfl (fun h => by simpa +decide using h)
          (fun h => by simpa +decide using h) (fun h => by simpa +decide using h)
          (fun h => by simp [h]) hf
      | was_infotron =>
        exact falling_ok_mono f _ rfl (fun h => by simpa +decide using h)
          (fun h => by simpa +decide using h) (fun h => by simpa +decide using h)
          (fun h => by simp [h]) hf
      | was_red_disk =>
        exact falling_ok_mono f _ rfl (fun h => by simpa +decide using h)
          (fun h => by simpa +decide using h) (fun h => by simpa +decide using h)
          (fun h => by simp [h]) hf
      | pushed_into t d ht =>
        have h0 := not_falling_of_ok hf (by rw [ht]; simp [loose])
        exact falling_ok_of_not (by simpa +decide using h0)
    | push_arm =>
      exact falling_ok_mono f _ rfl (fun h => by simpa +decide using h)
        (fun h => by simpa +decide using h) (fun h => by simpa +decide using h)
        (fun h => by simp [h]) hf
    | push_go =>
      exact falling_ok_mono f _ rfl (fun h => by simpa +decide using h)
        (fun h => by simpa +decide using h) (fun h => by simpa +decide using h)
        (fun h => by simp [h]) hf
  | del_push =>
    exact falling_ok_mono f _ rfl (fun h => by simpa +decide using h)
      (fun h => by simpa +decide using h) (fun h => by simpa +decide using h)
      (fun h => by simpa +decide using h) hf
  | reset =>
    exact falling_ok_mono f _ rfl (fun h => by simpa using h)
      (fun h => by simpa using h) (fun h => by simpa using h)
      (fun h => by simpa using h) hf

theorem committed_data_ne (s : Level) (next : Point) (fld j : Int)
    (h1 : j ≠ data_idx s.murphy) (h2 : j ≠ fld) : (committed s next fld).data j = s.data j := by
  unfold committed
  simp only
  split <;> simp [upd_data, h1, h2]

/-- The commit of a move neither sets nor deletes the falling flag. -/
theorem committed_has_hint_fall (s : Level) (next : Point) (fld j : Int) :
    ((committed s next fld).data j).has_hint HINT_FALL = (s.data j).has_hint HINT_FALL := by
  unfold committed
  simp only
  by_cases h1 : j = data_idx s.murphy
  · subst h1
    by_cases h2 : data_idx s.murphy = fld
    · subst h2
      split <;> simp +decide [upd_data]
    · have h2' : fld ≠ data_idx s.murphy := fun e => h2 e.symm
      split <;> simp +decide [upd_data, h2, h2']
  · by_cases h2 : j = fld
    · subst h2
      split <;> simp +decide [upd_data, h1]
    · split <;> simp [upd_data, h1, h2]

/-- The movement phase keeps the falling flag in order, if neither the player's cell
nor the target of the intent carries it. -/
theorem move_phase_falling_ok (s s1 : Level) (h : move_phase s = some s1)
    (hc : s.next_move ≠ DIR_NONE → s.murphy_alive = true →
      (s.data (data_idx s.murphy)).has_hint HINT_FALL = false ∧
      (s.data (data_idx (next_point s.murphy s.next_move))).has_hint HINT_FALL = false)
    (j : Int) (hj : falling_ok (s.data j)) : falling_ok (s1.data j) := by
  rcases move_phase_cases s s1 h with e | ⟨hn, ha, hres⟩
  · rw [e]; exact hj
  · obtain ⟨hP, hQ⟩ := hc hn ha
    obtain ⟨-, -, s3, hrel, hfin⟩ := resolve_move_some s s1 hres
    have h3 : ∀ k, falling_ok (s.data k) → falling_ok (s3.data k) := fun k hk =>
      moveRel_preserves hrel falling_ok (fun f g hfg hf => movedOwn_falling_ok hfg hf) k hk
    have hn3 : ∀ k, (s.data k).has_hint HINT_FALL = false →
        (s3.data k).has_hint HINT_FALL = false := fun k hk =>
      moveRel_preserves hrel (fun f => f.has_hint HINT_FALL = false)
        (fun f g hfg hf => movedOwn_not_fall hfg hf) k hk
    rcases hfin with e | ⟨-, e⟩
    · rw [e]; exact h3 j hj
    · rw [e]
      by_cases h1 : j = data_idx s.murphy
      · apply falling_ok_of_not
        rw [committed_has_hint_fall, h1]
        exact hn3 _ hP
      · by_cases h2 : j = data_idx (next_point s.murphy s.next_move)
        · apply falling_ok_of_not
          rw [committed_has_hint_fall, h2]
          exact hn3 _ hQ
        · rw [committed_data_ne _ _ _ j (by rw [hrel.murphy]; exact h1) h2]
          exact h3 j hj

theorem level_fall_rest_step :
    game_step level_fall_rest = sparse_step [305, 306, 308] level_fall_rest :=
  game_step_sparse_level _ _ _ _ (by decide) (by decide) (by decide)

theorem level_fall_rest_inv (j : Int) (_hj : in_grid j)
    (h : (level_fall_rest.data j).has_hint HINT_FALL = true) :
    loose (level_fall_rest.data j).type ∧ ¬ exploding (level_fall_rest.data j) :=
  sparse_level_forall _ true DIR_RIGHT ⟨5, 5⟩
    (fun _ f => f.has_hint HINT_FALL = true → loose f.type ∧ ¬ exploding f)
    (fun j _ h => by simp [border_cell, cell_at, Field.has_hint] at h) (by decide) j h

theorem level_fall_enter_step :
    game_step level_fall_enter = sparse_step [305, 306] level_fall_enter :=
  game_step_sparse_level _ _ _ _ (by decide) (by decide) (by decide)

theorem level_fall_blast_step :
    game_step level_fall_blast = sparse_step [306, 310] level_fall_blast :=
  game_step_sparse_level _ _ _ _ (by decide) (by decide) (by decide)

theorem inside_in_grid {p : Point} (h : inside p) : in_grid (data_idx p) := by
  obtain ⟨h1, h2, h3, h4⟩ := h
  unfold in_grid data_idx
  unfold LEVEL_WIDTH at *
  unfold LEVEL_HEIGHT at *
  constructor <;> omega

theorem next_point_clamped (p : Point) (d : Direction) (hp : inside p) :
    next_point p d = (if inside (adjacent_point p d) then adjacent_point p d else p) := by
  obtain ⟨h1, h2, h3, h4⟩ := hp
  unfold LEVEL_WIDTH at h2
  unfold LEVEL_HEIGHT at h4
  cases d <;> simp only [next_point, adjacent_point, inside, LEVEL_WIDTH, LEVEL_HEIGHT]
  · rw [if_pos ⟨h1, h2, h3, h4⟩]
  · by_cases hy : p.y > 0
    · rw [if_pos hy, if_pos ⟨h1, h2, by omega, by omega⟩]
    · rw [if_neg hy, if_neg (fun hc => hy (by omega))]
  · by_cases hy : p.y < 24 - 1
    · rw [if_pos hy, if_pos ⟨h1, h2, by omega, by omega⟩]
    · rw [if_neg hy, if_neg (fun hc => hy (by omega))]
  · by_cases hx : p.x > 0
    · rw [if_pos hx, if_pos ⟨by omega, by omega, h3, h4⟩]
    · rw [if_neg hx, if_neg (fun hc => hx (by omega))]
  · by_cases hx : p.x < 60 - 1
    · rw [if_pos hx, if_pos ⟨by omega, by omega, h3, h4⟩]
    · rw [if_neg hx, if_neg (fun hc => hx (by omega))]

/-- Movement resolution when the target is the player's own cell and that cell has
type player: the move is not allowed, and only the push flag and the countdown of the
player's cell are touched. -/
theorem resolve_move_clamped (s : Level) (hP : in_grid (data_idx s.murphy))
    (hsame : next_point s.murphy s.next_move = s.murphy)
    (hty : (s.data (data_idx s.murphy)).type = FT_MURPHY) :
    resolve_move s = some (push_reset
      (s.upd (data_idx s.murphy) (fun f => f.del_hint HINT_PUSH)) (data_idx s.murphy)) := by
  have hts : target_switch (s.upd (data_idx s.murphy) (fun f => f.del_hint HINT_PUSH))
      (next_point s.murphy s.next_move) (data_idx (next_point s.murphy s.next_move))
      (data_idx s.murphy) =
      some (s.upd (data_idx s.murphy) (fun f => f.del_hint HINT_PUSH), false) := by
    unfold target_switch
    rw [hsame]
    simp only [upd_data_same, del_hint_type, hty]
    rfl
  have h := resolve_move_of_switch s _ false hP (by rw [hsame]; exact hP) hts rfl
  simpa using h

/-- C15. Edge clamping. For a point `p` inside the 60x24 grid and any direction `d`
(none included), `next_point p d` is a point inside the grid: the adjacent point in
that direction when that one is inside the grid, and `p` itself when the step would
leave the grid or the direction is none. Consequently, when a live player stands on
`p` (the cell has type player) and its intent `d` points off the grid, movement
resolution has a result, keeps the cached player position and changes the type of no
cell. -/
theorem edge_clamping (p : Point) (d : Direction) (hp : inside p) :
    inside (next_point p d) ∧
    next_point p d = (if inside (adjacent_point p d) then adjacent_point p d else p) ∧
    (d = DIR_NONE → next_point p d = p) ∧
    (∀ s : Level, s.murphy = p → s.next_move = d → s.murphy_alive = true →
      (s.data (data_idx p)).type = FT_MURPHY → d ≠ DIR_NONE →
      ¬ inside (adjacent_point p d) →
      ∃ t, move_phase s = some t ∧ t.murphy = p ∧
        ∀ j, (t.data j).type = (s.data j).type) := by
  have hcl := next_point_clamped p d hp
  refine ⟨?_, hcl, fun e => by rw [e]; rfl, ?_⟩
  · rw [hcl]
    split
    · next h => exact h
    · exact hp
  · intro s hm hd ha hty hne hout
    subst hm
    subst hd
    rw [if_neg hout] at hcl
    refine ⟨push_reset (s.upd (data_idx s.murphy) (fun f => f.del_hint HINT_PUSH))
      (data_idx s.murphy), ?_, ?_, ?_⟩
    · unfold move_phase
      rw [if_pos ⟨hne, ha⟩]
      exact resolve_move_clamped s (inside_in_grid hp) hcl hty
    · rw [push_reset_murphy]
      rfl
    · intro j
      rw [push_reset_type]
      by_cases hj : j = data_idx s.murphy
      · subst hj; simp
      · simp [hj]

/-- Witness of C15: the point (0, 5) on the left edge, direction left, and the player
of `level_edge` standing there. -/
theorem edge_clamping_witness :
    inside ⟨0, 5⟩ ∧ inside (next_point ⟨0, 5⟩ DIR_LEFT) ∧ next_point ⟨0, 5⟩ DIR_LEFT = ⟨0, 5⟩ ∧
    ∃ t, move_phase level_edge = some t ∧ t.murphy = ⟨0, 5⟩ ∧
      ∀ j, (t.data j).type = (level_edge.data j).type := by
  have h := edge_clamping ⟨0, 5⟩ DIR_LEFT (by decide)
  exact ⟨by decide, h.1, by decide,
    h.2.2.2 level_edge rfl rfl rfl (by decide) (by decide) (by decide)⟩

/-! ## C16: an allowed move -/

/-- C16. The postcondition of an allowed move. The player is alive, the target cell
`Q` in the intent direction is another cell than the player's cell `P`, and `Q` is
empty or base without the leaving flag, or a collectible or a red disk (in any flag
state). After `game_step` the origin `P` is empty and leaving with every arrival and
was-flag cleared, the target `Q` has type player and carries the arrival flag of the
move direction (and was-base, was-collectible, was-red-disk for those targets), and the
cached player position is the target. -/
theorem allowed_move (s t : Level) (r : Bool) (P Q : Int)
    (halive : s.murphy_alive = true)
    (hP : P = data_idx s.murphy) (hQ : Q = data_idx (next_point s.murphy s.next_move))
    (hPQ : Q ≠ P)
    (htarget : (((s.data Q).type = FT_EMPTY ∨ (s.data Q).type = FT_BASE) ∧
        (s.data Q).has_hint HINT_LEAVING = false) ∨
      (s.data Q).type = FT_INFOTRON ∨ (s.data Q).type = FT_RED_DISK)
    (h : game_step s = some (t, r)) :
    (t.data P).type = FT_EMPTY ∧ (t.data P).has_hint HINT_LEAVING = true ∧
    (t.data P).has_hint (HINT_FROM_BOTTOM ||| HINT_FROM_TOP ||| HINT_FROM_RIGHT |||
      HINT_FROM_LEFT ||| HINT_WAS_INFOTRON ||| HINT_WAS_BASE ||| HINT_WAS_RED_DISK) = false ∧
    (t.data Q).type = FT_MURPHY ∧
    (t.data Q).has_hint (hint_from_direction s.next_move) = true ∧
    ((s.data Q).type = FT_BASE → (t.data Q).has_hint HINT_WAS_BASE = true) ∧
    ((s.data Q).type = FT_INFOTRON → (t.data Q).has_hint HINT_WAS_INFOTRON = true) ∧
    ((s.data Q).type = FT_RED_DISK → (t.data Q).has_hint HINT_WAS_RED_DISK = true) ∧
    t.murphy = next_point s.murphy s.next_move :=
  enter_tick s t r P Q halive hP hQ hPQ
    (htarget.imp (fun h => ⟨h.1, Or.inl h.2⟩) id) h

theorem level_step_base_step :
    game_step level_step_base = sparse_step [305, 306] level_step_base :=
  game_step_sparse_level _ _ _ _ (by decide) (by decide) (by decide)

/-- Witness of C16: the player of `level_step_base` steps right into a base cell. -/
theorem allowed_move_witness :
    ∃ t r, game_step level_step_base = some (t, r) ∧
      (t.data 305).type = FT_EMPTY ∧ (t.data 305).has_hint HINT_LEAVING = true ∧
      (t.data 306).type = FT_MURPHY ∧ (t.data 306).has_hint HINT_FROM_LEFT = true ∧
      (t.data 306).has_hint HINT_WAS_BASE = true ∧ t.murphy = ⟨6, 5⟩ := by
  have h : (game_step level_step_base).isSome = true := by
    rw [level_step_base_step]
    decide
  obtain ⟨⟨t, r⟩, ht⟩ := Option.isSome_iff_exists.mp h
  have hc := allowed_move level_step_base t r 305 306 rfl (by decide) (by decide) (by decide)
    (by decide) ht
  exact ⟨t, r, ht, hc.1, hc.2.1, hc.2.2.2.1, hc.2.2.2.2.1, hc.2.2.2.2.2.1 (by decide),
    hc.2.2.2.2.2.2.2.2⟩

/-! ## C17: entering a cell that is being left -/

/-- The target switch on an empty or base target that is leaving and is not the
player's own trail: `explode_9` with fill `FT_BASE` runs on the target, and the move
is not allowed. -/
theorem target_switch_collide (s s2 : Level) (P Q : Int) (next : Point) (allow : Bool)
    (hPQ : Q ≠ P)
    (hQt : (s.data Q).type = FT_EMPTY ∨ (s.data Q).type = FT_BASE)
    (hQl : (s.data Q).has_hint HINT_LEAVING = true)
    (hflag : (s.data P).has_hint (hint_from_direction (turn_back s.next_move)) = false)
    (h : target_switch (s.upd P (fun f => f.del_hint HINT_PUSH)) next Q P = some (s2, allow)) :
    allow = false ∧ ∃ X : Level, explode_9 X Q FT_BASE = some s2 ∧ X.murphy = s.murphy ∧
      (X.data Q).coords = (s.data Q).coords ∧ (X.data P).type = (s.data P).type := by
  have hQP : P ≠ Q := fun e => hPQ e.symm
  have hdq : (s.upd P (fun f => f.del_hint HINT_PUSH)).data Q = s.data Q :=
    upd_data_ne _ _ _ _ hPQ
  have key : ∀ X : Level, X.next_move = s.next_move →
      (X.data Q).has_hint HINT_LEAVING = true →
      (X.data P).has_hint (hint_from_direction (turn_back s.next_move)) = false →
      enter_free X Q P = some (s2, allow) →
      allow = false ∧ explode_9 X Q FT_BASE = some s2 := by
    intro X hn hl hf he
    unfold enter_free at he
    rw [if_pos ⟨hl, by rw [hn, hf]; simp⟩] at he
    cases hx : explode_9 X Q FT_BASE with
    | none => simp [hx] at he
    | some u =>
      simp only [hx, Option.bind_eq_bind, Option.some_bind, Option.pure_def, Option.some.injEq,
        Prod.mk.injEq] at he
      exact ⟨he.2.symm, by rw [he.1]⟩
  unfold target_switch at h
  rw [hdq] at h
  rcases hQt with hty | hty
  · simp only [hty] at h
    obtain ⟨ha, hx⟩ := key (s.upd P (fun f => f.del_hint HINT_PUSH)) rfl
      (by rw [hdq]; exact hQl)
      (by rw [upd_data_same, del_push_has_from]; exact hflag) h
    exact ⟨ha, _, hx, rfl, by rw [hdq], by simp⟩
  · simp only [hty] at h
    obtain ⟨ha, hx⟩ := key ((s.upd P (fun f => f.del_hint HINT_PUSH)).upd Q
        (fun f => f.set_hint HINT_WAS_BASE)) rfl
      (by rw [upd_data_same, hdq, has_hint_set_hint, hQl]; rfl)
      (by rw [upd_data_ne _ _ _ _ hQP, upd_data_same, del_push_has_from]; exact hflag) h
    exact ⟨ha, _, hx, rfl, by rw [upd_data_same, hdq]; rfl,
      by rw [upd_data_ne _ _ _ _ hQP]; simp⟩

/-- C17. The leaving-cell collision. The player is alive in its cell `P` (type player)
and the target cell `Q` in the intent direction is empty or base and carries the
leaving flag (cells carry their own coordinates, as set when the level is loaded). The
move takes place if and only if `P` carries the arrival flag of the direction opposite
to the intent: then `Q` has type player and is the cached player position after the
tick. Otherwise the player does not move, `murphy_alive` is false after the tick and
`game_step` returns false. -/
theorem leaving_collision (s t : Level) (r : Bool) (P Q : Int)
    (halive : s.murphy_alive = true)
    (hP : P = data_idx s.murphy) (hQ : Q = data_idx (next_point s.murphy s.next_move))
    (hPt : (s.data P).type = FT_MURPHY)
    (hQt : (s.data Q).type = FT_EMPTY ∨ (s.data Q).type = FT_BASE)
    (hQl : (s.data Q).has_hint HINT_LEAVING = true)
    (hQc : (s.data Q).coords = next_point s.murphy s.next_move)
    (h : game_step s = some (t, r)) :
    (data_idx t.murphy = Q ↔
      (s.data P).has_hint (hint_from_direction (turn_back s.next_move)) = true) ∧
    ((s.data P).has_hint (hint_from_direction (turn_back s.next_move)) = true →
      t.murphy = next_point s.murphy s.next_move ∧ (t.data Q).type = FT_MURPHY ∧
        (t.data P).type = FT_EMPTY) ∧
    ((s.data P).has_hint (hint_from_direction (turn_back s.next_move)) = false →
      t.murphy = s.murphy ∧ t.murphy_alive = false ∧ r = false) := by
  have hPQ : Q ≠ P := by
    intro e
    rw [e, hPt] at hQt
    rcases hQt with h1 | h1 <;> exact absurd h1 (by simp)
  have hne : s.next_move ≠ DIR_NONE := by
    intro e
    apply hPQ
    rw [hQ, hP, e]
    rfl
  have hyes : (s.data P).has_hint (hint_from_direction (turn_back s.next_move)) = true →
      t.murphy = next_point s.murphy s.next_move ∧ (t.data Q).type = FT_MURPHY ∧
        (t.data P).type = FT_EMPTY := by
    intro hf
    have hc := enter_tick s t r P Q halive hP hQ hPQ (Or.inl ⟨hQt, Or.inr hf⟩) h
    exact ⟨hc.2.2.2.2.2.2.2.2, hc.2.2.2.1, hc.1⟩
  have hno : (s.data P).has_hint (hint_from_direction (turn_back s.next_move)) = false →
      t.murphy = s.murphy ∧ t.murphy_alive = false ∧ r = false := by
    intro hf
    obtain ⟨s1, s4, hm, hscan, rfl, rfl⟩ := (game_step_some s t r).mp h
    unfold move_phase at hm
    rw [if_pos ⟨hne, halive⟩] at hm
    obtain ⟨-, -, s2, allow, hts, ht⟩ := resolve_move_switch s s1 hm
    rw [← hP, ← hQ] at hts ht
    obtain ⟨ha, X, hx, hXm, hXc, hXt⟩ := target_switch_collide s s2 P Q _ allow hPQ hQt hQl hf hts
    subst ha
    have hbox := next_point_box s.murphy s.next_move
    have hdead : s2.murphy_alive = false :=
      explode_9_kills X s2 Q FT_BASE s.murphy hx (by rw [hXc, hQc]; exact hbox.1)
        (by rw [hXc, hQc]; exact hbox.2) (by rw [← hP, hXt]; exact hPt)
    obtain ⟨a, hk, -⟩ := explode_9_base X s2 Q hx
    have hm2 : s2.murphy = s.murphy := by rw [hk]; exact hXm
    simp only [Bool.false_eq_true, ↓reduceIte] at ht
    have h1m : s1.murphy = s.murphy := by rw [ht, push_reset_murphy]; exact hm2
    have h1a : s1.murphy_alive = false := by rw [ht, push_reset_murphy_alive]; exact hdead
    have hg := scan_globals cells _ s4 hscan
    have h4a : s4.murphy_alive = false := by
      cases h4 : s4.murphy_alive with
      | false => rfl
      | true =>
        have := hg.2.2 h4
        rw [before_scan_murphy_alive, h1a] at this
        exact absurd this (by simp)
    exact ⟨by rw [after_scan_murphy, hg.1, before_scan_murphy, h1m],
      by rw [after_scan_murphy_alive]; exact h4a, h4a⟩
  refine ⟨⟨fun hq => ?_, fun hf => ?_⟩, hyes, hno⟩
  · cases hf : (s.data P).has_hint (hint_from_direction (turn_back s.next_move)) with
    | true => rfl
    | false =>
      have := (hno hf).1
      rw [this, ← hP] at hq
      exact absurd hq.symm hPQ
  · rw [(hyes hf).1, hQ]

theorem level_trail_step :
    game_step (level_trail 0) = sparse_step [305, 306] (level_trail 0) :=
  game_step_sparse_level _ _ _ _ (by decide) (by decide) (by decide)

theorem level_trail_back_step :
    game_step (level_trail HINT_FROM_RIGHT) =
      sparse_step [305, 306] (level_trail HINT_FROM_RIGHT) :=
  game_step_sparse_level _ _ _ _ (by decide) (by decide) (by decide)

/-- Witness of C17: the player of `level_trail` without flags runs into the cell that
is being left and dies; with the arrived-from-right flag it steps back onto its own
trail. -/
theorem leaving_collision_witness :
    (∃ t r, game_step (level_trail 0) = some (t, r) ∧
      t.murphy = (level_trail 0).murphy ∧ t.murphy_alive = false ∧ r = false) ∧
    (∃ t r, game_step (level_trail HINT_FROM_RIGHT) = some (t, r) ∧
      t.murphy = ⟨6, 5⟩ ∧ (t.data 306).type = FT_MURPHY ∧ (t.data 305).type = FT_EMPTY) := by
  constructor
  · have h : (game_step (level_trail 0)).isSome = true := by
      rw [level_trail_step]
      decide
    obtain ⟨⟨t, r⟩, ht⟩ := Option.isSome_iff_exists.mp h
    exact ⟨t, r, ht, (leaving_collision (level_trail 0) t r 305 306 rfl (by decide) (by decide)
      (by decide) (by decide) (by decide) (by decide) ht).2.2 (by decide)⟩
  · have h : (game_step (level_trail HINT_FROM_RIGHT)).isSome = true := by
      rw [level_trail_back_step]
      decide
    obtain ⟨⟨t, r⟩, ht⟩ := Option.isSome_iff_exists.mp h
    exact ⟨t, r, ht, (leaving_collision (level_trail HINT_FROM_RIGHT) t r 305 306 rfl
      (by decide) (by decide) (by decide) (by decide) (by decide) (by decide) ht).2.1
      (by decide)⟩

/-! ## C18: touching a falling object -/

theorem level_touch_falling_step :
    game_step level_touch_falling = sparse_step [246, 305, 306, 366] level_touch_falling :=
  game_step_sparse_level _ _ _ _ (by decide) (by decide) (by decide)

theorem level_rock_above_run (evs : List GameEvent) :
    run level_rock_above evs = sparse_run [246, 305, 306, 366] level_rock_above evs :=
  run_sparse_level _ _ _ _ evs (by decide) (by decide) (by decide)

/-- C18, the defect. In `level_touch_falling` the live player at 305 presses right
against the rock at 306, which carries the falling flag. Movement resolution calls
`explode_9` on the target with fill `FT_BASE`: the player is killed and does not move,
no push takes place, the target gets the explosion-origin flag, but no cell is flagged
exploding and no countdown is set, neither on the target nor on the explosion-affected
cells around it (the empty cell 246, the player's cell 305, the base cell 366). After
the whole tick the same holds, and `game_step` returns false. The level is the
flag-free `level_rock_above` after one round without intent, and two rounds from there
(no intent, then right) end with the player dead and no exploding cell. -/
theorem touching_a_falling_rock_flags_nothing :
    level_touch_falling.murphy_alive = true ∧
    data_idx level_touch_falling.murphy = 305 ∧
    data_idx (next_point level_touch_falling.murphy level_touch_falling.next_move) = 306 ∧
    (level_touch_falling.data 306).type = FT_ZONK ∧
    (level_touch_falling.data 306).has_hint HINT_FALL = true ∧
    (level_touch_falling.data 306).affected_by_explosion = true ∧
    (level_touch_falling.data 305).affected_by_explosion = true ∧
    (level_touch_falling.data 246).affected_by_explosion = true ∧
    (level_touch_falling.data 366).affected_by_explosion = true ∧
    (move_phase level_touch_falling).map
      (fun u => (u.murphy_alive, u.murphy, (u.data 306).type,
        (u.data 306).has_hint HINT_EXPLOSION_ORIGIN)) =
      some (false, ⟨5, 5⟩, FT_ZONK, true) ∧
    (move_phase level_touch_falling).map
      (fun u => [246, 305, 306, 366].map (fun j => (exploding (u.data j) : Bool))) =
      some [false, false, false, false] ∧
    (move_phase level_touch_falling).map
      (fun u => [246, 305, 306, 366].map (fun j => (u.data j).countdown)) =
      some [0, 0, 0, 0] ∧
    (game_step level_touch_falling).map
      (fun p => (p.2, [246, 305, 306, 366].map (fun j => (exploding (p.1.data j) : Bool)))) =
      some (false, [false, false, false, false]) ∧
    (game_step level_touch_falling).map
      (fun p => [246, 305, 306, 366].map (fun j => (p.1.data j).countdown)) =
      some [0, 0, 0, 0] ∧
    (run level_rock_above [EVENT_MOVE_NONE]).map
      (fun u => ([246, 305, 306, 366].map u.data, u.murphy_alive, u.murphy)) =
      some ([246, 305, 306, 366].map level_touch_falling.data, true,
        level_touch_falling.murphy) ∧
    (run level_rock_above [EVENT_MOVE_NONE, EVENT_MOVE_RIGHT]).map
      (fun u => (u.murphy_alive,
        [246, 305, 306, 366].map (fun j => (exploding (u.data j) : Bool)))) =
      some (false, [false, false, false, false]) := by
  refine ⟨rfl, by decide, by decide, by decide, ?_⟩
  refine ⟨by decide, by decide, by decide, by decide, ?_⟩
  refine ⟨by decide, by decide, ?_⟩
  refine ⟨by decide, by decide, ?_, ?_, ?_, ?_⟩
  · rw [level_touch_falling_step]
    decide
  · rw [level_touch_falling_step]
    decide
  · rw [level_rock_above_run]
    decide
  · rw [level_rock_above_run]
    decide

/-! ## Evaluation of `fall` and of explosions -/

theorem next_point_inside (p : Point) (d : Direction) (hp : inside p) :
    inside (next_point p d) := by
  obtain ⟨h1, h2, h3, h4⟩ := hp
  unfold LEVEL_WIDTH at h2
  unfold LEVEL_HEIGHT at h4
  cases d <;> simp only [next_point, LEVEL_WIDTH, LEVEL_HEIGHT] <;> (try split) <;>
    simp only [inside, LEVEL_WIDTH, LEVEL_HEIGHT] <;> refine ⟨?_, ?_, ?_, ?_⟩ <;> omega

/-- With the cell below inside the array, `fall` is its switch followed by the final
`fld.del_hint(HINT_FALL)`. -/
theorem fall_eq (s : Level) (i : Int) (d : Bool)
    (hB : in_grid (data_idx (next_point (s.data i).coords DIR_DOWN))) :
    fall s i d =
      (fall_switch s i (data_idx (next_point (s.data i).coords DIR_DOWN)) d).map
        (fun s1 => s1.upd i (fun f => f.del_hint HINT_FALL)) := by
  unfold fall
  rw [cell_ref_of_in_grid hB]
  simp only [Option.bind_eq_bind, Option.some_bind, Option.pure_def]
  cases hsw : fall_switch s i (data_idx (next_point (s.data i).coords DIR_DOWN)) d <;> rfl

/-- The falling flag is off on the cell `fall` was invoked on, whatever happened. -/
theorem fall_clears (s t : Level) (i : Int) (d : Bool) (h : fall s i d = some t) :
    (t.data i).has_hint HINT_FALL = false := by
  unfold fall at h
  cases hb : cell_ref (data_idx (next_point (s.data i).coords DIR_DOWN)) with
  | none => simp [hb] at h
  | some below =>
  simp only [hb, Option.bind_eq_bind, Option.some_bind, Option.pure_def] at h
  cases hsw : fall_switch s i below d with
  | none => simp [hsw] at h
  | some u =>
  simp only [hsw, Option.some_bind, Option.some.injEq] at h
  subst h
  rw [upd_data_same]
  exact has_hint_del_hint_of_subset _ _ _ (by decide)

theorem own_coords_idx {s : Level} (hc : own_coords s) {j : Int} (hj : in_grid j) :
    data_idx (s.data j).coords = j := by
  rw [hc j hj]
  unfold data_idx LEVEL_WIDTH
  simp only
  omega

theorem own_coords_inside {s : Level} (hc : own_coords s) {j : Int} (hj : in_grid j) :
    inside (s.data j).coords := by
  rw [hc j hj]
  unfold in_grid at hj
  unfold inside
  unfold LEVEL_WIDTH LEVEL_HEIGHT at *
  simp only
  refine ⟨?_, ?_, ?_, ?_⟩ <;> omega

/-- A step of `next_point` moves the index by at most one row. -/
theorem data_idx_next_point (p : Point) (d : Direction) :
    data_idx p - 60 ≤ data_idx (next_point p d) ∧ data_idx (next_point p d) ≤ data_idx p + 60 := by
  cases d <;> simp only [next_point, LEVEL_WIDTH, LEVEL_HEIGHT] <;> (try split) <;>
    simp only [data_idx, LEVEL_WIDTH] <;> constructor <;> omega

/-- A fold over a list has a result when every step has one. -/
theorem foldlM_some {α σ : Type} (f : σ → α → Option σ) (l : List α)
    (h : ∀ a ∈ l, ∀ s, ∃ t, f s a = some t) (s : σ) : ∃ t, l.foldlM f s = some t := by
  induction l generalizing s with
  | nil => exact ⟨s, rfl⟩
  | cons a l ih =>
    obtain ⟨u, hu⟩ := h a (List.mem_cons_self a l) s
    obtain ⟨t, ht⟩ := ih (fun b hb => h b (List.mem_cons_of_mem a hb)) u
    exact ⟨t, (foldlM_cons_some f s t a l).mpr ⟨u, hu, ht⟩⟩

theorem explode_cell_some (fill : FieldType) (s : Level) (p : Point)
    (hp : in_grid (data_idx p)) : ∃ t, explode_cell fill s p = some t := by
  unfold explode_cell
  rw [cell_ref_of_in_grid hp]
  exact ⟨_, rfl⟩

/-- An explosion has a result when the square of three by three points around the
coordinates of its origin lies inside the array. -/
theorem explode_9_some (s : Level) (origin : Int) (fill : FieldType)
    (hlo : 61 ≤ data_idx (s.data origin).coords)
    (hhi : data_idx (s.data origin).coords + 61 < 1440) :
    ∃ t, explode_9 s origin fill = some t := by
  unfold explode_9
  simp only [upd_data_same, set_hint_coords]
  apply foldlM_some
  intro y hy s1
  apply foldlM_some
  intro x hx s2
  apply explode_cell_some
  simp only [List.mem_cons, List.mem_singleton, List.not_mem_nil, or_false] at hy hx
  unfold data_idx LEVEL_WIDTH at hlo hhi
  unfold in_grid data_idx LEVEL_WIDTH LEVEL_HEIGHT
  simp only
  constructor <;> omega

/-- The roll branch has a result in a level whose cells carry their own coordinates. -/
theorem roll_some (s : Level) (i : Int) (hc : own_coords s) (hi : in_grid i) :
    ∃ t, roll s i = some t := by
  have hin := own_coords_inside hc hi
  have hl := inside_in_grid (next_point_inside _ DIR_LEFT hin)
  have hr := inside_in_grid (next_point_inside _ DIR_RIGHT hin)
  have hlb := inside_in_grid (next_point_inside _ DIR_DOWN (own_coords_inside hc hl))
  have hrb := inside_in_grid (next_point_inside _ DIR_DOWN (own_coords_inside hc hr))
  unfold roll
  rw [cell_ref_of_in_grid hl, cell_ref_of_in_grid hr]
  simp only [Option.bind_eq_bind, Option.some_bind]
  rw [cell_ref_of_in_grid hlb, cell_ref_of_in_grid hrb]
  simp only [Option.some_bind, Option.pure_def]
  repeat' split
  all_goals exact ⟨_, rfl⟩

/-- In a level whose cells carry their own coordinates, `fall` has a result on every
cell whose square of three by three cells, and that of the cell below, lie inside the
array. -/
theorem fall_some (s : Level) (i : Int) (d : Bool) (hc : own_coords s)
    (hlo : 61 ≤ i) (hhi : i + 121 < 1440) : ∃ t, fall s i d = some t := by
  have hi : in_grid i := by
    unfold in_grid LEVEL_WIDTH LEVEL_HEIGHT
    constructor <;> omega
  have hin := own_coords_inside hc hi
  have hB := inside_in_grid (next_point_inside _ DIR_DOWN hin)
  have hBr := data_idx_next_point (s.data i).coords DIR_DOWN
  have hBd : i ≤ data_idx (next_point (s.data i).coords DIR_DOWN) := by
    have e := own_coords_idx hc hi
    generalize (s.data i).coords = c at e hBr ⊢
    subst e
    unfold next_point
    simp only
    split <;> simp only [data_idx, LEVEL_WIDTH] <;> omega
  rw [own_coords_idx hc hi] at hBr
  rw [fall_eq s i d hB]
  have boom_below : ∀ fill, ∃ t,
      explode_9 s (data_idx (next_point (s.data i).coords DIR_DOWN)) fill = some t := by
    intro fill
    apply explode_9_some
    · rw [own_coords_idx hc hB]; omega
    · rw [own_coords_idx hc hB]; omega
  have boom_here : ∀ fill, ∃ t, explode_9 s i fill = some t := by
    intro fill
    apply explode_9_some
    · rw [own_coords_idx hc hi]; omega
    · rw [own_coords_idx hc hi]; omega
  have key : ∃ u, fall_switch s i (data_idx (next_point (s.data i).coords DIR_DOWN)) d =
      some u := by
    unfold fall_switch
    repeat' split
    all_goals first
      | exact ⟨_, rfl⟩
      | exact boom_below _
      | exact boom_here _
      | exact roll_some s i hc hi
  obtain ⟨u, hu⟩ := key
  rw [hu]
  exact ⟨_, rfl⟩

/-- A sparse level whose listed cells carry the coordinates of their index is a level
whose cells carry their own coordinates. -/
theorem sparse_level_own_coords (cs : List (Int × Field)) (alive : Bool) (move : Direction)
    (murphy : Point)
    (h : ∀ p ∈ cs, p.2.coords = ⟨p.1 % LEVEL_WIDTH, p.1 / LEVEL_WIDTH⟩) :
    own_coords (sparse_level cs alive move murphy) := by
  intro j _
  unfold sparse_level
  simp only
  cases hl : cs.lookup j with
  | none => rfl
  | some f => exact h (j, f) (lookup_mem cs j f hl)

/-- One cell of an explosion: no type changes, marked cells stay marked, and the cell
itself is marked when it is affected by explosions. -/
theorem explode_cell_marks (fill : FieldType) (e : Nat) (hfe : fill_match fill e)
    (s t : Level) (p : Point) (h : explode_cell fill s p = some t) :
    (∀ j, (t.data j).type = (s.data j).type) ∧
    (∀ j, marked e (s.data j) → marked e (t.data j)) ∧
    (∀ j b, (s.data j).has_hint b = true → (t.data j).has_hint b = true) ∧
    ((s.data (data_idx p)).affected_by_explosion = true → marked e (t.data (data_idx p))) := by
  unfold explode_cell at h
  cases hr : cell_ref (data_idx p) with
  | none => simp [hr] at h
  | some fld =>
    obtain ⟨he, -⟩ := cell_ref_eq_some hr
    subst he
    simp only [hr, Option.bind_eq_bind, Option.some_bind, Option.pure_def, Option.some.injEq] at h
    have hdata : ∀ u : Level, (if (u.data (data_idx p)).type = FT_MURPHY then
        { u with murphy_alive := false } else u).data = u.data := by
      intro u
      split <;> rfl
    have ht : ∀ j, t.data j = (if (s.data (data_idx p)).affected_by_explosion = true then
        (if j = data_idx p then
          { (s.data j).set_hint (e ||| HINT_SKIP) with countdown := EXPLOSION_STEPS }
        else s.data j) else s.data j) := by
      intro j
      rw [← h, hdata]
      by_cases haff : (s.data (data_idx p)).affected_by_explosion = true
      · rw [if_pos haff, if_pos haff]
        rcases hfe with ⟨hf, hE⟩ | ⟨hf, hE⟩
        · subst hf hE
          rw [if_pos rfl]
          by_cases hj : j = data_idx p
          · subst hj
            rw [if_pos rfl]
            simp only [upd_data_same]
          · rw [if_neg hj]
            simp only [upd_data_ne _ _ _ _ hj]
        · subst hf hE
          rw [if_neg (by decide), if_pos rfl]
          by_cases hj : j = data_idx p
          · subst hj
            rw [if_pos rfl]
            simp only [upd_data_same]
          · rw [if_neg hj]
            simp only [upd_data_ne _ _ _ _ hj]
      · rw [if_neg haff, if_neg haff]
    have hmark : ∀ f : Field,
        marked e { f.set_hint (e ||| HINT_SKIP) with countdown := EXPLOSION_STEPS } := by
      intro f
      refine ⟨?_, rfl⟩
      rw [has_hint_with_countdown, has_hint_set_hint]
      have hpos : decide ((e ||| HINT_SKIP) &&& e > 0) = true := by
        rcases hfe with ⟨-, hE⟩ | ⟨-, hE⟩ <;> subst hE <;> decide
      rw [hpos, Bool.or_true]
    refine ⟨fun j => ?_, fun j hm => ?_, fun j b hb => ?_, fun haff => ?_⟩
    · rw [ht j]
      split
      · split
        · rfl
        · rfl
      · rfl
    · rw [ht j]
      split
      · split
        · exact hmark _
        · exact hm
      · exact hm
    · rw [ht j]
      split
      · split
        · rw [has_hint_with_countdown, has_hint_set_hint, hb, Bool.true_or]
        · exact hb
      · exact hb
    · rw [ht (data_idx p), if_pos haff, if_pos rfl]
      exact hmark _

theorem affected_of_type_eq {f g : Field} (h : f.type = g.type) :
    f.affected_by_explosion = g.affected_by_explosion := by
  unfold Field.affected_by_explosion
  rw [h]

theorem marks_refl (e : Nat) (s : Level) : Marks e (fun _ => False) s s :=
  ⟨fun _ => rfl, fun _ h => h, fun _ _ h => h, fun _ hp => hp.elim⟩

theorem marks_trans {e : Nat} {ps qs : Point → Prop} {s t u : Level}
    (a : Marks e ps s t) (b : Marks e qs t u) : Marks e (fun p => ps p ∨ qs p) s u := by
  refine ⟨fun j => (b.1 j).trans (a.1 j), fun j h => b.2.1 j (a.2.1 j h),
    fun j c h => b.2.2.1 j c (a.2.2.1 j c h), ?_⟩
  intro p hp haff
  rcases hp with hp | hp
  · exact b.2.1 _ (a.2.2.2 p hp haff)
  · refine b.2.2.2 p hp ?_
    rw [affected_of_type_eq (a.1 (data_idx p))]
    exact haff

theorem marks_mono {e : Nat} {ps qs : Point → Prop} {s t : Level} (a : Marks e ps s t)
    (h : ∀ p, qs p → ps p) : Marks e qs s t :=
  ⟨a.1, a.2.1, a.2.2.1, fun p hp => a.2.2.2 p (h p hp)⟩

theorem row_marks (fill : FieldType) (e : Nat) (hfe : fill_match fill e) (y : Int)
    (xs : List Int) (s t : Level)
    (h : xs.foldlM (fun s2 x => explode_cell fill s2 ⟨x, y⟩) s = some t) :
    Marks e (fun p => p.y = y ∧ p.x ∈ xs) s t := by
  induction xs generalizing s with
  | nil =>
    simp only [List.foldlM_nil, Option.pure_def, Option.some.injEq] at h
    subst h
    exact marks_mono (marks_refl e s) (fun p hp => absurd hp.2 (List.not_mem_nil _))
  | cons a l ih =>
    rw [foldlM_cons_some] at h
    obtain ⟨u, hu, hrest⟩ := h
    have h1 := explode_cell_marks fill e hfe s u _ hu
    have h1m : Marks e (fun p => p = ⟨a, y⟩) s u :=
      ⟨h1.1, h1.2.1, h1.2.2.1, fun p hp => by subst hp; exact h1.2.2.2⟩
    refine marks_mono (marks_trans h1m (ih u hrest)) ?_
    intro p hp
    rcases List.mem_cons.mp hp.2 with hx | hx
    · left
      cases p
      simp only at hp hx
      rw [hx, hp.1]
    · exact Or.inr ⟨hp.1, hx⟩

theorem rows_mark (fill : FieldType) (e : Nat) (hfe : fill_match fill e) (ys xs : List Int)
    (s t : Level)
    (h : ys.foldlM (fun s1 y => xs.foldlM (fun s2 x => explode_cell fill s2 ⟨x, y⟩) s1) s =
      some t) :
    Marks e (fun p => p.y ∈ ys ∧ p.x ∈ xs) s t := by
  induction ys generalizing s with
  | nil =>
    simp only [List.foldlM_nil, Option.pure_def, Option.some.injEq] at h
    subst h
    exact marks_mono (marks_refl e s) (fun p hp => absurd hp.1 (List.not_mem_nil _))
  | cons a l ih =>
    rw [foldlM_cons_some] at h
    obtain ⟨u, hu, hrest⟩ := h
    refine marks_mono (marks_trans (row_marks fill e hfe a xs s u hu) (ih u hrest)) ?_
    intro p hp
    rcases List.mem_cons.mp hp.1 with hy | hy
    · exact Or.inl ⟨hy, hp.2⟩
    · exact Or.inr ⟨hy, hp.2⟩

/-- An explosion with fill empty or collectible: no cell changes its type, the origin
carries the origin flag, and every cell affected by explosions at a point of the
square of three by three points around the coordinates of the origin carries the
exploding flag of the fill and the countdown `EXPLOSION_STEPS`. -/
theorem explode_9_marks (s t : Level) (origin : Int) (fill : FieldType) (e : Nat)
    (hfe : fill_match fill e) (h : explode_9 s origin fill = some t) :
    (∀ j, (t.data j).type = (s.data j).type) ∧
    (t.data origin).has_hint HINT_EXPLOSION_ORIGIN = true ∧
    ∀ p : Point, ((s.data origin).coords.x - 1 ≤ p.x ∧ p.x ≤ (s.data origin).coords.x + 1) →
      ((s.data origin).coords.y - 1 ≤ p.y ∧ p.y ≤ (s.data origin).coords.y + 1) →
      (s.data (data_idx p)).affected_by_explosion = true →
      marked e (t.data (data_idx p)) := by
  unfold explode_9 at h
  simp only [upd_data_same, set_hint_coords] at h
  have hm := rows_mark fill e hfe _ _ _ t h
  have h0 : ∀ j, ((s.upd origin (fun f => f.set_hint HINT_EXPLOSION_ORIGIN)).data j).type =
      (s.data j).type := by
    intro j
    by_cases hj : j = origin
    · subst hj
      simp
    · simp [upd_data, hj]
  refine ⟨fun j => (hm.1 j).trans (h0 j), ?_, ?_⟩
  · apply hm.2.2.1
    rw [upd_data_same, has_hint_set_hint]
    simp +decide
  · intro p hx hy haff
    refine hm.2.2.2 p ⟨?_, ?_⟩ ?_
    · simp only [List.mem_cons, List.mem_singleton, List.not_mem_nil, or_false]
      omega
    · simp only [List.mem_cons, List.mem_singleton, List.not_mem_nil, or_false]
      omega
    · rw [affected_of_type_eq (h0 (data_idx p))]
      exact haff

/-! ## C19: falling into an empty cell -/

/-- C19. Let `fall` be evaluated on the cell `i`, whose coordinates lie in the grid, and
let `B` be the cell directly below. If `i` holds a loose object (rock, collectible or
orange disk) and `B` is empty and not currently-leaving, `fall` has a result in which
`B` has the object's type and carries the falling and the skip flag and `i` is empty.
If `B` is empty and currently-leaving, `fall` has a result in which no cell has changed
its type and no cell other than `i` has changed at all. In every case, whatever the
types of `i` and of the cell below, every result of `fall` has the falling flag off on
`i`; and `fall` has a result whenever the cells carry their own coordinates and the
squares of three by three cells around `i` and around the cell below lie inside the
array. -/
theorem fall_into_empty (s : Level) (i : Int) (d : Bool) :
    (inside (s.data i).coords → loose (s.data i).type →
      (s.data (data_idx (next_point (s.data i).coords DIR_DOWN))).type = FT_EMPTY →
      (s.data (data_idx (next_point (s.data i).coords DIR_DOWN))).has_hint HINT_LEAVING = false →
      ∃ t, fall s i d = some t ∧
        (t.data (data_idx (next_point (s.data i).coords DIR_DOWN))).type = (s.data i).type ∧
        (t.data (data_idx (next_point (s.data i).coords DIR_DOWN))).has_hint HINT_FALL = true ∧
        (t.data (data_idx (next_point (s.data i).coords DIR_DOWN))).has_hint HINT_SKIP = true ∧
        (t.data i).type = FT_EMPTY) ∧
    (inside (s.data i).coords → loose (s.data i).type →
      (s.data (data_idx (next_point (s.data i).coords DIR_DOWN))).type = FT_EMPTY →
      (s.data (data_idx (next_point (s.data i).coords DIR_DOWN))).has_hint HINT_LEAVING = true →
      ∃ t, fall s i d = some t ∧ (∀ j, (t.data j).type = (s.data j).type) ∧
        ∀ j, j ≠ i → t.data j = s.data j) ∧
    (∀ t, fall s i d = some t → (t.data i).has_hint HINT_FALL = false) ∧
    (own_coords s → 61 ≤ i → i + 121 < 1440 → ∃ t, fall s i d = some t) := by
  refine ⟨?_, ?_, fun t h => fall_clears s t i d h, fun hc hlo hhi => fall_some s i d hc hlo hhi⟩
  · intro hin hl hty hlv
    have hB := inside_in_grid (next_point_inside _ DIR_DOWN hin)
    have hne : data_idx (next_point (s.data i).coords DIR_DOWN) ≠ i := by
      intro e
      rw [e] at hty
      exact loose_ne_empty hl hty
    rw [fall_eq s i d hB]
    unfold fall_switch
    simp only [hty, hlv, Bool.false_eq_true, not_false_eq_true, if_true, Option.pure_def,
      Option.map_some']
    refine ⟨_, rfl, ?_, ?_, ?_, ?_⟩
    · simp [upd_data, hne, hne.symm]
    · simp +decide [upd_data, hne, hne.symm, has_hint_set_hint]
    · simp +decide [upd_data, hne, hne.symm, has_hint_set_hint]
    · simp [upd_data, hne, hne.symm]
  · intro hin hl hty hlv
    have hB := inside_in_grid (next_point_inside _ DIR_DOWN hin)
    rw [fall_eq s i d hB]
    unfold fall_switch
    simp only [hty, hlv, not_true_eq_false, if_false, Option.pure_def, Option.map_some']
    refine ⟨_, rfl, ?_, ?_⟩
    · intro j
      by_cases hj : j = i
      · subst hj
        simp
      · simp [upd_data, hj]
    · intro j hj
      simp [upd_data, hj]

theorem level_rock_above_coords : own_coords level_rock_above :=
  sparse_level_own_coords _ _ _ _ (by decide)

/-- In `level_rock_above` the rock at 246 falls into the empty cell 306 below it; in
`level_rock_held` that cell is currently-leaving and the rock stays. -/
theorem fall_into_empty_witness :
    (∃ t, fall level_rock_above 246 false = some t ∧
      (t.data (data_idx (next_point (level_rock_above.data 246).coords DIR_DOWN))).type =
        (level_rock_above.data 246).type ∧
      (t.data (data_idx (next_point (level_rock_above.data 246).coords DIR_DOWN))).has_hint
        HINT_FALL = true ∧
      (t.data (data_idx (next_point (level_rock_above.data 246).coords DIR_DOWN))).has_hint
        HINT_SKIP = true ∧
      (t.data 246).type = FT_EMPTY) ∧
    (∃ t, fall level_rock_held 246 false = some t ∧
      (∀ j, (t.data j).type = (level_rock_held.data j).type) ∧
      ∀ j, j ≠ 246 → t.data j = level_rock_held.data j) ∧
    ∃ t, fall level_rock_above 246 false = some t ∧ (t.data 246).has_hint HINT_FALL = false := by
  have h := fall_into_empty level_rock_above 246 false
  have h2 := (fall_into_empty level_rock_held 246 false).2.1
  refine ⟨h.1 (by decide) (by decide) (by decide) (by decide), ?_, ?_⟩
  · exact h2 (by decide) (by decide) (by decide) (by decide)
  · obtain ⟨t, ht⟩ := h.2.2.2 level_rock_above_coords (by decide) (by decide)
    exact ⟨t, ht, h.2.2.1 t ht⟩

/-! ## C20: fatal impact only in free fall -/

/-- C20. Let `fall` be evaluated on the cell `i` of a level whose cells carry their own
coordinates, and let the cell `B` directly below hold the player (type player). If the
object at `i` does not carry the falling flag, or the player's cell is
currently-leaving, `fall` has a result in which `murphy_alive` is unchanged and no
cell has changed its type, its exploding flags or its countdown. If the object carries
the falling flag and the player's cell is not currently-leaving, `fall` has a result as
soon as the square of three by three cells around `B` lies inside the array, and in
every result `murphy_alive` is false, `B` carries the origin flag, no cell has changed
its type, and every cell affected by explosions in the square around the player's
coordinates carries the exploding flag of an explosion to empty and countdown 3. So
with a live player, the player is dead afterwards if and only if the object carried the
falling flag and the player's cell was not currently-leaving. -/
theorem fatal_impact (s : Level) (i : Int) (d : Bool) (hc : own_coords s) (hi : in_grid i)
    (hty : (s.data (data_idx (next_point (s.data i).coords DIR_DOWN))).type = FT_MURPHY) :
    (¬ ((s.data i).has_hint HINT_FALL = true ∧
        (s.data (data_idx (next_point (s.data i).coords DIR_DOWN))).has_hint HINT_LEAVING =
          false) →
      ∃ t, fall s i d = some t ∧ t.murphy_alive = s.murphy_alive ∧
        ∀ j, (t.data j).type = (s.data j).type ∧ (t.data j).countdown = (s.data j).countdown ∧
          (t.data j).has_hint HINT_EXPLOSION = (s.data j).has_hint HINT_EXPLOSION ∧
          (t.data j).has_hint HINT_EXPLOSION_INFOTRON =
            (s.data j).has_hint HINT_EXPLOSION_INFOTRON) ∧
    ((s.data i).has_hint HINT_FALL = true →
      (s.data (data_idx (next_point (s.data i).coords DIR_DOWN))).has_hint HINT_LEAVING =
        false →
      (61 ≤ data_idx (next_point (s.data i).coords DIR_DOWN) →
        data_idx (next_point (s.data i).coords DIR_DOWN) + 61 < 1440 →
        ∃ t, fall s i d = some t) ∧
      ∀ t, fall s i d = some t →
        t.murphy_alive = false ∧
        (t.data (data_idx (next_point (s.data i).coords DIR_DOWN))).has_hint
          HINT_EXPLOSION_ORIGIN = true ∧
        (∀ j, (t.data j).type = (s.data j).type) ∧
        ∀ p : Point,
          ((next_point (s.data i).coords DIR_DOWN).x - 1 ≤ p.x ∧
            p.x ≤ (next_point (s.data i).coords DIR_DOWN).x + 1) →
          ((next_point (s.data i).coords DIR_DOWN).y - 1 ≤ p.y ∧
            p.y ≤ (next_point (s.data i).coords DIR_DOWN).y + 1) →
          (s.data (data_idx p)).affected_by_explosion = true →
          (t.data (data_idx p)).has_hint HINT_EXPLOSION = true ∧
            (t.data (data_idx p)).countdown = 3) ∧
    (s.murphy_alive = true → ∀ t, fall s i d = some t →
      (t.murphy_alive = false ↔
        ((s.data i).has_hint HINT_FALL = true ∧
          (s.data (data_idx (next_point (s.data i).coords DIR_DOWN))).has_hint HINT_LEAVING =
            false))) := by
  have hin := own_coords_inside hc hi
  have hBin := next_point_inside _ DIR_DOWN hin
  have hB := inside_in_grid hBin
  have hBc : (s.data (data_idx (next_point (s.data i).coords DIR_DOWN))).coords =
      next_point (s.data i).coords DIR_DOWN := by
    rw [hc _ hB]
    obtain ⟨h1, h2, h3, h4⟩ := hBin
    generalize next_point (s.data i).coords DIR_DOWN = q at h1 h2 h3 h4 ⊢
    cases q
    unfold data_idx LEVEL_WIDTH
    unfold LEVEL_WIDTH at h2
    simp only at h1 h2 h3 h4 ⊢
    congr 1 <;> omega
  have rest : ¬ ((s.data i).has_hint HINT_FALL = true ∧
        (s.data (data_idx (next_point (s.data i).coords DIR_DOWN))).has_hint HINT_LEAVING =
          false) →
      fall s i d = some (s.upd i (fun f => f.del_hint HINT_FALL)) := by
    intro hn
    rw [fall_eq s i d hB]
    unfold fall_switch
    simp only [hty]
    rw [if_neg]
    · rfl
    · intro hcnd
      apply hn
      refine ⟨hcnd.1, ?_⟩
      rcases hcnd.2 with h | h
      · exact absurd rfl h
      · simpa using h
  have boom : (s.data i).has_hint HINT_FALL = true →
      (s.data (data_idx (next_point (s.data i).coords DIR_DOWN))).has_hint HINT_LEAVING =
        false →
      fall s i d =
        (explode_9 s (data_idx (next_point (s.data i).coords DIR_DOWN)) FT_EMPTY).map
          (fun s1 => s1.upd i (fun f => f.del_hint HINT_FALL)) := by
    intro hf hl
    rw [fall_eq s i d hB]
    unfold fall_switch
    simp only [hty]
    rw [if_pos]
    exact ⟨hf, Or.inr (by simp [hl])⟩
  have fatal : (s.data i).has_hint HINT_FALL = true →
      (s.data (data_idx (next_point (s.data i).coords DIR_DOWN))).has_hint HINT_LEAVING =
        false → ∀ t, fall s i d = some t →
      ∃ u, explode_9 s (data_idx (next_point (s.data i).coords DIR_DOWN)) FT_EMPTY = some u ∧
        t = u.upd i (fun f => f.del_hint HINT_FALL) := by
    intro hf hl t ht
    rw [boom hf hl] at ht
    cases hu : explode_9 s (data_idx (next_point (s.data i).coords DIR_DOWN)) FT_EMPTY with
    | none => simp [hu] at ht
    | some u =>
      simp only [hu, Option.map_some', Option.some.injEq] at ht
      exact ⟨u, rfl, ht.symm⟩
  have dead : (s.data i).has_hint HINT_FALL = true →
      (s.data (data_idx (next_point (s.data i).coords DIR_DOWN))).has_hint HINT_LEAVING =
        false → ∀ t, fall s i d = some t → t.murphy_alive = false := by
    intro hf hl t ht
    obtain ⟨u, hu, rfl⟩ := fatal hf hl t ht
    refine explode_9_kills s u _ FT_EMPTY (next_point (s.data i).coords DIR_DOWN) hu ?_ ?_ hty
    · rw [hBc]; constructor <;> omega
    · rw [hBc]; constructor <;> omega
  refine ⟨?_, ?_, ?_⟩
  · intro hn
    refine ⟨_, rest hn, rfl, fun j => ?_⟩
    by_cases hj : j = i
    · subst hj
      simp +decide
    · simp [upd_data, hj]
  · intro hf hl
    refine ⟨?_, ?_⟩
    · intro hlo hhi
      rw [boom hf hl]
      obtain ⟨u, hu⟩ := explode_9_some s _ FT_EMPTY
        (by rw [hBc]; exact hlo) (by rw [hBc]; exact hhi)
      rw [hu]
      exact ⟨_, rfl⟩
    · intro t ht
      refine ⟨dead hf hl t ht, ?_⟩
      obtain ⟨u, hu, rfl⟩ := fatal hf hl t ht
      obtain ⟨m1, m2, m3⟩ := explode_9_marks s u _ FT_EMPTY HINT_EXPLOSION (Or.inl ⟨rfl, rfl⟩) hu
      rw [hBc] at m3
      refine ⟨?_, ?_, ?_⟩
      · by_cases hj : data_idx (next_point (s.data i).coords DIR_DOWN) = i
        · rw [hj] at m2 ⊢
          rw [upd_data_same, has_hint_del_hint_of_disjoint _ _ _ (by decide)]
          exact m2
        · rw [upd_data_ne _ _ _ _ hj]
          exact m2
      · intro j
        rw [← m1 j]
        by_cases hj : j = i
        · subst hj
          simp
        · simp [upd_data, hj]
      · intro p hx hy haff
        have hm := m3 p hx hy haff
        by_cases hj : data_idx p = i
        · rw [hj] at hm ⊢
          rw [upd_data_same, has_hint_del_hint_of_disjoint _ _ _ (by decide), del_hint_countdown]
          exact hm
        · rw [upd_data_ne _ _ _ _ hj]
          exact hm
  · intro halive t ht
    constructor
    · intro hd
      by_contra hn
      rw [rest hn] at ht
      rw [← Option.some.inj ht] at hd
      have hd2 : s.murphy_alive = false := hd
      rw [halive] at hd2
      exact absurd hd2 (by simp)
    · intro hcnd
      exact dead hcnd.1 hcnd.2 t ht

theorem level_rock_on_player_coords (h : Nat) : own_coords (level_rock_on_player h) :=
  sparse_level_own_coords _ _ _ _ (by
    intro p hp
    simp only [List.mem_cons, List.mem_singleton, List.not_mem_nil, or_false] at hp
    rcases hp with rfl | rfl | rfl | rfl <;> rfl)

/-- A rock resting on the player (`level_rock_on_player 0`) changes nothing; a rock in
free fall (`level_rock_on_player HINT_FALL`) kills the player, and the player's cell
and the base cells at its sides are flagged exploding with countdown 3. -/
theorem fatal_impact_witness :
    (∃ t, fall (level_rock_on_player 0) 245 false = some t ∧
      t.murphy_alive = (level_rock_on_player 0).murphy_alive ∧
      ∀ j, (t.data j).type = ((level_rock_on_player 0).data j).type ∧
        (t.data j).countdown = ((level_rock_on_player 0).data j).countdown ∧
        (t.data j).has_hint HINT_EXPLOSION =
          ((level_rock_on_player 0).data j).has_hint HINT_EXPLOSION ∧
        (t.data j).has_hint HINT_EXPLOSION_INFOTRON =
          ((level_rock_on_player 0).data j).has_hint HINT_EXPLOSION_INFOTRON) ∧
    (∃ t, fall (level_rock_on_player HINT_FALL) 245 false = some t ∧
      t.murphy_alive = false ∧
      (t.data 305).has_hint HINT_EXPLOSION_ORIGIN = true ∧
      ((t.data 304).has_hint HINT_EXPLOSION = true ∧ (t.data 304).countdown = 3) ∧
      ((t.data 305).has_hint HINT_EXPLOSION = true ∧ (t.data 305).countdown = 3) ∧
      (t.data 245).has_hint HINT_EXPLOSION = true ∧ (t.data 245).countdown = 3) ∧
    (∀ t, fall (level_rock_on_player HINT_FALL) 245 false = some t →
      (t.murphy_alive = false ↔
        (((level_rock_on_player HINT_FALL).data 245).has_hint HINT_FALL = true ∧
          ((level_rock_on_player HINT_FALL).data (data_idx (next_point
            ((level_rock_on_player HINT_FALL).data 245).coords DIR_DOWN))).has_hint
            HINT_LEAVING = false))) := by
  have h0 := fatal_impact (level_rock_on_player 0) 245 false
    (level_rock_on_player_coords 0) (by decide) (by decide)
  have h1 := fatal_impact (level_rock_on_player HINT_FALL) 245 false
    (level_rock_on_player_coords HINT_FALL) (by decide) (by decide)
  refine ⟨h0.1 (by decide), ?_, h1.2.2 rfl⟩
  obtain ⟨hex, hres⟩ := h1.2.1 (by decide) (by decide)
  obtain ⟨t, ht⟩ := hex (by decide) (by decide)
  obtain ⟨r1, r2, -, r4⟩ := hres t ht
  refine ⟨t, ht, r1, r2, ?_, ?_, ?_⟩
  · exact r4 ⟨4, 5⟩ (by decide) (by decide) (by decide)
  · exact r4 ⟨5, 5⟩ (by decide) (by decide) (by decide)
  · exact r4 ⟨5, 4⟩ (by decide) (by decide) (by decide)

/-! ## Neighbours of a cell that carries its own coordinates -/

theorem interior_in_grid {i : Int} (h : interior i) : in_grid i := by
  unfold interior LEVEL_WIDTH LEVEL_HEIGHT at h
  unfold in_grid LEVEL_WIDTH LEVEL_HEIGHT
  constructor <;> omega

theorem own_coords_down {s : Level} (hc : own_coords s) {i : Int} (hi : in_grid i)
    (h : i / 60 < 23) : data_idx (next_point (s.data i).coords DIR_DOWN) = i + 60 := by
  rw [hc i hi]
  simp only [next_point, LEVEL_WIDTH, LEVEL_HEIGHT]
  rw [if_pos (by omega)]
  simp only [data_idx, LEVEL_WIDTH]
  omega

theorem own_coords_up {s : Level} (hc : own_coords s) {i : Int} (hi : in_grid i)
    (h : 0 < i / 60) : data_idx (next_point (s.data i).coords DIR_UP) = i - 60 := by
  rw [hc i hi]
  simp only [next_point, LEVEL_WIDTH, LEVEL_HEIGHT]
  rw [if_pos (by omega)]
  simp only [data_idx, LEVEL_WIDTH]
  omega

theorem own_coords_left {s : Level} (hc : own_coords s) {i : Int} (hi : in_grid i)
    (h : 0 < i % 60) : data_idx (next_point (s.data i).coords DIR_LEFT) = i - 1 := by
  rw [hc i hi]
  simp only [next_point, LEVEL_WIDTH, LEVEL_HEIGHT]
  rw [if_pos (by omega)]
  simp only [data_idx, LEVEL_WIDTH]
  omega

theorem own_coords_right {s : Level} (hc : own_coords s) {i : Int} (hi : in_grid i)
    (h : i % 60 < 59) : data_idx (next_point (s.data i).coords DIR_RIGHT) = i + 1 := by
  rw [hc i hi]
  simp only [next_point, LEVEL_WIDTH, LEVEL_HEIGHT]
  rw [if_pos (by omega)]
  simp only [data_idx, LEVEL_WIDTH]
  omega

/-- The five cells the roll branch of `fall` looks at, for an interior cell. -/
theorem interior_neighbours {s : Level} (hc : own_coords s) {C : Int} (hC : interior C) :
    data_idx (next_point (s.data C).coords DIR_DOWN) = C + 60 ∧
    data_idx (next_point (s.data C).coords DIR_LEFT) = C - 1 ∧
    data_idx (next_point (s.data C).coords DIR_RIGHT) = C + 1 ∧
    data_idx (next_point (s.data (C - 1)).coords DIR_DOWN) = C + 59 ∧
    data_idx (next_point (s.data (C + 1)).coords DIR_DOWN) = C + 61 := by
  have hi := interior_in_grid hC
  unfold interior LEVEL_WIDTH LEVEL_HEIGHT at hC
  unfold in_grid LEVEL_WIDTH LEVEL_HEIGHT at hi
  obtain ⟨h1, h2, h3, h4⟩ := hC
  have hl : in_grid (C - 1) := by
    unfold in_grid LEVEL_WIDTH LEVEL_HEIGHT
    constructor <;> omega
  have hr : in_grid (C + 1) := by
    unfold in_grid LEVEL_WIDTH LEVEL_HEIGHT
    constructor <;> omega
  refine ⟨own_coords_down hc (interior_in_grid ⟨h1, h2, h3, h4⟩) (by omega),
    own_coords_left hc (interior_in_grid ⟨h1, h2, h3, h4⟩) (by omega),
    own_coords_right hc (interior_in_grid ⟨h1, h2, h3, h4⟩) (by omega), ?_, ?_⟩
  · rw [own_coords_down hc hl (by omega)]
    omega
  · rw [own_coords_down hc hr (by omega)]
    omega

/-! ## The roll branch of `fall` at an interior cell -/

/-- The roll branch of `fall` at an interior cell `C` of a level whose cells carry
their own coordinates, in terms of the neighbouring indices. -/
theorem roll_interior (s : Level) (C : Int) (hc : own_coords s) (hC : interior C) :
    roll s C = some
      (if (s.data (C - 1)).type = FT_EMPTY ∧ (s.data (C + 59)).type = FT_EMPTY then
        if ¬ (s.data (C - 1)).has_hint HINT_LEAVING ∧ ¬ (s.data (C + 59)).has_hint HINT_LEAVING
        then ((s.upd (C - 1) (fun f => { f with type := (s.data C).type })).upd C
          (fun f => { f with type := FT_EMPTY })).upd (C - 1)
          (fun f => f.set_hint (HINT_FROM_RIGHT ||| HINT_SKIP))
        else s
      else if (s.data (C + 1)).type = FT_EMPTY ∧ (s.data (C + 61)).type = FT_EMPTY then
        if ¬ (s.data (C + 1)).has_hint HINT_LEAVING ∧ ¬ (s.data (C + 61)).has_hint HINT_LEAVING
        then ((s.upd (C + 1) (fun f => { f with type := (s.data C).type })).upd C
          (fun f => { f with type := FT_EMPTY })).upd (C + 1)
          (fun f => f.set_hint (HINT_FROM_LEFT ||| HINT_SKIP))
        else s
      else s) := by
  obtain ⟨-, n2, n3, n4, n5⟩ := interior_neighbours hc hC
  have hi := interior_in_grid hC
  unfold interior LEVEL_WIDTH LEVEL_HEIGHT at hC
  unfold in_grid LEVEL_WIDTH LEVEL_HEIGHT at hi
  have g : ∀ k : Int, -1 ≤ k → k ≤ 61 → cell_ref (C + k) = some (C + k) := by
    intro k h1 h2
    apply cell_ref_of_in_grid
    unfold in_grid LEVEL_WIDTH LEVEL_HEIGHT
    constructor <;> omega
  have g1 : cell_ref (C - 1) = some (C - 1) := by
    have := g (-1) (by omega) (by omega)
    simpa [sub_eq_add_neg] using this
  unfold roll
  rw [n2, n3, g1, g 1 (by omega) (by omega)]
  simp only [Option.bind_eq_bind, Option.some_bind]
  rw [n4, n5, g 59 (by omega) (by omega), g 61 (by omega) (by omega)]
  simp only [Option.some_bind, Option.pure_def]
  repeat' split
  all_goals rfl

/-- With a roll-capable cell below that is not falling, and no destructive impact,
the switch of `fall` is the roll branch. -/
theorem fall_switch_roll (s : Level) (fld below : Int) (d : Bool)
    (hB : (s.data below).rolls_on_impact = true)
    (hd : d = false ∨ (s.data fld).has_hint HINT_FALL = false) :
    fall_switch s fld below d = roll s fld := by
  have hnd : ¬ ((s.data fld).has_hint HINT_FALL = true ∧ d = true) := by
    rintro ⟨h1, h2⟩
    rcases hd with h | h
    · rw [h] at h2; exact absurd h2 (by simp)
    · rw [h] at h1; exact absurd h1 (by simp)
  unfold fall_switch
  split
  · next hty => unfold Field.rolls_on_impact at hB; rw [hty] at hB; simp at hB
  · next hty => unfold Field.rolls_on_impact at hB; rw [hty] at hB; simp at hB
  · next hty => unfold Field.rolls_on_impact at hB; rw [hty] at hB; simp at hB
  · next hty => unfold Field.rolls_on_impact at hB; rw [hty] at hB; simp at hB
  · next hty => unfold Field.rolls_on_impact at hB; rw [hty] at hB; simp at hB
  · rw [if_neg hnd, if_pos hB]

/-- The whole of `fall` at an interior cell lying on a roll-capable cell. -/
theorem fall_roll (s : Level) (C : Int) (d : Bool) (hc : own_coords s) (hC : interior C)
    (hB : (s.data (C + 60)).rolls_on_impact = true)
    (hd : d = false ∨ (s.data C).has_hint HINT_FALL = false) :
    fall s C d = (roll s C).map (fun s1 => s1.upd C (fun f => f.del_hint HINT_FALL)) := by
  obtain ⟨n1, -⟩ := interior_neighbours hc hC
  have hB' : in_grid (data_idx (next_point (s.data C).coords DIR_DOWN)) := by
    rw [n1]
    have hi := interior_in_grid hC
    unfold interior LEVEL_WIDTH LEVEL_HEIGHT at hC
    unfold in_grid LEVEL_WIDTH LEVEL_HEIGHT at hi ⊢
    constructor <;> omega
  rw [fall_eq s C d hB', n1, fall_switch_roll s C (C + 60) d hB hd]

/-! ## C21: left is tried first -/

/-- C21. Let `fall` be evaluated on an interior cell `C` of a level whose cells carry
their own coordinates, called as the scan calls it for a loose rock or a collectible
(not destructive; the object at `C` may be any that is not both falling and
destructive). If the cell below `C` is a
non-falling roll-capable object and the cells left (`C - 1`) and below-left (`C + 59`)
of `C` are empty and not currently-leaving, then `fall` has a result in which the left
cell has the object's type and carries arrived-from-right and skip-this-tick, `C` is
empty, and every cell other than `C` and the left cell, in particular the right cell
`C + 1` and the below-right cell `C + 61`, is unchanged, whatever the right side
holds. -/
theorem left_is_tried_first (s : Level) (C : Int) (d : Bool) (hc : own_coords s)
    (hC : interior C)
    (hd : d = false ∨ (s.data C).has_hint HINT_FALL = false)
    (hB : (s.data (C + 60)).rolls_on_impact = true)
    (hL : (s.data (C - 1)).type = FT_EMPTY)
    (hLl : (s.data (C - 1)).has_hint HINT_LEAVING = false)
    (hLB : (s.data (C + 59)).type = FT_EMPTY)
    (hLBl : (s.data (C + 59)).has_hint HINT_LEAVING = false) :
    ∃ t, fall s C d = some t ∧
      (t.data (C - 1)).type = (s.data C).type ∧
      (t.data (C - 1)).has_hint HINT_FROM_RIGHT = true ∧
      (t.data (C - 1)).has_hint HINT_SKIP = true ∧
      (t.data C).type = FT_EMPTY ∧
      t.data (C + 1) = s.data (C + 1) ∧
      t.data (C + 61) = s.data (C + 61) ∧
      ∀ j, j ≠ C → j ≠ C - 1 → t.data j = s.data j := by
  rw [fall_roll s C d hc hC hB hd, roll_interior s C hc hC, if_pos ⟨hL, hLB⟩,
    if_pos ⟨by simp [hLl], by simp [hLBl]⟩]
  have hne : C - 1 ≠ C := by omega
  have key : ∀ j, j ≠ C → j ≠ C - 1 →
      ((((s.upd (C - 1) (fun f => { f with type := (s.data C).type })).upd C
          (fun f => { f with type := FT_EMPTY })).upd (C - 1)
          (fun f => f.set_hint (HINT_FROM_RIGHT ||| HINT_SKIP))).upd C
          (fun f => f.del_hint HINT_FALL)).data j = s.data j := by
    intro j h1 h2
    simp [upd_data, h1, h2]
  refine ⟨_, rfl, ?_, ?_, ?_, ?_, key _ (by omega) (by omega), key _ (by omega) (by omega),
    key⟩
  · simp [upd_data, hne, hne.symm]
  · simp +decide [upd_data, hne, hne.symm, has_hint_set_hint]
  · simp +decide [upd_data, hne, hne.symm, has_hint_set_hint]
  · simp [upd_data, hne, hne.symm]

theorem level_roll_choice_coords (h : Nat) : own_coords (level_roll_choice h) :=
  sparse_level_own_coords _ _ _ _ (by
    intro p hp
    simp only [List.mem_cons, List.mem_singleton, List.not_mem_nil, or_false] at hp
    rcases hp with rfl | rfl | rfl | rfl | rfl | rfl <;> rfl)

/-- In `level_roll_choice 0` both sides of the rock at 306 qualify, and it goes left. -/
theorem left_is_tried_first_witness :
    ∃ t, fall (level_roll_choice 0) 306 false = some t ∧
      (t.data (306 - 1)).type = ((level_roll_choice 0).data 306).type ∧
      (t.data (306 - 1)).has_hint HINT_FROM_RIGHT = true ∧
      (t.data (306 - 1)).has_hint HINT_SKIP = true ∧
      (t.data 306).type = FT_EMPTY ∧
      t.data (306 + 1) = (level_roll_choice 0).data (306 + 1) ∧
      t.data (306 + 61) = (level_roll_choice 0).data (306 + 61) ∧
      ∀ j, j ≠ 306 → j ≠ 306 - 1 → t.data j = (level_roll_choice 0).data j :=
  left_is_tried_first (level_roll_choice 0) 306 false (level_roll_choice_coords 0)
    (by decide) (Or.inl rfl) (by decide) (by decide) (by decide) (by decide)
    (by decide)

/-! ## C22: right is the fallback -/

/-- C22, amended. Let `fall` be evaluated on an interior cell `C` of a level whose
cells carry their own coordinates, called as the scan calls it for a loose rock or a
collectible (not destructive), with a non-falling roll-capable object below `C`. If the left cell
`C - 1` or the below-left cell `C + 59` is not empty, and the right cell `C + 1` and
the below-right cell `C + 61` are empty and not currently-leaving, `fall` has a result
in which the right cell has the object's type and carries arrived-from-left and
skip-this-tick, and `C` is empty. If the left and the below-left cell are both empty
and one of them is currently-leaving, `fall` has a result in which no cell has changed
except for the falling flag of `C`: the object stays, whatever the right side holds. -/
theorem right_is_the_fallback (s : Level) (C : Int) (d : Bool) (hc : own_coords s)
    (hC : interior C)
    (hd : d = false ∨ (s.data C).has_hint HINT_FALL = false)
    (hB : (s.data (C + 60)).rolls_on_impact = true) :
    (((s.data (C - 1)).type ≠ FT_EMPTY ∨ (s.data (C + 59)).type ≠ FT_EMPTY) →
      (s.data (C + 1)).type = FT_EMPTY → (s.data (C + 1)).has_hint HINT_LEAVING = false →
      (s.data (C + 61)).type = FT_EMPTY → (s.data (C + 61)).has_hint HINT_LEAVING = false →
      ∃ t, fall s C d = some t ∧
        (t.data (C + 1)).type = (s.data C).type ∧
        (t.data (C + 1)).has_hint HINT_FROM_LEFT = true ∧
        (t.data (C + 1)).has_hint HINT_SKIP = true ∧
        (t.data C).type = FT_EMPTY) ∧
    ((s.data (C - 1)).type = FT_EMPTY → (s.data (C + 59)).type = FT_EMPTY →
      ((s.data (C - 1)).has_hint HINT_LEAVING = true ∨
        (s.data (C + 59)).has_hint HINT_LEAVING = true) →
      fall s C d = some (s.upd C (fun f => f.del_hint HINT_FALL))) := by
  rw [fall_roll s C d hc hC hB hd, roll_interior s C hc hC]
  constructor
  · intro hl hR hRl hRB hRBl
    rw [if_neg (fun h => hl.elim (fun a => a h.1) (fun a => a h.2)), if_pos ⟨hR, hRB⟩,
      if_pos ⟨by simp [hRl], by simp [hRBl]⟩]
    have hne : C + 1 ≠ C := by omega
    refine ⟨_, rfl, ?_, ?_, ?_, ?_⟩
    · simp [upd_data, hne, hne.symm]
    · simp +decide [upd_data, hne, hne.symm, has_hint_set_hint]
    · simp +decide [upd_data, hne, hne.symm, has_hint_set_hint]
    · simp [upd_data, hne, hne.symm]
  · intro hL hLB hlv
    rw [if_pos ⟨hL, hLB⟩, if_neg]
    · rfl
    · rintro ⟨h1, h2⟩
      rcases hlv with h | h
      · exact h1 h
      · exact h2 h

theorem level_roll_right_coords : own_coords level_roll_right :=
  sparse_level_own_coords _ _ _ _ (by decide)

/-- In `level_roll_right` the left cell of the rock at 306 is a base cell, and the
rock goes right; in `level_roll_choice HINT_LEAVING` the left cell is empty and
currently-leaving, and the rock stays. -/
theorem right_is_the_fallback_witness :
    (∃ t, fall level_roll_right 306 false = some t ∧
      (t.data (306 + 1)).type = (level_roll_right.data 306).type ∧
      (t.data (306 + 1)).has_hint HINT_FROM_LEFT = true ∧
      (t.data (306 + 1)).has_hint HINT_SKIP = true ∧
      (t.data 306).type = FT_EMPTY) ∧
    fall (level_roll_choice HINT_LEAVING) 306 false =
      some ((level_roll_choice HINT_LEAVING).upd 306 (fun f => f.del_hint HINT_FALL)) :=
  ⟨(right_is_the_fallback level_roll_right 306 false level_roll_right_coords
      (by decide) (Or.inl rfl) (by decide)).1
      (Or.inl (by decide)) (by decide) (by decide) (by decide) (by decide),
    (right_is_the_fallback (level_roll_choice HINT_LEAVING) 306 false
      (level_roll_choice_coords HINT_LEAVING) (by decide) (Or.inl rfl)
      (by decide)).2 (by decide) (by decide) (Or.inl (by decide))⟩

/-- C22 as stated fails: in `level_roll_choice HINT_LEAVING` the rock at 306 lies on a
rock, its left cell 305 is empty and currently-leaving (the left side does not qualify),
and the right cell 307 and the below-right cell 367 are empty and not
currently-leaving; `fall` leaves the rock at 306 and the right cell empty. -/
theorem right_is_the_fallback_counterexample :
    interior 306 ∧
    ((level_roll_choice HINT_LEAVING).data 306).type = FT_ZONK ∧
    ((level_roll_choice HINT_LEAVING).data (306 + 60)).rolls_on_impact = true ∧
    ((level_roll_choice HINT_LEAVING).data (306 - 1)).has_hint HINT_LEAVING = true ∧
    ((level_roll_choice HINT_LEAVING).data (306 + 1)).type = FT_EMPTY ∧
    ((level_roll_choice HINT_LEAVING).data (306 + 1)).has_hint HINT_LEAVING = false ∧
    ((level_roll_choice HINT_LEAVING).data (306 + 61)).type = FT_EMPTY ∧
    ((level_roll_choice HINT_LEAVING).data (306 + 61)).has_hint HINT_LEAVING = false ∧
    (fall (level_roll_choice HINT_LEAVING) 306 false).map
      (fun t => ((t.data 306).type, (t.data (306 + 1)).type)) =
      some (FT_ZONK, FT_EMPTY) := by
  refine ⟨by decide, by decide, by decide, by decide, ?_⟩
  refine ⟨by decide, by decide, by decide, by decide, ?_⟩
  decide

/-! ## The exact effect of `explode_9` -/

@[simp] theorem blasted_type (e : Nat) (f : Field) : (blasted e f).type = f.type := rfl

@[simp] theorem blasted_coords (e : Nat) (f : Field) : (blasted e f).coords = f.coords := rfl

@[simp] theorem blasted_countdown (e : Nat) (f : Field) :
    (blasted e f).countdown = EXPLOSION_STEPS := rfl

theorem blasted_has_hint (e : Nat) (f : Field) (b : Nat) :
    (blasted e f).has_hint b = (f.has_hint b || decide ((e ||| HINT_SKIP) &&& b > 0)) := by
  unfold blasted
  rw [has_hint_with_countdown, has_hint_set_hint]

theorem blasted_idem (e : Nat) (f : Field) : blasted e (blasted e f) = blasted e f := by
  unfold blasted Field.set_hint
  simp only [Nat.or_assoc, Nat.or_self]

theorem blasted_affected (e : Nat) (f : Field) :
    (blasted e f).affected_by_explosion = f.affected_by_explosion :=
  affected_of_type_eq rfl

/-- The inner loop body of `explode_9`, cell by cell. -/
theorem explode_cell_data (fill : FieldType) (e : Nat) (hfe : fill_match fill e)
    (s t : Level) (p : Point) (h : explode_cell fill s p = some t) :
    (∀ j, t.data j = (if (s.data (data_idx p)).affected_by_explosion = true then
        (if j = data_idx p then blasted e (s.data j) else s.data j) else s.data j)) ∧
    t.murphy_alive = (if (s.data (data_idx p)).type = FT_MURPHY then false
      else s.murphy_alive) ∧
    t.murphy = s.murphy ∧ t.next_move = s.next_move := by
  unfold explode_cell at h
  cases hr : cell_ref (data_idx p) with
  | none => simp [hr] at h
  | some fld =>
    obtain ⟨he, -⟩ := cell_ref_eq_some hr
    subst he
    simp only [hr, Option.bind_eq_bind, Option.some_bind, Option.pure_def, Option.some.injEq] at h
    have hdata : ∀ u : Level, (if (u.data (data_idx p)).type = FT_MURPHY then
        { u with murphy_alive := false } else u).data = u.data := by
      intro u
      split <;> rfl
    have hglob : ∀ u : Level, (if (u.data (data_idx p)).type = FT_MURPHY then
        { u with murphy_alive := false } else u).murphy = u.murphy ∧
        (if (u.data (data_idx p)).type = FT_MURPHY then
        { u with murphy_alive := false } else u).next_move = u.next_move := by
      intro u
      split <;> exact ⟨rfl, rfl⟩
    have halive : ∀ u : Level, (if (u.data (data_idx p)).type = FT_MURPHY then
        { u with murphy_alive := false } else u).murphy_alive =
        (if (u.data (data_idx p)).type = FT_MURPHY then false else u.murphy_alive) := by
      intro u
      split <;> rfl
    by_cases haff : (s.data (data_idx p)).affected_by_explosion = true
    · rw [if_pos haff] at h
      simp only [if_pos haff]
      rcases hfe with ⟨hf, hE⟩ | ⟨hf, hE⟩
      · subst hf hE
        rw [if_pos rfl] at h
        rw [← h]
        refine ⟨fun j => ?_, ?_, ?_, ?_⟩
        · rw [hdata]
          by_cases hj : j = data_idx p
          · subst hj
            rw [if_pos rfl]
            simp only [upd_data_same]
            rfl
          · rw [if_neg hj]
            simp only [upd_data_ne _ _ _ _ hj]
        · rw [halive]
          simp only [upd_data_same, set_hint_type]
          rfl
        · rw [(hglob _).1]; rfl
        · rw [(hglob _).2]; rfl
      · subst hf hE
        rw [if_neg (show ¬ FT_INFOTRON = FT_EMPTY by decide), if_pos rfl] at h
        rw [← h]
        refine ⟨fun j => ?_, ?_, ?_, ?_⟩
        · rw [hdata]
          by_cases hj : j = data_idx p
          · subst hj
            rw [if_pos rfl]
            simp only [upd_data_same]
            rfl
          · rw [if_neg hj]
            simp only [upd_data_ne _ _ _ _ hj]
        · rw [halive]
          simp only [upd_data_same, set_hint_type]
          rfl
        · rw [(hglob _).1]; rfl
        · rw [(hglob _).2]; rfl
    · rw [if_neg haff] at h
      simp only [if_neg haff]
      rw [← h]
      exact ⟨fun j => by rw [hdata], halive s, (hglob s).1, (hglob s).2⟩

theorem explode_cell_blast (fill : FieldType) (e : Nat) (hfe : fill_match fill e)
    (s t : Level) (p : Point) (h : explode_cell fill s p = some t) :
    Blast e (fun q => q = p) s t := by
  obtain ⟨h1, h2, h3, h4⟩ := explode_cell_data fill e hfe s t p h
  refine ⟨?_, ?_, ?_, h3, h4⟩
  · rintro j haff ⟨q, rfl, rfl⟩
    rw [h1, if_pos haff, if_pos rfl]
  · intro j hn
    rw [h1]
    split
    · next haff =>
      split
      · next hj =>
        subst hj
        exact absurd ⟨haff, p, rfl, rfl⟩ hn
      · rfl
    · rfl
  · rw [h2]
    constructor
    · intro hd
      by_cases hty : (s.data (data_idx p)).type = FT_MURPHY
      · exact Or.inr ⟨p, rfl, hty⟩
      · rw [if_neg hty] at hd
        exact Or.inl hd
    · rintro (hd | ⟨q, rfl, hty⟩)
      · split
        · rfl
        · exact hd
      · rw [if_pos hty]

theorem blast_refl (e : Nat) (s : Level) : Blast e (fun _ => False) s s :=
  ⟨fun _ _ h => h.elim (fun _ hp => hp.1.elim), fun _ _ => rfl,
    ⟨fun h => Or.inl h, fun h => h.elim id (fun hp => hp.elim (fun _ hq => hq.1.elim))⟩,
    rfl, rfl⟩

theorem blast_type {e : Nat} {ps : Point → Prop} {s t : Level} (a : Blast e ps s t)
    (j : Int) : (t.data j).type = (s.data j).type := by
  by_cases h : (s.data j).affected_by_explosion = true ∧ ∃ p, ps p ∧ data_idx p = j
  · rw [a.1 j h.1 h.2]
    rfl
  · rw [a.2.1 j h]

theorem blast_trans {e : Nat} {ps qs : Point → Prop} {s t u : Level}
    (a : Blast e ps s t) (b : Blast e qs t u) : Blast e (fun p => ps p ∨ qs p) s u := by
  have hty := blast_type a
  have haff : ∀ j, (t.data j).affected_by_explosion = (s.data j).affected_by_explosion :=
    fun j => affected_of_type_eq (hty j)
  refine ⟨?_, ?_, ?_, b.2.2.2.1.trans a.2.2.2.1, b.2.2.2.2.trans a.2.2.2.2⟩
  · rintro j hj ⟨p, hp, rfl⟩
    by_cases hq : ∃ q, qs q ∧ data_idx q = data_idx p
    · rw [b.1 _ (by rw [haff]; exact hj) hq]
      by_cases hp2 : ∃ q, ps q ∧ data_idx q = data_idx p
      · rw [a.1 _ hj hp2, blasted_idem]
      · rw [a.2.1 _ (fun h => hp2 h.2)]
    · rw [b.2.1 _ (fun h => hq h.2)]
      rcases hp with hp | hp
      · exact a.1 _ hj ⟨p, hp, rfl⟩
      · exact absurd ⟨p, hp, rfl⟩ hq
  · intro j hn
    have h1 : ¬ ((s.data j).affected_by_explosion = true ∧ ∃ p, ps p ∧ data_idx p = j) :=
      fun h => hn ⟨h.1, h.2.elim (fun p hp => ⟨p, Or.inl hp.1, hp.2⟩)⟩
    have h2 : ¬ ((t.data j).affected_by_explosion = true ∧ ∃ p, qs p ∧ data_idx p = j) := by
      rw [haff]
      exact fun h => hn ⟨h.1, h.2.elim (fun p hp => ⟨p, Or.inr hp.1, hp.2⟩)⟩
    rw [b.2.1 j h2, a.2.1 j h1]
  · rw [b.2.2.1, a.2.2.1]
    constructor
    · rintro ((hd | ⟨p, hp, hty1⟩) | ⟨p, hp, hty1⟩)
      · exact Or.inl hd
      · exact Or.inr ⟨p, Or.inl hp, hty1⟩
      · exact Or.inr ⟨p, Or.inr hp, by rw [← hty]; exact hty1⟩
    · rintro (hd | ⟨p, hp | hp, hty1⟩)
      · exact Or.inl (Or.inl hd)
      · exact Or.inl (Or.inr ⟨p, hp, hty1⟩)
      · exact Or.inr ⟨p, hp, by rw [hty]; exact hty1⟩

theorem blast_congr {e : Nat} {ps qs : Point → Prop} {s t : Level} (a : Blast e ps s t)
    (h : ∀ p, qs p ↔ ps p) : Blast e qs s t := by
  have e1 : qs = ps := funext (fun p => propext (h p))
  rw [e1]
  exact a

theorem row_blast (fill : FieldType) (e : Nat) (hfe : fill_match fill e) (y : Int)
    (xs : List Int) (s t : Level)
    (h : xs.foldlM (fun s2 x => explode_cell fill s2 ⟨x, y⟩) s = some t) :
    Blast e (fun p => p.y = y ∧ p.x ∈ xs) s t := by
  induction xs generalizing s with
  | nil =>
    simp only [List.foldlM_nil, Option.pure_def, Option.some.injEq] at h
    subst h
    exact blast_congr (blast_refl e s) (fun p => by simp)
  | cons a l ih =>
    rw [foldlM_cons_some] at h
    obtain ⟨u, hu, hrest⟩ := h
    refine blast_congr (blast_trans (explode_cell_blast fill e hfe s u _ hu) (ih u hrest)) ?_
    intro p
    cases p with
    | mk px py =>
      simp only [List.mem_cons, Point.mk.injEq]
      tauto

theorem rows_blast (fill : FieldType) (e : Nat) (hfe : fill_match fill e) (ys xs : List Int)
    (s t : Level)
    (h : ys.foldlM (fun s1 y => xs.foldlM (fun s2 x => explode_cell fill s2 ⟨x, y⟩) s1) s =
      some t) :
    Blast e (fun p => p.y ∈ ys ∧ p.x ∈ xs) s t := by
  induction ys generalizing s with
  | nil =>
    simp only [List.foldlM_nil, Option.pure_def, Option.some.injEq] at h
    subst h
    exact blast_congr (blast_refl e s) (fun p => by simp)
  | cons a l ih =>
    rw [foldlM_cons_some] at h
    obtain ⟨u, hu, hrest⟩ := h
    refine blast_congr (blast_trans (row_blast fill e hfe a xs s u hu) (ih u hrest)) ?_
    intro p
    simp only [List.mem_cons]
    tauto

/-- The result of `explode_9`: the origin gets the origin flag, and then the cells at
the points of the square around the coordinates of the origin are flagged. -/
theorem explode_9_blast (s t : Level) (origin : Int) (fill : FieldType) (e : Nat)
    (hfe : fill_match fill e) (h : explode_9 s origin fill = some t) :
    Blast e (box (s.data origin).coords)
      (s.upd origin (fun f => f.set_hint HINT_EXPLOSION_ORIGIN)) t := by
  unfold explode_9 at h
  simp only [upd_data_same, set_hint_coords] at h
  refine blast_congr (rows_blast fill e hfe _ _ _ t h) ?_
  intro p
  unfold box
  simp only [List.mem_cons, List.mem_singleton, List.not_mem_nil, or_false]
  constructor
  · rintro ⟨⟨h1, h2⟩, h3, h4⟩
    constructor <;> omega
  · rintro ⟨h1, h2⟩
    refine ⟨⟨?_, ?_⟩, ?_, ?_⟩ <;> omega

/-- For an interior cell `o`, the cells at the points of the square around its
coordinates are the cells of its 3x3 neighbourhood. -/
theorem box_in_square (o j : Int) (ho : interior o) :
    (∃ p, box ⟨o % LEVEL_WIDTH, o / LEVEL_WIDTH⟩ p ∧ data_idx p = j) ↔ in_square o j := by
  unfold interior at ho
  unfold box in_square data_idx
  unfold LEVEL_WIDTH LEVEL_HEIGHT at *
  constructor
  · rintro ⟨⟨px, py⟩, ⟨⟨h1, h2⟩, h3, h4⟩, rfl⟩
    simp only at h1 h2 h3 h4 ⊢
    refine ⟨⟨?_, ?_⟩, ?_, ?_⟩ <;> omega
  · rintro ⟨⟨h1, h2⟩, h3, h4⟩
    refine ⟨⟨j % 60, j / 60⟩, ⟨⟨h1, h2⟩, h3, h4⟩, ?_⟩
    simp only
    omega

/-- An explosion at an interior origin has a result. -/
theorem explode_9_interior_some (s : Level) (o : Int) (fill : FieldType)
    (hc : own_coords s) (ho : interior o) : ∃ t, explode_9 s o fill = some t := by
  have hi := interior_in_grid ho
  apply explode_9_some
  · rw [own_coords_idx hc hi]
    unfold interior LEVEL_WIDTH LEVEL_HEIGHT at ho
    omega
  · rw [own_coords_idx hc hi]
    unfold interior LEVEL_WIDTH LEVEL_HEIGHT at ho
    omega

/-- The result of an explosion at an interior origin `o` of a level whose cells carry
their own coordinates, in terms of the 3x3 neighbourhood of `o`. -/
theorem explode_9_interior (s t : Level) (o : Int) (fill : FieldType) (e : Nat)
    (hfe : fill_match fill e) (hc : own_coords s) (ho : interior o)
    (h : explode_9 s o fill = some t) :
    (∀ j, in_square o j → (s.data j).affected_by_explosion = true →
      t.data j = blasted e ((s.upd o (fun f => f.set_hint HINT_EXPLOSION_ORIGIN)).data j)) ∧
    (∀ j, ¬ (in_square o j ∧ (s.data j).affected_by_explosion = true) →
      t.data j = (s.upd o (fun f => f.set_hint HINT_EXPLOSION_ORIGIN)).data j) ∧
    (t.murphy_alive = false ↔
      s.murphy_alive = false ∨ ∃ j, in_square o j ∧ (s.data j).type = FT_MURPHY) ∧
    t.murphy = s.murphy ∧ t.next_move = s.next_move := by
  have hb := explode_9_blast s t o fill e hfe h
  rw [hc o (interior_in_grid ho)] at hb
  have hty : ∀ j, ((s.upd o (fun f => f.set_hint HINT_EXPLOSION_ORIGIN)).data j).type =
      (s.data j).type := by
    intro j
    by_cases hj : j = o
    · subst hj
      simp
    · simp [upd_data, hj]
  have haff : ∀ j,
      ((s.upd o (fun f => f.set_hint HINT_EXPLOSION_ORIGIN)).data j).affected_by_explosion =
      (s.data j).affected_by_explosion := fun j => affected_of_type_eq (hty j)
  refine ⟨?_, ?_, ?_, hb.2.2.2.1, hb.2.2.2.2⟩
  · intro j hj ha
    exact hb.1 j (by rw [haff]; exact ha) ((box_in_square o j ho).mpr hj)
  · intro j hn
    apply hb.2.1 j
    rintro ⟨ha, hp⟩
    exact hn ⟨(box_in_square o j ho).mp hp, by rw [← haff]; exact ha⟩
  · rw [hb.2.2.1]
    have e1 : (s.upd o (fun f => f.set_hint HINT_EXPLOSION_ORIGIN)).murphy_alive =
        s.murphy_alive := rfl
    rw [e1]
    constructor
    · rintro (hd | ⟨p, hp, hm⟩)
      · exact Or.inl hd
      · exact Or.inr ⟨data_idx p, (box_in_square o _ ho).mp ⟨p, hp, rfl⟩, by rw [← hty]; exact hm⟩
    · rintro (hd | ⟨j, hj, hm⟩)
      · exact Or.inl hd
      · obtain ⟨p, hp, rfl⟩ := (box_in_square o j ho).mpr hj
        exact Or.inr ⟨p, hp, by rw [hty]; exact hm⟩

/-! ## C23: the postcondition of `explode_9` -/

/-- C23. Let `o` be an interior cell (not on the grid border) of a level whose cells
carry their own coordinates, and let the fill be empty or collectible, with `e` the
exploding flag of that fill. Then `explode_9` has a result, and in every result the
origin carries the explosion-origin flag; every cell of the 3x3 neighbourhood of `o`
whose type is affected by explosions carries the flag `e`, skip-this-tick and
countdown 3; every cell of an unaffected type keeps its countdown, its exploding flags
and its skip flag; no cell changes its type; the cells outside the neighbourhood are
unchanged; and `murphy_alive` is false exactly when it was false before or some cell of
the neighbourhood has type player. -/
theorem explode_9_postcondition (s : Level) (o : Int) (fill : FieldType) (e : Nat)
    (hfe : fill_match fill e) (hc : own_coords s) (ho : interior o) :
    (∃ t, explode_9 s o fill = some t) ∧
    ∀ t, explode_9 s o fill = some t →
      (t.data o).has_hint HINT_EXPLOSION_ORIGIN = true ∧
      (∀ j, in_square o j → (s.data j).affected_by_explosion = true →
        (t.data j).has_hint e = true ∧ (t.data j).has_hint HINT_SKIP = true ∧
          (t.data j).countdown = 3) ∧
      (∀ j, (s.data j).affected_by_explosion = false →
        (t.data j).countdown = (s.data j).countdown ∧
          (t.data j).has_hint HINT_EXPLOSION = (s.data j).has_hint HINT_EXPLOSION ∧
          (t.data j).has_hint HINT_EXPLOSION_INFOTRON =
            (s.data j).has_hint HINT_EXPLOSION_INFOTRON ∧
          (t.data j).has_hint HINT_SKIP = (s.data j).has_hint HINT_SKIP) ∧
      (∀ j, (t.data j).type = (s.data j).type) ∧
      (∀ j, ¬ in_square o j → t.data j = s.data j) ∧
      (t.murphy_alive = false ↔
        s.murphy_alive = false ∨ ∃ j, in_square o j ∧ (s.data j).type = FT_MURPHY) := by
  refine ⟨explode_9_interior_some s o fill hc ho, fun t h => ?_⟩
  obtain ⟨h1, h2, h3, -, -⟩ := explode_9_interior s t o fill e hfe hc ho h
  have hoo : in_square o o := by
    unfold in_square
    refine ⟨⟨?_, ?_⟩, ?_, ?_⟩ <;> omega
  have hmark : ∀ f : Field, (blasted e f).has_hint e = true ∧
      (blasted e f).has_hint HINT_SKIP = true := by
    intro f
    rw [blasted_has_hint, blasted_has_hint]
    rcases hfe with ⟨-, hE⟩ | ⟨-, hE⟩ <;> subst hE <;> simp +decide
  have horig : ∀ j, ((s.upd o (fun f => f.set_hint HINT_EXPLOSION_ORIGIN)).data j).countdown =
      (s.data j).countdown ∧
      ((s.upd o (fun f => f.set_hint HINT_EXPLOSION_ORIGIN)).data j).type = (s.data j).type ∧
      ∀ b, (4294967295 - HINT_EXPLOSION_ORIGIN) &&& b = b →
        ((s.upd o (fun f => f.set_hint HINT_EXPLOSION_ORIGIN)).data j).has_hint b =
          (s.data j).has_hint b := by
    intro j
    by_cases hj : j = o
    · subst hj
      refine ⟨by simp, by simp, fun b hb => ?_⟩
      rw [upd_data_same, has_hint_set_hint]
      have h0 : HINT_EXPLOSION_ORIGIN &&& b = 0 := by
        have h8 : HINT_EXPLOSION_ORIGIN &&& (4294967295 - HINT_EXPLOSION_ORIGIN) = 0 := by decide
        rw [← hb, ← Nat.and_assoc, h8, Nat.zero_and]
      rw [h0]
      simp
    · rw [upd_data_ne _ _ _ _ hj]
      exact ⟨rfl, rfl, fun _ _ => rfl⟩
  refine ⟨?_, ?_, ?_, ?_, ?_, h3⟩
  · by_cases ha : (s.data o).affected_by_explosion = true
    · rw [h1 o hoo ha, blasted_has_hint, upd_data_same, has_hint_set_hint]
      simp +decide
    · rw [h2 o (fun hh => ha hh.2), upd_data_same, has_hint_set_hint]
      simp +decide
  · intro j hj ha
    rw [h1 j hj ha]
    exact ⟨(hmark _).1, (hmark _).2, rfl⟩
  · intro j ha
    rw [h2 j (fun hh => by rw [ha] at hh; exact absurd hh.2 (by simp))]
    exact ⟨(horig j).1, (horig j).2.2 _ (by decide), (horig j).2.2 _ (by decide),
      (horig j).2.2 _ (by decide)⟩
  · intro j
    by_cases hh : in_square o j ∧ (s.data j).affected_by_explosion = true
    · rw [h1 j hh.1 hh.2, blasted_type]
      exact (horig j).2.1
    · rw [h2 j hh]
      exact (horig j).2.1
  · intro j hj
    rw [h2 j (fun hh => hj hh.1)]
    have hjo : j ≠ o := by
      rintro rfl
      exact hj hoo
    rw [upd_data_ne _ _ _ _ hjo]

/-- An explosion to empty at the player's cell 305 of `level_rock_on_player 0`. -/
theorem explode_9_postcondition_witness :
    (∃ t, explode_9 (level_rock_on_player 0) 305 FT_EMPTY = some t) ∧
    ∀ t, explode_9 (level_rock_on_player 0) 305 FT_EMPTY = some t →
      (t.data 305).has_hint HINT_EXPLOSION_ORIGIN = true ∧
      (∀ j, in_square 305 j → ((level_rock_on_player 0).data j).affected_by_explosion = true →
        (t.data j).has_hint HINT_EXPLOSION = true ∧ (t.data j).has_hint HINT_SKIP = true ∧
          (t.data j).countdown = 3) ∧
      (∀ j, ((level_rock_on_player 0).data j).affected_by_explosion = false →
        (t.data j).countdown = ((level_rock_on_player 0).data j).countdown ∧
          (t.data j).has_hint HINT_EXPLOSION =
            ((level_rock_on_player 0).data j).has_hint HINT_EXPLOSION ∧
          (t.data j).has_hint HINT_EXPLOSION_INFOTRON =
            ((level_rock_on_player 0).data j).has_hint HINT_EXPLOSION_INFOTRON ∧
          (t.data j).has_hint HINT_SKIP =
            ((level_rock_on_player 0).data j).has_hint HINT_SKIP) ∧
      (∀ j, (t.data j).type = ((level_rock_on_player 0).data j).type) ∧
      (∀ j, ¬ in_square 305 j → t.data j = (level_rock_on_player 0).data j) ∧
      (t.murphy_alive = false ↔
        (level_rock_on_player 0).murphy_alive = false ∨
          ∃ j, in_square 305 j ∧ ((level_rock_on_player 0).data j).type = FT_MURPHY) :=
  explode_9_postcondition (level_rock_on_player 0) 305 FT_EMPTY HINT_EXPLOSION
    (Or.inl ⟨rfl, rfl⟩) (level_rock_on_player_coords 0) (by decide)

/-! ## The scan of one cell: head, explosion block, type switch -/

/-- The scan of a cell that is not skipped: the movement flags are cleared, the
explosion block runs if the cell carries an exploding flag, then the type switch. -/
theorem scan_cell_head (s : Level) (i : Int) (hs : (s.data i).has_hint HINT_SKIP = false) :
    scan_cell s i =
      (if exploding (s.data i) then explosion_tick (s.upd i own_cleared) i
        else some (s.upd i own_cleared)).bind
        (fun s3 => dispatch s3 i (npc_direction (s.data i))) := by
  have hE : (own_cleared (s.data i)).has_hint HINT_EXPLOSION =
      (s.data i).has_hint HINT_EXPLOSION := own_cleared_has_hint _ _ (by decide) (by decide)
  have hEI : (own_cleared (s.data i)).has_hint HINT_EXPLOSION_INFOTRON =
      (s.data i).has_hint HINT_EXPLOSION_INFOTRON :=
    own_cleared_has_hint _ _ (by decide) (by decide)
  have h2 : (if (s.data i).type ≠ FT_SNIK_SNAK ∧ (s.data i).type ≠ FT_STARS then
        s.upd i (fun f => f.del_hint
          (HINT_FROM_BOTTOM ||| HINT_FROM_TOP ||| HINT_FROM_RIGHT ||| HINT_FROM_LEFT))
        else s).upd i (fun f => f.del_hint
          (HINT_WAS_BASE ||| HINT_WAS_INFOTRON ||| HINT_WAS_RED_DISK)) =
      s.upd i own_cleared := by
    unfold own_cleared
    split
    · next hc => rw [upd_upd]; exact upd_congr _ _ _ _ (by simp [hc])
    · next hc => exact upd_congr _ _ _ _ (by simp [hc])
  unfold scan_cell
  rw [if_neg (by simp [hs])]
  simp only [Option.bind_eq_bind]
  rw [h2]
  simp only [upd_data_same, hE, hEI]
  unfold exploding
  by_cases hx : (s.data i).has_hint HINT_EXPLOSION = true ∨
      (s.data i).has_hint HINT_EXPLOSION_INFOTRON = true
  · rw [if_pos hx, if_pos hx]
  · rw [if_neg hx, if_neg hx]
    rfl

/-- The cascade branch of the explosion block. -/
theorem explosion_tick_cascade (u : Level) (i : Int)
    (hcd : (u.data i).countdown = EXPLOSION_STEPS)
    (ho : (u.data i).has_hint HINT_EXPLOSION_ORIGIN = false)
    (hx : (u.data i).explodes = true) :
    explosion_tick u i =
      (explode_9 u i (u.data i).explodes_into).map (fun s1 => s1.upd i counted_down) := by
  unfold explosion_tick
  rw [if_pos (by rw [hcd]; decide), if_pos ⟨hcd, by simp [ho]⟩, if_pos hx]
  cases explode_9 u i (u.data i).explodes_into with
  | none => rfl
  | some s1 =>
    simp only [Option.bind_eq_bind, Option.some_bind, Option.pure_def, Option.map_some',
      Option.some.injEq]
    rw [upd_upd]
    rfl

/-- The countdown branch of the explosion block without a cascade. -/
theorem explosion_tick_count (u : Level) (i : Int) (hpos : (u.data i).countdown > 0)
    (hn : ¬ ((u.data i).countdown = EXPLOSION_STEPS ∧
      (u.data i).has_hint HINT_EXPLOSION_ORIGIN = false ∧ (u.data i).explodes = true)) :
    explosion_tick u i = some (u.upd i counted_down) := by
  unfold explosion_tick
  rw [if_pos hpos]
  split_ifs with hc hx
  · exact absurd ⟨hc.1, by simpa using hc.2, hx⟩ hn
  · simp only [Option.bind_eq_bind, Option.pure_def, Option.some_bind, Option.some.injEq]
    rw [upd_upd]
    rfl
  · simp only [Option.bind_eq_bind, Option.pure_def, Option.some_bind, Option.some.injEq]
    rw [upd_upd]
    rfl

/-- The resolution branch of the explosion block. -/
theorem explosion_tick_resolve (u : Level) (i : Int) (hz : (u.data i).countdown ≤ 0) :
    explosion_tick u i = some (u.upd i resolved) := by
  unfold explosion_tick
  rw [if_neg (by omega)]
  simp only [Option.pure_def, Option.some.injEq]
  by_cases h1 : (u.data i).has_hint HINT_EXPLOSION = true
  · rw [if_pos h1, upd_upd, upd_upd]
    apply upd_congr
    unfold resolved
    rw [if_pos h1]
  · rw [if_neg h1]
    by_cases h2 : (u.data i).has_hint HINT_EXPLOSION_INFOTRON = true
    · rw [if_pos h2, upd_upd, upd_upd]
      apply upd_congr
      unfold resolved
      rw [if_neg h1, if_pos h2]
    · rw [if_neg h2]
      apply upd_congr
      unfold resolved
      rw [if_neg h1, if_neg h2]

/-- The type switch does nothing on a skipped cell. -/
theorem dispatch_skip (u : Level) (i : Int) (d : Direction)
    (h : (u.data i).has_hint HINT_SKIP = true) : dispatch u i d = some u := by
  unfold dispatch
  rw [if_neg (by simp [h])]
  rfl

theorem counted_down_skip (f : Field) : (counted_down f).has_hint HINT_SKIP = true := by
  unfold counted_down
  rw [has_hint_set_hint]
  simp +decide

/-! ## C24: the chain reaction -/

theorem own_coords_upd {s : Level} (hc : own_coords s) (i : Int) (g : Field → Field)
    (hg : ∀ f, (g f).coords = f.coords) : own_coords (s.upd i g) := by
  intro j hj
  by_cases h : j = i
  · subst h
    rw [upd_data_same, hg]
    exact hc j hj
  · rw [upd_data_ne _ _ _ _ h]
    exact hc j hj

theorem explodes_affected {f : Field} (h : f.explodes = true) :
    f.affected_by_explosion = true := by
  unfold Field.explodes at h
  unfold Field.affected_by_explosion
  split at h <;> simp_all

/-- C24. Let the scan process a cell `i` that is not skipped and carries an exploding
flag. If its countdown is 3, it lacks the explosion-origin flag and its type explodes,
the scan of the cell is `explode_9` centred on `i`, with fill collectible for a pulsing
hazard and empty otherwise, followed by the decrement of the countdown of `i` (with the
skip flag); for an interior cell of a level whose cells carry their own coordinates
this has a result, in which `i` has countdown 2 and every other affected cell of the
3x3 neighbourhood of `i` carries the exploding flag of the fill and countdown 3.
Otherwise (the cell carries explosion-origin, or its countdown is not 3, or its type
does not explode) the explosion block has a result that differs from the level only in
the cell `i` and leaves `murphy_alive` as it is; the scan of the cell is that result
followed by the type switch, and it is that result itself while the countdown is
positive. -/
theorem chain_reaction (s : Level) (i : Int) (hs : (s.data i).has_hint HINT_SKIP = false)
    (hx : exploding (s.data i)) :
    ((s.data i).countdown = 3 → (s.data i).has_hint HINT_EXPLOSION_ORIGIN = false →
      (s.data i).explodes = true →
      scan_cell s i =
        (explode_9 (s.upd i own_cleared) i
          (if (s.data i).type = FT_STARS then FT_INFOTRON else FT_EMPTY)).map
          (fun u => u.upd i counted_down) ∧
      (own_coords s → interior i →
        ∃ t, scan_cell s i = some t ∧ (t.data i).countdown = 2 ∧
          ∀ j, in_square i j → j ≠ i → (s.data j).affected_by_explosion = true →
            (t.data j).has_hint (if (s.data i).type = FT_STARS then HINT_EXPLOSION_INFOTRON
              else HINT_EXPLOSION) = true ∧ (t.data j).countdown = 3)) ∧
    (¬ ((s.data i).countdown = 3 ∧ (s.data i).has_hint HINT_EXPLOSION_ORIGIN = false ∧
        (s.data i).explodes = true) →
      ∃ u, explosion_tick (s.upd i own_cleared) i = some u ∧
        (∀ j, j ≠ i → u.data j = s.data j) ∧ u.murphy_alive = s.murphy_alive ∧
        scan_cell s i = dispatch u i (npc_direction (s.data i)) ∧
        ((s.data i).countdown > 0 → scan_cell s i = some u)) := by
  have hO : (own_cleared (s.data i)).has_hint HINT_EXPLOSION_ORIGIN =
      (s.data i).has_hint HINT_EXPLOSION_ORIGIN :=
    own_cleared_has_hint _ _ (by decide) (by decide)
  have hX : (own_cleared (s.data i)).explodes = (s.data i).explodes := by
    unfold Field.explodes
    rw [own_cleared_type]
  have hhead := scan_cell_head s i hs
  rw [if_pos hx] at hhead
  constructor
  · intro hcd ho hex
    have hcas := explosion_tick_cascade (s.upd i own_cleared) i
      (by rw [upd_data_same, own_cleared_countdown]; exact hcd)
      (by rw [upd_data_same, hO]; exact ho)
      (by rw [upd_data_same, hX]; exact hex)
    have hfill : ((s.upd i own_cleared).data i).explodes_into =
        (if (s.data i).type = FT_STARS then FT_INFOTRON else FT_EMPTY) := by
      unfold Field.explodes_into
      rw [upd_data_same, own_cleared_type]
    rw [hfill] at hcas
    have heq : scan_cell s i =
        (explode_9 (s.upd i own_cleared) i
          (if (s.data i).type = FT_STARS then FT_INFOTRON else FT_EMPTY)).map
          (fun u => u.upd i counted_down) := by
      rw [hhead, hcas]
      cases explode_9 (s.upd i own_cleared) i
          (if (s.data i).type = FT_STARS then FT_INFOTRON else FT_EMPTY) with
      | none => rfl
      | some u =>
        simp only [Option.map_some', Option.some_bind]
        exact dispatch_skip _ _ _ (by rw [upd_data_same]; exact counted_down_skip _)
    refine ⟨heq, fun hc hi => ?_⟩
    have hc' : own_coords (s.upd i own_cleared) := own_coords_upd hc i _ own_cleared_coords
    have hfe : fill_match (if (s.data i).type = FT_STARS then FT_INFOTRON else FT_EMPTY)
        (if (s.data i).type = FT_STARS then HINT_EXPLOSION_INFOTRON else HINT_EXPLOSION) := by
      split
      · exact Or.inr ⟨rfl, rfl⟩
      · exact Or.inl ⟨rfl, rfl⟩
    obtain ⟨u, hu⟩ := explode_9_interior_some (s.upd i own_cleared) i
      (if (s.data i).type = FT_STARS then FT_INFOTRON else FT_EMPTY) hc' hi
    obtain ⟨h1, -, -, -, -⟩ := explode_9_interior (s.upd i own_cleared) u i _ _ hfe hc' hi hu
    have hii : in_square i i := by
      unfold in_square
      refine ⟨⟨?_, ?_⟩, ?_, ?_⟩ <;> omega
    rw [heq, hu]
    refine ⟨_, rfl, ?_, ?_⟩
    · rw [upd_data_same, h1 i hii (by
        rw [upd_data_same, affected_of_type_eq (own_cleared_type _)]
        exact explodes_affected hex)]
      unfold counted_down
      rw [set_hint_countdown]
      simp only [blasted_countdown]
      decide
    · intro j hj hji ha
      rw [upd_data_ne _ _ _ _ hji, h1 j hj (by rw [upd_data_ne _ _ _ _ hji]; exact ha)]
      refine ⟨?_, rfl⟩
      rw [blasted_has_hint]
      split <;> simp +decide
  · intro hn
    have hn' : ¬ (((s.upd i own_cleared).data i).countdown = EXPLOSION_STEPS ∧
        ((s.upd i own_cleared).data i).has_hint HINT_EXPLOSION_ORIGIN = false ∧
        ((s.upd i own_cleared).data i).explodes = true) := by
      rw [upd_data_same, own_cleared_countdown, hO, hX]
      exact hn
    by_cases hpos : (s.data i).countdown > 0
    · have hcnt := explosion_tick_count (s.upd i own_cleared) i
        (by rw [upd_data_same, own_cleared_countdown]; exact hpos) hn'
      have hsc : scan_cell s i = some ((s.upd i own_cleared).upd i counted_down) := by
        rw [hhead, hcnt, Option.some_bind]
        exact dispatch_skip _ _ _ (by rw [upd_data_same]; exact counted_down_skip _)
      refine ⟨_, hcnt, fun j hj => ?_, rfl, ?_, fun _ => hsc⟩
      · rw [upd_data_ne _ _ _ _ hj, upd_data_ne _ _ _ _ hj]
      · rw [hsc]
        exact (dispatch_skip _ _ _ (by rw [upd_data_same]; exact counted_down_skip _)).symm
    · have hres := explosion_tick_resolve (s.upd i own_cleared) i
        (by rw [upd_data_same, own_cleared_countdown]; omega)
      refine ⟨_, hres, fun j hj => ?_, rfl, ?_, fun h => absurd h hpos⟩
      · rw [upd_data_ne _ _ _ _ hj, upd_data_ne _ _ _ _ hj]
      · rw [hhead, hres, Option.some_bind]

theorem level_chain_coords (h : Nat) (c : Int) : own_coords (level_chain h c) :=
  sparse_level_own_coords _ _ _ _ (by
    intro p hp
    simp only [List.mem_cons, List.mem_singleton, List.not_mem_nil, or_false] at hp
    rcases hp with rfl | rfl | rfl | rfl <;> rfl)

/-- The flagged orange disk at 305 of `level_chain 0 3` cascades: the rock at 245 and
the base cell at 306 are flagged. With the explosion-origin flag
(`level_chain HINT_EXPLOSION_ORIGIN 3`) it does not. -/
theorem chain_reaction_witness :
    (∃ t, scan_cell (level_chain 0 3) 305 = some t ∧ (t.data 305).countdown = 2 ∧
      ((t.data 245).has_hint HINT_EXPLOSION = true ∧ (t.data 245).countdown = 3) ∧
      (t.data 306).has_hint HINT_EXPLOSION = true ∧ (t.data 306).countdown = 3) ∧
    ∃ u, scan_cell (level_chain HINT_EXPLOSION_ORIGIN 3) 305 = some u ∧
      (∀ j, j ≠ 305 → u.data j = (level_chain HINT_EXPLOSION_ORIGIN 3).data j) ∧
      u.murphy_alive = (level_chain HINT_EXPLOSION_ORIGIN 3).murphy_alive := by
  constructor
  · obtain ⟨t, ht, h1, h2⟩ := ((chain_reaction (level_chain 0 3) 305 (by decide)
      (by decide)).1 (by decide) (by decide) (by decide)).2 (level_chain_coords 0 3)
      (by decide)
    exact ⟨t, ht, h1, h2 245 (by decide) (by decide) (by decide),
      h2 306 (by decide) (by decide) (by decide)⟩
  · obtain ⟨u, -, h1, h2, -, h4⟩ := (chain_reaction (level_chain HINT_EXPLOSION_ORIGIN 3) 305
      (by decide) (by decide)).2 (by decide)
    exact ⟨u, h4 (by decide), h1, h2⟩

/-! ## Evaluation of `move_npc` -/

theorem turn_points_inside (c : Point) (d : Direction) (hc : inside c) :
    inside (turn_points c d).1 ∧ inside (turn_points c d).2 := by
  cases d
  · exact ⟨(by decide : inside ⟨0, 0⟩), (by decide : inside ⟨0, 0⟩)⟩
  all_goals exact ⟨next_point_inside _ _ hc, next_point_inside _ _ hc⟩

/-- The turn `move_npc` computes: none with a pending turn flag; else left if the
left-hand cell is free, else right if the right-hand cell is free, else none. -/
theorem can_turn_eq (s : Level) (i : Int) (d : Direction) (hin : inside (s.data i).coords) :
    can_turn s i d = some
      (if (s.data i).has_hint (HINT_TURN_LEFT ||| HINT_TURN_RIGHT) = true then DIR_NONE
        else if free (s.data (data_idx (turn_points (s.data i).coords d).1)) then DIR_LEFT
        else if free (s.data (data_idx (turn_points (s.data i).coords d).2)) then DIR_RIGHT
        else DIR_NONE) := by
  obtain ⟨h1, h2⟩ := turn_points_inside _ d hin
  unfold can_turn free
  by_cases hp : (s.data i).has_hint (HINT_TURN_LEFT ||| HINT_TURN_RIGHT) = true
  · rw [if_neg (by simp [hp]), if_pos hp]
    rfl
  · rw [if_pos hp, if_neg hp, cell_ref_of_in_grid (inside_in_grid h1),
      cell_ref_of_in_grid (inside_in_grid h2)]
    simp only [Option.bind_eq_bind, Option.some_bind, Option.pure_def, Bool.not_eq_true]
    repeat' split
    all_goals rfl

/-- With the turn computed and the forward cell inside the array, `move_npc` is the
forward attempt followed by the turn in place. -/
theorem move_npc_eq (s : Level) (i : Int) (d ct : Direction)
    (hct : can_turn s i d = some ct)
    (hF : in_grid (data_idx (next_point (s.data i).coords d))) :
    move_npc s i d =
      (npc_forward (s.upd i npc_cleared) i (data_idx (next_point (s.data i).coords d)) d ct).map
        (fun p => npc_turn p.1 i d ct p.2) := by
  unfold move_npc
  rw [hct]
  simp only [Option.bind_eq_bind, Option.some_bind, upd_data_same, del_hint_coords]
  rw [cell_ref_of_in_grid hF]
  simp only [Option.some_bind]
  have e : (s.upd i (fun f => f.del_hint (HINT_TURN_LEFT ||| HINT_TURN_RIGHT |||
      HINT_FROM_TOP ||| HINT_FROM_BOTTOM ||| HINT_FROM_LEFT ||| HINT_FROM_RIGHT))) =
      s.upd i npc_cleared := rfl
  rw [e]
  cases npc_forward (s.upd i npc_cleared) i (data_idx (next_point (s.data i).coords d)) d ct with
  | none => rfl
  | some p =>
    obtain ⟨s2, moving⟩ := p
    simp only [Option.some_bind, Option.map_some', Option.pure_def]
    unfold npc_turn
    repeat' split
    all_goals rfl

/-- The forward attempt is not made: a left turn was computed or the forward cell is
currently-leaving. -/
theorem npc_forward_blocked (u : Level) (i F : Int) (d ct : Direction)
    (h : ct = DIR_LEFT ∨ (u.data F).has_hint HINT_LEAVING = true) :
    npc_forward u i F d ct = some (u, false) := by
  unfold npc_forward
  rw [if_neg]
  · rfl
  · rintro ⟨h1, h2⟩
    rcases h with h | h
    · subst h
      rcases h1 with h1 | h1 <;> exact absurd h1 (by decide)
    · exact h2 h

/-- The forward attempt into an empty cell. -/
theorem npc_forward_go (u : Level) (i F : Int) (d ct : Direction)
    (hct : ct ≠ DIR_LEFT) (hd : ct = DIR_NONE ∨ ct = DIR_RIGHT ∨ ct = DIR_LEFT)
    (hl : (u.data F).has_hint HINT_LEAVING = false) (hty : (u.data F).type = FT_EMPTY) :
    npc_forward u i F d ct = some
      (((((u.upd F (fun f => { f with type := (u.data i).type })).upd F
        (fun f => f.set_hint (hint_from_direction d ||| HINT_SKIP))).upd i
        (fun f => { f with type := FT_EMPTY })).upd i
        (fun f => f.set_hint HINT_LEAVING)).upd F (fun f => f.set_hint HINT_SKIP), true) := by
  unfold npc_forward
  rw [if_pos, if_pos hty]
  · rfl
  · refine ⟨?_, by simp [hl]⟩
    rcases hd with h | h | h
    · exact Or.inl h
    · exact Or.inr h
    · exact absurd h hct

/-- The forward attempt against the player. -/
theorem npc_forward_hit (u : Level) (i F : Int) (d ct : Direction)
    (hct : ct ≠ DIR_LEFT) (hd : ct = DIR_NONE ∨ ct = DIR_RIGHT ∨ ct = DIR_LEFT)
    (hl : (u.data F).has_hint HINT_LEAVING = false) (hty : (u.data F).type = FT_MURPHY) :
    npc_forward u i F d ct =
      (explode_9 u F FT_EMPTY).map
        (fun s1 => (s1.upd F (fun f => f.set_hint HINT_SKIP), false)) := by
  unfold npc_forward
  rw [if_pos, if_neg (by rw [hty]; decide), if_pos hty]
  · cases explode_9 u F FT_EMPTY <;> rfl
  · refine ⟨?_, by simp [hl]⟩
    rcases hd with h | h | h
    · exact Or.inl h
    · exact Or.inr h
    · exact absurd h hct

/-- The forward attempt against anything else. -/
theorem npc_forward_stop (u : Level) (i F : Int) (d ct : Direction)
    (hct : ct ≠ DIR_LEFT) (hd : ct = DIR_NONE ∨ ct = DIR_RIGHT ∨ ct = DIR_LEFT)
    (hl : (u.data F).has_hint HINT_LEAVING = false) (hty : (u.data F).type ≠ FT_EMPTY)
    (hty2 : (u.data F).type ≠ FT_MURPHY) :
    npc_forward u i F d ct = some (u.upd F (fun f => f.set_hint HINT_SKIP), false) := by
  unfold npc_forward
  rw [if_pos, if_neg hty, if_neg hty2]
  · rfl
  · refine ⟨?_, by simp [hl]⟩
    rcases hd with h | h | h
    · exact Or.inl h
    · exact Or.inr h
    · exact absurd h hct

/-- The turn `move_npc` computes is none, left or right. -/
theorem can_turn_range (s : Level) (i : Int) (d ct : Direction)
    (h : can_turn s i d = some ct) : ct = DIR_NONE ∨ ct = DIR_RIGHT ∨ ct = DIR_LEFT := by
  unfold can_turn at h
  split at h
  · cases h1 : cell_ref (data_idx (turn_points (s.data i).coords d).1) with
    | none => simp [h1] at h
    | some tl =>
      cases h2 : cell_ref (data_idx (turn_points (s.data i).coords d).2) with
      | none => simp [h1, h2] at h
      | some tr =>
        simp only [h1, h2, Option.bind_eq_bind, Option.some_bind, Option.pure_def] at h
        repeat' split at h
        all_goals
          simp only [Option.some.injEq] at h
          subst h
          simp
  · simp only [Option.pure_def, Option.some.injEq] at h
    subst h
    simp

theorem npc_turn_moving (s2 : Level) (i : Int) (d ct : Direction) :
    npc_turn s2 i d ct true = s2 := by
  unfold npc_turn
  simp

theorem npc_turn_left (s2 : Level) (i : Int) (d : Direction) :
    npc_turn s2 i d DIR_LEFT false =
      s2.upd i (fun f => f.set_hint (hint_from_direction (turn_left d) ||| HINT_TURN_LEFT)) := by
  unfold npc_turn
  simp

theorem npc_turn_right (s2 : Level) (i : Int) (d ct : Direction) (hct : ct ≠ DIR_LEFT) :
    npc_turn s2 i d ct false =
      s2.upd i (fun f => f.set_hint (hint_from_direction (turn_right d) ||| HINT_TURN_RIGHT)) := by
  unfold npc_turn
  simp [hct]

theorem or_and_right (a b : Nat) : (a ||| b) &&& b = b := by
  apply Nat.eq_of_testBit_eq
  intro k
  simp only [Nat.testBit_and, Nat.testBit_or]
  cases a.testBit k <;> cases b.testBit k <;> rfl

theorem or_and_left (a b : Nat) : (a ||| b) &&& a = a := by
  rw [Nat.or_comm]
  exact or_and_right b a

/-! ## C25: hazards go forward when they can -/

theorem npc_cleared_type (f : Field) : (npc_cleared f).type = f.type := rfl

theorem npc_cleared_coords (f : Field) : (npc_cleared f).coords = f.coords := rfl

theorem npc_cleared_countdown (f : Field) : (npc_cleared f).countdown = f.countdown := rfl

theorem hint_from_direction_set (d : Direction) (hd : d ≠ DIR_NONE) (b : Nat) :
    decide ((hint_from_direction d ||| b) &&& hint_from_direction d > 0) = true := by
  rw [or_and_left]
  cases d
  · exact absurd rfl hd
  all_goals decide

/-- C25, amended. Let `move_npc` be evaluated with a heading `d` (not none) on a cell `i` holding a
patrol or pulsing hazard with no pending turn flag, whose coordinates lie in the grid,
and let the forward cell be empty and not currently-leaving. If the left-hand cell
(left of the heading) is not empty or is currently-leaving, the hazard moves forward,
whatever the right-hand cell holds: the forward cell gets the hazard's type, the
arrival flag of `d` and skip-this-tick, and `i` becomes empty and currently-leaving,
without a turn marker. If the left-hand cell is empty and not currently-leaving, the
hazard does not move: it keeps its cell, which gets the turn-left marker and the
arrival flag of the heading rotated left, and the forward cell stays empty. -/
theorem forward_when_possible (s : Level) (i : Int) (d : Direction)
    (hz : hazard (s.data i).type) (hd : d ≠ DIR_NONE) (hin : inside (s.data i).coords)
    (hp : (s.data i).has_hint (HINT_TURN_LEFT ||| HINT_TURN_RIGHT) = false)
    (hF : free (s.data (data_idx (next_point (s.data i).coords d)))) :
    (¬ free (s.data (data_idx (turn_points (s.data i).coords d).1)) →
      ∃ t, move_npc s i d = some t ∧
        (t.data (data_idx (next_point (s.data i).coords d))).type = (s.data i).type ∧
        (t.data (data_idx (next_point (s.data i).coords d))).has_hint
          (hint_from_direction d) = true ∧
        (t.data (data_idx (next_point (s.data i).coords d))).has_hint HINT_SKIP = true ∧
        (t.data i).type = FT_EMPTY ∧ (t.data i).has_hint HINT_LEAVING = true ∧
        (t.data i).has_hint (HINT_TURN_LEFT ||| HINT_TURN_RIGHT) = false) ∧
    (free (s.data (data_idx (turn_points (s.data i).coords d).1)) →
      ∃ t, move_npc s i d = some t ∧
        (t.data i).type = (s.data i).type ∧
        (t.data i).has_hint HINT_TURN_LEFT = true ∧
        (t.data i).has_hint (hint_from_direction (turn_left d)) = true ∧
        (t.data (data_idx (next_point (s.data i).coords d))).type = FT_EMPTY) := by
  have hFg := inside_in_grid (next_point_inside _ d hin)
  have hne : data_idx (next_point (s.data i).coords d) ≠ i := by
    intro e
    rw [e] at hF
    exact hazard_ne_empty hz hF.1
  have hu : ((s.upd i npc_cleared).data (data_idx (next_point (s.data i).coords d))) =
      s.data (data_idx (next_point (s.data i).coords d)) := upd_data_ne _ _ _ _ hne
  have hct := can_turn_eq s i d hin
  rw [if_neg (by simp [hp])] at hct
  constructor
  · intro hL
    rw [if_neg hL] at hct
    have hrange := can_turn_range s i d _ hct
    have hnl : (if free (s.data (data_idx (turn_points (s.data i).coords d).2)) then DIR_RIGHT
        else DIR_NONE) ≠ DIR_LEFT := by
      split <;> decide
    rw [move_npc_eq s i d _ hct hFg,
      npc_forward_go _ i _ d _ hnl hrange (by rw [hu]; exact hF.2) (by rw [hu]; exact hF.1)]
    simp only [Option.map_some', npc_turn_moving]
    refine ⟨_, rfl, ?_, ?_, ?_, ?_, ?_, ?_⟩
    · simp [upd_data, hne, hne.symm, npc_cleared_type]
    · simp only [upd_data_same, upd_data_ne _ _ _ _ hne, has_hint_set_hint,
        has_hint_with_type, hint_from_direction_set d hd, Bool.or_true, Bool.true_or]
    · simp +decide [upd_data, hne, hne.symm, has_hint_set_hint]
    · simp [upd_data, hne, hne.symm]
    · simp +decide [upd_data, hne, hne.symm, has_hint_set_hint]
    · simp only [upd_data_same, upd_data_ne _ _ _ _ hne.symm, has_hint_set_hint,
        has_hint_with_type]
      unfold npc_cleared
      rw [has_hint_del_hint_of_subset _ _ _ (by decide)]
      decide
  · intro hL
    rw [if_pos hL] at hct
    rw [move_npc_eq s i d _ hct hFg, npc_forward_blocked _ i _ d _ (Or.inl rfl)]
    simp only [Option.map_some', npc_turn_left]
    have hdl : turn_left d ≠ DIR_NONE := by
      cases d
      · exact absurd rfl hd
      all_goals decide
    refine ⟨_, rfl, ?_, ?_, ?_, ?_⟩
    · simp [npc_cleared_type]
    · rw [upd_data_same, has_hint_set_hint, or_and_right]
      simp +decide
    · rw [upd_data_same, has_hint_set_hint, hint_from_direction_set _ hdl, Bool.or_true]
    · rw [upd_data_ne _ _ _ _ hne, hu]
      exact hF.1

/-- In `level_patrol_free FT_BASE 0` the hazard at 305 heading up, with a base cell to
its left, moves into the empty cell 245; in `level_patrol_free FT_EMPTY 0` the cell to
its left is free and it turns left in place. -/
theorem forward_when_possible_witness :
    (∃ t, move_npc (level_patrol_free FT_BASE 0) 305 DIR_UP = some t ∧
      (t.data (data_idx (next_point ((level_patrol_free FT_BASE 0).data 305).coords
        DIR_UP))).type = ((level_patrol_free FT_BASE 0).data 305).type ∧
      (t.data (data_idx (next_point ((level_patrol_free FT_BASE 0).data 305).coords
        DIR_UP))).has_hint (hint_from_direction DIR_UP) = true ∧
      (t.data (data_idx (next_point ((level_patrol_free FT_BASE 0).data 305).coords
        DIR_UP))).has_hint HINT_SKIP = true ∧
      (t.data 305).type = FT_EMPTY ∧ (t.data 305).has_hint HINT_LEAVING = true ∧
      (t.data 305).has_hint (HINT_TURN_LEFT ||| HINT_TURN_RIGHT) = false) ∧
    ∃ t, move_npc (level_patrol_free FT_EMPTY 0) 305 DIR_UP = some t ∧
      (t.data 305).type = ((level_patrol_free FT_EMPTY 0).data 305).type ∧
      (t.data 305).has_hint HINT_TURN_LEFT = true ∧
      (t.data 305).has_hint (hint_from_direction (turn_left DIR_UP)) = true ∧
      (t.data (data_idx (next_point ((level_patrol_free FT_EMPTY 0).data 305).coords
        DIR_UP))).type = FT_EMPTY :=
  ⟨(forward_when_possible (level_patrol_free FT_BASE 0) 305 DIR_UP (by decide) (by decide)
      (by decide) (by decide) (by decide)).1 (by decide),
    (forward_when_possible (level_patrol_free FT_EMPTY 0) 305 DIR_UP (by decide) (by decide)
      (by decide) (by decide) (by decide)).2 (by decide)⟩

/-- C25 as stated fails: in `level_patrol_free FT_EMPTY 0` the hazard at 305 has no
pending turn flag and heads up (the heading the scan decodes from its flags), the
forward cell 245 is empty and not currently-leaving, and the cell 304 to its left is
free; `move_npc` leaves the hazard at 305 and the forward cell empty. -/
theorem forward_when_possible_counterexample :
    hazard ((level_patrol_free FT_EMPTY 0).data 305).type ∧
    npc_direction ((level_patrol_free FT_EMPTY 0).data 305) = DIR_UP ∧
    ((level_patrol_free FT_EMPTY 0).data 305).has_hint (HINT_TURN_LEFT ||| HINT_TURN_RIGHT) =
      false ∧
    data_idx (next_point ((level_patrol_free FT_EMPTY 0).data 305).coords DIR_UP) = 245 ∧
    free ((level_patrol_free FT_EMPTY 0).data 245) ∧
    (move_npc (level_patrol_free FT_EMPTY 0) 305 DIR_UP).map
      (fun t => ((t.data 305).type, (t.data 245).type)) = some (FT_SNIK_SNAK, FT_EMPTY) := by
  refine ⟨by decide, by decide, by decide, by decide, by decide, ?_⟩
  decide

/-! ## C26: hazards are lethal on contact -/

/-- Setting flags on a cell keeps every type, every countdown and every flag that
is set. -/
theorem upd_set_hint_keeps (s : Level) (k : Int) (a : Nat) (j : Int) :
    ((s.upd k (fun f => f.set_hint a)).data j).type = (s.data j).type ∧
    ((s.upd k (fun f => f.set_hint a)).data j).countdown = (s.data j).countdown ∧
    ∀ b, (s.data j).has_hint b = true →
      ((s.upd k (fun f => f.set_hint a)).data j).has_hint b = true := by
  by_cases hj : j = k
  · subst hj
    refine ⟨by simp, by simp, fun b hb => ?_⟩
    rw [upd_data_same, has_hint_set_hint, hb, Bool.true_or]
  · rw [upd_data_ne _ _ _ _ hj]
    exact ⟨rfl, rfl, fun _ hb => hb⟩

/-- C26, amended. Let `move_npc` be evaluated with a heading `d` (not none) on a cell
`i` holding a patrol or pulsing hazard, in a level whose cells carry their own
coordinates, and let the forward cell `F` be an interior cell that holds the player
and is not currently-leaving. If a turn flag is pending on `i`, or the left-hand cell
is not empty or is currently-leaving, `move_npc` has a result in which `murphy_alive`
is false, `F` carries the explosion-origin flag, every cell of the 3x3 neighbourhood
of `F` that is affected by explosions carries the exploding-to-empty flag and
countdown 3, and no cell has changed its type (the hazard does not translate). If no
turn flag is pending and the left-hand cell is empty and not currently-leaving,
`move_npc` has a result in which `murphy_alive`, every type and every countdown are
unchanged and the hazard's cell carries the turn-left marker: nothing explodes. -/
theorem lethal_on_contact (s : Level) (i : Int) (d : Direction)
    (hz : hazard (s.data i).type) (hd : d ≠ DIR_NONE) (hc : own_coords s) (hi : in_grid i)
    (hint : interior (data_idx (next_point (s.data i).coords d)))
    (hty : (s.data (data_idx (next_point (s.data i).coords d))).type = FT_MURPHY)
    (hlv : (s.data (data_idx (next_point (s.data i).coords d))).has_hint HINT_LEAVING = false) :
    (((s.data i).has_hint (HINT_TURN_LEFT ||| HINT_TURN_RIGHT) = true ∨
        ¬ free (s.data (data_idx (turn_points (s.data i).coords d).1))) →
      ∃ t, move_npc s i d = some t ∧ t.murphy_alive = false ∧
        (t.data (data_idx (next_point (s.data i).coords d))).has_hint
          HINT_EXPLOSION_ORIGIN = true ∧
        (∀ j, in_square (data_idx (next_point (s.data i).coords d)) j →
          (s.data j).affected_by_explosion = true →
          (t.data j).has_hint HINT_EXPLOSION = true ∧ (t.data j).countdown = 3) ∧
        ∀ j, (t.data j).type = (s.data j).type) ∧
    ((s.data i).has_hint (HINT_TURN_LEFT ||| HINT_TURN_RIGHT) = false →
      free (s.data (data_idx (turn_points (s.data i).coords d).1)) →
      ∃ t, move_npc s i d = some t ∧ t.murphy_alive = s.murphy_alive ∧
        (t.data i).has_hint HINT_TURN_LEFT = true ∧
        ∀ j, (t.data j).type = (s.data j).type ∧ (t.data j).countdown = (s.data j).countdown ∧
          (t.data j).has_hint HINT_EXPLOSION = (s.data j).has_hint HINT_EXPLOSION) := by
  have hin := own_coords_inside hc hi
  have hFg := interior_in_grid hint
  have hne : data_idx (next_point (s.data i).coords d) ≠ i := by
    intro e
    rw [e] at hty
    rcases hz with h | h <;> rw [h] at hty <;> exact absurd hty (by decide)
  have hu : ((s.upd i npc_cleared).data (data_idx (next_point (s.data i).coords d))) =
      s.data (data_idx (next_point (s.data i).coords d)) := upd_data_ne _ _ _ _ hne
  have hcu : own_coords (s.upd i npc_cleared) := own_coords_upd hc i _ npc_cleared_coords
  have hut : ∀ j, ((s.upd i npc_cleared).data j).type = (s.data j).type := by
    intro j
    by_cases hj : j = i
    · subst hj
      rw [upd_data_same, npc_cleared_type]
    · rw [upd_data_ne _ _ _ _ hj]
  have hct := can_turn_eq s i d hin
  constructor
  · intro hcase
    obtain ⟨ct, hct', hnl⟩ : ∃ ct, can_turn s i d = some ct ∧ ct ≠ DIR_LEFT := by
      refine ⟨_, hct, ?_⟩
      rcases hcase with hp | hL
      · rw [if_pos hp]
        decide
      · rw [if_neg hL]
        repeat' split
        all_goals decide
    have hrange := can_turn_range s i d ct hct'
    obtain ⟨u, hu9⟩ := explode_9_interior_some (s.upd i npc_cleared)
      (data_idx (next_point (s.data i).coords d)) FT_EMPTY hcu hint
    obtain ⟨b1, b2, b3, -, -⟩ := explode_9_interior (s.upd i npc_cleared) u
      (data_idx (next_point (s.data i).coords d)) FT_EMPTY HINT_EXPLOSION (Or.inl ⟨rfl, rfl⟩)
      hcu hint hu9
    have hFF : in_square (data_idx (next_point (s.data i).coords d))
        (data_idx (next_point (s.data i).coords d)) := by
      unfold in_square
      refine ⟨⟨?_, ?_⟩, ?_, ?_⟩ <;> omega
    have hFaff : ((s.upd i npc_cleared).data
        (data_idx (next_point (s.data i).coords d))).affected_by_explosion = true := by
      rw [hu]
      unfold Field.affected_by_explosion
      rw [hty]
    rw [move_npc_eq s i d ct hct' hFg,
      npc_forward_hit _ i _ d ct hnl hrange (by rw [hu]; exact hlv) (by rw [hu]; exact hty),
      hu9]
    simp only [Option.map_some', npc_turn_right _ i d ct hnl]
    refine ⟨_, rfl, ?_, ?_, ?_, ?_⟩
    · show u.murphy_alive = false
      rw [b3]
      exact Or.inr ⟨_, hFF, by rw [hu]; exact hty⟩
    · apply (upd_set_hint_keeps _ _ _ _).2.2
      apply (upd_set_hint_keeps _ _ _ _).2.2
      rw [b1 _ hFF hFaff, blasted_has_hint, upd_data_same, has_hint_set_hint]
      simp +decide
    · intro j hj ha
      have hja : ((s.upd i npc_cleared).data j).affected_by_explosion = true := by
        rw [affected_of_type_eq (hut j)]
        exact ha
      refine ⟨?_, ?_⟩
      · apply (upd_set_hint_keeps _ _ _ _).2.2
        apply (upd_set_hint_keeps _ _ _ _).2.2
        rw [b1 j hj hja, blasted_has_hint]
        simp +decide
      · rw [(upd_set_hint_keeps _ _ _ _).2.1, (upd_set_hint_keeps _ _ _ _).2.1, b1 j hj hja]
        rfl
    · intro j
      rw [(upd_set_hint_keeps _ _ _ _).1, (upd_set_hint_keeps _ _ _ _).1]
      have hus : ∀ v : Field, ((s.upd i npc_cleared).upd (data_idx (next_point (s.data i).coords d))
          (fun f => f.set_hint HINT_EXPLOSION_ORIGIN)).data j = v → v.type = (s.data j).type := by
        rintro v rfl
        rw [(upd_set_hint_keeps _ _ _ _).1]
        exact hut j
      by_cases hh : in_square (data_idx (next_point (s.data i).coords d)) j ∧
          ((s.upd i npc_cleared).data j).affected_by_explosion = true
      · rw [b1 j hh.1 hh.2, blasted_type]
        exact hus _ rfl
      · rw [b2 j hh]
        exact hus _ rfl
  · intro hp hL
    rw [if_neg (by simp [hp]), if_pos hL] at hct
    rw [move_npc_eq s i d _ hct hFg, npc_forward_blocked _ i _ d _ (Or.inl rfl)]
    simp only [Option.map_some', npc_turn_left]
    refine ⟨_, rfl, rfl, ?_, fun j => ?_⟩
    · rw [upd_data_same, has_hint_set_hint, or_and_right]
      simp +decide
    · by_cases hj : j = i
      · subst hj
        rw [upd_data_same, upd_data_same]
        refine ⟨rfl, rfl, ?_⟩
        rw [has_hint_set_hint]
        unfold npc_cleared
        rw [has_hint_del_hint_of_disjoint _ _ _ (by decide)]
        have h0 : decide ((hint_from_direction (turn_left d) ||| HINT_TURN_LEFT) &&&
            HINT_EXPLOSION > 0) = false := by
          cases d <;> decide
        rw [h0, Bool.or_false]
      · rw [upd_data_ne _ _ _ _ hj, upd_data_ne _ _ _ _ hj]
        exact ⟨rfl, rfl, rfl⟩

theorem level_patrol_hit_coords (l : FieldType) (h : Nat) :
    own_coords (level_patrol_hit l h) :=
  sparse_level_own_coords _ _ _ _ (by
    intro p hp
    simp only [List.mem_cons, List.mem_singleton, List.not_mem_nil, or_false] at hp
    rcases hp with rfl | rfl | rfl | rfl | rfl <;> rfl)

/-- In `level_patrol_hit FT_BASE 0` the hazard at 305 heads up into the player at 245,
with a base cell to its left: the player dies. In `level_patrol_hit FT_EMPTY 0` the
cell to its left is free: the hazard turns left and the player lives. -/
theorem lethal_on_contact_witness :
    (∃ t, move_npc (level_patrol_hit FT_BASE 0) 305 DIR_UP = some t ∧
      t.murphy_alive = false ∧ (t.data 245).has_hint HINT_EXPLOSION_ORIGIN = true ∧
      ((t.data 245).has_hint HINT_EXPLOSION = true ∧ (t.data 245).countdown = 3) ∧
      ((t.data 305).has_hint HINT_EXPLOSION = true ∧ (t.data 305).countdown = 3) ∧
      ∀ j, (t.data j).type = ((level_patrol_hit FT_BASE 0).data j).type) ∧
    ∃ t, move_npc (level_patrol_hit FT_EMPTY 0) 305 DIR_UP = some t ∧
      t.murphy_alive = (level_patrol_hit FT_EMPTY 0).murphy_alive ∧
      (t.data 305).has_hint HINT_TURN_LEFT = true ∧
      ∀ j, (t.data j).type = ((level_patrol_hit FT_EMPTY 0).data j).type ∧
        (t.data j).countdown = ((level_patrol_hit FT_EMPTY 0).data j).countdown ∧
        (t.data j).has_hint HINT_EXPLOSION =
          ((level_patrol_hit FT_EMPTY 0).data j).has_hint HINT_EXPLOSION := by
  constructor
  · obtain ⟨t, ht, h1, h2, h3, h4⟩ :=
      (lethal_on_contact (level_patrol_hit FT_BASE 0) 305 DIR_UP (by decide) (by decide)
        (level_patrol_hit_coords FT_BASE 0) (by decide) (by decide) (by decide)
        (by decide)).1 (Or.inr (by decide))
    exact ⟨t, ht, h1, h2, h3 245 (by decide) (by decide), h3 305 (by decide) (by decide), h4⟩
  · exact (lethal_on_contact (level_patrol_hit FT_EMPTY 0) 305 DIR_UP (by decide) (by decide)
      (level_patrol_hit_coords FT_EMPTY 0) (by decide) (by decide) (by decide)
      (by decide)).2 (by decide) (by decide)

/-- C26 as stated fails: in `level_patrol_hit FT_EMPTY 0` the hazard at 305 heads up,
its forward cell 245 holds the player and is not currently-leaving, and the cell 304
to its left is free; `move_npc` leaves the player alive and flags no cell. -/
theorem lethal_on_contact_counterexample :
    hazard ((level_patrol_hit FT_EMPTY 0).data 305).type ∧
    npc_direction ((level_patrol_hit FT_EMPTY 0).data 305) = DIR_UP ∧
    data_idx (next_point ((level_patrol_hit FT_EMPTY 0).data 305).coords DIR_UP) = 245 ∧
    ((level_patrol_hit FT_EMPTY 0).data 245).type = FT_MURPHY ∧
    ((level_patrol_hit FT_EMPTY 0).data 245).has_hint HINT_LEAVING = false ∧
    (level_patrol_hit FT_EMPTY 0).murphy_alive = true ∧
    (move_npc (level_patrol_hit FT_EMPTY 0) 305 DIR_UP).map
      (fun t => (t.murphy_alive, (t.data 245).has_hint HINT_EXPLOSION,
        (t.data 245).countdown)) = some (true, false, 0) := by
  refine ⟨by decide, by decide, by decide, by decide, by decide, rfl, ?_⟩
  decide

/-! ## C27: turning in place -/

/-- The six flags `move_npc` clears: the arrival flags and the turn markers. -/
theorem npc_cleared_has_hint (f : Field) :
    (npc_cleared f).has_hint (HINT_TURN_LEFT ||| HINT_TURN_RIGHT ||| HINT_FROM_TOP |||
      HINT_FROM_BOTTOM ||| HINT_FROM_LEFT ||| HINT_FROM_RIGHT) = false := by
  unfold npc_cleared
  exact has_hint_del_hint_of_subset _ _ _ (by decide)

/-- The hazard's cell when `move_npc` has not moved the hazard, before the turn is
written: its type is unchanged and it carries no arrival flag and no turn marker. -/
theorem npc_forward_stay (s : Level) (i F : Int) (d ct : Direction) (s2 : Level)
    (hz : hazard (s.data i).type)
    (h : npc_forward (s.upd i npc_cleared) i F d ct = some (s2, false)) :
    (s2.data i).type = (s.data i).type ∧
    (s2.data i).has_hint (HINT_TURN_LEFT ||| HINT_TURN_RIGHT ||| HINT_FROM_TOP |||
      HINT_FROM_BOTTOM ||| HINT_FROM_LEFT ||| HINT_FROM_RIGHT) = false := by
  have hu : ((s.upd i npc_cleared).data i).type = (s.data i).type ∧
      ((s.upd i npc_cleared).data i).has_hint (HINT_TURN_LEFT ||| HINT_TURN_RIGHT |||
        HINT_FROM_TOP ||| HINT_FROM_BOTTOM ||| HINT_FROM_LEFT ||| HINT_FROM_RIGHT) = false := by
    rw [upd_data_same]
    exact ⟨rfl, npc_cleared_has_hint _⟩
  have hset : ∀ (v : Level) (k : Int) (a : Nat),
      decide (a &&& (HINT_TURN_LEFT ||| HINT_TURN_RIGHT ||| HINT_FROM_TOP |||
        HINT_FROM_BOTTOM ||| HINT_FROM_LEFT ||| HINT_FROM_RIGHT) > 0) = false →
      ((v.data i).type = (s.data i).type ∧
        (v.data i).has_hint (HINT_TURN_LEFT ||| HINT_TURN_RIGHT ||| HINT_FROM_TOP |||
          HINT_FROM_BOTTOM ||| HINT_FROM_LEFT ||| HINT_FROM_RIGHT) = false) →
      (((v.upd k (fun f => f.set_hint a)).data i).type = (s.data i).type ∧
        ((v.upd k (fun f => f.set_hint a)).data i).has_hint (HINT_TURN_LEFT |||
          HINT_TURN_RIGHT ||| HINT_FROM_TOP ||| HINT_FROM_BOTTOM ||| HINT_FROM_LEFT |||
          HINT_FROM_RIGHT) = false) := by
    intro v k a ha hv
    by_cases hk : i = k
    · subst hk
      rw [upd_data_same, has_hint_set_hint, ha, hv.2]
      exact ⟨hv.1, rfl⟩
    · rw [upd_data_ne _ _ _ _ hk]
      exact hv
  unfold npc_forward at h
  split at h
  · split at h
    · simp at h
    · split at h
      · next hc hne hm =>
        cases h9 : explode_9 (s.upd i npc_cleared) F FT_EMPTY with
        | none => simp [h9] at h
        | some u =>
          simp only [h9, Option.bind_eq_bind, Option.some_bind, Option.pure_def,
            Option.some.injEq, Prod.mk.injEq, and_true] at h
          subst h
          apply hset _ _ _ (by decide)
          have hb := explode_9_blast _ u F FT_EMPTY HINT_EXPLOSION (Or.inl ⟨rfl, rfl⟩) h9
          have hFi : i ≠ F := by
            rintro rfl
            rw [upd_data_same, npc_cleared_type] at hm
            rcases hz with hh | hh <;> rw [hh] at hm <;> exact absurd hm (by decide)
          have h0 : ((s.upd i npc_cleared).upd F
              (fun f => f.set_hint HINT_EXPLOSION_ORIGIN)).data i =
              (s.upd i npc_cleared).data i := upd_data_ne _ _ _ _ hFi
          by_cases hh : (((s.upd i npc_cleared).upd F
              (fun f => f.set_hint HINT_EXPLOSION_ORIGIN)).data i).affected_by_explosion = true ∧
              ∃ p, box ((s.upd i npc_cleared).data F).coords p ∧ data_idx p = i
          · rw [hb.1 i hh.1 hh.2, h0, blasted_type, blasted_has_hint, hu.2]
            exact ⟨hu.1, by decide⟩
          · rw [hb.2.1 i hh, h0]
            exact hu
      · simp only [Option.pure_def, Option.some.injEq, Prod.mk.injEq, and_true] at h
        subst h
        exact hset _ _ _ (by decide) hu
  · simp only [Option.pure_def, Option.some.injEq, Prod.mk.injEq, and_true] at h
    subst h
    exact hu

/-- The flags of a cell without arrival flags and turn markers after the turn has
been written with the direction `e` and the marker `m`. -/
theorem turn_flags (X : Field) (e : Direction) (m : Nat) (he : e ≠ DIR_NONE)
    (hm : m = HINT_TURN_LEFT ∨ m = HINT_TURN_RIGHT)
    (hX : X.has_hint (HINT_TURN_LEFT ||| HINT_TURN_RIGHT ||| HINT_FROM_TOP |||
      HINT_FROM_BOTTOM ||| HINT_FROM_LEFT ||| HINT_FROM_RIGHT) = false) :
    (∀ e2, e2 ≠ DIR_NONE →
      ((X.set_hint (hint_from_direction e ||| m)).has_hint (hint_from_direction e2) = true ↔
        e2 = e)) ∧
    (X.set_hint (hint_from_direction e ||| m)).has_hint m = true ∧
    (∀ m2, (m2 = HINT_TURN_LEFT ∨ m2 = HINT_TURN_RIGHT) → m2 ≠ m →
      (X.set_hint (hint_from_direction e ||| m)).has_hint m2 = false) ∧
    npc_direction (X.set_hint (hint_from_direction e ||| m)) = e := by
  have hsub : ∀ b, b &&& (HINT_TURN_LEFT ||| HINT_TURN_RIGHT ||| HINT_FROM_TOP |||
      HINT_FROM_BOTTOM ||| HINT_FROM_LEFT ||| HINT_FROM_RIGHT) = b → X.has_hint b = false := by
    intro b hb
    cases hv : X.has_hint b with
    | false => rfl
    | true =>
      unfold Field.has_hint at hv hX
      simp only [decide_eq_true_eq, decide_eq_false_iff_not, not_lt, Nat.le_zero_eq] at hv hX
      have : X.hint &&& b = 0 := by
        rw [← hb, ← Nat.and_assoc, Nat.and_comm X.hint b, Nat.and_assoc, hX, Nat.and_zero]
      omega
  have hfrom : ∀ e2 : Direction, X.has_hint (hint_from_direction e2) = false := by
    intro e2
    cases e2
    · unfold Field.has_hint
      simp [hint_from_direction, HINT_NONE]
    all_goals exact hsub _ (by decide)
  have hL : X.has_hint HINT_TURN_LEFT = false := hsub _ (by decide)
  have hR : X.has_hint HINT_TURN_RIGHT = false := hsub _ (by decide)
  have hB : X.has_hint HINT_FROM_BOTTOM = false := hsub _ (by decide)
  have hT : X.has_hint HINT_FROM_TOP = false := hsub _ (by decide)
  have hFL : X.has_hint HINT_FROM_LEFT = false := hsub _ (by decide)
  have hFR : X.has_hint HINT_FROM_RIGHT = false := hsub _ (by decide)
  refine ⟨?_, ?_, ?_, ?_⟩
  · intro e2 he2
    rw [has_hint_set_hint, hfrom e2, Bool.false_or]
    rcases hm with rfl | rfl <;> cases e <;> cases e2 <;>
      first
        | exact absurd rfl he
        | exact absurd rfl he2
        | decide
  · rw [has_hint_set_hint, or_and_right]
    rcases hm with rfl | rfl <;> simp +decide
  · intro m2 hm2 hne
    rw [has_hint_set_hint]
    rcases hm with rfl | rfl <;> rcases hm2 with rfl | rfl
    · exact absurd rfl hne
    · rw [hR, Bool.false_or]
      cases e <;> first | exact absurd rfl he | decide
    · rw [hL, Bool.false_or]
      cases e <;> first | exact absurd rfl he | decide
    · exact absurd rfl hne
  · unfold npc_direction
    simp only [has_hint_set_hint, hB, hT, hFL, hFR, Bool.false_or]
    rcases hm with rfl | rfl <;> cases e <;> first | exact absurd rfl he | decide

/-- The forward attempt reports a move only when no left turn was computed and the
forward cell is empty and not currently-leaving. -/
theorem npc_forward_moving (u : Level) (i F : Int) (d ct : Direction) (s2 : Level)
    (h : npc_forward u i F d ct = some (s2, true)) :
    (ct = DIR_NONE ∨ ct = DIR_RIGHT) ∧ (u.data F).has_hint HINT_LEAVING = false ∧
      (u.data F).type = FT_EMPTY := by
  unfold npc_forward at h
  split at h
  · next hc =>
    split at h
    · next hty => exact ⟨hc.1, by simpa using hc.2, hty⟩
    · split at h
      · cases h9 : explode_9 u F FT_EMPTY with
        | none => simp [h9] at h
        | some v => simp [h9] at h
      · simp at h
  · simp at h

/-- C27. Let `move_npc` be evaluated with a heading `d` (not none) on a cell `i`
holding a patrol or pulsing hazard whose coordinates lie in the grid, in a state in
which it does not move the hazard forward: a left turn is computed (no turn flag is
pending and the left-hand cell is empty and not currently-leaving), or the forward
cell is not empty or is currently-leaving. Then `move_npc` has a result whenever the
forward cell does not hold the player or is an interior cell of a level whose cells
carry their own coordinates, and in every result the hazard's cell keeps its type and
carries exactly one arrival flag and exactly one turn marker: if a left turn was
computed, the arrival flag of `turn_left d` and turn-left, otherwise the arrival flag
of `turn_right d` and turn-right; and the heading that the scan decodes from the
flags of the cell is `turn_left d`, respectively `turn_right d`. -/
theorem turning_in_place (s : Level) (i : Int) (d : Direction)
    (hz : hazard (s.data i).type) (hd : d ≠ DIR_NONE) (hin : inside (s.data i).coords)
    (hstay : ((s.data i).has_hint (HINT_TURN_LEFT ||| HINT_TURN_RIGHT) = false ∧
        free (s.data (data_idx (turn_points (s.data i).coords d).1))) ∨
      ¬ free (s.data (data_idx (next_point (s.data i).coords d)))) :
    (((s.data (data_idx (next_point (s.data i).coords d))).type ≠ FT_MURPHY ∨
        (own_coords s ∧ interior (data_idx (next_point (s.data i).coords d)))) →
      ∃ t, move_npc s i d = some t) ∧
    ∀ t, move_npc s i d = some t →
      (t.data i).type = (s.data i).type ∧
      (((s.data i).has_hint (HINT_TURN_LEFT ||| HINT_TURN_RIGHT) = false ∧
          free (s.data (data_idx (turn_points (s.data i).coords d).1))) →
        (∀ e, e ≠ DIR_NONE →
          ((t.data i).has_hint (hint_from_direction e) = true ↔ e = turn_left d)) ∧
        (t.data i).has_hint HINT_TURN_LEFT = true ∧
        (t.data i).has_hint HINT_TURN_RIGHT = false ∧
        npc_direction (t.data i) = turn_left d) ∧
      (¬ ((s.data i).has_hint (HINT_TURN_LEFT ||| HINT_TURN_RIGHT) = false ∧
          free (s.data (data_idx (turn_points (s.data i).coords d).1))) →
        (∀ e, e ≠ DIR_NONE →
          ((t.data i).has_hint (hint_from_direction e) = true ↔ e = turn_right d)) ∧
        (t.data i).has_hint HINT_TURN_RIGHT = true ∧
        (t.data i).has_hint HINT_TURN_LEFT = false ∧
        npc_direction (t.data i) = turn_right d) := by
  have hFg := inside_in_grid (next_point_inside _ d hin)
  have hdl : turn_left d ≠ DIR_NONE := by
    cases d
    · exact absurd rfl hd
    all_goals decide
  have hdr : turn_right d ≠ DIR_NONE := by
    cases d
    · exact absurd rfl hd
    all_goals decide
  obtain ⟨ct, hct, hleft⟩ : ∃ ct, can_turn s i d = some ct ∧
      (ct = DIR_LEFT ↔ ((s.data i).has_hint (HINT_TURN_LEFT ||| HINT_TURN_RIGHT) = false ∧
        free (s.data (data_idx (turn_points (s.data i).coords d).1)))) := by
    refine ⟨_, can_turn_eq s i d hin, ?_⟩
    by_cases hp : (s.data i).has_hint (HINT_TURN_LEFT ||| HINT_TURN_RIGHT) = true
    · rw [if_pos hp]
      constructor
      · intro h; exact absurd h (by decide)
      · intro h; rw [h.1] at hp; exact absurd hp (by simp)
    · rw [if_neg hp]
      by_cases hL : free (s.data (data_idx (turn_points (s.data i).coords d).1))
      · rw [if_pos hL]
        exact ⟨fun _ => ⟨by simpa using hp, hL⟩, fun _ => rfl⟩
      · rw [if_neg hL]
        constructor
        · intro h
          split at h <;> exact absurd h (by decide)
        · intro h; exact absurd h.2 hL
  have hrange := can_turn_range s i d ct hct
  have hFu : ((s.upd i npc_cleared).data (data_idx (next_point (s.data i).coords d))).type =
      (s.data (data_idx (next_point (s.data i).coords d))).type ∧
      ((s.upd i npc_cleared).data (data_idx (next_point (s.data i).coords d))).has_hint
        HINT_LEAVING = (s.data (data_idx (next_point (s.data i).coords d))).has_hint
        HINT_LEAVING := by
    by_cases hj : data_idx (next_point (s.data i).coords d) = i
    · rw [hj, upd_data_same]
      refine ⟨rfl, ?_⟩
      unfold npc_cleared
      exact has_hint_del_hint_of_disjoint _ _ _ (by decide)
    · rw [upd_data_ne _ _ _ _ hj]
      exact ⟨rfl, rfl⟩
  rw [move_npc_eq s i d ct hct hFg]
  constructor
  · intro hex
    by_cases hb : ct = DIR_LEFT ∨
        ((s.upd i npc_cleared).data (data_idx (next_point (s.data i).coords d))).has_hint
          HINT_LEAVING = true
    · rw [npc_forward_blocked _ i _ d ct hb]
      exact ⟨_, rfl⟩
    · have hnl : ct ≠ DIR_LEFT := fun h => hb (Or.inl h)
      have hlv : ((s.upd i npc_cleared).data
          (data_idx (next_point (s.data i).coords d))).has_hint HINT_LEAVING = false := by
        cases hv : ((s.upd i npc_cleared).data
          (data_idx (next_point (s.data i).coords d))).has_hint HINT_LEAVING with
        | false => rfl
        | true => exact absurd (Or.inr hv) hb
      by_cases hE : ((s.upd i npc_cleared).data
          (data_idx (next_point (s.data i).coords d))).type = FT_EMPTY
      · rw [npc_forward_go _ i _ d ct hnl hrange hlv hE]
        exact ⟨_, rfl⟩
      · by_cases hM : ((s.upd i npc_cleared).data
            (data_idx (next_point (s.data i).coords d))).type = FT_MURPHY
        · rw [npc_forward_hit _ i _ d ct hnl hrange hlv hM]
          rcases hex with hne | ⟨hc, hint⟩
          · rw [hFu.1] at hM
            exact absurd hM hne
          · obtain ⟨u, hu⟩ := explode_9_interior_some (s.upd i npc_cleared)
              (data_idx (next_point (s.data i).coords d)) FT_EMPTY
              (own_coords_upd hc i _ npc_cleared_coords) hint
            rw [hu]
            exact ⟨_, rfl⟩
        · rw [npc_forward_stop _ i _ d ct hnl hrange hlv hE hM]
          exact ⟨_, rfl⟩
  · intro t ht
    cases hf : npc_forward (s.upd i npc_cleared) i
        (data_idx (next_point (s.data i).coords d)) d ct with
    | none => simp [hf] at ht
    | some p =>
      obtain ⟨s2, moving⟩ := p
      simp only [hf, Option.map_some', Option.some.injEq] at ht
      have hmv : moving = false := by
        cases moving with
        | false => rfl
        | true =>
          obtain ⟨m1, m2, m3⟩ := npc_forward_moving _ _ _ _ _ _ hf
          rcases hstay with hs | hs
          · have := hleft.mpr hs
            subst this
            rcases m1 with h | h <;> exact absurd h (by decide)
          · exact absurd ⟨by rw [← hFu.1]; exact m3, by rw [← hFu.2]; exact m2⟩ hs
      subst hmv
      obtain ⟨x1, x2⟩ := npc_forward_stay s i _ d ct s2 hz hf
      by_cases hl : ct = DIR_LEFT
      · subst hl
        rw [npc_turn_left] at ht
        subst ht
        rw [upd_data_same]
        obtain ⟨f1, f2, f3, f4⟩ := turn_flags (s2.data i) (turn_left d) HINT_TURN_LEFT hdl
          (Or.inl rfl) x2
        refine ⟨x1, fun _ => ⟨f1, f2, f3 _ (Or.inr rfl) (by decide), f4⟩,
          fun hn => absurd (hleft.mp rfl) hn⟩
      · rw [npc_turn_right _ _ _ _ hl] at ht
        subst ht
        rw [upd_data_same]
        obtain ⟨f1, f2, f3, f4⟩ := turn_flags (s2.data i) (turn_right d) HINT_TURN_RIGHT hdr
          (Or.inr rfl) x2
        refine ⟨x1, fun hh => absurd (hleft.mpr hh) hl,
          fun _ => ⟨f1, f2, f3 _ (Or.inl rfl) (by decide), f4⟩⟩

/-- In `level_patrol_free FT_EMPTY 0` the hazard at 305 heading up turns left; in
`level_patrol_hit FT_BASE 0`, blocked by the player above it, it turns right. -/
theorem turning_in_place_witness :
    (∃ t, move_npc (level_patrol_free FT_EMPTY 0) 305 DIR_UP = some t ∧
      (t.data 305).type = FT_SNIK_SNAK ∧ (t.data 305).has_hint HINT_TURN_LEFT = true ∧
      (t.data 305).has_hint HINT_TURN_RIGHT = false ∧
      npc_direction (t.data 305) = DIR_LEFT) ∧
    ∃ t, move_npc (level_patrol_hit FT_BASE 0) 305 DIR_UP = some t ∧
      (t.data 305).type = FT_SNIK_SNAK ∧ (t.data 305).has_hint HINT_TURN_RIGHT = true ∧
      (t.data 305).has_hint HINT_TURN_LEFT = false ∧
      npc_direction (t.data 305) = DIR_RIGHT := by
  have h1 := turning_in_place (level_patrol_free FT_EMPTY 0) 305 DIR_UP (by decide)
    (by decide) (by decide) (Or.inl (by decide))
  have h2 := turning_in_place (level_patrol_hit FT_BASE 0) 305 DIR_UP (by decide)
    (by decide) (by decide) (Or.inr (by decide))
  constructor
  · obtain ⟨t, ht⟩ := h1.1 (Or.inl (by decide))
    obtain ⟨a, b, -⟩ := h1.2 t ht
    obtain ⟨-, b2, b3, b4⟩ := b (by decide)
    exact ⟨t, ht, a, b2, b3, b4⟩
  · obtain ⟨t, ht⟩ := h2.1 (Or.inr ⟨level_patrol_hit_coords FT_BASE 0, by decide⟩)
    obtain ⟨a, -, c⟩ := h2.2 t ht
    obtain ⟨-, c2, c3, c4⟩ := c (by decide)
    exact ⟨t, ht, a, c2, c3, c4⟩

/-! ## C28: the cached position and the live player -/

theorem level_ghost_start_run (evs : List GameEvent) :
    run level_ghost_start evs =
      sparse_run [186, 246, 304, 305, 306, 366] level_ghost_start evs :=
  run_sparse_level _ _ _ _ evs (by decide) (by decide) (by decide)

theorem level_ghost_step :
    game_step level_ghost = sparse_step [186, 246, 304, 305, 306, 366] level_ghost :=
  game_step_sparse_level _ _ _ _ (by decide) (by decide) (by decide)

theorem level_ghost_unique (j : Int) : (level_ghost.data j).type = FT_MURPHY → j = 305 :=
  sparse_level_forall _ true DIR_NONE ⟨5, 5⟩ (fun j f => f.type = FT_MURPHY → j = 305)
    (fun j _ h => by simp [border_cell, cell_at] at h) (by decide) j

/-- C28, the defect. In `level_ghost` the player is alive and the cell 305 at the cached
player position is the only cell of type player; it carries a stale exploding flag
with countdown 0. After `game_step` with no intent `murphy_alive` is still true (and
`game_step` returns true), the cached position is unchanged, and the cell there is
empty: the live player has disappeared from the grid. The level arises from the
flag-free `level_ghost_start` by the rounds of `ghost_events`: a rock falls on an
orange disk, the explosion flags the empty cell 305, and the player steps into it
while it counts down. -/
theorem live_player_disappears :
    level_ghost.murphy_alive = true ∧
    data_idx level_ghost.murphy = 305 ∧
    (level_ghost.data 305).type = FT_MURPHY ∧
    (∀ j, (level_ghost.data j).type = FT_MURPHY → j = 305) ∧
    (game_step level_ghost).map
      (fun p => (p.2, p.1.murphy_alive, p.1.murphy, (p.1.data 305).type)) =
      some (true, true, ⟨5, 5⟩, FT_EMPTY) ∧
    (run level_ghost_start ghost_events).map
      (fun u => ([186, 246, 304, 305, 306, 366].map u.data, u.murphy_alive, u.murphy)) =
      some ([186, 246, 304, 305, 306, 366].map level_ghost.data, true, level_ghost.murphy) := by
  refine ⟨rfl, by decide, by decide, level_ghost_unique, ?_, ?_⟩
  · rw [level_ghost_step]
    decide
  · rw [level_ghost_start_run]
    decide!

/-! ## Where loose rocks come from: the steps of a tick -/

theorem rockKept_refl (u : Level) : RockKept u u := fun _ h => h

theorem rockKept_trans {u v w : Level} (a : RockKept u v) (b : RockKept v w) : RockKept u w :=
  fun j h => a j (b j h)

theorem rockKept_of_types {u v : Level} (h : ∀ j, (v.data j).type = (u.data j).type) :
    RockKept u v := fun j hj => by rw [← h j]; exact hj

theorem rockKept_moved {u v w : Level} {a b : Int} (h1 : RockKept u v)
    (h2 : RockMoved a b v w) : RockMoved a b u w :=
  ⟨h2.1, h2.2.1, h2.2.2.1, h1 _ h2.2.2.2.1, h2.2.2.2.2.1, h2.2.2.2.2.2.1,
    fun j hj hz => h1 j (h2.2.2.2.2.2.2 j hj hz)⟩

theorem rockMoved_types {u v w : Level} {a b : Int} (h1 : RockMoved a b u v)
    (h2 : ∀ j, (w.data j).type = (v.data j).type)
    (h3 : (w.data a).has_hint HINT_SKIP = true) : RockMoved a b u w :=
  ⟨h1.1, h1.2.1, h1.2.2.1, h1.2.2.2.1, by rw [h2]; exact h1.2.2.2.2.1, h3,
    fun j hj hz => h1.2.2.2.2.2.2 j hj (by rw [← h2]; exact hz)⟩

/-- One cell of an explosion changes no type, whatever the fill. -/
theorem explode_cell_type (fill : FieldType) (s t : Level) (p : Point)
    (h : explode_cell fill s p = some t) (j : Int) : (t.data j).type = (s.data j).type := by
  unfold explode_cell at h
  cases hr : cell_ref (data_idx p) with
  | none => simp [hr] at h
  | some fld =>
    simp only [hr, Option.bind_eq_bind, Option.some_bind, Option.pure_def, Option.some.injEq] at h
    have hdata : ∀ u : Level, (if (u.data fld).type = FT_MURPHY then
        { u with murphy_alive := false } else u).data = u.data := by
      intro u
      split <;> rfl
    rw [← h, hdata]
    repeat' split
    all_goals
      by_cases hj : j = fld
      · subst hj
        simp
      · simp [upd_data, hj]

/-- An explosion changes no type, whatever the fill. -/
theorem explode_9_type (s t : Level) (origin : Int) (fill : FieldType)
    (h : explode_9 s origin fill = some t) (j : Int) : (t.data j).type = (s.data j).type := by
  unfold explode_9 at h
  have h0 : ((s.upd origin (fun f => f.set_hint HINT_EXPLOSION_ORIGIN)).data j).type =
      (s.data j).type := (upd_set_hint_keeps s origin _ j).1
  rw [← h0]
  refine foldlM_rel (fun u v => (v.data j).type = (u.data j).type) (fun _ => rfl)
    (fun _ _ _ a b => b.trans a) _ ?_ _ _ _ h
  intro u y v hv
  refine foldlM_rel (fun u v => (v.data j).type = (u.data j).type) (fun _ => rfl)
    (fun _ _ _ a b => b.trans a) _ ?_ _ _ _ hv
  intro u2 x v2 hv2
  exact explode_cell_type fill u2 v2 _ hv2 j

/-- The pattern of a fall or a roll: the object of `i` goes to the empty cell `a`,
which gets flags that include skip-this-tick. -/
theorem move_pattern_rock (u : Level) (a i : Int) (m : Nat) (ha : in_grid a) (hi : in_grid i)
    (hty : (u.data a).type = FT_EMPTY) (hm : decide (m &&& HINT_SKIP > 0) = true) :
    RockKept u ((((u.upd a (fun f => { f with type := (u.data i).type })).upd i
        (fun f => { f with type := FT_EMPTY })).upd a (fun f => f.set_hint m)).upd i
        (fun f => f.del_hint HINT_FALL)) ∨
    RockMoved a i u ((((u.upd a (fun f => { f with type := (u.data i).type })).upd i
        (fun f => { f with type := FT_EMPTY })).upd a (fun f => f.set_hint m)).upd i
        (fun f => f.del_hint HINT_FALL)) := by
  have hother : ∀ j, j ≠ a → j ≠ i →
      (((((u.upd a (fun f => { f with type := (u.data i).type })).upd i
        (fun f => { f with type := FT_EMPTY })).upd a (fun f => f.set_hint m)).upd i
        (fun f => f.del_hint HINT_FALL)).data j) = u.data j := by
    intro j h1 h2
    simp [upd_data, h1, h2]
  have hsrc : (((((u.upd a (fun f => { f with type := (u.data i).type })).upd i
        (fun f => { f with type := FT_EMPTY })).upd a (fun f => f.set_hint m)).upd i
        (fun f => f.del_hint HINT_FALL)).data i).type = FT_EMPTY := by
    rw [upd_data_same, del_hint_type]
    by_cases hai : i = a
    · subst hai
      rw [upd_data_same, set_hint_type, upd_data_same]
    · rw [upd_data_ne _ _ _ _ hai, upd_data_same]
  by_cases hz : (u.data i).type = FT_ZONK
  · right
    have hne : a ≠ i := by
      rintro rfl
      rw [hty] at hz
      exact absurd hz (by decide)
    refine ⟨hne, ha, hi, hz, by rw [hsrc]; decide, ?_, ?_⟩
    · rw [upd_data_ne _ _ _ _ hne, upd_data_same, has_hint_set_hint, hm, Bool.or_true]
    · intro j hja hj
      by_cases hji : j = i
      · subst hji
        rw [hsrc] at hj
        exact absurd hj (by decide)
      · rw [hother j hja hji] at hj
        exact hj
  · left
    intro j hj
    by_cases hji : j = i
    · subst hji
      rw [hsrc] at hj
      exact absurd hj (by decide)
    · by_cases hja : j = a
      · subst hja
        rw [upd_data_ne _ _ _ _ hji, upd_data_same, set_hint_type,
          upd_data_ne _ _ _ _ hji, upd_data_same] at hj
        exact absurd hj hz
      · rw [hother j hja hji] at hj
        exact hj

/-- The outcomes of the roll branch of `fall`. -/
theorem roll_cases (u w : Level) (i : Int) (h : roll u i = some w) :
    w = u ∨ ∃ a m, ((a = data_idx (next_point (u.data i).coords DIR_LEFT) ∧
          m = HINT_FROM_RIGHT ||| HINT_SKIP) ∨
        (a = data_idx (next_point (u.data i).coords DIR_RIGHT) ∧
          m = HINT_FROM_LEFT ||| HINT_SKIP)) ∧
      in_grid a ∧ (u.data a).type = FT_EMPTY ∧
      w = ((u.upd a (fun f => { f with type := (u.data i).type })).upd i
        (fun f => { f with type := FT_EMPTY })).upd a (fun f => f.set_hint m) := by
  unfold roll at h
  cases hl : cell_ref (data_idx (next_point (u.data i).coords DIR_LEFT)) with
  | none => simp [hl] at h
  | some l =>
  cases hr : cell_ref (data_idx (next_point (u.data i).coords DIR_RIGHT)) with
  | none => simp [hl, hr] at h
  | some r =>
  obtain ⟨hle, hlg⟩ := cell_ref_eq_some hl
  obtain ⟨hre, hrg⟩ := cell_ref_eq_some hr
  simp only [hl, hr, Option.bind_eq_bind, Option.some_bind] at h
  cases hlb : cell_ref (data_idx (next_point (u.data l).coords DIR_DOWN)) with
  | none => simp [hlb] at h
  | some lb =>
  cases hrb : cell_ref (data_idx (next_point (u.data r).coords DIR_DOWN)) with
  | none => simp [hlb, hrb] at h
  | some rb =>
  simp only [hlb, hrb, Option.some_bind, Option.pure_def] at h
  split at h
  · next hc =>
    split at h
    · right
      refine ⟨l, _, Or.inl ⟨hle, rfl⟩, by rw [hle]; exact hlg, hc.1, ?_⟩
      exact (Option.some.inj h).symm
    · exact Or.inl (Option.some.inj h).symm
  · split at h
    · next hc =>
      split at h
      · right
        refine ⟨r, _, Or.inr ⟨hre, rfl⟩, by rw [hre]; exact hrg, hc.1, ?_⟩
        exact (Option.some.inj h).symm
      · exact Or.inl (Option.some.inj h).symm
    · exact Or.inl (Option.some.inj h).symm

theorem rockKept_del_fall (u w : Level) (i : Int)
    (h : ∀ j, (w.data j).type = (u.data j).type) :
    RockKept u (w.upd i (fun f => f.del_hint HINT_FALL)) := by
  apply rockKept_of_types
  intro j
  by_cases hj : j = i
  · subst hj
    rw [upd_data_same, del_hint_type]
    exact h j
  · rw [upd_data_ne _ _ _ _ hj]
    exact h j

/-- Where the rocks are after `fall`: no cell has become a rock, or the rock of the
cell `fall` was invoked on has gone to the cell below, left or right of it. -/
theorem fall_rock (u v : Level) (i : Int) (d : Bool) (hi : in_grid i)
    (h : fall u i d = some v) :
    RockKept u v ∨ ∃ a, near u i a ∧ RockMoved a i u v := by
  unfold fall at h
  cases hb : cell_ref (data_idx (next_point (u.data i).coords DIR_DOWN)) with
  | none => simp [hb] at h
  | some below =>
  obtain ⟨hbe, hbg⟩ := cell_ref_eq_some hb
  simp only [hb, Option.bind_eq_bind, Option.some_bind, Option.pure_def] at h
  cases hsw : fall_switch u i below d with
  | none => simp [hsw] at h
  | some w =>
  simp only [hsw, Option.some_bind, Option.some.injEq] at h
  subst h
  have same : w = u → RockKept u (w.upd i (fun f => f.del_hint HINT_FALL)) := by
    rintro rfl
    exact rockKept_del_fall _ _ i (fun _ => rfl)
  have boom : ∀ o fill, explode_9 u o fill = some w →
      RockKept u (w.upd i (fun f => f.del_hint HINT_FALL)) :=
    fun o fill h9 => rockKept_del_fall _ _ i (explode_9_type u w o fill h9)
  unfold fall_switch at hsw
  split at hsw
  · next hty =>
    split at hsw
    · simp only [Option.pure_def, Option.some.injEq] at hsw
      subst hsw
      rcases move_pattern_rock u below i (HINT_FALL ||| HINT_SKIP) (by rw [hbe]; exact hbg) hi
        hty (by decide) with hk | hm
      · exact Or.inl hk
      · exact Or.inr ⟨below, Or.inl hbe, hm⟩
    · exact Or.inl (same (Option.some.inj hsw).symm)
  · split at hsw
    · exact Or.inl (boom _ _ hsw)
    · exact Or.inl (same (Option.some.inj hsw).symm)
  · split at hsw
    · exact Or.inl (boom _ _ hsw)
    · exact Or.inl (same (Option.some.inj hsw).symm)
  · split at hsw
    · exact Or.inl (boom _ _ hsw)
    · exact Or.inl (same (Option.some.inj hsw).symm)
  · split at hsw
    · exact Or.inl (boom _ _ hsw)
    · exact Or.inl (same (Option.some.inj hsw).symm)
  · split at hsw
    · exact Or.inl (boom _ _ hsw)
    · split at hsw
      · rcases roll_cases u w i hsw with rfl | ⟨a, m, ham, hag, hat, rfl⟩
        · exact Or.inl (same rfl)
        · have hm : decide (m &&& HINT_SKIP > 0) = true := by
            rcases ham with ⟨-, rfl⟩ | ⟨-, rfl⟩ <;> decide
          rcases move_pattern_rock u a i m hag hi hat hm with hk | hmv
          · exact Or.inl hk
          · refine Or.inr ⟨a, ?_, hmv⟩
            rcases ham with ⟨e, -⟩ | ⟨e, -⟩
            · exact Or.inr (Or.inl e)
            · exact Or.inr (Or.inr e)
      · exact Or.inl (same (Option.some.inj hsw).symm)

/-- The forward attempt of a hazard makes no cell a rock. -/
theorem npc_forward_rock (u s2 : Level) (i F : Int) (d ct : Direction) (moving : Bool)
    (hz : hazard (u.data i).type) (h : npc_forward u i F d ct = some (s2, moving)) :
    RockKept u s2 := by
  have hnz : (u.data i).type ≠ FT_ZONK := by
    rcases hz with e | e <;> rw [e] <;> decide
  unfold npc_forward at h
  split at h
  · split at h
    · simp only [Option.pure_def, Option.some.injEq, Prod.mk.injEq] at h
      obtain ⟨h, -⟩ := h
      subst h
      intro j hj
      by_cases hji : j = i
      · subst hji
        by_cases hjF : j = F
        · subst hjF
          simp [upd_data] at hj
        · simp [upd_data, hjF] at hj
      · by_cases hjF : j = F
        · subst hjF
          simp [upd_data, hji] at hj
          exact absurd hj hnz
        · simpa [upd_data, hji, hjF] using hj
    · split at h
      · cases h9 : explode_9 u F FT_EMPTY with
        | none => simp [h9] at h
        | some w =>
          simp only [h9, Option.bind_eq_bind, Option.some_bind, Option.pure_def,
            Option.some.injEq, Prod.mk.injEq] at h
          obtain ⟨h, -⟩ := h
          subst h
          apply rockKept_of_types
          intro j
          rw [(upd_set_hint_keeps _ _ _ _).1]
          exact explode_9_type u w F FT_EMPTY h9 j
      · simp only [Option.pure_def, Option.some.injEq, Prod.mk.injEq] at h
        obtain ⟨h, -⟩ := h
        subst h
        exact rockKept_of_types (fun j => (upd_set_hint_keeps _ _ _ _).1)
  · simp only [Option.pure_def, Option.some.injEq, Prod.mk.injEq] at h
    obtain ⟨h, -⟩ := h
    subst h
    exact rockKept_refl u

/-- A hazard makes no cell a rock. -/
theorem move_npc_rock (u v : Level) (i : Int) (d : Direction)
    (hz : hazard (u.data i).type) (h : move_npc u i d = some v) : RockKept u v := by
  unfold move_npc at h
  cases hct : can_turn u i d with
  | none => simp [hct] at h
  | some ct =>
  simp only [hct, Option.bind_eq_bind, Option.some_bind] at h
  rw [upd_data_same, del_hint_coords] at h
  cases hn : cell_ref (data_idx (next_point (u.data i).coords d)) with
  | none => simp [hn] at h
  | some F =>
  simp only [hn, Option.some_bind] at h
  cases hf : npc_forward (u.upd i (fun f => f.del_hint (HINT_TURN_LEFT ||| HINT_TURN_RIGHT |||
      HINT_FROM_TOP ||| HINT_FROM_BOTTOM ||| HINT_FROM_LEFT ||| HINT_FROM_RIGHT))) i F d ct with
  | none => simp [hf] at h
  | some p =>
  obtain ⟨s2, moving⟩ := p
  simp only [hf, Option.some_bind] at h
  have h1 : RockKept u (u.upd i (fun f => f.del_hint (HINT_TURN_LEFT ||| HINT_TURN_RIGHT |||
      HINT_FROM_TOP ||| HINT_FROM_BOTTOM ||| HINT_FROM_LEFT ||| HINT_FROM_RIGHT))) := by
    apply rockKept_of_types
    intro j
    by_cases hj : j = i
    · subst hj
      simp
    · simp [upd_data, hj]
  have h2 := npc_forward_rock _ s2 i F d ct moving (by rw [upd_data_same]; exact hz) hf
  have h12 := rockKept_trans h1 h2
  split at h
  · simp only [Option.pure_def, Option.some.injEq] at h
    subst h
    exact rockKept_trans h12 (rockKept_of_types (fun j => (upd_set_hint_keeps _ _ _ _).1))
  · split at h
    · simp only [Option.pure_def, Option.some.injEq] at h
      subst h
      exact rockKept_trans h12 (rockKept_of_types (fun j => (upd_set_hint_keeps _ _ _ _).1))
    · simp only [Option.pure_def, Option.some.injEq] at h
      subst h
      exact h12

/-- The explosion block of the scan makes no cell a rock. -/
theorem explosion_tick_rock (u v : Level) (i : Int) (h : explosion_tick u i = some v) :
    RockKept u v := by
  by_cases hpos : (u.data i).countdown > 0
  · by_cases hc : (u.data i).countdown = EXPLOSION_STEPS ∧
        (u.data i).has_hint HINT_EXPLOSION_ORIGIN = false ∧ (u.data i).explodes = true
    · rw [explosion_tick_cascade u i hc.1 hc.2.1 hc.2.2] at h
      cases h9 : explode_9 u i (u.data i).explodes_into with
      | none => simp [h9] at h
      | some w =>
        simp only [h9, Option.map_some', Option.some.injEq] at h
        subst h
        apply rockKept_of_types
        intro j
        by_cases hj : j = i
        · subst hj
          rw [upd_data_same]
          exact explode_9_type u w j _ h9 j
        · rw [upd_data_ne _ _ _ _ hj]
          exact explode_9_type u w i _ h9 j
    · rw [explosion_tick_count u i hpos hc] at h
      simp only [Option.some.injEq] at h
      subst h
      apply rockKept_of_types
      intro j
      by_cases hj : j = i
      · subst hj
        rw [upd_data_same]
        rfl
      · rw [upd_data_ne _ _ _ _ hj]
  · rw [explosion_tick_resolve u i (by omega)] at h
    simp only [Option.some.injEq] at h
    subst h
    intro j hj
    by_cases hji : j = i
    · subst hji
      rw [upd_data_same] at hj
      unfold resolved at hj
      rw [del_hint_type] at hj
      split at hj
      · rw [del_hint_type] at hj
        exact absurd hj (by simp)
      · split at hj
        · rw [del_hint_type] at hj
          exact absurd hj (by simp)
        · exact hj
    · rw [upd_data_ne _ _ _ _ hji] at hj
      exact hj

theorem touch_coords {f g : Field} (h : Touch f g) : g.coords = f.coords := by
  cases h <;> rfl

theorem act_coords {f g : Field} (h : Act f g) : g.coords = f.coords := by
  cases h with
  | touch _ ht => exact touch_coords ht
  | _ => rfl

theorem own_write_coords {f g : Field} (h : Own f g) : g.coords = f.coords := by
  cases h with
  | act _ ha => exact act_coords ha
  | _ => rfl

theorem touchPath_coords {f g : Field} (h : TouchPath f g) : g.coords = f.coords := by
  induction h with
  | refl => rfl
  | tail _ hs ih => exact (touch_coords hs).trans ih

theorem ownPath_coords {f g : Field} (h : OwnPath f g) : g.coords = f.coords := by
  induction h with
  | refl => rfl
  | tail _ hs ih => exact (own_write_coords hs).trans ih

/-- The scan of a cell changes no coordinates. -/
theorem scan_cell_coords (u v : Level) (i : Int) (h : scan_cell u i = some v) (j : Int) :
    (v.data j).coords = (u.data j).coords := by
  have hr := scan_cell_rel u v i h
  by_cases hj : j = i
  · subst hj
    exact ownPath_coords hr.own
  · exact touchPath_coords (hr.cells j hj)

/-- The scan of a cell removes no skip flag. -/
theorem scan_cell_skip_mono (u v : Level) (i : Int) (h : scan_cell u i = some v) (j : Int)
    (hs : (u.data j).has_hint HINT_SKIP = true) : (v.data j).has_hint HINT_SKIP = true := by
  by_cases hj : j = i
  · subst hj
    rw [scan_cell_skip u j hs] at h
    rw [← Option.some.inj h]
    exact hs
  · exact touchPath_has_hint_mono ((scan_cell_rel u v i h).cells j hj) _ hs

/-- Where the rocks are after the scan of the cell `i`: no cell has become a rock, or
the rock of `i`, which was not skipped, has gone to the cell below, left or right of
it. -/
theorem scan_cell_rock (u v : Level) (i : Int) (hi : in_grid i)
    (h : scan_cell u i = some v) :
    RockKept u v ∨
      ∃ a, near u i a ∧ RockMoved a i u v ∧ (u.data i).has_hint HINT_SKIP = false := by
  by_cases hs : (u.data i).has_hint HINT_SKIP = true
  · rw [scan_cell_skip u i hs] at h
    rw [← Option.some.inj h]
    exact Or.inl (rockKept_refl u)
  · have hs' : (u.data i).has_hint HINT_SKIP = false := by simpa using hs
    rw [scan_cell_head u i hs'] at h
    cases h3 : (if exploding (u.data i) then explosion_tick (u.upd i own_cleared) i
        else some (u.upd i own_cleared)) with
    | none => simp [h3] at h
    | some s3 =>
    simp only [h3, Option.some_bind] at h
    have k0 : RockKept u (u.upd i own_cleared) := by
      apply rockKept_of_types
      intro j
      by_cases hj : j = i
      · subst hj
        rw [upd_data_same, own_cleared_type]
      · rw [upd_data_ne _ _ _ _ hj]
    have hk : RockKept u s3 ∧ (s3.data i).coords = (u.data i).coords := by
      split at h3
      · next hx =>
        refine ⟨rockKept_trans k0 (explosion_tick_rock _ _ _ h3), ?_⟩
        have hr := explosion_tick_rel (u.upd i own_cleared) s3 i (by
          rw [upd_data_same, own_cleared_has_hint _ _ (by decide) (by decide),
            own_cleared_has_hint _ _ (by decide) (by decide)]
          exact hx) h3
        rw [ownPath_coords hr.own, upd_data_same, own_cleared_coords]
      · rw [← Option.some.inj h3]
        exact ⟨k0, by rw [upd_data_same, own_cleared_coords]⟩
    obtain ⟨k1, hco⟩ := hk
    have viafall : ∀ d, fall s3 i d = some v →
        RockKept u v ∨
          ∃ a, near u i a ∧ RockMoved a i u v ∧ (u.data i).has_hint HINT_SKIP = false := by
      intro d hf
      rcases fall_rock s3 v i d hi hf with hk | ⟨a, hn, hm⟩
      · exact Or.inl (rockKept_trans k1 hk)
      · refine Or.inr ⟨a, ?_, rockKept_moved k1 hm, hs'⟩
        unfold near at hn ⊢
        rw [hco] at hn
        exact hn
    unfold dispatch at h
    split at h
    · split at h
      · exact viafall _ h
      · exact viafall _ h
      · exact viafall _ h
      · next hty => exact Or.inl (rockKept_trans k1 (move_npc_rock _ _ _ _ (Or.inl hty) h))
      · next hty => exact Or.inl (rockKept_trans k1 (move_npc_rock _ _ _ _ (Or.inr hty) h))
      · rw [← Option.some.inj h]
        exact Or.inl k1
    · rw [← Option.some.inj h]
      exact Or.inl k1

/-! ## Where loose rocks come from: movement resolution -/

theorem committed_type (w : Level) (next : Point) (fld j : Int) :
    ((committed w next fld).data j).type =
      (if j = fld then FT_MURPHY else if j = data_idx w.murphy then FT_EMPTY
        else (w.data j).type) := by
  unfold committed
  simp only
  by_cases h1 : j = data_idx w.murphy
  · subst h1
    by_cases h2 : data_idx w.murphy = fld
    · subst h2
      split <;> simp [upd_data]
    · have h2' : fld ≠ data_idx w.murphy := fun e => h2 e.symm
      split <;> simp [upd_data, h2, h2']
  · by_cases h2 : j = fld
    · subst h2
      split <;> simp [upd_data, h1]
    · split <;> simp [upd_data, h1, h2]

/-- After the commit of a move a rock is neither in the entered cell nor in the
vacated cell, and elsewhere nothing has changed. -/
theorem committed_rock (w : Level) (next : Point) (fld j : Int)
    (h : ((committed w next fld).data j).type = FT_ZONK) :
    j ≠ fld ∧ j ≠ data_idx w.murphy ∧ (committed w next fld).data j = w.data j := by
  rw [committed_type] at h
  by_cases h2 : j = fld
  · rw [if_pos h2] at h
    exact absurd h (by decide)
  · rw [if_neg h2] at h
    by_cases h1 : j = data_idx w.murphy
    · rw [if_pos h1] at h
      exact absurd h (by decide)
    · exact ⟨h2, h1, committed_data_ne w next fld j h1 h2⟩

theorem committed_coords (w : Level) (next : Point) (fld j : Int) :
    ((committed w next fld).data j).coords = (w.data j).coords := by
  unfold committed
  simp only
  by_cases h1 : j = data_idx w.murphy
  · subst h1
    by_cases h2 : data_idx w.murphy = fld
    · subst h2
      split <;> simp [upd_data]
    · have h2' : fld ≠ data_idx w.murphy := fun e => h2 e.symm
      split <;> simp [upd_data, h2, h2']
  · by_cases h2 : j = fld
    · subst h2
      split <;> simp [upd_data, h1]
    · split <;> simp [upd_data, h1, h2]

/-- The target switch of movement resolution changes no type, or it executes a push:
the type of the target goes to the empty cell beyond it, flagged skip-this-tick, and
the move is allowed. -/
theorem target_switch_rock (u s2 : Level) (next : Point) (fld m : Int) (allow : Bool)
    (h : target_switch u next fld m = some (s2, allow)) :
    ((∀ j, (s2.data j).type = (u.data j).type) ∧ ∀ j, (s2.data j).coords = (u.data j).coords) ∨
    (allow = true ∧ in_grid (data_idx (next_point next u.next_move)) ∧
      (u.data (data_idx (next_point next u.next_move))).type = FT_EMPTY ∧
      (s2.data (data_idx (next_point next u.next_move))).type = (u.data fld).type ∧
      (s2.data (data_idx (next_point next u.next_move))).has_hint HINT_SKIP = true ∧
      (∀ j, j ≠ data_idx (next_point next u.next_move) → (s2.data j).type = (u.data j).type) ∧
      (∀ j, (s2.data j).coords = (u.data j).coords) ∧
      ((u.data fld).type = FT_ZONK → u.next_move = DIR_LEFT ∨ u.next_move = DIR_RIGHT)) := by
  have hset : ∀ (w : Level) (k : Int) (a : Nat),
      (∀ j, ((w.upd k (fun f => f.set_hint a)).data j).type = (w.data j).type) ∧
      ∀ j, ((w.upd k (fun f => f.set_hint a)).data j).coords = (w.data j).coords := by
    intro w k a
    refine ⟨fun j => (upd_set_hint_keeps w k a j).1, fun j => ?_⟩
    by_cases hj : j = k
    · subst hj
      rw [upd_data_same, set_hint_coords]
    · rw [upd_data_ne _ _ _ _ hj]
  have hboom : ∀ (w w2 : Level) (o : Int) (fill : FieldType), explode_9 w o fill = some w2 →
      (∀ j, (w2.data j).type = (w.data j).type) ∧
      ∀ j, (w2.data j).coords = (w.data j).coords := by
    intro w w2 o fill h9
    refine ⟨explode_9_type w w2 o fill h9, fun j => ?_⟩
    unfold explode_9 at h9
    have h0 : ((w.upd o (fun f => f.set_hint HINT_EXPLOSION_ORIGIN)).data j).coords =
        (w.data j).coords := (hset w o _).2 j
    rw [← h0]
    refine foldlM_rel (fun a b => (b.data j).coords = (a.data j).coords) (fun _ => rfl)
      (fun _ _ _ a b => b.trans a) _ ?_ _ _ _ h9
    intro a y b hb
    refine foldlM_rel (fun a b => (b.data j).coords = (a.data j).coords) (fun _ => rfl)
      (fun _ _ _ a b => b.trans a) _ ?_ _ _ _ hb
    intro a2 x b2 hb2
    exact touchPath_coords ((explode_cell_rel fill a2 b2 _ hb2).cells j)
  have henter : ∀ (w : Level), enter_free w fld m = some (s2, allow) →
      (∀ j, (s2.data j).type = (w.data j).type) ∧
      ∀ j, (s2.data j).coords = (w.data j).coords := by
    intro w he
    unfold enter_free at he
    split at he
    · cases h9 : explode_9 w fld FT_BASE with
      | none => simp [h9] at he
      | some w2 =>
        simp only [h9, Option.bind_eq_bind, Option.some_bind, Option.pure_def, Option.some.injEq,
          Prod.mk.injEq] at he
        rw [← he.1]
        exact hboom w w2 fld FT_BASE h9
    · simp only [Option.pure_def, Option.some.injEq, Prod.mk.injEq] at he
      rw [← he.1]
      exact ⟨fun _ => rfl, fun _ => rfl⟩
  have hpush : push u next fld m = some (s2, allow) →
      ((∀ j, (s2.data j).type = (u.data j).type) ∧
        ∀ j, (s2.data j).coords = (u.data j).coords) ∨
      (allow = true ∧ in_grid (data_idx (next_point next u.next_move)) ∧
        (u.data (data_idx (next_point next u.next_move))).type = FT_EMPTY ∧
        (s2.data (data_idx (next_point next u.next_move))).type = (u.data fld).type ∧
        (s2.data (data_idx (next_point next u.next_move))).has_hint HINT_SKIP = true ∧
        (∀ j, j ≠ data_idx (next_point next u.next_move) →
          (s2.data j).type = (u.data j).type) ∧
        (∀ j, (s2.data j).coords = (u.data j).coords) ∧
        ((u.data fld).type = FT_ZONK → u.next_move = DIR_LEFT ∨ u.next_move = DIR_RIGHT)) := by
    intro hp
    unfold push at hp
    split at hp
    · cases h9 : explode_9 u fld FT_BASE with
      | none => simp [h9] at hp
      | some w2 =>
        simp only [h9, Option.bind_eq_bind, Option.some_bind, Option.pure_def, Option.some.injEq,
          Prod.mk.injEq] at hp
        rw [← hp.1]
        exact Or.inl (hboom u w2 fld FT_BASE h9)
    · split at hp
      · next hdir =>
        cases hR : cell_ref (data_idx (next_point next u.next_move)) with
        | none => simp [hR] at hp
        | some R =>
          obtain ⟨hRe, hRg⟩ := cell_ref_eq_some hR
          rw [← hRe] at hRg ⊢
          simp only [hR, Option.bind_eq_bind, Option.some_bind] at hp
          split at hp
          · next hfree =>
            split at hp
            · simp only [Option.pure_def, Option.some.injEq, Prod.mk.injEq] at hp
              obtain ⟨hp1, hp2⟩ := hp
              right
              have hfm : ∀ k, ((u.upd m (fun f => f.set_hint HINT_PUSH)).data k).type =
                  (u.data k).type := fun k => (upd_set_hint_keeps u m _ k).1
              rw [hfm fld] at hp1
              have key : ∀ j, (s2.data j).type =
                  (if j = R then (u.data fld).type else (u.data j).type) ∧
                  (s2.data j).coords = (u.data j).coords ∧
                  (j = R → (s2.data j).has_hint HINT_SKIP = true) := by
                intro j
                rw [← hp1]
                by_cases hjm : j = m
                · subst hjm
                  by_cases hjR : j = R
                  · subst hjR
                    refine ⟨?_, ?_, fun _ => ?_⟩
                    · simp [upd_data]
                    · simp [upd_data]
                    · simp +decide [upd_data, has_hint_set_hint]
                  · refine ⟨?_, ?_, fun e => absurd e hjR⟩
                    · simp [upd_data, hjR]
                    · simp [upd_data, hjR]
                · by_cases hjR : j = R
                  · subst hjR
                    refine ⟨?_, ?_, fun _ => ?_⟩
                    · simp [upd_data, hjm]
                    · simp [upd_data, hjm]
                    · simp +decide [upd_data, hjm, has_hint_set_hint]
                  · refine ⟨?_, ?_, fun e => absurd e hjR⟩
                    · simp [upd_data, hjm, hjR]
                    · simp [upd_data, hjm, hjR]
              refine ⟨hp2.symm, hRg, hfree.1, ?_, (key R).2.2 rfl, ?_, fun j => (key j).2.1, ?_⟩
              · rw [(key R).1, if_pos rfl]
              · intro j hj
                rw [(key j).1, if_neg hj]
              · intro hz
                rcases hdir with hy | hl | hr
                · rw [hz] at hy
                  exact absurd hy (by decide)
                · exact Or.inl hl
                · exact Or.inr hr
            · simp only [Option.pure_def, Option.some.injEq, Prod.mk.injEq] at hp
              rw [← hp.1]
              left
              refine ⟨fun j => ?_, fun j => ?_⟩
              · by_cases hjm : j = m
                · subst hjm
                  simp [upd_data]
                · simp [upd_data, hjm]
              · by_cases hjm : j = m
                · subst hjm
                  simp [upd_data]
                · simp [upd_data, hjm]
          · simp only [Option.pure_def, Option.some.injEq, Prod.mk.injEq] at hp
            rw [← hp.1]
            exact Or.inl ⟨fun _ => rfl, fun _ => rfl⟩
      · simp only [Option.pure_def, Option.some.injEq, Prod.mk.injEq] at hp
        rw [← hp.1]
        exact Or.inl ⟨fun _ => rfl, fun _ => rfl⟩
  unfold target_switch at h
  split at h
  · obtain ⟨a, b⟩ := henter _ h
    exact Or.inl ⟨fun j => (a j).trans ((hset u fld _).1 j),
      fun j => (b j).trans ((hset u fld _).2 j)⟩
  · exact Or.inl (henter _ h)
  · simp only [Option.pure_def, Option.some.injEq, Prod.mk.injEq] at h
    rw [← h.1]
    exact Or.inl (hset u fld _)
  · simp only [Option.pure_def, Option.some.injEq, Prod.mk.injEq] at h
    rw [← h.1]
    exact Or.inl (hset u fld _)
  · exact hpush h
  · exact hpush h
  · exact hpush h
  · simp only [Option.pure_def, Option.some.injEq, Prod.mk.injEq] at h
    rw [← h.1]
    exact Or.inl ⟨fun _ => rfl, fun _ => rfl⟩

/-- Where the rocks are after movement resolution: no cell has become a rock, or the
rock of the target cell has been pushed left or right into the cell beyond it. No
coordinates change. -/
theorem move_phase_rock (s s1 : Level) (h : move_phase s = some s1) :
    (∀ j, (s1.data j).coords = (s.data j).coords) ∧
    (RockKept s s1 ∨
      (RockMoved (data_idx (next_point (next_point s.murphy s.next_move) s.next_move))
          (data_idx (next_point s.murphy s.next_move)) s s1 ∧
        (s.next_move = DIR_LEFT ∨ s.next_move = DIR_RIGHT))) := by
  rcases move_phase_cases s s1 h with e | ⟨-, -, hres⟩
  · rw [e]
    exact ⟨fun _ => rfl, Or.inl (rockKept_refl s)⟩
  · obtain ⟨-, hQg, s2, allow, hts, ht⟩ := resolve_move_switch s s1 hres
    have hnp : ((s.upd (data_idx s.murphy) (fun f => f.del_hint HINT_PUSH)).data
        (data_idx s.murphy)).has_hint HINT_PUSH = false := by simp +decide
    obtain ⟨hrel, -⟩ := target_switch_rel _ s2 _ _ _ allow rfl rfl rfl hnp hts
    have hmur : (push_reset s2 (data_idx s.murphy)).murphy = s.murphy := by
      rw [push_reset_murphy, hrel.murphy]
      rfl
    have hu : ∀ j, ((s.upd (data_idx s.murphy) (fun f => f.del_hint HINT_PUSH)).data j).type =
        (s.data j).type ∧
        ((s.upd (data_idx s.murphy) (fun f => f.del_hint HINT_PUSH)).data j).coords =
          (s.data j).coords := by
      intro j
      by_cases hj : j = data_idx s.murphy
      · rw [hj, upd_data_same]
        exact ⟨rfl, rfl⟩
      · rw [upd_data_ne _ _ _ _ hj]
        exact ⟨rfl, rfl⟩
    have hco : ∀ j, (s2.data j).coords = (s.data j).coords := by
      intro j
      rcases target_switch_rock _ s2 _ _ _ allow hts with ⟨-, hc⟩ | ⟨-, -, -, -, -, -, hc, -⟩
      · rw [hc j, (hu j).2]
      · rw [hc j, (hu j).2]
    have hcoords : ∀ j, (s1.data j).coords = (s.data j).coords := by
      intro j
      rw [ht]
      split
      · rw [committed_coords, push_reset_coords, hco]
      · rw [push_reset_coords, hco]
    refine ⟨hcoords, ?_⟩
    have hnm : (s.upd (data_idx s.murphy) (fun f => f.del_hint HINT_PUSH)).next_move =
        s.next_move := rfl
    rcases target_switch_rock _ s2 _ _ _ allow hts with ⟨hty, -⟩ |
      ⟨hal, hRg, hRe, hRt, hRs, hoth, -, hdir⟩
    · left
      intro j hj
      rw [ht] at hj
      split at hj
      · obtain ⟨-, -, e⟩ := committed_rock _ _ _ j hj
        rw [e, push_reset_type, hty, (hu j).1] at hj
        exact hj
      · rw [push_reset_type, hty, (hu j).1] at hj
        exact hj
    · rw [hnm] at hRg hRe hRt hRs hoth hdir
      rw [(hu _).1] at hRe hRt hdir
      rw [hal, if_pos rfl] at ht
      by_cases hcase : (s.data (data_idx (next_point s.murphy s.next_move))).type = FT_ZONK ∧
          data_idx (next_point (next_point s.murphy s.next_move) s.next_move) ≠
            data_idx s.murphy
      · right
        obtain ⟨hz, hRP⟩ := hcase
        have hRQ : data_idx (next_point (next_point s.murphy s.next_move) s.next_move) ≠
            data_idx (next_point s.murphy s.next_move) := by
          intro e
          rw [e, hz] at hRe
          exact absurd hRe (by decide)
        refine ⟨⟨hRQ, hRg, hQg, hz, ?_, ?_, ?_⟩, hdir hz⟩
        · rw [ht, committed_type, if_pos rfl]
          decide
        · rw [ht, committed_data_ne _ _ _ _ (by rw [hmur]; exact hRP) hRQ, push_reset_has_hint]
          exact hRs
        · intro j hjR hj
          rw [ht] at hj
          obtain ⟨-, -, e⟩ := committed_rock _ _ _ j hj
          rw [e, push_reset_type, hoth j hjR, (hu j).1] at hj
          exact hj
      · left
        intro j hj
        rw [ht] at hj
        obtain ⟨-, hjo, e⟩ := committed_rock _ _ _ j hj
        rw [hmur] at hjo
        rw [e, push_reset_type] at hj
        by_cases hjR : j = data_idx (next_point (next_point s.murphy s.next_move) s.next_move)
        · rw [hjR, hRt] at hj
          exact absurd ⟨hj, by rw [← hjR]; exact hjo⟩ hcase
        · rw [hoth j hjR, (hu j).1] at hj
          exact hj

/-! ## C30: no duplication of rocks -/

theorem countP_eq_card (l : List Int) (hl : l.Nodup) (s : Level) :
    l.countP (fun j => decide ((s.data j).type = FT_ZONK)) =
      (l.toFinset.filter (fun j => (s.data j).type = FT_ZONK)).card := by
  rw [List.countP_eq_length_filter, ← List.toFinset_card_of_nodup (hl.filter _),
    List.toFinset_filter]
  congr 1
  ext j
  simp only [Finset.mem_filter, decide_eq_true_eq]

/-- The rocks of the grid as a finite set of indices. -/
theorem rocks_eq_card (s : Level) :
    rocks s = (cells.toFinset.filter (fun j => (s.data j).type = FT_ZONK)).card :=
  countP_eq_card cells cells_nodup s

theorem rocks_kept {u v : Level} (h : RockKept u v) : rocks v ≤ rocks u := by
  rw [rocks_eq_card, rocks_eq_card]
  apply Finset.card_le_card
  intro j hj
  rw [Finset.mem_filter] at hj ⊢
  exact ⟨hj.1, h j hj.2⟩

theorem rocks_moved {u v : Level} {a b : Int} (h : RockMoved a b u v) : rocks v ≤ rocks u := by
  obtain ⟨-, -, hb, hub, hvb, -, hoth⟩ := h
  rw [rocks_eq_card, rocks_eq_card]
  have hbm : b ∈ cells.toFinset.filter (fun j => (u.data j).type = FT_ZONK) := by
    rw [Finset.mem_filter, List.mem_toFinset, mem_cells]
    exact ⟨hb, hub⟩
  have hsub : cells.toFinset.filter (fun j => (v.data j).type = FT_ZONK) ⊆
      insert a ((cells.toFinset.filter (fun j => (u.data j).type = FT_ZONK)).erase b) := by
    intro j hj
    rw [Finset.mem_filter] at hj
    rw [Finset.mem_insert, Finset.mem_erase, Finset.mem_filter]
    by_cases hja : j = a
    · exact Or.inl hja
    · refine Or.inr ⟨?_, hj.1, hoth j hja hj.2⟩
      rintro rfl
      exact hvb hj.2
  calc (cells.toFinset.filter (fun j => (v.data j).type = FT_ZONK)).card
      ≤ (insert a ((cells.toFinset.filter
          (fun j => (u.data j).type = FT_ZONK)).erase b)).card := Finset.card_le_card hsub
    _ ≤ ((cells.toFinset.filter (fun j => (u.data j).type = FT_ZONK)).erase b).card + 1 :=
        Finset.card_insert_le _ _
    _ = (cells.toFinset.filter (fun j => (u.data j).type = FT_ZONK)).card := by
        rw [Finset.card_erase_of_mem hbm]
        have := Finset.card_pos.mpr ⟨b, hbm⟩
        omega

theorem rocks_of_types {u v : Level} (h : ∀ j, (v.data j).type = (u.data j).type) :
    rocks v = rocks u := by
  unfold rocks
  congr 1
  funext j
  rw [h j]

/-- The scan of a list of cells of the grid does not raise the number of rocks. -/
theorem scan_rocks (l : List Int) (hl : ∀ i ∈ l, in_grid i) (u v : Level)
    (h : l.foldlM scan_cell u = some v) : rocks v ≤ rocks u := by
  induction l generalizing u with
  | nil =>
    simp only [List.foldlM_nil, Option.pure_def, Option.some.injEq] at h
    rw [h]
  | cons i l ih =>
    rw [foldlM_cons_some] at h
    obtain ⟨w, hw, hrest⟩ := h
    have h1 : rocks w ≤ rocks u := by
      rcases scan_cell_rock u w i (hl i (List.mem_cons_self i l)) hw with hk | ⟨a, -, hm, -⟩
      · exact rocks_kept hk
      · exact rocks_moved hm
    exact (ih (fun k hk => hl k (List.mem_cons_of_mem i hk)) w hrest).trans h1

/-- C30. For every level state and every pending intent, when `game_step` has a
result the number of cells of the grid that hold a loose rock is not greater after the
tick than before it. -/
theorem no_rock_duplication (s t : Level) (r : Bool) (h : game_step s = some (t, r)) :
    rocks t ≤ rocks s := by
  obtain ⟨s1, s4, hmove, hscan, rfl, -⟩ := (game_step_some s t r).mp h
  have h1 : rocks s1 ≤ rocks s := by
    rcases (move_phase_rock s s1 hmove).2 with hk | ⟨hm, -⟩
    · exact rocks_kept hk
    · exact rocks_moved hm
  have h2 : rocks (before_scan s1) = rocks s1 := rocks_of_types (before_scan_type s1)
  have h3 : rocks s4 ≤ rocks (before_scan s1) :=
    scan_rocks cells (fun i hi => (mem_cells i).mp hi) _ _ hscan
  have h4 : rocks (after_scan s4) = rocks s4 := rocks_of_types (after_scan_type s4)
  omega

theorem level_rock_above_step :
    game_step level_rock_above = sparse_step [246, 305, 306, 366] level_rock_above :=
  game_step_sparse_level _ _ _ _ (by decide) (by decide) (by decide)

/-- In `level_rock_above` the rock at 246 falls; there is one rock before and after. -/
theorem no_rock_duplication_witness :
    ∃ t r, game_step level_rock_above = some (t, r) ∧ rocks t ≤ rocks level_rock_above := by
  have h : (game_step level_rock_above).isSome = true := by
    rw [level_rock_above_step]
    decide
  obtain ⟨⟨t, r⟩, ht⟩ := Option.isSome_iff_exists.mp h
  exact ⟨t, r, ht, no_rock_duplication level_rock_above t r ht⟩

/-! ## C29: a rock moves at most one cell per tick -/

/-- A step down, left or right from a point of the grid leads to a cell beside which
(above, right or left of it) the cell of the point lies. -/
theorem beside_of_step (p : Point) (d : Direction) (hp : inside p)
    (hd : d = DIR_DOWN ∨ d = DIR_LEFT ∨ d = DIR_RIGHT)
    (hne : data_idx (next_point p d) ≠ data_idx p) :
    beside (data_idx (next_point p d)) (data_idx p) := by
  have hq := next_point_inside p d hp
  refine ⟨inside_in_grid hq, inside_in_grid hp, ?_⟩
  obtain ⟨h1, h2, h3, h4⟩ := hp
  unfold LEVEL_WIDTH at h2
  unfold LEVEL_HEIGHT at h4
  rcases hd with rfl | rfl | rfl
  · left
    unfold next_point at hne ⊢
    simp only at hne ⊢
    split
    · simp only [data_idx, LEVEL_WIDTH]
      omega
    · next hc => rw [if_neg hc] at hne; exact absurd rfl hne
  · right; right
    unfold next_point at hne ⊢
    simp only at hne ⊢
    split
    · simp only [data_idx, LEVEL_WIDTH]
      constructor <;> omega
    · next hc => rw [if_neg hc] at hne; exact absurd rfl hne
  · right; left
    unfold next_point at hne ⊢
    simp only at hne ⊢
    split
    · next hc =>
      simp only [data_idx, LEVEL_WIDTH] at hc ⊢
      constructor <;> omega
    · next hc => rw [if_neg hc] at hne; exact absurd rfl hne

theorem before_scan_skip (s : Level) (j : Int) :
    ((before_scan s).data j).has_hint HINT_SKIP = (s.data j).has_hint HINT_SKIP := by
  unfold before_scan Level.map_cells
  simp only
  split
  · unfold leaving_cleared
    split
    · rfl
    · split
      · exact has_hint_del_hint_of_disjoint _ _ _ (by decide)
      · rfl
  · rfl

theorem before_scan_cell_coords (s : Level) (j : Int) :
    ((before_scan s).data j).coords = (s.data j).coords := by
  unfold before_scan Level.map_cells
  simp only
  split
  · exact leaving_cleared_coords _
  · rfl

/-- The rocks in a state `u` of a tick that started in `s`: a rock lies where one lay
at the start, or it is flagged skip-this-tick and lies below, left or right of a cell
that held a rock at the start. -/
theorem scan_rock_inv (s : Level) (hc : own_coords s) (l : List Int)
    (hl : ∀ i ∈ l, in_grid i) (u v : Level) (h : l.foldlM scan_cell u = some v)
    (hco : ∀ j, (u.data j).coords = (s.data j).coords)
    (hinv : ∀ j, (u.data j).type = FT_ZONK → (s.data j).type = FT_ZONK ∨
      ((u.data j).has_hint HINT_SKIP = true ∧ ∃ k, beside j k ∧ (s.data k).type = FT_ZONK)) :
    ∀ j, (v.data j).type = FT_ZONK → (s.data j).type = FT_ZONK ∨
      ((v.data j).has_hint HINT_SKIP = true ∧ ∃ k, beside j k ∧ (s.data k).type = FT_ZONK) := by
  induction l generalizing u with
  | nil =>
    simp only [List.foldlM_nil, Option.pure_def, Option.some.injEq] at h
    rw [← h]
    exact hinv
  | cons i l ih =>
    rw [foldlM_cons_some] at h
    obtain ⟨w, hw, hrest⟩ := h
    have hi := hl i (List.mem_cons_self i l)
    refine ih (fun k hk => hl k (List.mem_cons_of_mem i hk)) w hrest
      (fun j => (scan_cell_coords u w i hw j).trans (hco j)) ?_
    have keep : ∀ j, (u.data j).type = FT_ZONK → (s.data j).type = FT_ZONK ∨
        ((w.data j).has_hint HINT_SKIP = true ∧
          ∃ k, beside j k ∧ (s.data k).type = FT_ZONK) := by
      intro j hj
      rcases hinv j hj with h1 | ⟨h1, h2⟩
      · exact Or.inl h1
      · exact Or.inr ⟨scan_cell_skip_mono u w i hw j h1, h2⟩
    rcases scan_cell_rock u w i hi hw with hk | ⟨a, hn, hm, hns⟩
    · exact fun j hj => keep j (hk j hj)
    · intro j hj
      by_cases hja : j = a
      · subst hja
        right
        refine ⟨hm.2.2.2.2.2.1, i, ?_, ?_⟩
        · have hp : inside (s.data i).coords := own_coords_inside hc hi
          have hidx : data_idx (s.data i).coords = i := own_coords_idx hc hi
          unfold near at hn
          rw [hco i] at hn
          rcases hn with e | e | e
          · have := beside_of_step _ DIR_DOWN hp (Or.inl rfl) (by rw [← e, hidx]; exact hm.1)
            rw [← e, hidx] at this
            exact this
          · have := beside_of_step _ DIR_LEFT hp (Or.inr (Or.inl rfl))
              (by rw [← e, hidx]; exact hm.1)
            rw [← e, hidx] at this
            exact this
          · have := beside_of_step _ DIR_RIGHT hp (Or.inr (Or.inr rfl))
              (by rw [← e, hidx]; exact hm.1)
            rw [← e, hidx] at this
            exact this
        · rcases hinv i hm.2.2.2.1 with h1 | ⟨h1, -⟩
          · exact h1
          · rw [hns] at h1
            exact absurd h1 (by simp)
      · exact keep j (hm.2.2.2.2.2.2 j hja hj)

/-- C29. Let `game_step` have a result on a level whose cells carry their own
coordinates and whose cached player position lies in the grid, with any pending
intent. Then every cell that holds a loose rock after the tick held a loose rock before
it, or the cell directly above it, or directly left or right of it in the same row,
held one before the tick. This rests on the skip flag: at the end of the scan, before
the last loop clears the flag, every cell that has become a rock during the tick is
flagged skip-this-tick, and the scan of a cell that is flagged skip-this-tick does
nothing. -/
theorem rock_moves_one_cell (s t : Level) (r : Bool) (hc : own_coords s)
    (hm : inside s.murphy) (h : game_step s = some (t, r)) :
    (∀ j, (t.data j).type = FT_ZONK →
      (s.data j).type = FT_ZONK ∨ ∃ k, beside j k ∧ (s.data k).type = FT_ZONK) ∧
    (∀ s1 s4, move_phase s = some s1 → cells.foldlM scan_cell (before_scan s1) = some s4 →
      ∀ j, (s4.data j).type = FT_ZONK → (s.data j).type ≠ FT_ZONK →
        (s4.data j).has_hint HINT_SKIP = true) ∧
    (∀ (u : Level) (i : Int), (u.data i).has_hint HINT_SKIP = true → scan_cell u i = some u) := by
  have key : ∀ s1 s4, move_phase s = some s1 →
      cells.foldlM scan_cell (before_scan s1) = some s4 →
      ∀ j, (s4.data j).type = FT_ZONK → (s.data j).type = FT_ZONK ∨
        ((s4.data j).has_hint HINT_SKIP = true ∧
          ∃ k, beside j k ∧ (s.data k).type = FT_ZONK) := by
    intro s1 s4 hmove hscan
    obtain ⟨hco, hrock⟩ := move_phase_rock s s1 hmove
    refine scan_rock_inv s hc cells (fun i hi => (mem_cells i).mp hi) _ s4 hscan
      (fun j => (before_scan_cell_coords s1 j).trans (hco j)) ?_
    intro j hj
    rw [before_scan_type] at hj
    rw [before_scan_skip]
    rcases hrock with hk | ⟨hmv, hdir⟩
    · exact Or.inl (hk j hj)
    · by_cases hja : j = data_idx (next_point (next_point s.murphy s.next_move) s.next_move)
      · right
        rw [hja]
        refine ⟨hmv.2.2.2.2.2.1, _, ?_, hmv.2.2.2.1⟩
        have hd : s.next_move = DIR_DOWN ∨ s.next_move = DIR_LEFT ∨ s.next_move = DIR_RIGHT :=
          Or.inr hdir
        exact beside_of_step _ _ (next_point_inside _ _ hm) hd hmv.1
      · exact Or.inl (hmv.2.2.2.2.2.2 j hja hj)
  refine ⟨?_, ?_, fun u i hs => scan_cell_skip u i hs⟩
  · obtain ⟨s1, s4, hmove, hscan, rfl, -⟩ := (game_step_some s t r).mp h
    intro j hj
    rw [after_scan_type] at hj
    rcases key s1 s4 hmove hscan j hj with h1 | ⟨-, h2⟩
    · exact Or.inl h1
    · exact Or.inr h2
  · intro s1 s4 hmove hscan j hj hn
    rcases key s1 s4 hmove hscan j hj with h1 | ⟨h2, -⟩
    · exact absurd h1 hn
    · exact h2

/-- In `level_rock_above` the rock at 246 falls into 306: after the tick the rock
cells are below cells that held a rock. -/
theorem rock_moves_one_cell_witness :
    ∃ t r, game_step level_rock_above = some (t, r) ∧
      ∀ j, (t.data j).type = FT_ZONK →
        (level_rock_above.data j).type = FT_ZONK ∨
          ∃ k, beside j k ∧ (level_rock_above.data k).type = FT_ZONK := by
  have h : (game_step level_rock_above).isSome = true := by
    rw [level_rock_above_step]
    decide
  obtain ⟨⟨t, r⟩, ht⟩ := Option.isSome_iff_exists.mp h
  exact ⟨t, r, ht,
    (rock_moves_one_cell level_rock_above t r level_rock_above_coords (by decide) ht).1⟩

end Supaplex
